import Mathlib

/-!
# DyDJ-Match: the colour set and the k-colouring data structure

A shallow embedding of `tools/color_set.h`, `datastructure/kcoloring.h` and
`datastructure/kcoloring_extensions.h`.

Conventions of the embedding.

* `unsigned long` (`bit_type`, `EdgeWeight`) is a natural number taken modulo `2 ^ 64`,
  `unsigned int` (`size_type`, `color_t`) a natural number below `2 ^ 32`.
* A shift of an `unsigned long` by a count of 64 or more has no defined result in C++;
  `shl` and `shr` return `Option.none` there and every operation built on them is
  `Option`-valued.
* A failed `assert`, an undefined shift and a dereferenced null pointer end an execution in
  a `Fault`; the functions that can meet one return `Except Fault`. The free `operator&` of
  `color_set` is one of them: it asserts that the two sizes agree.
* Vertices are natural numbers, arcs are records carrying an identifier and both end points.
-/

namespace DyDJ

/-! ## Executions that stop without a result -/

/-- The ways in which an execution stops without a result: a failed `assert`, a shift by at
least the width of the word, a dereferenced null pointer or past-the-end iterator, and the
end of the fuel that bounds a loop of the model. -/
inductive Fault where
  | assertion
  | shift
  | deref
  | fuel
deriving DecidableEq, Repr

/-- The statement `assert(b)`. -/
def check (b : Bool) : Except Fault Unit :=
  if b then Except.ok () else Except.error Fault.assertion

/-- The value of a word operation, a fault where the shift in it is undefined. -/
def defined {α : Type} (o : Option α) : Except Fault α :=
  match o with
  | some x => Except.ok x
  | Option.none => Except.error Fault.shift

/-- The fault of an execution, if it ended in one. -/
def faultOf {α : Type} (r : Except Fault α) : Option Fault :=
  match r with
  | Except.error e => some e
  | Except.ok _ => Option.none

/-! ## `tools/color_set.h` -/

/-- The value `color_set::npos`, that is `(unsigned int) -1`. -/
def npos : Nat := 4294967295

/-- Left shift `x << i` on `unsigned long`; undefined when `i` reaches the width. -/
def shl (x i : Nat) : Option Nat :=
  if i < 64 then some (x * 2 ^ i % 2 ^ 64) else Option.none

/-- Right shift `x >> i` on `unsigned long`; undefined when `i` reaches the width. -/
def shr (x i : Nat) : Option Nat :=
  if i < 64 then some (x / 2 ^ i) else Option.none

/-- Scan for the lowest set bit of `b` among the `n` positions starting at `i`. -/
def lowestBitFrom (b : Nat) : Nat → Nat → Option Nat
  | 0, _ => Option.none
  | n + 1, i => if b.testBit i then some i else lowestBitFrom b n (i + 1)

/-- The builtin `__builtin_ctzl`: number of trailing zero bits of a 64-bit word,
without a defined result for the word `0`. -/
def lowestBit (b : Nat) : Option Nat := lowestBitFrom b 64 0

/-- The struct `color_set`: the word `bits`, the mask `all_bits` and the size. -/
structure color_set where
  bits : Nat
  all_bits : Nat
  bit_size : Nat
  deriving DecidableEq, Repr

/-- Default constructor `color_set()`. -/
def color_set.empty : color_set := ⟨0, 0, 0⟩

/-- Constructor `color_set(size)`: `all_bits((one << size) - 1)`, `bits = all_bits`. -/
def color_set.new (size : Nat) : Option color_set :=
  (shl 1 size).map fun m =>
    let all := (m + 2 ^ 64 - 1) % 2 ^ 64
    ⟨all, all, size⟩

/-- Method `find_first`. -/
def color_set.find_first (s : color_set) : Option Nat :=
  if s.bits = 0 then some npos else lowestBit s.bits

/-- Method `find_next`: `lowestBit(bits >> pos) + pos` in `unsigned int` arithmetic. -/
def color_set.find_next (s : color_set) (pos : Nat) : Option Nat :=
  (shr s.bits pos).bind fun shifted =>
    if shifted = 0 then some npos
    else (lowestBit shifted).map fun l => (l + pos) % 2 ^ 32

/-- Method `flip`: `(~bits) & all_bits`. -/
def color_set.flip (s : color_set) : color_set :=
  { s with bits := (2 ^ 64 - 1 - s.bits % 2 ^ 64) &&& s.all_bits }

/-- Method `set`. -/
def color_set.set (s : color_set) : color_set := { s with bits := s.all_bits }

/-- Method `setOn`: `bits | (one << i)`. -/
def color_set.setOn (s : color_set) (i : Nat) : Option color_set :=
  (shl 1 i).map fun m => { s with bits := s.bits ||| m }

/-- Method `setOff`: `bits ^ (one << i)`. -/
def color_set.setOff (s : color_set) (i : Nat) : Option color_set :=
  (shl 1 i).map fun m => { s with bits := s.bits ^^^ m }

/-- Method `all`. -/
def color_set.all (s : color_set) : Bool := s.bits == s.all_bits

/-- Method `count`: the loop `for i < bit_size: count += ((bits & (one << i)) != 0)`. -/
def color_set.count (s : color_set) : Option Nat :=
  (List.range s.bit_size).foldlM
    (fun cnt i => (shl 1 i).map fun m => cnt + (if s.bits &&& m ≠ 0 then 1 else 0)) 0

/-- Method `size`. -/
def color_set.size (s : color_set) : Nat := s.bit_size

/-- The bit test `operator[]`: `bits & (one << i)` converted to `bool`. -/
def color_set.test (s : color_set) (i : Nat) : Option Bool :=
  (shl 1 i).map fun m => decide (s.bits &&& m ≠ 0)

/-- The free `operator&`: `assert(a.size() == b.size())`, then
`{a.bits & b.bits, a.all_bits, a.bit_size}`. -/
def color_set.and (a b : color_set) : Except Fault color_set := do
  check (a.size == b.size)
  pure ⟨a.bits &&& b.bits, a.all_bits, a.bit_size⟩

/-- Static method `common_colors`: `return (a & b)`. -/
def color_set.common_colors (a b : color_set) : Except Fault color_set := color_set.and a b

/-- Method `none`. -/
def color_set.none (s : color_set) : Bool := s.bits == 0

/-- Method `any`. -/
def color_set.any (s : color_set) : Bool := !(color_set.none s)

/-! ## Host graph and property maps

The graph library (vertices, arcs, incidence enumeration, property maps) is not part of the
sources; it is modelled from the host-graph contract. -/

/-- Modelled from the spec: an arc of the host graph, a stable handle exposing its two end
points `tail` and `head` (the graph library's `Arc` is not part of the sources). -/
structure Arc where
  id : Nat
  tail : Nat
  head : Nat
  deriving DecidableEq, Repr

/-- Modelled from the spec: `other(endpoint)` of an arc (the graph library's
`Arc::getOther` is not part of the sources). -/
def Arc.getOther (a : Arc) (v : Nat) : Nat := if v = a.tail then a.head else a.tail

/-- An arc is incident to the vertex `v`. -/
def Arc.incident (a : Arc) (v : Nat) : Prop := a.tail = v ∨ a.head = v

instance (a : Arc) (v : Nat) : Decidable (a.incident v) := by
  unfold Arc.incident; infer_instance

/-- Modelled from the spec: the host graph, given by the list of its arcs (the graph
library's `DiGraph` is not part of the sources). -/
structure DiGraph where
  arcs : List Arc

/-- Modelled from the spec: `map_incident_arcs(v, fn)` visits every arc with end point `v`
once (the graph library's `mapIncidentArcs` is not part of the sources). -/
def DiGraph.mapIncidentArcs (G : DiGraph) (v : Nat) : List Arc :=
  G.arcs.filter fun a => decide (a.incident v)

/-- The constant `UNCOLORED`, the largest `color_t` value. -/
def UNCOLORED : Nat := 4294967295

/-- Addition on `EdgeWeight` (`unsigned long`). -/
def add64 (x y : Nat) : Nat := (x + y) % 2 ^ 64

/-- Subtraction on `EdgeWeight` (`unsigned long`). -/
def sub64 (x y : Nat) : Nat := (x + 2 ^ 64 - y % 2 ^ 64) % 2 ^ 64

/-- Read `t[c][v]` in a vector of per-colour vertex maps (null when out of range). -/
def tableGet {α : Type} : List (Nat → Option α) → Nat → Nat → Option α
  | [], _, _ => Option.none
  | m :: _, 0, v => m v
  | _ :: t, c + 1, v => tableGet t c v

/-- Write `t[c][v] = x` in a vector of per-colour vertex maps. -/
def tableSet {α : Type} : List (Nat → Option α) → Nat → Nat → Option α →
    List (Nat → Option α)
  | [], _, _, _ => []
  | m :: t, 0, v, x => Function.update m v x :: t
  | m :: t, c + 1, v, x => m :: tableSet t c v x

/-- The call `std::vector::resize(n)` with `d` for the appended elements. -/
def resize {α : Type} (t : List α) (n : Nat) (d : α) : List α :=
  t.take n ++ List.replicate (n - t.length) d

/-! ## `datastructure/kcoloring.h` (the class without extensions) -/

/-- The data members of `KColoring`; graph and weights are passed to the operations. -/
structure KColoring where
  num_colors : Nat
  arc_colors : Arc → Nat
  total_weight : Nat
  mates_by_color : List (Nat → Option Nat)

/-- Method `reset`: all arcs `UNCOLORED`, the mate vector resized to `num_colors` and every
map in it reset to null, `total_weight = 0`. -/
def KColoring.reset (k : KColoring) : KColoring :=
  { k with
    arc_colors := fun _ => UNCOLORED
    mates_by_color :=
      (resize k.mates_by_color k.num_colors (fun _ => Option.none)).map
        fun _ => fun _ => Option.none
    total_weight := 0 }

/-- Method `is_color_free`. -/
def KColoring.is_color_free (k : KColoring) (vertex color : Nat) : Bool :=
  decide (color ≠ UNCOLORED) && decide (tableGet k.mates_by_color color vertex = Option.none)

/-- Method `get_color`. -/
def KColoring.get_color (k : KColoring) (arc : Arc) : Nat := k.arc_colors arc

/-- Method `is_colored`: `arc_colors[arc] < num_colors`. -/
def KColoring.is_colored (k : KColoring) (arc : Arc) : Bool :=
  decide (k.arc_colors arc < k.num_colors)

/-- Method `can_color`. -/
def KColoring.can_color (k : KColoring) (arc : Arc) (color : Nat) : Bool :=
  k.is_color_free arc.tail color && k.is_color_free arc.head color

/-- Method `color`, the state update behind its assertions (`!is_colored(arc)`,
`color < num_colors`, colour free at both ends): every theorem applies it under these
preconditions, and the checked forms (`Coloring.color`, `KColoring.checkedColor`) end in a
fault where one of them fails. -/
def KColoring.color (k : KColoring) (w : Arc → Nat) (arc : Arc) (color : Nat) : KColoring :=
  { k with
    total_weight :=
      if k.arc_colors arc = UNCOLORED then add64 k.total_weight (w arc) else k.total_weight
    arc_colors := Function.update k.arc_colors arc color
    mates_by_color :=
      tableSet (tableSet k.mates_by_color color arc.head (some arc.tail))
        color arc.tail (some arc.head) }

/-- Method `uncolor`, the state update behind its `assert(is_colored(arc))`: it is the
program's result on a coloured arc only, and every theorem applies it under that
precondition. On an uncoloured arc the program indexes `mates_by_color` at `UNCOLORED`, out
of bounds; the checked forms (`Coloring.uncolor` and the functions built on it) end in a
fault there and never reach this update. -/
def KColoring.uncolor (k : KColoring) (w : Arc → Nat) (arc : Arc) : KColoring :=
  { k with
    arc_colors := Function.update k.arc_colors arc UNCOLORED
    mates_by_color :=
      tableSet (tableSet k.mates_by_color (k.arc_colors arc) arc.head Option.none)
        (k.arc_colors arc) arc.tail Option.none
    total_weight := sub64 k.total_weight (w arc) }

/-- Method `setNumColors` (without extensions). -/
def KColoring.setNumColors (k : KColoring) (num_colors : Nat) : KColoring :=
  { k with num_colors := num_colors }

/-- Method `getTotalWeight`. -/
def KColoring.getTotalWeight (k : KColoring) : Nat := k.total_weight

/-- Method `onEdgeWeightChange`. -/
def KColoring.onEdgeWeightChange (k : KColoring) (arc : Arc) (old_value new_value : Nat) :
    KColoring :=
  if k.is_colored arc then
    { k with total_weight := add64 (sub64 k.total_weight old_value) new_value }
  else k

/-- The locals `tail_arc`/`head_arc`, `tail_weight`/`head_weight` and `tail_arc_target`
of `local_swap`. -/
structure SwapCandidate where
  arc : Option Arc
  weight : Nat
  target : Option Nat

/-- First lambda of `local_swap`: one step of the scan of the arcs at the tail. -/
def KColoring.swapTailStep (k : KColoring) (w : Arc → Nat) (arc : Arc) (st : SwapCandidate)
    (candidate : Arc) : SwapCandidate :=
  if candidate = arc ∨ k.is_colored candidate = true then st
  else
    let t2 := candidate.getOther arc.tail
    if k.is_color_free t2 (k.arc_colors arc) = true then
      if w candidate > st.weight then ⟨some candidate, w candidate, some t2⟩ else st
    else st

/-- Second lambda of `local_swap`: one step of the scan of the arcs at the head. -/
def KColoring.swapHeadStep (k : KColoring) (w : Arc → Nat) (arc : Arc)
    (tail_arc_target : Option Nat) (st : SwapCandidate) (candidate : Arc) : SwapCandidate :=
  if candidate = arc ∨ k.is_colored candidate = true then st
  else
    let t2 := candidate.getOther arc.head
    if k.is_color_free t2 (k.arc_colors arc) = true ∧ some t2 ≠ tail_arc_target then
      if w candidate > st.weight then ⟨some candidate, w candidate, Option.none⟩ else st
    else st

/-- The tail-side scan of `local_swap`. -/
def KColoring.swapTail (k : KColoring) (G : DiGraph) (w : Arc → Nat) (arc : Arc) :
    SwapCandidate :=
  (G.mapIncidentArcs arc.tail).foldl (k.swapTailStep w arc) ⟨Option.none, 0, Option.none⟩

/-- The head-side scan of `local_swap`. -/
def KColoring.swapHead (k : KColoring) (G : DiGraph) (w : Arc → Nat) (arc : Arc) :
    SwapCandidate :=
  (G.mapIncidentArcs arc.head).foldl (k.swapHeadStep w arc (k.swapTail G w arc).target)
    ⟨Option.none, 0, Option.none⟩

/-- Colour `a` with `c` when a candidate was found (`if (x != nullptr) color(x, c)`). -/
def KColoring.colorIfSome (k : KColoring) (w : Arc → Nat) (a : Option Arc) (c : Nat) :
    KColoring :=
  match a with
  | some x => k.color w x c
  | Option.none => k

/-- Method `local_swap`: the returned flag and the state afterwards. -/
def KColoring.local_swap (k : KColoring) (G : DiGraph) (w : Arc → Nat) (arc : Arc) :
    Bool × KColoring :=
  let tl := k.swapTail G w arc
  let hd := k.swapHead G w arc
  if add64 hd.weight tl.weight > w arc then
    (true,
      ((k.uncolor w arc).colorIfSome w tl.arc (k.arc_colors arc)).colorIfSome w hd.arc
        (k.arc_colors arc))
  else (false, k)

/-- Sum of the weights of the coloured arcs of the graph. -/
def coloredWeight (G : DiGraph) (w : Arc → Nat) (k : KColoring) : Nat :=
  (G.arcs.map fun a => if k.is_colored a = true then w a else 0).sum

/-- States of `KColoring` reached from `reset()` with `b` colours by calls of `color` and
`uncolor` whose asserted preconditions hold and by weight changes `set(a, x)` of the weight
map, each delivered through `onEdgeWeightChange(a, old, x)`. -/
inductive Reachable (G : DiGraph) (b : Nat) : (Arc → Nat) → KColoring → Prop
  | reset (w : Arc → Nat) (k0 : KColoring) : k0.num_colors = b → Reachable G b w k0.reset
  | color {w : Arc → Nat} {k : KColoring} (a : Arc) (c : Nat) :
      Reachable G b w k → a ∈ G.arcs → k.is_colored a = false → c < b →
      k.is_color_free a.tail c = true → k.is_color_free a.head c = true →
      Reachable G b w (k.color w a c)
  | uncolor {w : Arc → Nat} {k : KColoring} (a : Arc) :
      Reachable G b w k → a ∈ G.arcs → k.is_colored a = true →
      Reachable G b w (k.uncolor w a)
  | weight {w : Arc → Nat} {k : KColoring} (a : Arc) (x : Nat) :
      Reachable G b w k → a ∈ G.arcs →
      Reachable G b (Function.update w a x) (k.onEdgeWeightChange a (w a) x)

/-- Mate consistency and properness of a colouring with `b` colours on the graph `G`. -/
structure Consistent (G : DiGraph) (b : Nat) (k : KColoring) : Prop where
  nc : k.num_colors = b
  len : k.mates_by_color.length = b
  rng : ∀ a, k.arc_colors a < b ∨ k.arc_colors a = UNCOLORED
  mate_of_arc : ∀ a ∈ G.arcs, k.arc_colors a < b →
    tableGet k.mates_by_color (k.arc_colors a) a.tail = some a.head ∧
    tableGet k.mates_by_color (k.arc_colors a) a.head = some a.tail
  arc_of_mate : ∀ c v u, c < b → tableGet k.mates_by_color c v = some u →
    ∃ a ∈ G.arcs, k.arc_colors a = c ∧
      ((a.tail = v ∧ a.head = u) ∨ (a.head = v ∧ a.tail = u))
  proper : ∀ a1 ∈ G.arcs, ∀ a2 ∈ G.arcs, ∀ v, a1.incident v → a2.incident v →
    k.arc_colors a1 < b → k.arc_colors a1 = k.arc_colors a2 → a1 = a2

/-! ## `datastructure/kcoloring_extensions.h` -/

/-- The class `ArcMateExtension`. -/
structure ArcMateExtension where
  arcs_to_mates_by_color : List (Nat → Option Arc)

/-- Method `getArcToMate`. -/
def ArcMateExtension.getArcToMate (am : ArcMateExtension) (col vertex : Nat) : Option Arc :=
  tableGet am.arcs_to_mates_by_color col vertex

/-- Hook `reset_impl` of the arc-mate extension. -/
def ArcMateExtension.reset_impl (am : ArcMateExtension) : ArcMateExtension :=
  ⟨am.arcs_to_mates_by_color.map fun _ => fun _ => Option.none⟩

/-- Hook `color_impl` of the arc-mate extension. -/
def ArcMateExtension.color_impl (am : ArcMateExtension) (arc : Arc) (color : Nat) :
    ArcMateExtension :=
  ⟨tableSet (tableSet am.arcs_to_mates_by_color color arc.head (some arc))
    color arc.tail (some arc)⟩

/-- Hook `uncolor_impl` of the arc-mate extension. -/
def ArcMateExtension.uncolor_impl (am : ArcMateExtension) (arc : Arc) (pre_color : Nat) :
    ArcMateExtension :=
  ⟨tableSet (tableSet am.arcs_to_mates_by_color pre_color arc.head Option.none)
    pre_color arc.tail Option.none⟩

/-- Hook `setNumColors_impl` of the arc-mate extension. -/
def ArcMateExtension.setNumColors_impl (am : ArcMateExtension) (num_colors : Nat) :
    ArcMateExtension :=
  ⟨resize am.arcs_to_mates_by_color num_colors (fun _ => Option.none)⟩

/-- The class `FreeColorsExtension`: the property map `free_colors` and its default value. -/
structure FreeColorsExtension where
  defaultValue : color_set
  free_colors : Nat → color_set

/-- Method `get_any_free_color`. -/
def FreeColorsExtension.get_any_free_color (fc : FreeColorsExtension) (v : Nat) :
    Option Nat :=
  (fc.free_colors v).find_first

/-- Method `common_free_color`: `common_colors(free_colors[v1], free_colors[v2])`, then
`find_first()`. -/
def FreeColorsExtension.common_free_color (fc : FreeColorsExtension) (v1 v2 : Nat) :
    Except Fault Nat := do
  let common ← color_set.common_colors (fc.free_colors v1) (fc.free_colors v2)
  defined common.find_first

/-- Hook `reset_impl` of the free-colours extension: `free_colors.resetAll()`. -/
def FreeColorsExtension.reset_impl (fc : FreeColorsExtension) : FreeColorsExtension :=
  { fc with free_colors := fun _ => fc.defaultValue }

/-- Hook `color_impl` of the free-colours extension: `setOff(color)` at the tail, then at
the head. -/
def FreeColorsExtension.color_impl (fc : FreeColorsExtension) (arc : Arc) (color : Nat) :
    Option FreeColorsExtension :=
  ((fc.free_colors arc.tail).setOff color).bind fun s1 =>
    let f1 := Function.update fc.free_colors arc.tail s1
    ((f1 arc.head).setOff color).map fun s2 =>
      { fc with free_colors := Function.update f1 arc.head s2 }

/-- Hook `uncolor_impl` of the free-colours extension: `setOn(pre_color)` at the tail, then
at the head. -/
def FreeColorsExtension.uncolor_impl (fc : FreeColorsExtension) (arc : Arc)
    (pre_color : Nat) : Option FreeColorsExtension :=
  ((fc.free_colors arc.tail).setOn pre_color).bind fun s1 =>
    let f1 := Function.update fc.free_colors arc.tail s1
    ((f1 arc.head).setOn pre_color).map fun s2 =>
      { fc with free_colors := Function.update f1 arc.head s2 }

/-- Hook `setNumColors_impl` of the free-colours extension:
`setDefaultValue(color_set{num_colors})`, then `resetAll()`. -/
def FreeColorsExtension.setNumColors_impl (_fc : FreeColorsExtension) (num_colors : Nat) :
    Option FreeColorsExtension :=
  (color_set.new num_colors).map fun d => ⟨d, fun _ => d⟩

/-- States of `KColoring<ArcMateExtension>` reached from `reset()`, on a colouring whose
colour count and arc-mate vector were set to `b` (by `setNumColors(b)`), by valid calls of
`color` and `uncolor`, the hooks running after the base update. -/
inductive ReachableAM (G : DiGraph) (b : Nat) (w : Arc → Nat) :
    KColoring → ArcMateExtension → Prop
  | start (k0 : KColoring) (am0 : ArcMateExtension) :
      k0.num_colors = b → am0.arcs_to_mates_by_color.length = b →
      ReachableAM G b w k0.reset am0.reset_impl
  | color {k : KColoring} {am : ArcMateExtension} (a : Arc) (c : Nat) :
      ReachableAM G b w k am → a ∈ G.arcs → k.is_colored a = false → c < b →
      k.is_color_free a.tail c = true → k.is_color_free a.head c = true →
      ReachableAM G b w (k.color w a c) (am.color_impl a c)
  | uncolor {k : KColoring} {am : ArcMateExtension} (a : Arc) :
      ReachableAM G b w k am → a ∈ G.arcs → k.is_colored a = true →
      ReachableAM G b w (k.uncolor w a) (am.uncolor_impl a (k.arc_colors a))

/-- States of `KColoring<FreeColorsExtension>` reached from `setNumColors(b); reset()` by
valid calls of `color` and `uncolor` whose hooks have a defined result. -/
inductive ReachableFC (G : DiGraph) (b : Nat) (w : Arc → Nat) :
    KColoring → FreeColorsExtension → Prop
  | start (k0 : KColoring) (fc0 fc1 : FreeColorsExtension) :
      fc0.setNumColors_impl b = some fc1 →
      ReachableFC G b w (k0.setNumColors b).reset fc1.reset_impl
  | color {k : KColoring} {fc fc1 : FreeColorsExtension} (a : Arc) (c : Nat) :
      ReachableFC G b w k fc → a ∈ G.arcs → k.is_colored a = false → c < b →
      k.is_color_free a.tail c = true → k.is_color_free a.head c = true →
      fc.color_impl a c = some fc1 →
      ReachableFC G b w (k.color w a c) fc1
  | uncolor {k : KColoring} {fc fc1 : FreeColorsExtension} (a : Arc) :
      ReachableFC G b w k fc → a ∈ G.arcs → k.is_colored a = true →
      fc.uncolor_impl a (k.arc_colors a) = some fc1 →
      ReachableFC G b w (k.uncolor w a) fc1

/-! ## `algorithm/disjoint_matching_algorithm.h` -/

/-- The member `coloring` of `DisjointMatchingAlgorithm` instantiated as
`KColoring<ArcMateExtension, FreeColorsExtension>`. -/
structure Coloring where
  base : KColoring
  am : ArcMateExtension
  fc : FreeColorsExtension

/-- The state built by `coloring{nullptr, nullptr, 1}`. -/
def Coloring.initial : Coloring :=
  { base := ⟨1, fun _ => UNCOLORED, 0, [fun _ => Option.none]⟩
    am := ⟨[]⟩
    fc := ⟨color_set.empty, fun _ => color_set.empty⟩ }

/-- Method `KColoring::setNumColors` with both extensions' hooks. -/
def Coloring.setNumColors (s : Coloring) (num_colors : Nat) : Option Coloring :=
  (s.fc.setNumColors_impl num_colors).map fun fc1 =>
    ⟨s.base.setNumColors num_colors, s.am.setNumColors_impl num_colors, fc1⟩

/-- Method `KColoring::reset` with both extensions' hooks. -/
def Coloring.reset (s : Coloring) : Coloring :=
  ⟨s.base.reset, s.am.reset_impl, s.fc.reset_impl⟩

/-- Method `DisjointMatchingAlgorithm::set_num_matchings`. -/
def set_num_matchings (s : Coloring) (b : Nat) : Option Coloring :=
  (s.setNumColors b).map Coloring.reset

/-! ## Example inputs -/

/-- The constructor `KColoring(graph, weights, num_colors)`. -/
def KColoring.initial (num_colors : Nat) : KColoring :=
  ⟨num_colors, fun _ => UNCOLORED, 0, List.replicate num_colors fun _ => Option.none⟩

/-- The triangle on the vertices `u = 0`, `v = 1`, `w = 2` with the arcs `(u,v)`, `(v,w)`,
`(u,w)`. -/
def triangle : DiGraph := ⟨[⟨0, 0, 1⟩, ⟨1, 1, 2⟩, ⟨2, 0, 2⟩]⟩

/-- The weights 5, 3, 4 on the arcs of the triangle. -/
def triangleWeights : Arc → Nat := fun a =>
  if a.id = 0 then 5 else if a.id = 1 then 3 else if a.id = 2 then 4 else 0

/-- The triangle with two colours after `color((u,v), 0)` and `color((v,w), 1)`. -/
def triangleColoring : KColoring :=
  (((KColoring.initial 2).reset).color triangleWeights ⟨0, 0, 1⟩ 0).color
    triangleWeights ⟨1, 1, 2⟩ 1

/-- Consistency of the arc-mate table with the arc colours. -/
structure AMConsistent (G : DiGraph) (b : Nat) (k : KColoring) (am : ArcMateExtension) :
    Prop where
  len : am.arcs_to_mates_by_color.length = b
  entry_of_arc : ∀ a ∈ G.arcs, k.arc_colors a < b →
    am.getArcToMate (k.arc_colors a) a.tail = some a ∧
    am.getArcToMate (k.arc_colors a) a.head = some a
  arc_of_entry : ∀ c v a, c < b → am.getArcToMate c v = some a →
    a ∈ G.arcs ∧ a.incident v ∧ k.arc_colors a = c

/-- The triangle's arc-mate table after `color((u,v), 0)` and `color((v,w), 1)`. -/
def triangleArcMates : ArcMateExtension :=
  ((((ArcMateExtension.mk []).setNumColors_impl 2).reset_impl).color_impl ⟨0, 0, 1⟩ 0).color_impl
    ⟨1, 1, 2⟩ 1

/-- The triangle with two colours after `color((u,v), 0)` only. -/
def triangleOne : KColoring :=
  ((KColoring.initial 2).reset).color triangleWeights ⟨0, 0, 1⟩ 0

/-- The set that `operator&` builds from the free-colour sets of `u` and `v`. -/
def commonSet (fc : FreeColorsExtension) (u v : Nat) : color_set :=
  ⟨(fc.free_colors u).bits &&& (fc.free_colors v).bits, (fc.free_colors u).all_bits,
    (fc.free_colors u).bit_size⟩

/-- Consistency of the free-colour sets with the mate table: only bits of colours below
`b` are used, bit `c` is set iff colour `c` is free, and all sets have one size (they are
copies of the default value, changed by `setOn` and `setOff` only), which is the assertion
of `operator&`. -/
structure FCConsistent (b : Nat) (k : KColoring) (fc : FreeColorsExtension) : Prop where
  bound : ∀ v, (fc.free_colors v).bits < 2 ^ b
  bit : ∀ v c, c < b → (fc.free_colors v).bits.testBit c = k.is_color_free v c
  size : ∀ u v, (fc.free_colors u).size = (fc.free_colors v).size

/-- The graph with the single arc `(0, 0)`, a self-loop. -/
def loopGraph : DiGraph := ⟨[⟨0, 0, 0⟩]⟩

/-- The state of `KColoring` on `loopGraph` with one colour after `color((0,0), 0)`. -/
def loopColoring : KColoring :=
  (((KColoring.initial 1).setNumColors 1).reset).color (fun _ => 1) ⟨0, 0, 0⟩ 0

/-- The free-colour sets after `setNumColors(1)` and `reset()`. -/
def oneColorFree : FreeColorsExtension := ⟨⟨1, 1, 1⟩, fun _ => ⟨1, 1, 1⟩⟩

/-- The free-colour sets on `loopGraph` after `color((0,0), 0)`: bit 0 at vertex 0 was
toggled twice. -/
def loopFree : FreeColorsExtension :=
  ⟨⟨1, 1, 1⟩, Function.update (Function.update (fun _ => ⟨1, 1, 1⟩) 0 ⟨0, 1, 1⟩) 0 ⟨1, 1, 1⟩⟩

/-- The free-colour sets after `setNumColors(2)` and `reset()`. -/
def twoColorFree : FreeColorsExtension := ⟨⟨3, 3, 2⟩, fun _ => ⟨3, 3, 2⟩⟩

/-- The free-colour sets on the triangle with two colours after `color((u,v), 0)`. -/
def triangleOneFree : FreeColorsExtension :=
  ⟨⟨3, 3, 2⟩, Function.update (Function.update (fun _ => ⟨3, 3, 2⟩) 0 ⟨2, 3, 2⟩) 1 ⟨2, 3, 2⟩⟩

/-- The graph with the self-loop `(0,0)` and the arcs `(0,1)` and `(0,2)`. -/
def starLoopGraph : DiGraph := ⟨[⟨0, 0, 0⟩, ⟨1, 0, 1⟩, ⟨2, 0, 2⟩]⟩

/-- Weight 1 on the self-loop, weight 6 on `(0,1)` and weight 5 on `(0,2)`. -/
def starLoopWeights : Arc → Nat := fun a =>
  if a.id = 0 then 1 else if a.id = 1 then 6 else 5

/-- One colour on `starLoopGraph`, after `reset()` and `color((0,0), 0)`. -/
def starLoopColoring : KColoring :=
  ((KColoring.initial 1).reset).color starLoopWeights ⟨0, 0, 0⟩ 0

/-- The path `0 - 1 - 2 - 3` with the arcs `(0,1)`, `(1,2)`, `(2,3)`. -/
def pathGraph : DiGraph := ⟨[⟨0, 0, 1⟩, ⟨1, 1, 2⟩, ⟨2, 2, 3⟩]⟩

/-- The weights 4, 1, 5 on the arcs of the path. -/
def pathWeights : Arc → Nat := fun a =>
  if a.id = 0 then 4 else if a.id = 1 then 1 else if a.id = 2 then 5 else 0

/-- One colour on the path, after `reset()` and `color((1,2), 0)`. -/
def pathColoring : KColoring :=
  ((KColoring.initial 1).reset).color pathWeights ⟨1, 1, 2⟩ 0

/-! ## Checked operations of the composite colouring -/

/-- Method `KColoring::color` of `KColoring<ArcMateExtension, FreeColorsExtension>`: the
assertions of the method and of the two hooks are checked in the order of the source. The
closing `assert(is_colored(arc))` holds whenever the second assertion does. -/
def Coloring.color (s : Coloring) (w : Arc → Nat) (arc : Arc) (color : Nat) :
    Except Fault Coloring := do
  check (!s.base.is_colored arc)
  check (decide (color < s.base.num_colors))
  check (s.base.is_color_free arc.tail color)
  check (s.base.is_color_free arc.head color)
  check (s.am.getArcToMate color arc.head).isNone
  check (s.am.getArcToMate color arc.tail).isNone
  let t ← defined ((s.fc.free_colors arc.tail).test color)
  check t
  let h ← defined ((s.fc.free_colors arc.head).test color)
  check h
  let fc ← defined (s.fc.color_impl arc color)
  pure ⟨s.base.color w arc color, s.am.color_impl arc color, fc⟩

/-- Method `KColoring::uncolor` of `KColoring<ArcMateExtension, FreeColorsExtension>` with
every `assert` checked. -/
def Coloring.uncolor (s : Coloring) (w : Arc → Nat) (arc : Arc) : Except Fault Coloring := do
  check (s.base.is_colored arc)
  let color := s.base.arc_colors arc
  check (s.am.getArcToMate color arc.head).isSome
  check (s.am.getArcToMate color arc.tail).isSome
  let t ← defined ((s.fc.free_colors arc.tail).test color)
  check (!t)
  let h ← defined ((s.fc.free_colors arc.head).test color)
  check (!h)
  let fc ← defined (s.fc.uncolor_impl arc color)
  pure ⟨s.base.uncolor w arc, s.am.uncolor_impl arc color, fc⟩

/-- The invariant of the composite colouring on the graph `G` with `b` colours: the word of
the free-colour sets holds all colours, the three tables agree with the arc colours, the
accumulator is the weight of the coloured arcs, the arcs are pairwise different objects and
no self-loop is coloured. -/
structure CInv (G : DiGraph) (b : Nat) (w : Arc → Nat) (s : Coloring) : Prop where
  width : b < 64
  nodup : G.arcs.Nodup
  base : Consistent G b s.base
  am : AMConsistent G b s.base s.am
  fc : FCConsistent b s.base s.fc
  wt : s.base.total_weight = coloredWeight G w s.base % 2 ^ 64
  edges : ∀ a ∈ G.arcs, s.base.is_colored a = true → a.tail ≠ a.head

/-! ## `datastructure/kcoloring_utilities.h`: fans -/

/-- Method `ArcMateExtension::getColoredArcs`. -/
def ArcMateExtension.getColoredArcs (am : ArcMateExtension) (vertex : Nat) : List Arc :=
  am.arcs_to_mates_by_color.filterMap fun m => m vertex

/-- Method `FreeColorsExtension::any_color_free`. -/
def FreeColorsExtension.any_color_free (fc : FreeColorsExtension) (v1 : Nat) : Bool :=
  (fc.free_colors v1).any

/-- Method `FreeColorsExtension::all_colors_free`. -/
def FreeColorsExtension.all_colors_free (fc : FreeColorsExtension) (v1 : Nat) : Bool :=
  (fc.free_colors v1).all

/-- Method `FreeColorsExtension::no_color_free`. -/
def FreeColorsExtension.no_color_free (fc : FreeColorsExtension) (v1 : Nat) : Bool :=
  (fc.free_colors v1).none

/-- The variables of `compute_fan` that its `for` loop changes; `done` records that
`return fan` was executed inside the loop. -/
structure FanPass where
  fan : List Arc
  colored_arcs_other : List Arc
  extended : Bool
  done : Bool

/-- The `for` loop of `compute_fan` over the arcs still to visit; `fan.back()` is the last
element of the fan, which is never empty. -/
def fanPass (s : Coloring) (x : Nat) (xy : Arc) : List Arc → FanPass → FanPass
  | [], st => st
  | arc :: rest, st =>
    if s.base.is_color_free ((st.fan.getLastD xy).getOther x) (s.base.get_color arc) then
      if s.fc.no_color_free (arc.getOther x) then
        ⟨st.fan ++ [arc], st.colored_arcs_other, false, true⟩
      else fanPass s x xy rest ⟨st.fan ++ [arc], st.colored_arcs_other, true, false⟩
    else fanPass s x xy rest ⟨st.fan, st.colored_arcs_other ++ [arc], st.extended, false⟩

/-- The `do ... while (extended)` loop of `compute_fan`, at most `fuel` rounds. -/
def fanLoop (s : Coloring) (x : Nat) (xy : Arc) : Nat → List Arc → List Arc →
    Except Fault (List Arc)
  | 0, _, _ => Except.error Fault.fuel
  | fuel + 1, fan, colored_arcs =>
    let r := fanPass s x xy colored_arcs ⟨fan, [], false, false⟩
    if r.done then Except.ok r.fan
    else if r.extended then fanLoop s x xy fuel r.fan r.colored_arcs_other
    else Except.ok r.fan

/-- Function `compute_fan(coloring, x, xy)`; the loop gets one round more than there are
coloured arcs at `x`. -/
def compute_fan (s : Coloring) (x : Nat) (xy : Arc) : Except Fault (List Arc) :=
  fanLoop s x xy ((s.am.getColoredArcs x).length + 1) [xy] (s.am.getColoredArcs x)

/-- The relation between neighbours in a fan at `x`: the later arc is a coloured arc of the
graph at `x` whose colour is free at the far end of the earlier arc. -/
def FanLink (G : DiGraph) (k : KColoring) (x : Nat) (p a : Arc) : Prop :=
  a ∈ G.arcs ∧ a.incident x ∧ k.is_colored a = true ∧
    k.is_color_free (p.getOther x) (k.get_color a) = true

/-- The result of an execution, the state `d` after a fault. -/
def okOr (r : Except Fault Coloring) (d : Coloring) : Coloring :=
  match r with
  | Except.ok s => s
  | Except.error _ => d

/-- The freshly constructed colouring after `set_num_matchings(b)`. -/
def freshColoring (b : Nat) : Coloring :=
  (set_num_matchings Coloring.initial b).getD Coloring.initial

/-- The triangle with two colours after `color((v,w), 0)` and `color((u,w), 1)`. -/
def fanColoring : Coloring :=
  okOr ((okOr ((freshColoring 2).color triangleWeights ⟨1, 1, 2⟩ 0) Coloring.initial).color
    triangleWeights ⟨2, 0, 2⟩ 1) Coloring.initial

/-- The `for` loop of `rotate_fan` over the iterators after `begin`. -/
def rotateLoop (w : Arc → Nat) : List Arc → Coloring → Arc → Except Fault Coloring
  | [], s, _ => Except.ok s
  | it :: rest, s, previous => do
    let c := s.base.get_color it
    let s1 ← s.uncolor w it
    let s2 ← s1.color w previous c
    rotateLoop w rest s2 it

/-- Function `rotate_fan(coloring, begin, end)`, the range `[begin, end)` given as the list
of its arcs. -/
def rotate_fan (s : Coloring) (w : Arc → Nat) (fan : List Arc) : Except Fault Coloring :=
  match fan with
  | [] => Except.ok s
  | previous :: rest => rotateLoop w rest s previous

/-! ## `datastructure/kcoloring_utilities.h`: alternating paths -/

/-- The `while (true)` loop of `invert_cd_path`, at most `fuel` rounds. -/
def invertLoop (w : Arc → Nat) : Nat → Coloring → Nat → Arc → Nat → Nat →
    Except Fault Coloring
  | 0, _, _, _, _, _ => Except.error Fault.fuel
  | fuel + 1, s, x, arcToRecolor, nextColor, otherColor =>
    match s.am.getArcToMate nextColor (arcToRecolor.getOther x) with
    | some nextArc => do
      let s1 ← s.uncolor w nextArc
      let s2 ← s1.color w arcToRecolor nextColor
      invertLoop w fuel s2 (arcToRecolor.getOther x) nextArc otherColor nextColor
    | Option.none => s.color w arcToRecolor nextColor

/-- Function `invert_cd_path(coloring, x, c, d)`; `uncolor` of a null `arcToRecolor`
dereferences it. -/
def invert_cd_path (fuel : Nat) (s : Coloring) (w : Arc → Nat) (x c d : Nat) :
    Except Fault Coloring :=
  match s.am.getArcToMate d x with
  | Option.none => Except.error Fault.deref
  | some arcToRecolor => do
    let s1 ← s.uncolor w arcToRecolor
    invertLoop w fuel s1 x arcToRecolor c d

/-- The colour `col` with `c` and `d` exchanged. -/
def swapcd (c d col : Nat) : Nat := if col = c then d else if col = d then c else col

/-- The maximal path of the colouring `k` that starts at `v` with an arc of colour `col` and
goes on with the colours `other`, `col`, ... in turn: every arc is at the far end of the one
before it, and at the end of the path the colour that would come next is free. -/
def AltPath (G : DiGraph) (k : KColoring) : Nat → Nat → Nat → List Arc → Prop
  | v, col, _, [] => k.is_color_free v col = true
  | v, col, other, a :: rest =>
    a ∈ G.arcs ∧ a.incident v ∧ k.get_color a = col ∧ AltPath G k (a.getOther v) other col rest

/-- The invariant of the loop of `invert_cd_path` started in the state `s0`: `F` holds the
arcs recoloured so far, `A` is the uncoloured arc in hand, entered from the vertex `x`. -/
structure InvertInv (G : DiGraph) (b : Nat) (w : Arc → Nat) (s0 s : Coloring) (c d x : Nat)
    (A : Arc) (nc oc : Nat) (F : List Arc) : Prop where
  inv : CInv G b w s
  pair : (nc = c ∧ oc = d) ∨ (nc = d ∧ oc = c)
  nodup : F.Nodup
  sub : ∀ e ∈ F, e ∈ G.arcs
  mem : A ∈ G.arcs
  fresh : A ∉ F
  inc : A.incident x
  orig : s0.base.arc_colors A = oc
  cols : ∀ e, s.base.arc_colors e =
    if e = A then UNCOLORED
    else if e ∈ F then swapcd c d (s0.base.arc_colors e) else s0.base.arc_colors e
  fcd : ∀ e ∈ F, s0.base.arc_colors e = c ∨ s0.base.arc_colors e = d
  free : s.base.is_color_free x nc = true
  closed : ∀ e ∈ F, ∀ v, e.incident v → ∀ e1 ∈ G.arcs, e1.incident v →
    (s0.base.arc_colors e1 = c ∨ s0.base.arc_colors e1 = d) → e1 ∈ F ∨ (e1 = A ∧ v = x)
  entry : ∀ e1 ∈ G.arcs, e1.incident x →
    (s0.base.arc_colors e1 = c ∨ s0.base.arc_colors e1 = d) → e1 ∈ F ∨ e1 = A

/-- A state built by a chain of calls, each applied to the result of the one before. -/
def thenColor (w : Arc → Nat) (s : Coloring) (ops : List (Arc × Nat)) : Coloring :=
  ops.foldl (fun t op => okOr (t.color w op.1 op.2) t) s

/-- The path `0 - 1 - 2 - 3` with two colours after `color((0,1), 1)`, `color((1,2), 0)`
and `color((2,3), 1)`. -/
def pathAlternating : Coloring :=
  thenColor pathWeights (freshColoring 2) [(⟨0, 0, 1⟩, 1), (⟨1, 1, 2⟩, 0), (⟨2, 2, 3⟩, 1)]

/-! ## `datastructure/kcoloring_utilities.h`: the maximality queue -/

/-- The largest key in the queue (`pq_element_compare_max` compares the weights). -/
def maxKey (q : List (Arc × Nat)) : Nat := q.foldl (fun m e => max m e.2) 0

/-- The call `queue.top()` of the max-priority queue: the first element of largest key. -/
def pqTop (q : List (Arc × Nat)) : Option (Arc × Nat) := q.find? fun e => e.2 == maxKey q

/-- The weight read from a possibly null arc, 0 for `nullptr`: the summand of
`sum_weight += (*weights)[a]`. -/
def mateWeight (w : Arc → Nat) (a : Option Arc) : Nat :=
  match a with
  | some x => w x
  | Option.none => 0

/-- The flag of `one_heavier_neighbor |= ((*weights)[a] >= arc_weight)` for a possibly null
arc. -/
def mateHeavier (w : Arc → Nat) (arc_weight : Nat) (a : Option Arc) : Bool :=
  match a with
  | some x => decide (arc_weight ≤ w x)
  | Option.none => false

/-- The body of `for (auto a: {atm_tail, atm_head})` in `process_maximal_pq`: a non-null
arc is uncoloured and pushed onto the queue with its weight. -/
def displace (w : Arc → Nat) (st : Coloring × List (Arc × Nat)) (a : Option Arc) :
    Except Fault (Coloring × List (Arc × Nat)) :=
  match a with
  | some x => do
    let s1 ← st.1.uncolor w x
    pure (s1, st.2 ++ [(x, w x)])
  | Option.none => pure st

/-- The loop `for (auto color: coloring.color_range())` of `process_maximal_pq` for the
popped element `(arc, arc_weight)`, over the colours still to try. -/
def colorLoop (w : Arc → Nat) (arc : Arc) (arc_weight : Nat) :
    List Nat → Coloring × List (Arc × Nat) → Except Fault (Coloring × List (Arc × Nat))
  | [], st => Except.ok st
  | color :: rest, st =>
    let atm_tail := st.1.am.getArcToMate color arc.tail
    let atm_head := st.1.am.getArcToMate color arc.head
    let one_heavier_neighbor := mateHeavier w arc_weight atm_tail || mateHeavier w arc_weight atm_head
    let sum_weight := add64 (add64 0 (mateWeight w atm_tail)) (mateWeight w atm_head)
    if !one_heavier_neighbor && decide (sum_weight < arc_weight) then do
      let st1 ← displace w st atm_tail
      let st2 ← displace w st1 atm_head
      let s3 ← st2.1.color w arc color
      pure (s3, st2.2)
    else colorLoop w arc arc_weight rest st

/-- One round of the `while (!queue.empty())` loop of `process_maximal_pq`: nothing when the
queue is empty, else the colouring and the queue after the round. -/
def pqStep (w : Arc → Nat) (q : List (Arc × Nat)) (s : Coloring) :
    Except Fault (Option (Coloring × List (Arc × Nat))) :=
  match pqTop q with
  | Option.none => Except.ok Option.none
  | some top => do
    let col ← s.fc.common_free_color top.1.tail top.1.head
    if col ≠ npos then do
      let s1 ← s.color w top.1 col
      pure (some (s1, q.erase top))
    else do
      let st ← colorLoop w top.1 top.2 (List.range s.base.num_colors) (s, q.erase top)
      pure (some st)

/-- Function `make_maximal_detail::process_maximal_pq`, at most `fuel` rounds; the queue is
empty when it returns. -/
def process_maximal_pq (w : Arc → Nat) : Nat → List (Arc × Nat) → Coloring →
    Except Fault Coloring
  | 0, _, _ => Except.error Fault.fuel
  | fuel + 1, q, s => do
    match ← pqStep w q s with
    | Option.none => pure s
    | some st => process_maximal_pq w fuel st.2 st.1

/-- Function `make_coloring_maximal_pq`: every uncoloured arc of the graph is pushed with its
weight. -/
def make_coloring_maximal_pq (fuel : Nat) (s : Coloring) (G : DiGraph) (w : Arc → Nat) :
    Except Fault Coloring :=
  process_maximal_pq w fuel
    ((G.arcs.filter fun arc => !s.base.is_colored arc).map fun arc => (arc, w arc)) s

/-- No self-loop and no two arcs between the same two vertices. -/
def DiGraph.simple (G : DiGraph) : Prop :=
  (∀ a ∈ G.arcs, a.tail ≠ a.head) ∧
    ∀ a1 ∈ G.arcs, ∀ a2 ∈ G.arcs, a1.incident a2.tail → a1.incident a2.head → a1 = a2

/-- The part of the colouring invariant that every checked call keeps on every graph: the
base tables and the arc-mate table agree with the arc colours. -/
structure BInv (G : DiGraph) (b : Nat) (s : Coloring) : Prop where
  range : b ≤ UNCOLORED
  nodup : G.arcs.Nodup
  base : Consistent G b s.base
  am : AMConsistent G b s.base s.am

/-- The queue entry pushed for a displaced arc, none for `nullptr`. -/
def pushOf (w : Arc → Nat) (a : Option Arc) : List (Arc × Nat) :=
  match a with
  | some x => [(x, w x)]
  | Option.none => []

/-- The condition `!one_heavier_neighbor && sum_weight < arc_weight` of `process_maximal_pq`
for the popped element `(arc, arc_weight)` and the colour `color`. -/
def displaceGuard (w : Arc → Nat) (s : Coloring) (arc : Arc) (arc_weight color : Nat) : Bool :=
  !(mateHeavier w arc_weight (s.am.getArcToMate color arc.tail) ||
      mateHeavier w arc_weight (s.am.getArcToMate color arc.head)) &&
    decide (add64 (add64 0 (mateWeight w (s.am.getArcToMate color arc.tail)))
      (mateWeight w (s.am.getArcToMate color arc.head)) < arc_weight)

/-- The number of arcs of the graph that are lighter than the arc `a`. -/
def lighterCount (G : DiGraph) (w : Arc → Nat) (a : Arc) : Nat :=
  G.arcs.countP fun e => decide (w e < w a)

/-- The rank weight `3 ^ (number of lighter arcs)`: an arc outweighs every two arcs that
are lighter than it, whatever the 64-bit sum of their weights is. -/
def rankWeight (G : DiGraph) (w : Arc → Nat) (a : Arc) : Nat := 3 ^ lighterCount G w a

/-- The sum of the rank weights of all arcs. -/
def rankSum (G : DiGraph) (w : Arc → Nat) : Nat := (G.arcs.map (rankWeight G w)).sum

/-- The execution did not stop for lack of fuel: it ended or ran into a fault of the code. -/
def Halts {α : Type} (r : Except Fault α) : Prop := r ≠ Except.error Fault.fuel

/-- The invariant of the queue of `process_maximal_pq` on the colouring `s`: the entries
are uncoloured arcs of the graph, pairwise different, each with its weight as key. -/
structure QInv (G : DiGraph) (w : Arc → Nat) (s : Coloring) (q : List (Arc × Nat)) :
    Prop where
  key : ∀ e ∈ q, e.1 ∈ G.arcs ∧ e.2 = w e.1
  unc : ∀ e ∈ q, s.base.is_colored e.1 = false
  nodup : (q.map Prod.fst).Nodup

/-- The path `0 - 1 - 2 - 3 - 4` with the arcs `(0,1)`, `(1,2)`, `(2,3)`, `(3,4)`. -/
def longPath : DiGraph := ⟨[⟨0, 0, 1⟩, ⟨1, 1, 2⟩, ⟨2, 2, 3⟩, ⟨3, 3, 4⟩]⟩

/-- The weights 3, 5, 3, 4 on the arcs of `longPath`. -/
def longPathWeights : Arc → Nat := fun a =>
  if a.id = 0 then 3 else if a.id = 1 then 5 else if a.id = 2 then 3 else if a.id = 3 then 4
  else 0

/-- One colour on `longPath` after `color((0,1), 0)` and `color((2,3), 0)`. -/
def longPathColoring : Coloring :=
  thenColor longPathWeights (freshColoring 1) [(⟨0, 0, 1⟩, 0), (⟨2, 2, 3⟩, 0)]

/-- The weights `2 ^ 63 + 3`, `2 ^ 63 + 5`, `2 ^ 63 + 3` and 4 on the arcs of `longPath`:
the 64-bit sum of the first and the third wraps around to 6. -/
def heavyPathWeights : Arc → Nat := fun a =>
  if a.id = 0 then 2 ^ 63 + 3 else if a.id = 1 then 2 ^ 63 + 5
  else if a.id = 2 then 2 ^ 63 + 3 else if a.id = 3 then 4 else 0

/-- One colour on `longPath` with the weights `heavyPathWeights` after `color((0,1), 0)` and
`color((2,3), 0)`. -/
def heavyPathColoring : Coloring :=
  thenColor heavyPathWeights (freshColoring 1) [(⟨0, 0, 1⟩, 0), (⟨2, 2, 3⟩, 0)]

/-- The two vertices 0 and 1 with the arcs `(0,1)` and `(1,0)`. -/
def twoCycle : DiGraph := ⟨[⟨0, 0, 1⟩, ⟨1, 1, 0⟩]⟩

/-- The weights 10 on `(0,1)` and 3 on `(1,0)`. -/
def twoCycleWeights : Arc → Nat := fun a => if a.id = 0 then 10 else if a.id = 1 then 3 else 0

/-- One colour on `twoCycle` after `color((1,0), 0)`. -/
def twoCycleColoring : Coloring :=
  thenColor twoCycleWeights (freshColoring 1) [(⟨1, 1, 0⟩, 0)]

/-- The approximation invariant P5 for the arc `x` in the colouring `k`: for every colour
there is an arc of that colour that shares an end with `x` and weighs at least as much. -/
def HeavyNeighbours (G : DiGraph) (b : Nat) (w : Arc → Nat) (k : KColoring) (x : Arc) : Prop :=
  ∀ c, c < b → ∃ y ∈ G.arcs, (∃ v, x.incident v ∧ y.incident v) ∧ k.get_color y = c ∧
    w x ≤ w y

/-- The invariant of `process_maximal_pq` when it never has to displace an arc: no coloured
arc is lighter than a queued one, and the uncoloured arcs of positive weight outside the
queue have P5. -/
structure HeavyFirst (G : DiGraph) (b : Nat) (w : Arc → Nat) (s : Coloring)
    (q : List (Arc × Nat)) : Prop where
  inv : CInv G b w s
  queue : QInv G w s q
  heavy : ∀ y ∈ G.arcs, s.base.is_colored y = true → ∀ e ∈ q, e.2 ≤ w y
  done : ∀ x ∈ G.arcs, s.base.is_colored x = false → 0 < w x → x ∉ q.map Prod.fst →
    HeavyNeighbours G b w s.base x

/-- The weights 3, 5, 3 on the arcs of the path `0 - 1 - 2 - 3`. -/
def lightEnds : Arc → Nat := fun a =>
  if a.id = 0 then 3 else if a.id = 1 then 5 else if a.id = 2 then 3 else 0

/-- One colour on the path `0 - 1 - 2 - 3` after `color((0,1), 0)` and `color((2,3), 0)`. -/
def lightEndsColoring : Coloring :=
  thenColor lightEnds (freshColoring 1) [(⟨0, 0, 1⟩, 0), (⟨2, 2, 3⟩, 0)]

/-- The weights 4, 0, 5 on the arcs of the path `0 - 1 - 2 - 3`. -/
def zeroMiddle : Arc → Nat := fun a =>
  if a.id = 0 then 4 else if a.id = 1 then 0 else if a.id = 2 then 5 else 0

/-! ## `tools/utility.h` -/

/-- The class `ArtifactMarker<Arc*>`; the counter `round` is an `int`, taken without its
bound. -/
structure ArtifactMarker where
  marked_in_round : Arc → Int
  round : Int

/-- Method `ArtifactMarker::mark`. -/
def ArtifactMarker.mark (m : ArtifactMarker) (arc : Arc) : ArtifactMarker :=
  { m with marked_in_round := Function.update m.marked_in_round arc m.round }

/-- Method `ArtifactMarker::unmark`. -/
def ArtifactMarker.unmark (m : ArtifactMarker) (arc : Arc) : ArtifactMarker :=
  { m with marked_in_round := Function.update m.marked_in_round arc (-1) }

/-- Method `ArtifactMarker::is_marked`. -/
def ArtifactMarker.is_marked (m : ArtifactMarker) (arc : Arc) : Bool :=
  m.marked_in_round arc == m.round

/-- Method `ArtifactMarker::next_round`. -/
def ArtifactMarker.next_round (m : ArtifactMarker) : ArtifactMarker :=
  { m with round := m.round + 1 }

/-- Method `ArtifactMarker::reset`. -/
def ArtifactMarker.reset (m : ArtifactMarker) : ArtifactMarker :=
  { m with marked_in_round := fun _ => -1 }

/-- The class `TimedArtifactSet<Arc*>`. -/
structure TimedArtifactSet where
  marker : ArtifactMarker
  elements : List Arc

/-- Method `TimedArtifactSet::add`. -/
def TimedArtifactSet.add (t : TimedArtifactSet) (a : Arc) : TimedArtifactSet :=
  if t.marker.is_marked a = false then ⟨t.marker.mark a, t.elements ++ [a]⟩ else t

/-- Method `TimedArtifactSet::vector`. -/
def TimedArtifactSet.vector (t : TimedArtifactSet) : List Arc := t.elements

/-- Method `TimedArtifactSet::next_round`. -/
def TimedArtifactSet.next_round (t : TimedArtifactSet) : TimedArtifactSet :=
  ⟨t.marker.next_round, []⟩

/-- Method `TimedArtifactSet::reset`. -/
def TimedArtifactSet.reset (t : TimedArtifactSet) : TimedArtifactSet :=
  ⟨t.marker.reset, []⟩

/-- The freshly constructed `TimedArtifactSet`: no mark, round 0, no element. -/
def TimedArtifactSet.initial : TimedArtifactSet := ⟨⟨fun _ => -1, 0⟩, []⟩

/-! ## `algorithm/batch_invariant_greedy.h` -/

/-- The members of `InvariantGreedy` next to the graph and the weights. -/
structure InvariantGreedy where
  coloring : Coloring
  arc_queue : List (Arc × Nat)
  arcs_to_update : TimedArtifactSet

/-- The lambda passed to `mapIncidentArcs` in `InvariantGreedy::onPropertyChange`. -/
def InvariantGreedy.registerStep (s : Coloring) (arc : Arc) (t : TimedArtifactSet) (a : Arc) :
    TimedArtifactSet :=
  if a ≠ arc ∧ s.base.is_colored a = false then t.add a else t

/-- The loop `for (auto vertex: {arc->getTail(), arc->getHead()})` of
`InvariantGreedy::onPropertyChange`. -/
def InvariantGreedy.registerNeighbours (s : Coloring) (G : DiGraph) (arc : Arc)
    (t : TimedArtifactSet) : TimedArtifactSet :=
  [arc.tail, arc.head].foldl
    (fun t1 vertex => (G.mapIncidentArcs vertex).foldl (InvariantGreedy.registerStep s arc) t1) t

/-- The first `if` of `InvariantGreedy::onPropertyChange`: the candidate set afterwards. -/
def InvariantGreedy.register (st : InvariantGreedy) (G : DiGraph) (arc : Arc)
    (oldValue newValue : Nat) : TimedArtifactSet :=
  if oldValue < newValue ∧ st.coloring.base.is_colored arc = false then
    st.arcs_to_update.add arc
  else if oldValue > newValue ∧ st.coloring.base.is_colored arc = true then
    InvariantGreedy.registerNeighbours st.coloring G arc st.arcs_to_update
  else st.arcs_to_update

/-- Method `InvariantGreedy::onPropertyChange`; `w` is the weight map, which holds the new
value already. -/
def InvariantGreedy.onPropertyChange (st : InvariantGreedy) (G : DiGraph) (w : Arc → Nat)
    (arc : Arc) (oldValue newValue : Nat) : Except Fault InvariantGreedy :=
  if newValue = 0 ∧ st.coloring.base.is_colored arc = true then do
    let s1 ← st.coloring.uncolor w arc
    pure ⟨s1, st.arc_queue, st.register G arc oldValue newValue⟩
  else pure ⟨st.coloring, st.arc_queue, st.register G arc oldValue newValue⟩

/-- The first loop of `InvariantGreedy::run`: the candidates of positive weight are pushed. -/
def InvariantGreedy.fillQueue (w : Arc → Nat) (q : List (Arc × Nat)) (arcs : List Arc) :
    List (Arc × Nat) :=
  arcs.foldl (fun q1 arc => if w arc > 0 then q1 ++ [(arc, w arc)] else q1) q

/-- Method `InvariantGreedy::run`, the loop of `process_maximal_pq` with at most `fuel`
rounds. -/
def InvariantGreedy.run (fuel : Nat) (st : InvariantGreedy) (w : Arc → Nat) :
    Except Fault InvariantGreedy := do
  let s1 ← process_maximal_pq w fuel
    (InvariantGreedy.fillQueue w st.arc_queue st.arcs_to_update.vector) st.coloring
  pure ⟨s1, [], st.arcs_to_update.next_round⟩

/-- Method `InvariantGreedy::reset`. -/
def InvariantGreedy.reset (st : InvariantGreedy) : InvariantGreedy :=
  ⟨st.coloring.reset, [], st.arcs_to_update.reset⟩

/-- The invariant of `InvariantGreedy` between two calls on a graph `G` with weights `w`: the
colouring is consistent, the queue is empty, and the candidate set holds pairwise different
uncoloured arcs of the graph, which are the marked ones. -/
structure IGInv (G : DiGraph) (b : Nat) (w : Arc → Nat) (st : InvariantGreedy) : Prop where
  inv : CInv G b w st.coloring
  queue : st.arc_queue = []
  nodup : st.arcs_to_update.elements.Nodup
  mem : ∀ a ∈ st.arcs_to_update.elements, a ∈ G.arcs ∧ st.coloring.base.is_colored a = false
  marked : ∀ a, st.arcs_to_update.marker.is_marked a = true ↔ a ∈ st.arcs_to_update.elements
  rounds : ∀ a, st.arcs_to_update.marker.marked_in_round a ≤ st.arcs_to_update.marker.round

/-- The result of a call of `InvariantGreedy`, the state `d` after a fault. -/
def okOrGreedy (r : Except Fault InvariantGreedy) (d : InvariantGreedy) : InvariantGreedy :=
  match r with
  | Except.ok s => s
  | Except.error _ => d

/-- The state of `InvariantGreedy` on the path `0 - 1 - 2 - 3` with weights 3, 5, 3: the
outer arcs are coloured and the middle arc is a candidate. -/
def lightEndsGreedy : InvariantGreedy :=
  ⟨lightEndsColoring, [], TimedArtifactSet.initial.add ⟨1, 1, 2⟩⟩

/-- The invariant of a `TimedArtifactSet`: the elements are pairwise different and are the
marked arcs, and no mark lies in a later round. -/
structure SetInv (t : TimedArtifactSet) : Prop where
  nodup : t.elements.Nodup
  marked : ∀ a, t.marker.is_marked a = true ↔ a ∈ t.elements
  rounds : ∀ a, t.marker.marked_in_round a ≤ t.marker.round

/-- The state of `InvariantGreedy` on the path `0 - 1 - 2 - 3` with two colours right after
the weight of the coloured arc `(1,2)` was set to 0. -/
def zeroMiddleGreedy : InvariantGreedy :=
  ⟨thenColor zeroMiddle (freshColoring 2) [(⟨0, 0, 1⟩, 0), (⟨1, 1, 2⟩, 1)], [],
    TimedArtifactSet.initial⟩

/-- The state of `InvariantGreedy` on the path `0 - 1 - 2 - 3` with weights 4, 0, 5 and one
colour: `(0,1)` is coloured, the other two arcs are candidates. -/
def zeroCandidateGreedy : InvariantGreedy :=
  ⟨thenColor zeroMiddle (freshColoring 1) [(⟨0, 0, 1⟩, 0)], [],
    (TimedArtifactSet.initial.add ⟨1, 1, 2⟩).add ⟨2, 2, 3⟩⟩

/-- The weights `2 ^ 63 + 4`, 0 and `2 ^ 63 + 5` on the arcs of the path. -/
def zeroHeavy : Arc → Nat := fun a =>
  if a.id = 0 then 2 ^ 63 + 4 else if a.id = 1 then 0 else if a.id = 2 then 2 ^ 63 + 5 else 0

/-- The state of `InvariantGreedy` on the path `0 - 1 - 2 - 3` with the weights `zeroHeavy`
and two colours: `(0,1)` has colour 0, and `(1,2)`, whose weight has just been set to 0,
still has colour 1. -/
def zeroHeavyGreedy : InvariantGreedy :=
  ⟨thenColor zeroHeavy (freshColoring 2) [(⟨0, 0, 1⟩, 0), (⟨1, 1, 2⟩, 1)], [],
    TimedArtifactSet.initial⟩

/-- The state of `InvariantGreedy` on the path `0 - 1 - 2 - 3` with the weights `zeroHeavy`
and one colour: `(0,1)` is coloured, the other two arcs are candidates. -/
def zeroHeavyCandidates : InvariantGreedy :=
  ⟨thenColor zeroHeavy (freshColoring 1) [(⟨0, 0, 1⟩, 0)], [],
    (TimedArtifactSet.initial.add ⟨1, 1, 2⟩).add ⟨2, 2, 3⟩⟩

/-- The weights 3, 0, 3 on the arcs of the path `0 - 1 - 2 - 3`: the outer arcs are
inserted, the middle arc is not yet. -/
def outerOnly : Arc → Nat := fun a =>
  if a.id = 0 then 3 else if a.id = 2 then 3 else 0

/-- The freshly constructed `InvariantGreedy` after `set_num_matchings(b)`. -/
def freshGreedy (b : Nat) : InvariantGreedy := ⟨freshColoring b, [], TimedArtifactSet.initial⟩

/-- The state of `InvariantGreedy` with one colour on the path `0 - 1 - 2 - 3` after the
events: `(0,1)` inserted with weight 3, `(2,3)` inserted with weight 3, `run()`, `(1,2)`
inserted with weight 5. -/
def lightEndsStream : InvariantGreedy :=
  okOrGreedy ((okOrGreedy ((okOrGreedy ((okOrGreedy
    ((freshGreedy 1).onPropertyChange pathGraph outerOnly ⟨0, 0, 1⟩ 0 3)
    (freshGreedy 1)).onPropertyChange pathGraph outerOnly ⟨2, 2, 3⟩ 0 3)
    (freshGreedy 1)).run 10 outerOnly)
    (freshGreedy 1)).onPropertyChange pathGraph lightEnds ⟨1, 1, 2⟩ 0 5) (freshGreedy 1)

/-- The state of `InvariantGreedy` with one colour on the path `0 - 1 - 2 - 3 - 4` after the
insertion of its four arcs. -/
def longPathGreedy : InvariantGreedy :=
  ⟨freshColoring 1, [],
    (((TimedArtifactSet.initial.add ⟨0, 0, 1⟩).add ⟨1, 1, 2⟩).add ⟨2, 2, 3⟩).add ⟨3, 3, 4⟩⟩

/-! ## `algorithm/k_edge_coloring.h` -/

/-- The enumeration `k_edge_coloring_algo_type`. -/
inductive k_edge_coloring_algo_type where
  | STATIC
  | DYNAMIC
  | HYBRID
deriving DecidableEq, Repr

/-- The struct `UpdateFilter`; `inRange` stands for the comparison of the `double` ratio
with the two thresholds, `ratio >= down_threshold && ratio <= up_threshold`. -/
structure UpdateFilter where
  inRange : Nat → Nat → Bool

/-- Method `UpdateFilter::test`. -/
def UpdateFilter.test (f : UpdateFilter) (oldValue newValue : Nat) : Bool :=
  decide (newValue ≠ 0) && (decide (oldValue ≠ 0) && f.inRange oldValue newValue)

/-- The lambda of `find_heaviest_incident_uncolored_arc` on the pair
`(heaviest, max_weight)`. -/
def heaviestStep (s : Coloring) (w : Arc → Nat) (st : Option Arc × Nat) (arc : Arc) :
    Option Arc × Nat :=
  if s.base.is_colored arc = false ∧ w arc > st.2 then (some arc, w arc) else st

/-- Function `find_heaviest_incident_uncolored_arc`. -/
def find_heaviest_incident_uncolored_arc (s : Coloring) (G : DiGraph) (w : Arc → Nat)
    (vertex : Nat) : Option Arc :=
  ((G.mapIncidentArcs vertex).foldl (heaviestStep s w) (Option.none, 0)).1

/-- The body of the loop of `getLightestColoredEdge` on the pair `(lightest, min_weight)`. -/
def lightestStep (w : Arc → Nat) (vertex : Nat) (st : Option Arc × Nat)
    (m : Nat → Option Arc) : Option Arc × Nat :=
  match m vertex with
  | some a => if w a < st.2 then (some a, w a) else st
  | Option.none => st

/-- Method `ArcMateExtension::getLightestColoredEdge`; `min_weight` starts at the largest
`EdgeWeight`. -/
def ArcMateExtension.getLightestColoredEdge (am : ArcMateExtension) (vertex : Nat)
    (w : Arc → Nat) : Option Arc :=
  (am.arcs_to_mates_by_color.foldl (lightestStep w vertex) (Option.none, 2 ^ 64 - 1)).1

/-- The prefix of the fan that ends with the first arc satisfying `p`: the range
`[fan.begin(), fan_end)` after `fan_end = std::find_if(..)` and `fan_end++`; nothing when no
arc satisfies `p`. -/
def fanUpTo (p : Arc → Bool) : List Arc → Option (List Arc)
  | [] => Option.none
  | a :: rest => if p a then some [a] else (fanUpTo p rest).map fun l => a :: l

/-- The statement `if (!coloring.is_color_free(x, d) && c != d) invert_cd_path(..)` of
`color_edge`, with the flag `inverted` computed before. -/
def invertIf (inverted : Bool) (fuel : Nat) (s : Coloring) (w : Arc → Nat) (x c d : Nat) :
    Except Fault Coloring :=
  if inverted then invert_cd_path fuel s w x c d else pure s

/-- The range `[fan.begin(), fan_end)` that `color_edge` rotates: the whole fan, or with
`!rotate_long || inverted` the prefix up to the first arc whose far end has `d` free;
`w = *fan_end` dereferences `fan.end()` when there is no such arc. -/
def rotatedPart (rotate_long inverted : Bool) (s1 : Coloring) (x d : Nat) (fan : List Arc) :
    Except Fault (List Arc) :=
  if !rotate_long || inverted then
    match fanUpTo (fun a => s1.base.is_color_free (a.getOther x) d) fan with
    | some l => pure l
    | Option.none => Except.error Fault.deref
  else pure fan

/-- The end of `color_edge` once the colours `c` and `d` are known. -/
def colorEdgeRotate (rotate_long : Bool) (fuel : Nat) (s : Coloring) (w : Arc → Nat)
    (xy : Arc) (x c d : Nat) (fan : List Arc) : Except Fault (Nat × Coloring) := do
  let inverted := !s.base.is_color_free x d && decide (c ≠ d)
  let s1 ← invertIf inverted fuel s w x c d
  let rotated ← rotatedPart rotate_long inverted s1 x d fan
  let s2 ← rotate_fan s1 w rotated
  let s3 ← s2.color w (rotated.getLastD xy) d
  pure (max c d, s3)

/-- The part of `KEdgeColoring_2::color_edge` after the `if constexpr (common_color)`
block; `fuel` bounds the loop of `invert_cd_path`. -/
def colorEdgeFan (rotate_long : Bool) (fuel : Nat) (s : Coloring) (w : Arc → Nat) (xy : Arc)
    (x : Nat) : Except Fault (Nat × Coloring) := do
  let c ← defined (s.fc.get_any_free_color x)
  if c = npos then pure (UNCOLORED, s)
  else do
    let fan ← compute_fan s x xy
    check (!fan.isEmpty)
    let d ← defined (s.fc.get_any_free_color ((fan.getLastD xy).getOther x))
    if d = npos then pure (UNCOLORED - 1, s)
    else colorEdgeRotate rotate_long fuel s w xy x c d fan

/-- Method `KEdgeColoring_2::color_edge(xy, x)`. -/
def color_edge (common_color rotate_long : Bool) (fuel : Nat) (s : Coloring) (w : Arc → Nat)
    (xy : Arc) (x : Nat) : Except Fault (Nat × Coloring) :=
  if common_color then do
    let col ← s.fc.common_free_color xy.tail xy.head
    if col ≠ npos then do
      let s1 ← s.color w xy col
      pure (col, s1)
    else colorEdgeFan rotate_long fuel s w xy x
  else colorEdgeFan rotate_long fuel s w xy x

/-- The block of `attempt_match` for one end of the arc: the lightest coloured arc at `v`
when no colour is free there; reading the weight of a null arc is a fault. -/
def lightestAt (s : Coloring) (w : Arc → Nat) (v : Nat) : Except Fault (Option Arc) :=
  if s.fc.no_color_free v then
    match s.am.getLightestColoredEdge v w with
    | some a => pure (some a)
    | Option.none => Except.error Fault.deref
  else pure Option.none

/-- The colour read by `coloring.get_color(a)` inside the block of `attempt_match` for one
end; the variable stays without a value when `a` is null and is not read then. -/
def colorOf (s : Coloring) (a : Option Arc) : Nat :=
  match a with
  | some x => s.base.get_color x
  | Option.none => UNCOLORED

/-- The statement `if (a != nullptr) coloring.uncolor(a)`. -/
def uncolorIf (s : Coloring) (w : Arc → Nat) (a : Option Arc) : Except Fault Coloring :=
  match a with
  | some x => s.uncolor w x
  | Option.none => pure s

/-- The statement `if (a != nullptr) coloring.color(a, color)`. -/
def colorIf (s : Coloring) (w : Arc → Nat) (a : Option Arc) (color : Nat) :
    Except Fault Coloring :=
  match a with
  | some x => s.color w x color
  | Option.none => pure s

/-- The body of the last loop of `attempt_match`: a non-null arc gets the common free colour
of its ends, if there is one. -/
def colorCommon (s : Coloring) (w : Arc → Nat) (a : Option Arc) : Except Fault Coloring :=
  match a with
  | some x => do
    let col ← s.fc.common_free_color x.tail x.head
    if col ≠ npos then s.color w x col else pure s
  | Option.none => pure s

/-- The statement `if (!coloring.is_colored(arc)) color_edge(arc, arc->getHead())` of
`attempt_match`. -/
def retryAtHead (common_color rotate_long : Bool) (fuel : Nat) (s : Coloring)
    (w : Arc → Nat) (arc : Arc) : Except Fault Coloring :=
  if s.base.is_colored arc = false then do
    let r ← color_edge common_color rotate_long fuel s w arc arc.head
    pure r.2
  else pure s

/-- The end of `attempt_match` after the two calls of `color_edge`. -/
def finishMatch (s : Coloring) (w : Arc → Nat) (arc : Arc)
    (lightest_tail_arc lightest_head_arc : Option Arc) (tail_arc_color head_arc_color : Nat) :
    Except Fault (Bool × Coloring) :=
  if s.base.is_colored arc = false then do
    let s5 ← colorIf s w lightest_tail_arc tail_arc_color
    let s6 ← colorIf s5 w lightest_head_arc head_arc_color
    pure (false, s6)
  else do
    let s5 ← colorCommon s w lightest_tail_arc
    let s6 ← colorCommon s5 w lightest_head_arc
    pure (true, s6)

/-- The branch of `attempt_match` taken when `(*weights)[arc] > replace_weight`. -/
def replaceAndMatch (common_color rotate_long : Bool) (fuel : Nat) (s : Coloring)
    (w : Arc → Nat) (arc : Arc) (lightest_tail_arc lightest_head_arc : Option Arc) :
    Except Fault (Bool × Coloring) := do
  let s1 ← uncolorIf s w lightest_tail_arc
  let s2 ← uncolorIf s1 w lightest_head_arc
  let r3 ← color_edge common_color rotate_long fuel s2 w arc arc.tail
  let s4 ← retryAtHead common_color rotate_long fuel r3.2 w arc
  finishMatch s4 w arc lightest_tail_arc lightest_head_arc (colorOf s lightest_tail_arc)
    (colorOf s lightest_head_arc)

/-- Method `KEdgeColoring_2::attempt_match`: the returned flag and the colouring. -/
def attempt_match (common_color rotate_long : Bool) (fuel : Nat) (s : Coloring)
    (w : Arc → Nat) (arc : Arc) : Except Fault (Bool × Coloring) := do
  let lightest_tail_arc ← lightestAt s w arc.tail
  let lightest_head_arc ← lightestAt s w arc.head
  let replace_weight :=
    add64 (add64 0 (mateWeight w lightest_tail_arc)) (mateWeight w lightest_head_arc)
  if w arc > replace_weight then
    replaceAndMatch common_color rotate_long fuel s w arc lightest_tail_arc lightest_head_arc
  else pure (false, s)

/-- The class `MaximalityPostProcessor`. -/
structure MaximalityPostProcessor where
  arcs_to_process : TimedArtifactSet
  priority_queue : List (Arc × Nat)

/-- Method `MaximalityPostProcessor::register_arc`. -/
def MaximalityPostProcessor.register_arc (p : MaximalityPostProcessor) (arc : Arc) :
    MaximalityPostProcessor :=
  { p with arcs_to_process := p.arcs_to_process.add arc }

/-- The class `KEdgeColoring_2`: its template parameters, its members and the colouring.
`overThreshold` stands for the comparison of `double`s
`update_count/(double)diGraph->getSize() >= hybrid_threshold`; the counter `update_count` is
an `int`, taken without its bound. -/
structure KEdgeColoring_2 where
  algo_type : k_edge_coloring_algo_type
  common_color : Bool
  rotate_long : Bool
  use_pp_ds : Bool
  post_process : Bool
  overThreshold : Int → Bool
  update_filter : UpdateFilter
  post_processor : MaximalityPostProcessor
  compute_from_scratch : Bool
  update_count : Int
  delta_over : Bool
  coloring : Coloring

/-- Method `KEdgeColoring_2::register_neighbors_for_post_processing`. -/
def KEdgeColoring_2.register_neighbors_for_post_processing (st : KEdgeColoring_2)
    (G : DiGraph) (arc : Arc) : KEdgeColoring_2 :=
  if st.use_pp_ds = true ∧ st.coloring.base.is_colored arc = false then
    { st with
      post_processor :=
        [arc.tail, arc.head].foldl
          (fun p vertex => (G.mapIncidentArcs vertex).foldl
            MaximalityPostProcessor.register_arc p) st.post_processor }
  else st

/-- The `if (update_filter.test(..))` branch of `KEdgeColoring_2::onPropertyChange`. -/
def KEdgeColoring_2.filtered (st : KEdgeColoring_2) (G : DiGraph) (arc : Arc)
    (oldValue newValue : Nat) : KEdgeColoring_2 :=
  if st.use_pp_ds = true then
    if oldValue > newValue ∧ st.coloring.base.is_colored arc = true then
      st.register_neighbors_for_post_processing G arc
    else if oldValue < newValue ∧ st.coloring.base.is_colored arc = false then
      { st with post_processor := st.post_processor.register_arc arc }
    else st
  else st

/-- The `if constexpr (algo_type == HYBRID)` block of `KEdgeColoring_2::onPropertyChange`
up to the test of `compute_from_scratch`. -/
def KEdgeColoring_2.countUpdate (st : KEdgeColoring_2) : KEdgeColoring_2 :=
  if st.algo_type = k_edge_coloring_algo_type.HYBRID then
    if st.delta_over = true then
      { st with
        compute_from_scratch := st.overThreshold (st.update_count + 1)
        update_count := 0
        delta_over := false }
    else { st with update_count := st.update_count + 1 }
  else st

/-- The statement `if (a != nullptr) attempt_match(a)`. -/
def attemptIf (common_color rotate_long : Bool) (fuel : Nat) (s : Coloring) (w : Arc → Nat)
    (a : Option Arc) : Except Fault Coloring :=
  match a with
  | some x => do
    let r ← attempt_match common_color rotate_long fuel s w x
    pure r.2
  | Option.none => pure s

/-- The branch of `KEdgeColoring_2::onPropertyChange` for an uncoloured arc whose weight
grew. -/
def KEdgeColoring_2.onIncrease (fuel : Nat) (st : KEdgeColoring_2) (w : Arc → Nat)
    (arc : Arc) : Except Fault KEdgeColoring_2 := do
  let r ← attempt_match st.common_color st.rotate_long fuel st.coloring w arc
  if st.use_pp_ds = true ∧ r.1 = false then
    pure { st with coloring := r.2, post_processor := st.post_processor.register_arc arc }
  else pure { st with coloring := r.2 }

/-- The statement `if (newValue == 0) coloring.uncolor(arc)`. -/
def uncolorIfZero (s : Coloring) (w : Arc → Nat) (arc : Arc) (newValue : Nat) :
    Except Fault Coloring :=
  if newValue = 0 then s.uncolor w arc else pure s

/-- The branch of `KEdgeColoring_2::onPropertyChange` for a coloured arc whose weight
fell. -/
def KEdgeColoring_2.onDecrease (fuel : Nat) (st : KEdgeColoring_2) (G : DiGraph)
    (w : Arc → Nat) (arc : Arc) (newValue : Nat) : Except Fault KEdgeColoring_2 := do
  let s1 ← uncolorIfZero st.coloring w arc newValue
  let heaviest_tail_arc := find_heaviest_incident_uncolored_arc s1 G w arc.tail
  let heaviest_head_arc := find_heaviest_incident_uncolored_arc s1 G w arc.head
  let s2 ← attemptIf st.common_color st.rotate_long fuel s1 w heaviest_tail_arc
  let s3 ← attemptIf st.common_color st.rotate_long fuel s2 w heaviest_head_arc
  pure ({ st with coloring := s3 }.register_neighbors_for_post_processing G arc)

/-- Method `KEdgeColoring_2::onPropertyChange`; `w` is the weight map, which holds the new
value already, and `fuel` bounds each run of the loop of `invert_cd_path`. -/
def KEdgeColoring_2.onPropertyChange (fuel : Nat) (st : KEdgeColoring_2) (G : DiGraph)
    (w : Arc → Nat) (arc : Arc) (oldValue newValue : Nat) : Except Fault KEdgeColoring_2 :=
  if st.algo_type = k_edge_coloring_algo_type.STATIC then pure st
  else if st.update_filter.test oldValue newValue = true then
    pure (st.filtered G arc oldValue newValue)
  else if st.countUpdate.algo_type = k_edge_coloring_algo_type.HYBRID ∧
      st.countUpdate.compute_from_scratch = true then
    pure st.countUpdate
  else if newValue > oldValue ∧ st.countUpdate.coloring.base.is_colored arc = false then
    st.countUpdate.onIncrease fuel w arc
  else if newValue < oldValue ∧ st.countUpdate.coloring.base.is_colored arc = true then
    st.countUpdate.onDecrease fuel G w arc newValue
  else pure st.countUpdate

/-- The result of a call of the handler, or `d` if it failed. -/
def okOrEdge (r : Except Fault KEdgeColoring_2) (d : KEdgeColoring_2) : KEdgeColoring_2 :=
  match r with
  | Except.ok s => s
  | Except.error _ => d

/-- The weights 3, 0, 3 on the path `0 - 1 - 2 - 3`: `lightEnds` after the weight of
`(1,2)` fell to 0. -/
def droppedMiddle : Arc → Nat := fun a => if a.id = 1 then 0 else lightEnds a

/-- One colour on the path `0 - 1 - 2 - 3`, the heaviest arc `(1,2)` coloured. -/
def middleColoring : Coloring :=
  thenColor lightEnds (freshColoring 1) [(⟨1, 1, 2⟩, 0)]

/-- An instance of `KEdgeColoring_2` of the given mode on `middleColoring`, without common
colours, long rotation and post-processing. -/
def middleEdgeColoring (mode : k_edge_coloring_algo_type) (scratch : Bool) :
    KEdgeColoring_2 :=
  { algo_type := mode
    common_color := false
    rotate_long := false
    use_pp_ds := false
    post_process := false
    overThreshold := fun _ => false
    update_filter := ⟨fun _ _ => false⟩
    post_processor := ⟨TimedArtifactSet.initial, []⟩
    compute_from_scratch := scratch
    update_count := 0
    delta_over := false
    coloring := middleColoring }

/-- The state of `InvariantGreedy` with `b` colours on the triangle after the three arcs
`(u,v)`, `(v,w)`, `(u,w)` were inserted with the weights 5, 3, 4 in one delta: three calls of
`onPropertyChange` with old value 0. The handler reads the weight map only when it
uncolours an arc, which it does not do here. -/
def triangleStream (b : Nat) : InvariantGreedy :=
  okOrGreedy ((okOrGreedy ((okOrGreedy
    ((freshGreedy b).onPropertyChange triangle triangleWeights ⟨0, 0, 1⟩ 0 5)
    (freshGreedy b)).onPropertyChange triangle triangleWeights ⟨1, 1, 2⟩ 0 3)
    (freshGreedy b)).onPropertyChange triangle triangleWeights ⟨2, 0, 2⟩ 0 4) (freshGreedy b)

/-! ## `tools/aggregation.h` -/

/-- The enumeration `AggregateType`. -/
inductive AggregateType where
  | SUM
  | MAX
  | AVG
  | MEDIAN
  | B_SUM
deriving DecidableEq, Repr

/-- The lambda `weightSum` of `aggregateWeights`, an addition of `EdgeWeight`s. -/
def weightSum (weight : Arc → Nat) (acc : Nat) (a : Arc) : Nat := add64 acc (weight a)

/-- Function `aggregateWeights`. Each call of `std::accumulate` starts from the value
`weight(edges[0])` and runs over the range from `edges.begin()` on. -/
def aggregateWeights (edges : List Arc) (weight : Arc → Nat) (type : AggregateType)
    (b : Nat) : Except Fault Nat := do
  let size := edges.length
  check (decide (size > 0))
  let first ← defined edges.head?
  if size = 1 then pure (weight first)
  else
    match type with
    | AggregateType.AVG => pure (edges.foldl (weightSum weight) (weight first) / size)
    | AggregateType.MEDIAN => do
      let mid ← defined edges[size / 2]?
      if size % 2 ≠ 0 then pure (weight mid)
      else do
        let below ← defined edges[size / 2 - 1]?
        pure (add64 (weight mid) (weight below) / 2)
    | AggregateType.MAX => pure (weight first)
    | AggregateType.B_SUM =>
      pure ((edges.take (min size b)).foldl (weightSum weight) (weight first))
    | AggregateType.SUM => pure (edges.foldl (weightSum weight) (weight first))

/-! ## `datastructure/kcoloring_extensions.h`: the statistics extension -/

/-- The struct `ColoringStatsExtension::color_op_counts`; the counters are `int`s, taken
without their bound. -/
structure color_op_counts where
  color_count : Int
  uncolor_count : Int
  recolor_count : Int
deriving DecidableEq, Repr

/-- The class `ColoringStatsExtension`: the map `arc_color_changes` of pairs
`(first, second)` and the two sets of counters. -/
structure ColoringStatsExtension where
  arc_color_changes : Arc → Nat × Nat
  fine_counts : color_op_counts
  coarse_counts : color_op_counts

/-- The freshly constructed extension: every entry is `(UNCOLORED, UNCOLORED)`. -/
def ColoringStatsExtension.initial : ColoringStatsExtension :=
  ⟨fun _ => (UNCOLORED, UNCOLORED), ⟨0, 0, 0⟩, ⟨0, 0, 0⟩⟩

/-- The counting part of the loop body of `compute_coarse_counts_and_reset`. -/
def coarseCount (c : color_op_counts) (diff : Nat × Nat) : color_op_counts :=
  if diff.1 = UNCOLORED ∧ diff.2 ≠ UNCOLORED then { c with color_count := c.color_count + 1 }
  else if diff.1 ≠ UNCOLORED ∧ diff.2 = UNCOLORED then
    { c with uncolor_count := c.uncolor_count + 1 }
  else if diff.1 ≠ diff.2 ∧ diff.1 ≠ UNCOLORED ∧ diff.2 ≠ UNCOLORED then
    { c with recolor_count := c.recolor_count + 1 }
  else c

/-- The loop body of `compute_coarse_counts_and_reset` on the entry of the arc `a`: the entry
is counted, then `diff.first = diff.second` and `diff.second = UNCOLORED`. -/
def coarseStep (st : ColoringStatsExtension) (a : Arc) : ColoringStatsExtension :=
  { st with
    coarse_counts := coarseCount st.coarse_counts (st.arc_color_changes a)
    arc_color_changes :=
      Function.update st.arc_color_changes a ((st.arc_color_changes a).2, UNCOLORED) }

/-- Method `ColoringStatsExtension::compute_coarse_counts_and_reset`; the loop over the
entries of the property map runs over the arcs `entries` that have an entry. -/
def ColoringStatsExtension.compute_coarse_counts_and_reset (st : ColoringStatsExtension)
    (entries : List Arc) : ColoringStatsExtension :=
  entries.foldl coarseStep { st with coarse_counts := ⟨0, 0, 0⟩ }

/-- Method `ColoringStatsExtension::reset_arc_diffs`. -/
def ColoringStatsExtension.reset_arc_diffs (st : ColoringStatsExtension) :
    ColoringStatsExtension :=
  { st with arc_color_changes := fun _ => (UNCOLORED, UNCOLORED) }

/-- Method `ColoringStatsExtension::reset_fine_counts`. -/
def ColoringStatsExtension.reset_fine_counts (st : ColoringStatsExtension) :
    ColoringStatsExtension :=
  { st with fine_counts := ⟨0, 0, 0⟩ }

/-- Method `ColoringStatsExtension::get_coarse_counts`. -/
def ColoringStatsExtension.get_coarse_counts (st : ColoringStatsExtension) : color_op_counts :=
  st.coarse_counts

/-- Method `ColoringStatsExtension::get_fine_counts`. -/
def ColoringStatsExtension.get_fine_counts (st : ColoringStatsExtension) : color_op_counts :=
  st.fine_counts

/-- Method `ColoringStatsExtension::reset_impl`. -/
def ColoringStatsExtension.reset_impl (st : ColoringStatsExtension) : ColoringStatsExtension :=
  { st with fine_counts := ⟨0, 0, 0⟩, coarse_counts := ⟨0, 0, 0⟩ }

/-- Method `ColoringStatsExtension::color_impl`. -/
def ColoringStatsExtension.color_impl (st : ColoringStatsExtension) (arc : Arc) (color : Nat) :
    ColoringStatsExtension :=
  { st with
    fine_counts := { st.fine_counts with color_count := st.fine_counts.color_count + 1 }
    arc_color_changes :=
      Function.update st.arc_color_changes arc ((st.arc_color_changes arc).1, color) }

/-- Method `ColoringStatsExtension::uncolor_impl`. -/
def ColoringStatsExtension.uncolor_impl (st : ColoringStatsExtension) (arc : Arc)
    (_pre_color : Nat) : ColoringStatsExtension :=
  { st with
    fine_counts := { st.fine_counts with uncolor_count := st.fine_counts.uncolor_count + 1 }
    arc_color_changes :=
      Function.update st.arc_color_changes arc ((st.arc_color_changes arc).1, UNCOLORED) }

/-- The colouring `KColoring<ColoringStatsExtension>`: the base class and the statistics. -/
structure StatsColoring where
  base : KColoring
  stats : ColoringStatsExtension

/-- Method `color` of `KColoring<ColoringStatsExtension>` with its assertions checked. -/
def StatsColoring.color (s : StatsColoring) (w : Arc → Nat) (arc : Arc) (color : Nat) :
    Except Fault StatsColoring := do
  check (!s.base.is_colored arc)
  check (decide (color < s.base.num_colors))
  check (s.base.is_color_free arc.tail color)
  check (s.base.is_color_free arc.head color)
  pure ⟨s.base.color w arc color, s.stats.color_impl arc color⟩

/-- Method `uncolor` of `KColoring<ColoringStatsExtension>` with its assertion checked. -/
def StatsColoring.uncolor (s : StatsColoring) (w : Arc → Nat) (arc : Arc) :
    Except Fault StatsColoring := do
  check (s.base.is_colored arc)
  pure ⟨s.base.uncolor w arc, s.stats.uncolor_impl arc (s.base.arc_colors arc)⟩

/-- The call `coloring.compute_coarse_counts_and_reset()` of `post_run` on the graph `G`. -/
def StatsColoring.snapshot (s : StatsColoring) (G : DiGraph) : StatsColoring :=
  ⟨s.base, s.stats.compute_coarse_counts_and_reset G.arcs⟩

/-- The result of a checked call on a `StatsColoring`, the state `d` after a fault. -/
def okOrStats (r : Except Fault StatsColoring) (d : StatsColoring) : StatsColoring :=
  match r with
  | Except.ok s => s
  | Except.error _ => d

/-- One colour on the triangle with statistics, after `init()`. -/
def freshStats : StatsColoring :=
  ⟨(KColoring.initial 1).reset, ColoringStatsExtension.initial.reset_arc_diffs⟩

/-- The state after `color((u,v), 0)` and the snapshot at the end of the first delta. -/
def statsAfterFirstDelta : StatsColoring :=
  (okOrStats (freshStats.color triangleWeights ⟨0, 0, 1⟩ 0) freshStats).snapshot triangle



/-! ## `datastructure/approximate_bucket_queue.h` -/

/-- The number of positions below `n` that lie above the highest set bit of `x` among
them. -/
def highZerosFrom (x : Nat) : Nat → Nat
  | 0 => 0
  | n + 1 => if x.testBit n then 0 else highZerosFrom x n + 1

/-- The builtin `__builtin_clzl`: number of leading zero bits of a 64-bit word, without a
defined result for the word `0`. -/
def clzl (x : Nat) : Option Nat :=
  if x = 0 then Option.none else some (highZerosFrom x 64)

/-- The class `ApproximateBucketQueue<Arc*>`. The array `buckets` has the indices below
`num_buckets = 64`; the pairs in `indices` are pairs of `unsigned int`;
`greatest_nonempty_bucket` has no value before the first call of
`compute_greatest_nonempty_bucket` and none after a call with the mask 0, where
`__builtin_ctzl` has no defined result. -/
structure ApproximateBucketQueue where
  buckets : Nat → List Arc
  indices : Arc → Nat × Nat
  filled_mask : Nat
  greatest_nonempty_bucket : Option Nat

/-- The freshly constructed queue. -/
def ApproximateBucketQueue.initial : ApproximateBucketQueue :=
  ⟨fun _ => [], fun _ => (0, 0), 0, Option.none⟩

/-- The constant `all_ones`, the largest `EdgeWeight`. -/
def all_ones : Nat := 2 ^ 64 - 1

/-- Method `ApproximateBucketQueue::bucket_from_priority`. -/
def bucket_from_priority (priority : Nat) : Option Nat := clzl priority

/-- Method `ApproximateBucketQueue::compute_greatest_nonempty_bucket`. -/
def ApproximateBucketQueue.compute_greatest_nonempty_bucket (q : ApproximateBucketQueue) :
    ApproximateBucketQueue :=
  { q with greatest_nonempty_bucket := lowestBit q.filled_mask }

/-- The access `buckets[k]` to the array of 64 buckets. -/
def ApproximateBucketQueue.bucketAt (q : ApproximateBucketQueue) (k : Nat) :
    Except Fault (List Arc) :=
  if k < 64 then Except.ok (q.buckets k) else Except.error Fault.deref

/-- The call `back()` on a vector, or the access to one of its elements. -/
def elementOf (x : Option Arc) : Except Fault Arc :=
  match x with
  | some a => Except.ok a
  | Option.none => Except.error Fault.deref

/-- Method `ApproximateBucketQueue::push`. -/
def ApproximateBucketQueue.push (q : ApproximateBucketQueue) (id : Arc) (priority : Nat) :
    Except Fault ApproximateBucketQueue := do
  check (decide (priority ≠ 0))
  let bucket ← defined (bucket_from_priority priority)
  let content ← q.bucketAt bucket
  let bucket_index := content.length % 2 ^ 32
  let bit ← defined (shl 1 bucket)
  pure ({ q with
    indices := Function.update q.indices id (bucket, bucket_index)
    buckets := Function.update q.buckets bucket (content ++ [id])
    filled_mask := q.filled_mask ||| bit }).compute_greatest_nonempty_bucket

/-- Method `ApproximateBucketQueue::erase`. -/
def ApproximateBucketQueue.erase (q : ApproximateBucketQueue) (id : Arc) :
    Except Fault ApproximateBucketQueue := do
  let index := q.indices id
  let content ← q.bucketAt index.1
  let swapped_element ← elementOf content.getLast?
  let element ← elementOf content[index.2]?
  let popped :=
    ((content.set index.2 swapped_element).set (content.length - 1) element).dropLast
  let bit ← defined (shl 1 index.1)
  pure ({ q with
    indices := Function.update q.indices swapped_element index
    buckets := Function.update q.buckets index.1 popped
    filled_mask :=
      if popped.isEmpty then q.filled_mask &&& (all_ones ^^^ bit)
      else q.filled_mask ||| bit }).compute_greatest_nonempty_bucket

/-- Method `ApproximateBucketQueue::update`. -/
def ApproximateBucketQueue.update (q : ApproximateBucketQueue) (id : Arc) (priority : Nat) :
    Except Fault ApproximateBucketQueue := do
  check (decide (priority ≠ 0))
  let q1 ← q.erase id
  q1.push id priority

/-- Method `ApproximateBucketQueue::empty`. -/
def ApproximateBucketQueue.empty (q : ApproximateBucketQueue) : Bool := q.filled_mask == 0

/-- Method `ApproximateBucketQueue::pop_max`: the returned id and the queue afterwards. -/
def ApproximateBucketQueue.pop_max (q : ApproximateBucketQueue) :
    Except Fault (Arc × ApproximateBucketQueue) := do
  let g ← defined q.greatest_nonempty_bucket
  let content ← q.bucketAt g
  let top ← elementOf content.getLast?
  let q1 ← q.erase top
  pure (top, q1)

/-- Method `ApproximateBucketQueue::clear`. -/
def ApproximateBucketQueue.clear (q : ApproximateBucketQueue) : ApproximateBucketQueue :=
  { q with buckets := fun _ => [], indices := fun _ => (0, 0), filled_mask := 0 }

/-- The invariant of the queue for ids that are pairwise different, with `prio x` the
priority the id `x` was last pushed with: only the 64 buckets of the array are used, every
id is found at its stored index, no bucket has more than `2 ^ 32` ids, the mask has the bit
`k` exactly when the bucket `k` is not empty, `greatest_nonempty_bucket` is up to date while
the mask is not 0, and every id lies in the bucket of its priority. -/
structure BQInv (q : ApproximateBucketQueue) (prio : Arc → Nat) : Prop where
  range : ∀ k, 64 ≤ k → q.buckets k = []
  idx : ∀ k i x, (q.buckets k)[i]? = some x → q.indices x = (k, i)
  small : ∀ k, (q.buckets k).length ≤ 2 ^ 32
  mask_lt : q.filled_mask < 2 ^ 64
  mask : ∀ k, k < 64 → (q.filled_mask.testBit k = true ↔ q.buckets k ≠ [])
  top : q.filled_mask ≠ 0 → q.greatest_nonempty_bucket = lowestBit q.filled_mask
  prio : ∀ k x, x ∈ q.buckets k → prio x ≠ 0 ∧ prio x < 2 ^ 64 ∧ clzl (prio x) = some k

/-- The result of a call on the queue, the queue `d` after a fault. -/
def okOrQueue (r : Except Fault ApproximateBucketQueue) (d : ApproximateBucketQueue) :
    ApproximateBucketQueue :=
  match r with
  | Except.ok s => s
  | Except.error _ => d

/-- The ids `A = (u,v)`, `B = (v,w)`, `C = (u,w)` with the priorities 17, 8, 9. -/
def threePrio : Arc → Nat :=
  Function.update (Function.update (Function.update (fun _ => 0) ⟨0, 0, 1⟩ 17) ⟨1, 1, 2⟩ 8)
    ⟨2, 0, 2⟩ 9

/-- The queue after `push(A, 17)`, `push(B, 8)`, `push(C, 9)`. -/
def threeQueue : ApproximateBucketQueue :=
  okOrQueue ((okOrQueue ((okOrQueue
    (ApproximateBucketQueue.initial.push ⟨0, 0, 1⟩ 17)
    ApproximateBucketQueue.initial).push ⟨1, 1, 2⟩ 8)
    ApproximateBucketQueue.initial).push ⟨2, 0, 2⟩ 9) ApproximateBucketQueue.initial

/-- The id returned by `pop_max`, if the call returned. -/
def poppedId (r : Except Fault (Arc × ApproximateBucketQueue)) : Option Arc :=
  match r with
  | Except.ok p => some p.1
  | Except.error _ => Option.none

/-- The queue after `pop_max`, the queue `d` after a fault. -/
def poppedQueue (r : Except Fault (Arc × ApproximateBucketQueue))
    (d : ApproximateBucketQueue) : ApproximateBucketQueue :=
  match r with
  | Except.ok p => p.2
  | Except.error _ => d

/-! ## `double` arithmetic of `UpdateFilter`

The type `double` is the format binary64 of IEEE 754 with rounding to nearest, ties to
even. The values that occur in `UpdateFilter` are not negative and far below the overflow
threshold, so a `double` is given by its value, a rational number. -/

/-- The integer nearest to `x`, the even one of the two when `x` lies halfway. -/
def roundNearestEven (x : ℚ) : ℤ :=
  if x - ⌊x⌋ < 1 / 2 then ⌊x⌋
  else if 1 / 2 < x - ⌊x⌋ then ⌊x⌋ + 1
  else if ⌊x⌋ % 2 = 0 then ⌊x⌋ else ⌊x⌋ + 1

/-- The exponent `e` of the binade `[2 ^ e, 2 ^ (e + 1))` of a positive value, and the
exponent `-1022` of the subnormal numbers for the values below `2 ^ (-1022)`. -/
def binadeOf (q : ℚ) : ℤ := max (Int.log 2 q) (-1022)

/-- The `double` nearest to `q`: the result of a conversion or of an arithmetic operation
whose exact value is `q ≥ 0`. A `double` of the binade `e` is a multiple of `2 ^ (e - 52)`,
which gives 53 significant bits. -/
def toDouble (q : ℚ) : ℚ :=
  roundNearestEven (q / 2 ^ (binadeOf q - 52)) * 2 ^ (binadeOf q - 52)

/-- The constructor `UpdateFilter(double t)` with the comparisons of `test`: the member
`up_threshold` is `t`, `down_threshold` is the `double` quotient `1/t`, and `ratio` is the
`double` quotient of the two weights converted to `double`. -/
def UpdateFilter.ofThreshold (t : ℚ) : UpdateFilter :=
  ⟨fun oldValue newValue =>
    decide (toDouble (1 / t) ≤ toDouble (toDouble newValue / toDouble oldValue) ∧
      toDouble (toDouble newValue / toDouble oldValue) ≤ t)⟩

/-! ## `algorithm/dynamic_greedy.h` -/

/-- The struct `AdjacentArcWeightPair`. -/
structure AdjacentArcWeightPair where
  tail_arc : Option Arc
  head_arc : Option Arc
  weight : Nat
deriving DecidableEq, Repr

/-- The loop of `ArcMateExtension::lightest_adjacent_colored_arcs` over the maps from the
colour `col` on; the state is the pair `(return_value, min_color)`. -/
def lightestLoop (w : Arc → Nat) (arc : Arc) :
    List (Nat → Option Arc) → Nat → AdjacentArcWeightPair × Nat →
      AdjacentArcWeightPair × Nat
  | [], _, st => st
  | map :: rest, col, st =>
    lightestLoop w arc rest (col + 1)
      (if add64 (add64 0 (mateWeight w (map arc.tail))) (mateWeight w (map arc.head))
          < st.1.weight then
        (⟨map arc.tail, map arc.head,
          add64 (add64 0 (mateWeight w (map arc.tail))) (mateWeight w (map arc.head))⟩, col)
      else st)

/-- Method `ArcMateExtension::lightest_adjacent_colored_arcs`. -/
def ArcMateExtension.lightest_adjacent_colored_arcs (am : ArcMateExtension) (arc : Arc)
    (w : Arc → Nat) : AdjacentArcWeightPair × Nat :=
  lightestLoop w arc am.arcs_to_mates_by_color 0
    (⟨Option.none, Option.none, 2 ^ 64 - 1⟩, UNCOLORED)

/-- The class `DynamicGreedy` with the template parameter `randomized = 0`, the variant
that considers all candidates: its template parameter `use_pp_ds`, its members and the
colouring. The member `recursion_depth` is an `int` that is only compared with 0 and
counted down, so a negative value acts like 0. -/
structure DynamicGreedy where
  use_pp_ds : Bool
  recursion_depth : Nat
  post_process : Bool
  update_filter : UpdateFilter
  post_processor : MaximalityPostProcessor
  coloring : Coloring

/-- Method `DynamicGreedy::register_neighbors_for_post_processing`. -/
def DynamicGreedy.register_neighbors_for_post_processing (st : DynamicGreedy) (G : DiGraph)
    (arc : Arc) : DynamicGreedy :=
  if st.use_pp_ds = true ∧ st.coloring.base.is_colored arc = false then
    { st with
      post_processor :=
        [arc.tail, arc.head].foldl
          (fun p vertex => (G.mapIncidentArcs vertex).foldl
            MaximalityPostProcessor.register_arc p) st.post_processor }
  else st

/-- The `if (update_filter.test(..))` branch of `DynamicGreedy::onPropertyChange`. -/
def DynamicGreedy.filtered (st : DynamicGreedy) (G : DiGraph) (arc : Arc)
    (oldValue newValue : Nat) : DynamicGreedy :=
  if st.use_pp_ds = true then
    if oldValue > newValue ∧ st.coloring.base.is_colored arc = true then
      st.register_neighbors_for_post_processing G arc
    else if oldValue < newValue ∧ st.coloring.base.is_colored arc = false then
      { st with post_processor := st.post_processor.register_arc arc }
    else st
  else st

/-- Method `DynamicGreedy::attemptMatch`: the returned flag and the colouring. -/
def attemptMatch (s : Coloring) (w : Arc → Nat) (arc : Arc) :
    Except Fault (Bool × Coloring) := do
  check (!s.base.is_colored arc)
  let col ← s.fc.common_free_color arc.tail arc.head
  if col ≠ npos then do
    let s1 ← s.color w arc col
    pure (true, s1)
  else pure (false, s)

/-- Method `DynamicGreedy::pick_pair_to_replace` for `randomized = 0`. -/
def pick_pair_to_replace (s : Coloring) (w : Arc → Nat) (arc : Arc) :
    AdjacentArcWeightPair × Nat :=
  s.am.lightest_adjacent_colored_arcs arc w

/-- The branch `arc_data.weight < (*weights)[arc]` of `DynamicGreedy::increaseWeight` up to
the call `coloring.color(arc, max_color)`. -/
def replacePair (s : Coloring) (w : Arc → Nat) (arc : Arc) (arc_data : AdjacentArcWeightPair)
    (max_color : Nat) : Except Fault Coloring := do
  let s1 ← uncolorIf s w arc_data.tail_arc
  let s2 ← uncolorIf s1 w arc_data.head_arc
  check (s2.base.can_color arc max_color)
  s2.color w arc max_color

/-- The arcs of `{arc_data.tail_arc, arc_data.head_arc}` that are not null, in this
order. -/
def displacedArcs (arc_data : AdjacentArcWeightPair) : List Arc :=
  [arc_data.tail_arc, arc_data.head_arc].filterMap id

/-- The part of `DynamicGreedy::increaseWeight` after the call of `attemptMatch` has
returned `false`: the state afterwards and the arcs for the recursive calls. -/
def DynamicGreedy.replaceOrRegister (st : DynamicGreedy) (w : Arc → Nat) (arc : Arc) :
    Except Fault (DynamicGreedy × List Arc) :=
  if (pick_pair_to_replace st.coloring w arc).1.weight < w arc then do
    let s3 ← replacePair st.coloring w arc (pick_pair_to_replace st.coloring w arc).1
      (pick_pair_to_replace st.coloring w arc).2
    pure ({ st with coloring := s3 }, displacedArcs (pick_pair_to_replace st.coloring w arc).1)
  else if st.use_pp_ds = true then
    pure ({ st with post_processor := st.post_processor.register_arc arc }, [])
  else pure (st, [])

/-- One call of `DynamicGreedy::increaseWeight` without its recursive calls: the state
afterwards and the arcs that the recursive calls are made for when `recurse > 0`. -/
def DynamicGreedy.increaseStep (st : DynamicGreedy) (w : Arc → Nat) (arc : Arc) :
    Except Fault (DynamicGreedy × List Arc) := do
  check (!st.coloring.base.is_colored arc)
  let m ← attemptMatch st.coloring w arc
  if m.1 = true then pure ({ st with coloring := m.2 }, [])
  else st.replaceOrRegister w arc

/-- The calls `increaseWeight(a, recurse)` for the arcs of a list, one after the other,
given the function for one call. -/
def increaseEach (f : DynamicGreedy → Arc → Except Fault DynamicGreedy) :
    List Arc → DynamicGreedy → Except Fault DynamicGreedy
  | [], st => Except.ok st
  | a :: rest, st => do
    let st1 ← f st a
    increaseEach f rest st1

/-- Method `DynamicGreedy::increaseWeight(arc, recurse)`. -/
def DynamicGreedy.increaseWeight : Nat → DynamicGreedy → (Arc → Nat) → Arc →
    Except Fault DynamicGreedy
  | 0, st, w, arc => do
    let r ← st.increaseStep w arc
    pure r.1
  | recurse + 1, st, w, arc => do
    let r ← st.increaseStep w arc
    increaseEach (fun st1 a => DynamicGreedy.increaseWeight recurse st1 w a) r.2 r.1

/-- The null pointer dereferenced: the value of `a->..` needs an arc. -/
def pointee (a : Option Arc) : Except Fault Arc :=
  match a with
  | some x => Except.ok x
  | Option.none => Except.error Fault.deref

/-- The test of the lambda that `find_heavy_candidates` passes to `mapIncidentArcs`. -/
def isCandidate (s : Coloring) (arc : Arc) (arc_color endpoint : Nat) (a : Arc) : Bool :=
  decide (a ≠ arc) && (!s.base.is_colored a &&
    s.base.is_color_free (a.getOther endpoint) arc_color)

/-- The vector `cand` at the end of one round of the first loop of
`find_heavy_candidates`. -/
def fillCandidates (s : Coloring) (G : DiGraph) (arc : Arc) (arc_color endpoint : Nat)
    (cand : List Arc) : List Arc :=
  cand ++ (G.mapIncidentArcs endpoint).filter (isCandidate s arc arc_color endpoint)

/-- The block "find heaviest 'single' candidate" of `find_heavy_candidates` from the test
of `candidates_head` on: `return_value` and the flag `found_heavy_pair` afterwards. The
test for the overlap reads `return_value.head_arc->getOther(arc_head)` before that member
is set. -/
def heavySingle (w : Arc → Nat) (arc : Arc) (rv : AdjacentArcWeightPair)
    (candidates_head : List Arc) : Except Fault (AdjacentArcWeightPair × Bool) :=
  match candidates_head.head? with
  | some front =>
    if w front > rv.weight then
      match rv.tail_arc with
      | some t => do
        let h ← pointee rv.head_arc
        if t.getOther arc.tail ≠ h.getOther arc.head then
          pure (⟨some t, some front, w front⟩, true)
        else pure (⟨Option.none, some front, w front⟩, false)
      | Option.none => pure (⟨Option.none, some front, w front⟩, false)
    else pure (rv, false)
  | Option.none => pure (rv, false)

/-- The inner loop of the last block of `find_heavy_candidates` for the tail candidate
`t`, over the head candidates from `h_i` on. -/
def heavyInner (w : Arc → Nat) (arc : Arc) (weight_to_beat : Nat) (t : Arc) :
    List Arc → AdjacentArcWeightPair → AdjacentArcWeightPair
  | [], rv => rv
  | h :: rest, rv =>
    if add64 (w t) (w h) > weight_to_beat ∧ add64 (w t) (w h) > rv.weight then
      heavyInner w arc weight_to_beat t rest
        (if t.getOther arc.tail ≠ h.getOther arc.head then
          ⟨some t, some h, add64 (w t) (w h)⟩
        else rv)
    else rv

/-- The part of `find_heavy_candidates` from the declaration of `return_value` on, for the
values of the vectors `candidates_tail` and `candidates_head` at that point. -/
def heavyPair (w : Arc → Nat) (arc : Arc) (weight_to_beat : Nat)
    (candidates_tail candidates_head : List Arc) : Except Fault AdjacentArcWeightPair := do
  let rv : AdjacentArcWeightPair :=
    match candidates_tail.head? with
    | some t => ⟨some t, Option.none, w t⟩
    | Option.none => ⟨Option.none, Option.none, 0⟩
  let r ← heavySingle w arc rv candidates_head
  if r.2 || candidates_tail.isEmpty || candidates_head.isEmpty then pure r.1
  else
    pure (candidates_tail.foldl
      (fun rv1 t => heavyInner w arc weight_to_beat t candidates_head rv1) r.1)

/-- Method `DynamicGreedy::find_heavy_candidates` for `randomized = 0`. The first loop runs
over `{std::pair{arc_tail, candidates_tail}, std::pair{arc_head, candidates_head}}` with
`auto [endpoint, cand]`: each pair holds a copy of the vector, `cand` names the member of a
copy of the pair, and the lambda appends to this copy, which ends with the round. The
second loop sorts the elements of `std::array{candidates_tail, candidates_head}`, again
copies. The vectors `candidates_tail` and `candidates_head` themselves stay as they were
declared, empty. -/
def find_heavy_candidates (s : Coloring) (G : DiGraph) (w : Arc → Nat) (arc : Arc)
    (arc_color weight_to_beat : Nat) : Except Fault AdjacentArcWeightPair :=
  let candidates_tail : List Arc := []
  let candidates_head : List Arc := []
  let _filled_copies : List (List Arc) :=
    [fillCandidates s G arc arc_color arc.tail candidates_tail,
      fillCandidates s G arc arc_color arc.head candidates_head]
  heavyPair w arc weight_to_beat candidates_tail candidates_head

/-- The statement `if (a != nullptr) { assert(can_color(a, c)); coloring.color(a, c); }` of
`DynamicGreedy::decreaseWeight`. -/
def colorCandidate (s : Coloring) (w : Arc → Nat) (a : Option Arc) (arc_color : Nat) :
    Except Fault Coloring :=
  match a with
  | some x => do
    check (s.base.can_color x arc_color)
    s.color w x arc_color
  | Option.none => pure s

/-- The part of `DynamicGreedy::decreaseWeight` from the comment "Try recoloring" on, up to
the last assertion. -/
def DynamicGreedy.recolorOrRetry (st : DynamicGreedy) (G : DiGraph) (w : Arc → Nat)
    (arc : Arc) (arc_color : Nat) (is_deletion colored_something_else : Bool) :
    Except Fault DynamicGreedy :=
  if is_deletion = false then
    if colored_something_else = false then do
      let s1 ← st.coloring.color w arc arc_color
      pure ({ st with coloring := s1 }.register_neighbors_for_post_processing G arc)
    else st.increaseWeight 0 w arc
  else pure (st.register_neighbors_for_post_processing G arc)

/-- Method `DynamicGreedy::decreaseWeight`. -/
def DynamicGreedy.decreaseWeight (st : DynamicGreedy) (G : DiGraph) (w : Arc → Nat)
    (arc : Arc) : Except Fault DynamicGreedy := do
  check (st.coloring.base.is_colored arc)
  let is_deletion := decide (w arc = 0)
  let arc_color := st.coloring.base.get_color arc
  let candidate_pair ← find_heavy_candidates st.coloring G w arc arc_color (w arc)
  let s1 ← st.coloring.uncolor w arc
  let s2 ← colorCandidate s1 w candidate_pair.tail_arc arc_color
  let s3 ← colorCandidate s2 w candidate_pair.head_arc arc_color
  let st1 ← DynamicGreedy.recolorOrRetry { st with coloring := s3 } G w arc arc_color
    is_deletion (candidate_pair.tail_arc.isSome || candidate_pair.head_arc.isSome)
  check (!is_deletion || !st1.coloring.base.is_colored arc)
  pure st1

/-- Method `DynamicGreedy::onPropertyChange`; `w` is the weight map, which holds the new
value already. -/
def DynamicGreedy.onPropertyChange (st : DynamicGreedy) (G : DiGraph) (w : Arc → Nat)
    (arc : Arc) (oldValue newValue : Nat) : Except Fault DynamicGreedy :=
  if st.update_filter.test oldValue newValue = true then
    pure (st.filtered G arc oldValue newValue)
  else if newValue > oldValue then
    if st.coloring.base.is_colored arc = false then
      st.increaseWeight st.recursion_depth w arc
    else pure st
  else if st.coloring.base.is_colored arc = true then st.decreaseWeight G w arc
  else pure st

/-- Method `deliver` of `DisjointMatchingAlgorithm`, for `DynamicGreedy`. -/
def DynamicGreedy.deliver (st : DynamicGreedy) : Nat := st.coloring.base.getTotalWeight

/-- Modelled from the spec: the weight map reports a change of the weight of `arc` from
`oldValue` to `newValue` to its observers, here the handler of the algorithm and
`KColoring::onEdgeWeightChange` of its colouring (the graph library that calls the
observers is not part of the sources); `handlerFirst` is the order of the two calls. -/
def DynamicGreedy.weightChange (handlerFirst : Bool) (st : DynamicGreedy) (G : DiGraph)
    (w : Arc → Nat) (arc : Arc) (oldValue newValue : Nat) : Except Fault DynamicGreedy :=
  if handlerFirst = true then do
    let st1 ← st.onPropertyChange G w arc oldValue newValue
    pure { st1 with
      coloring := { st1.coloring with
        base := st1.coloring.base.onEdgeWeightChange arc oldValue newValue } }
  else
    DynamicGreedy.onPropertyChange { st with
      coloring := { st.coloring with
        base := st.coloring.base.onEdgeWeightChange arc oldValue newValue } }
      G w arc oldValue newValue

/-- The result of a call of `DynamicGreedy`, the state `d` after a fault. -/
def okOrDynamic (r : Except Fault DynamicGreedy) (d : DynamicGreedy) : DynamicGreedy :=
  match r with
  | Except.ok s => s
  | Except.error _ => d

/-- The weight that the loop of `lightest_adjacent_colored_arcs` computes for the map at
the index `i` of the table `t`. -/
def pairWeightAt (w : Arc → Nat) (arc : Arc) (t : List (Nat → Option Arc)) (i : Nat) : Nat :=
  add64 (add64 0 (mateWeight w (tableGet t i arc.tail))) (mateWeight w (tableGet t i arc.head))

/-- The weight that the loop of `lightest_adjacent_colored_arcs` computes for the colour
`c`: the sum of the weights of the arcs to the mates of the two ends of `arc`. -/
def ArcMateExtension.pairWeight (am : ArcMateExtension) (w : Arc → Nat) (arc : Arc)
    (c : Nat) : Nat :=
  pairWeightAt w arc am.arcs_to_mates_by_color c

/-- The weights 3, 6, 3 on the path `0 - 1 - 2 - 3`: `lightEnds` after the weight of
`(1,2)` rose from 5 to 6. -/
def raisedMiddle : Arc → Nat := Function.update lightEnds ⟨1, 1, 2⟩ 6

/-- The weights 3, 1, 3 on the path `0 - 1 - 2 - 3`: `lightEnds` after the weight of
`(1,2)` fell from 5 to 1. -/
def loweredMiddle : Arc → Nat := Function.update lightEnds ⟨1, 1, 2⟩ 1

/-- An instance of `DynamicGreedy` with the default arguments of its constructor
(`recursion_depth = 1`, `post_process = false`, `filter_threshold = 2`), without the
post-processing structure, on the colouring `s`. -/
def dynamicGreedyOn (s : Coloring) : DynamicGreedy :=
  { use_pp_ds := false
    recursion_depth := 1
    post_process := false
    update_filter := UpdateFilter.ofThreshold 2
    post_processor := ⟨TimedArtifactSet.initial, []⟩
    coloring := s }

/-- An instance of `KEdgeColoring_2` in DYNAMIC mode with the filter threshold 2 on
`middleColoring`. -/
def filteredEdgeColoring : KEdgeColoring_2 :=
  { middleEdgeColoring k_edge_coloring_algo_type.DYNAMIC false with
    update_filter := UpdateFilter.ofThreshold 2 }

/-- The weights 3, 5, 4 on the arcs of the path `0 - 1 - 2 - 3`. -/
def stepWeights : Arc → Nat := fun a =>
  if a.id = 0 then 3 else if a.id = 1 then 5 else if a.id = 2 then 4 else 0

/-- Two colours on the path `0 - 1 - 2 - 3` with the weights 3, 5, 4 after
`color((0,1), 0)` and `color((2,3), 1)`: the middle arc has no common free colour. -/
def blockedMiddle : Coloring :=
  thenColor stepWeights (freshColoring 2) [(⟨0, 0, 1⟩, 0), (⟨2, 2, 3⟩, 1)]

/-- The weights 3, 2, 4 on the arcs of the path `0 - 1 - 2 - 3`. -/
def lightMiddle : Arc → Nat := fun a =>
  if a.id = 0 then 3 else if a.id = 1 then 2 else if a.id = 2 then 4 else 0

/-- The colouring `blockedMiddle` for the weights 3, 2, 4. -/
def blockedLight : Coloring :=
  thenColor lightMiddle (freshColoring 2) [(⟨0, 0, 1⟩, 0), (⟨2, 2, 3⟩, 1)]

/-! ## Scenario S2 and the local swap -/

/-- Modelled from the spec: the weight map reports a change of the weight of `arc` from
`oldValue` to `newValue` first to `KColoring::onEdgeWeightChange` of the colouring, which
subscribed first, and then to the handler of the algorithm (the graph library that calls the
observers is not part of the sources); `w` is the weight map with the new value. -/
def InvariantGreedy.weightChange (st : InvariantGreedy) (G : DiGraph) (w : Arc → Nat)
    (arc : Arc) (oldValue newValue : Nat) : Except Fault InvariantGreedy :=
  InvariantGreedy.onPropertyChange
    { st with
      coloring := { st.coloring with
        base := st.coloring.base.onEdgeWeightChange arc oldValue newValue } }
    G w arc oldValue newValue

/-- The state of scenario S1 that scenario S2 starts from: the triangle with two colours,
`a = (u,v)` of weight 5 coloured 0, `b = (v,w)` of weight 3 coloured 1, `c = (u,w)` of
weight 4 uncoloured, no candidate registered. -/
def scenarioOne : InvariantGreedy :=
  ⟨thenColor triangleWeights (freshColoring 2) [(⟨0, 0, 1⟩, 0), (⟨1, 1, 2⟩, 1)], [],
    TimedArtifactSet.initial⟩

/-- The weights of the triangle after `w(a) = 0`: 0, 3, 4. -/
def deletionWeights : Arc → Nat := Function.update triangleWeights ⟨0, 0, 1⟩ 0

/-- The graph with the arcs `a = (0,1)`, `(0,2)`, `(0,3)` and `(1,2)`. -/
def kiteGraph : DiGraph := ⟨[⟨0, 0, 1⟩, ⟨1, 0, 2⟩, ⟨2, 0, 3⟩, ⟨3, 1, 2⟩]⟩

/-- The weights 10, 8, 6, 7 on the arcs of `kiteGraph`. -/
def kiteWeights : Arc → Nat := fun a =>
  if a.id = 0 then 10 else if a.id = 1 then 8 else if a.id = 2 then 6
  else if a.id = 3 then 7 else 0

/-- One colour on `kiteGraph`, after `reset()` and `color((0,1), 0)`. -/
def kiteColoring : KColoring :=
  ((KColoring.initial 1).reset).color kiteWeights ⟨0, 0, 1⟩ 0

/-! ## `algorithm/k_edge_coloring.h`: `run()` -/

/-- The call `std::sort(.., [](lop, rop) { return weights[lop] > weights[rop]; })`: the arcs
by falling weight. `std::sort` leaves the order of arcs of equal weight open; here they
keep the order of the input. -/
def sortByWeight (w : Arc → Nat) (l : List Arc) : List Arc :=
  l.insertionSort fun a c => w c ≤ w a

/-- The body of the loop of `compute_edge_coloring` for one arc (the local counter `colors`
is written and never read). -/
def colorStep (common_color rotate_long : Bool) (fuel : Nat) (w : Arc → Nat) (s : Coloring)
    (arc : Arc) : Except Fault Coloring :=
  if s.fc.any_color_free arc.tail && s.fc.any_color_free arc.head then do
    let r ← color_edge common_color rotate_long fuel s w arc arc.tail
    if r.1 = UNCOLORED - 1 then do
      let r2 ← color_edge common_color rotate_long fuel r.2 w arc arc.head
      pure r2.2
    else pure r.2
  else pure s

/-- The loop `for (auto arc: edges)` of `compute_edge_coloring`. -/
def colorEach (common_color rotate_long : Bool) (fuel : Nat) (w : Arc → Nat) :
    List Arc → Coloring → Except Fault Coloring
  | [], s => pure s
  | arc :: rest, s => do
    let s1 ← colorStep common_color rotate_long fuel w s arc
    colorEach common_color rotate_long fuel w rest s1

/-- Method `KEdgeColoring_2::compute_edge_coloring`. -/
def compute_edge_coloring (common_color rotate_long : Bool) (fuel : Nat) (s : Coloring)
    (G : DiGraph) (w : Arc → Nat) : Except Fault Coloring :=
  colorEach common_color rotate_long fuel w
    (sortByWeight w (G.arcs.filter fun arc => decide (w arc > 0))) s

/-- Method `MaximalityPostProcessor::perform_post_processing`: the colouring and the
post-processor afterwards. -/
def MaximalityPostProcessor.perform_post_processing (p : MaximalityPostProcessor)
    (fuel : Nat) (s : Coloring) (w : Arc → Nat) :
    Except Fault (Coloring × MaximalityPostProcessor) := do
  let s1 ← process_maximal_pq w fuel
    ((p.arcs_to_process.vector.filter fun arc =>
      decide (w arc > 0) && !s.base.is_colored arc).map fun arc => (arc, w arc)) s
  pure (s1, ⟨p.arcs_to_process.next_round, []⟩)

/-- Method `KEdgeColoring_2::reset`. -/
def KEdgeColoring_2.reset (st : KEdgeColoring_2) : KEdgeColoring_2 :=
  { st with
    coloring := st.coloring.reset
    compute_from_scratch := false
    update_count := 0
    delta_over := false }

/-- The first two `if constexpr` blocks of `KEdgeColoring_2::run`: the state before the new
colouring is computed, and whether it is computed from scratch. -/
def KEdgeColoring_2.prepare (st : KEdgeColoring_2) : KEdgeColoring_2 × Bool :=
  match st.algo_type with
  | k_edge_coloring_algo_type.STATIC => (st.reset, true)
  | k_edge_coloring_algo_type.HYBRID =>
    if st.compute_from_scratch = true then
      ({ st with delta_over := true, coloring := st.coloring.reset }, true)
    else ({ st with delta_over := true }, false)
  | k_edge_coloring_algo_type.DYNAMIC => (st, false)

/-- The block `if (post_process) ..` of `KEdgeColoring_2::run`; `scratch` tells that the
colouring was just computed from scratch. -/
def KEdgeColoring_2.postProcess (st : KEdgeColoring_2) (scratch : Bool) (fuel : Nat)
    (G : DiGraph) (w : Arc → Nat) : Except Fault KEdgeColoring_2 :=
  if st.post_process = true then
    if scratch = false ∧ st.use_pp_ds = true then do
      let r ← st.post_processor.perform_post_processing fuel st.coloring w
      pure { st with coloring := r.1, post_processor := r.2 }
    else do
      let s1 ← make_coloring_maximal_pq fuel st.coloring G w
      pure { st with coloring := s1 }
  else pure st

/-- Method `KEdgeColoring_2::run`; `fuel` bounds each loop of `invert_cd_path` and the loop
of `process_maximal_pq`. -/
def KEdgeColoring_2.run (fuel : Nat) (st : KEdgeColoring_2) (G : DiGraph) (w : Arc → Nat) :
    Except Fault KEdgeColoring_2 :=
  if st.prepare.2 = true then do
    let s1 ← compute_edge_coloring st.common_color st.rotate_long fuel st.prepare.1.coloring
      G w
    KEdgeColoring_2.postProcess { st.prepare.1 with coloring := s1 } true fuel G w
  else st.prepare.1.postProcess false fuel G w

/-- Method `deliver` of `DisjointMatchingAlgorithm`, for `KEdgeColoring_2`. -/
def KEdgeColoring_2.deliver (st : KEdgeColoring_2) : Nat := st.coloring.base.getTotalWeight

/-- Modelled from the spec: one event of the delta stream, the weight of `arc` changed from
`oldValue` to `newValue`; `weights` is the weight map with the new value (the graph
library that delivers the events is not part of the sources). -/
structure WeightEvent where
  weights : Arc → Nat
  arc : Arc
  oldValue : Nat
  newValue : Nat

/-- Modelled from the spec: the weight map reports a change of the weight of `arc` first to
`KColoring::onEdgeWeightChange` of the colouring, which subscribed first, and then to the
handler of the algorithm (the graph library that calls the observers is not part of the
sources); `w` is the weight map with the new value. -/
def KEdgeColoring_2.weightChange (fuel : Nat) (st : KEdgeColoring_2) (G : DiGraph)
    (w : Arc → Nat) (arc : Arc) (oldValue newValue : Nat) : Except Fault KEdgeColoring_2 :=
  KEdgeColoring_2.onPropertyChange fuel
    { st with
      coloring := { st.coloring with
        base := st.coloring.base.onEdgeWeightChange arc oldValue newValue } }
    G w arc oldValue newValue

/-- Modelled from the spec: the events of one delta delivered in order, each one running to
its end before the next. -/
def KEdgeColoring_2.handleAll (fuel : Nat) (G : DiGraph) :
    List WeightEvent → KEdgeColoring_2 → Except Fault KEdgeColoring_2
  | [], st => pure st
  | e :: rest, st => do
    let st1 ← st.weightChange fuel G e.weights e.arc e.oldValue e.newValue
    KEdgeColoring_2.handleAll fuel G rest st1

/-- The weights `x`, `y`, `z` on the arcs `(0,1)`, `(1,2)`, `(2,3)` of the path. -/
def pathW (x y z : Nat) : Arc → Nat := fun a =>
  if a.id = 0 then x else if a.id = 1 then y else if a.id = 2 then z else 0

/-- A HYBRID instance with one colour on the path `0 - 1 - 2 - 3` right after
`set_num_matchings(1)`: four vertices and `hybrid_threshold = 0.5`, so that the comparison
`update_count / 4.0 >= 0.5` is `2 ≤ update_count`; filter threshold 2, no post-processing. -/
def hybridFresh : KEdgeColoring_2 :=
  { algo_type := k_edge_coloring_algo_type.HYBRID
    common_color := true
    rotate_long := false
    use_pp_ds := false
    post_process := false
    overThreshold := fun n => decide (2 ≤ n)
    update_filter := UpdateFilter.ofThreshold 2
    post_processor := ⟨TimedArtifactSet.initial, []⟩
    compute_from_scratch := false
    update_count := 0
    delta_over := false
    coloring := freshColoring 1 }

/-- The first delta for `hybridFresh`: `(0,1)` inserted with weight 3, `(2,3)` inserted with
weight 3, `(0,1)` deleted: three events that the filter does not absorb. -/
def firstDelta : List WeightEvent :=
  [⟨pathW 3 0 0, ⟨0, 0, 1⟩, 0, 3⟩, ⟨pathW 3 0 3, ⟨2, 2, 3⟩, 0, 3⟩,
    ⟨pathW 0 0 3, ⟨0, 0, 1⟩, 3, 0⟩]

/-- The second delta: `(1,2)` inserted with weight 5, one event. -/
def secondDelta : List WeightEvent := [⟨pathW 0 5 3, ⟨1, 1, 2⟩, 0, 5⟩]

/-- The state of `hybridFresh` after the first delta and `run()`. -/
def hybridAfterFirst : KEdgeColoring_2 :=
  okOrEdge ((okOrEdge (hybridFresh.handleAll 4 pathGraph firstDelta) hybridFresh).run 4
    pathGraph (pathW 0 0 3)) hybridFresh

/-- The state after the events of the second delta, before `run()`. -/
def hybridInSecond : KEdgeColoring_2 :=
  okOrEdge (hybridAfterFirst.handleAll 4 pathGraph secondDelta) hybridFresh

/-- The state after the second delta and `run()`. -/
def hybridAfterSecond : KEdgeColoring_2 :=
  okOrEdge (hybridInSecond.run 4 pathGraph (pathW 0 5 3)) hybridFresh

/-- The queues reached from the freshly constructed one by calls whose preconditions hold:
`push` of an id that is not in the queue with a priority that is not 0, `erase` and
`update` of an id that is in the queue, `pop_max` on a queue that is not empty. `prio` holds
the priority every id was last pushed with and `n` is the number of ids in the queue, which
never exceeds `2 ^ 32`, the range of the positions in `indices`. -/
inductive QueueReach : ApproximateBucketQueue → (Arc → Nat) → Nat → Prop
  | initial : QueueReach ApproximateBucketQueue.initial (fun _ => 0) 0
  | push {q q1 : ApproximateBucketQueue} {prio : Arc → Nat} {n : Nat} (id : Arc) (p : Nat) :
      QueueReach q prio n → n < 2 ^ 32 → (∀ j, id ∉ q.buckets j) → p ≠ 0 → p < 2 ^ 64 →
      q.push id p = Except.ok q1 → QueueReach q1 (Function.update prio id p) (n + 1)
  | erase {q q1 : ApproximateBucketQueue} {prio : Arc → Nat} {n : Nat} (id : Arc) (k : Nat) :
      QueueReach q prio n → id ∈ q.buckets k → q.erase id = Except.ok q1 →
      QueueReach q1 prio (n - 1)
  | update {q q1 : ApproximateBucketQueue} {prio : Arc → Nat} {n : Nat} (id : Arc)
      (k p : Nat) :
      QueueReach q prio n → id ∈ q.buckets k → p ≠ 0 → p < 2 ^ 64 →
      q.update id p = Except.ok q1 → QueueReach q1 (Function.update prio id p) n
  | pop_max {q q1 : ApproximateBucketQueue} {prio : Arc → Nat} {n : Nat} (top : Arc) :
      QueueReach q prio n → q.empty = false → q.pop_max = Except.ok (top, q1) →
      QueueReach q1 prio (n - 1)

/-- The number of ids in the 64 buckets. -/
def ApproximateBucketQueue.size (q : ApproximateBucketQueue) : Nat :=
  ((List.range 64).map fun k => (q.buckets k).length).sum

/-! ## `algorithm/iterative_greedy.h` and `algorithm/batch_iterative_greedy.h` -/

/-- Method `KColoring::color` with its assertions checked. -/
def KColoring.checkedColor (k : KColoring) (w : Arc → Nat) (arc : Arc) (color : Nat) :
    Except Fault KColoring := do
  check (!k.is_colored arc)
  check (decide (color < k.num_colors))
  check (k.is_color_free arc.tail color)
  check (k.is_color_free arc.head color)
  pure (k.color w arc color)

/-- The statement `if (x != nullptr) color(x, c)` of `local_swap` with the assertions of
`color` checked. -/
def KColoring.checkedColorIfSome (k : KColoring) (w : Arc → Nat) (a : Option Arc) (c : Nat) :
    Except Fault KColoring :=
  match a with
  | some x => k.checkedColor w x c
  | Option.none => pure k

/-- Method `KColoring::local_swap` with the assertions of the method, of `uncolor` and of
`color` checked: the returned flag and the state afterwards. -/
def KColoring.checkedSwap (k : KColoring) (G : DiGraph) (w : Arc → Nat) (arc : Arc) :
    Except Fault (Bool × KColoring) := do
  check (k.is_colored arc)
  let tl := k.swapTail G w arc
  let hd := k.swapHead G w arc
  if add64 hd.weight tl.weight > w arc then do
    let k1 ← (k.uncolor w arc).checkedColorIfSome w tl.arc (k.arc_colors arc)
    let k2 ← k1.checkedColorIfSome w hd.arc (k.arc_colors arc)
    pure (true, k2)
  else pure (false, k)

/-- The variables that the inner loop of `run()` changes. -/
structure GreedyPass where
  coloring : KColoring
  remaining_arcs : List Arc
  recently_matched : List Arc

/-- The body of the inner loop of `IterativeGreedy::run` and `BatchIterativeGreedy::run` for
the colour `color`; the tests before `coloring.color(arc, color)` are the assertions of
`color`. -/
def greedyStep (w : Arc → Nat) (color : Nat) (st : GreedyPass) (arc : Arc) : GreedyPass :=
  if st.coloring.is_colored arc = true then st
  else if st.coloring.can_color arc color = true then
    ⟨st.coloring.color w arc color, st.remaining_arcs, st.recently_matched ++ [arc]⟩
  else ⟨st.coloring, st.remaining_arcs ++ [arc], st.recently_matched⟩

/-- The loop over `recently_matched`: `swapped |= coloring.local_swap(arc)` in
`IterativeGreedy` (`accumulate`), `swapped = coloring.local_swap(arc)` in
`BatchIterativeGreedy`. -/
def swapAll (accumulate : Bool) (G : DiGraph) (w : Arc → Nat) :
    List Arc → KColoring × Bool → Except Fault (KColoring × Bool)
  | [], st => pure st
  | arc :: rest, st => do
    let r ← st.1.checkedSwap G w arc
    swapAll accumulate G w rest (r.2, if accumulate then st.2 || r.1 else r.1)

/-- The body of the loop over the colours of `run()`: the colouring and the list
`arcs_sorted` (`arcs_vector`) afterwards. -/
def colorRound (local_swaps accumulate : Bool) (G : DiGraph) (w : Arc → Nat)
    (st : KColoring × List Arc) (color : Nat) : Except Fault (KColoring × List Arc) :=
  let p := st.2.foldl (greedyStep w color) ⟨st.1, [], []⟩
  if local_swaps then do
    let r ← swapAll accumulate G w p.recently_matched (p.coloring, false)
    pure (r.1, if r.2 then st.2 else p.remaining_arcs)
  else pure (p.coloring, p.remaining_arcs)

/-- The loop over the colours of `run()`. -/
def colorRounds (local_swaps accumulate : Bool) (G : DiGraph) (w : Arc → Nat) :
    List Nat → KColoring × List Arc → Except Fault (KColoring × List Arc)
  | [], st => pure st
  | color :: rest, st => do
    let st1 ← colorRound local_swaps accumulate G w st color
    colorRounds local_swaps accumulate G w rest st1

/-- Method `IterativeGreedy::run` for the template parameter `local_swaps`. -/
def IterativeGreedy.run (local_swaps : Bool) (k : KColoring) (G : DiGraph) (w : Arc → Nat) :
    Except Fault KColoring := do
  let r ← colorRounds local_swaps true G w (List.range k.reset.num_colors)
    (k.reset, sortByWeight w (G.arcs.filter fun arc => decide (w arc > 0)))
  pure r.1

/-- The members of `BatchIterativeGreedy` next to the graph and the weights. -/
structure BatchIterativeGreedy where
  coloring : KColoring
  update_marker : ArtifactMarker
  arcs_to_process : TimedArtifactSet

/-- The lambda passed to `mapIncidentArcs` in `BatchIterativeGreedy::onPropertyChange`, and
the two statements before the loop: the arc is added to the candidates and uncoloured if it
is coloured. -/
def BatchIterativeGreedy.addStep (w : Arc → Nat) (st : BatchIterativeGreedy) (a : Arc) :
    BatchIterativeGreedy :=
  { st with
    arcs_to_process := st.arcs_to_process.add a
    coloring := if st.coloring.is_colored a = true then st.coloring.uncolor w a
      else st.coloring }

/-- Method `BatchIterativeGreedy::onPropertyChange`; `w` is the weight map, which holds the
new value already. Every call of `uncolor` is guarded by `is_colored`, its assertion. -/
def BatchIterativeGreedy.onPropertyChange (st : BatchIterativeGreedy) (G : DiGraph)
    (w : Arc → Nat) (arc : Arc) (_oldValue newValue : Nat) : BatchIterativeGreedy :=
  let st1 : BatchIterativeGreedy :=
    if newValue = 0 ∧ st.coloring.is_colored arc = true then
      { st with coloring := st.coloring.uncolor w arc }
    else st
  if st1.update_marker.is_marked arc = false then
    [arc.tail, arc.head].foldl
      (fun t endpoint => (G.mapIncidentArcs endpoint).foldl
        (BatchIterativeGreedy.addStep w) t)
      (BatchIterativeGreedy.addStep w st1 arc)
  else st1

/-- Method `BatchIterativeGreedy::run` for the template parameter `local_swaps`: the
candidates are sorted by falling weight and cut at the first one of weight 0. -/
def BatchIterativeGreedy.run (local_swaps : Bool) (st : BatchIterativeGreedy) (G : DiGraph)
    (w : Arc → Nat) : Except Fault BatchIterativeGreedy := do
  let r ← colorRounds local_swaps false G w (List.range st.coloring.num_colors)
    (st.coloring,
      (sortByWeight w st.arcs_to_process.vector).takeWhile fun val => !decide (w val = 0))
  pure ⟨r.1, st.update_marker.next_round, st.arcs_to_process.next_round⟩

/-- Method `BatchIterativeGreedy::reset`. -/
def BatchIterativeGreedy.reset (st : BatchIterativeGreedy) : BatchIterativeGreedy :=
  ⟨st.coloring.reset, st.update_marker.reset, st.arcs_to_process.reset⟩

/-- The invariant of the loop over the colours of `IterativeGreedy::run` without local
swaps, before the round of the colour `c`: the list holds the uncoloured arcs of positive
weight by falling weight, each of them has for every colour below `c` a neighbour of that
colour that is at least as heavy, and only colours below `c` are used. -/
structure GreedyInv (G : DiGraph) (b : Nat) (w : Arc → Nat) (c : Nat) (k : KColoring)
    (arcs : List Arc) : Prop where
  reach : Reachable G b w k
  sorted : arcs.Pairwise fun a a1 => w a1 ≤ w a
  mem : ∀ a ∈ arcs, a ∈ G.arcs ∧ 0 < w a
  all : ∀ x ∈ G.arcs, 0 < w x → k.is_colored x = false → x ∈ arcs
  heavy : ∀ x ∈ arcs, k.is_colored x = false ∧
    ∀ c1, c1 < c → ∃ y ∈ G.arcs, (∃ v, x.incident v ∧ y.incident v) ∧ k.get_color y = c1 ∧
      w x ≤ w y
  colored : ∀ e, k.is_colored e = true → k.arc_colors e < c ∧ 0 < w e

/-- The weights 5, 3, 4 of the triangle with a fourth arc `(w,x)` of weight 0. -/
def pendantWeights : Arc → Nat := fun a =>
  if a.id = 0 then 5 else if a.id = 1 then 3 else if a.id = 2 then 4 else 0

/-- The triangle `u = 0`, `v = 1`, `w = 2` with the pendant arc `(w, x)`, `x = 3`. -/
def pendantGraph : DiGraph := ⟨[⟨0, 0, 1⟩, ⟨1, 1, 2⟩, ⟨2, 0, 2⟩, ⟨3, 2, 3⟩]⟩

/-- The freshly constructed `BatchIterativeGreedy` with `b` colours after `reset()`. -/
def BatchIterativeGreedy.initial (b : Nat) : BatchIterativeGreedy :=
  ⟨(KColoring.initial b).reset, ⟨fun _ => -1, 0⟩, TimedArtifactSet.initial⟩

/-- Modelled from the spec: the weight map reports the change of the weight of `arc` to
`newValue` first to `KColoring::onEdgeWeightChange` of the colouring, which subscribed
first, and then to the handler of the algorithm (the graph library that calls the observers
is not part of the sources); `w` is the weight map before the change. -/
def BatchIterativeGreedy.weightChange (st : BatchIterativeGreedy) (G : DiGraph)
    (w : Arc → Nat) (arc : Arc) (newValue : Nat) : BatchIterativeGreedy :=
  BatchIterativeGreedy.onPropertyChange
    { st with coloring := st.coloring.onEdgeWeightChange arc (w arc) newValue }
    G (Function.update w arc newValue) arc (w arc) newValue

/-- The triangle `x = 0`, `v = 1`, `y = 2` with both arcs `(x,y)` and `(y,x)`. -/
def antiparallelGraph : DiGraph := ⟨[⟨0, 0, 2⟩, ⟨1, 2, 0⟩, ⟨2, 0, 1⟩, ⟨3, 1, 2⟩]⟩

/-- Three colours on `antiparallelGraph`: `(y,x)` has colour 2, `(x,v)` colour 1, `(v,y)`
colour 0, and `(x,y)` is uncoloured. -/
def antiparallelColoring : Coloring :=
  thenColor (fun _ => 1) (freshColoring 3) [(⟨1, 2, 0⟩, 2), (⟨2, 0, 1⟩, 1), (⟨3, 1, 2⟩, 0)]

/-- The star `(x,y)`, `(x,z)`, `(x,u)` at `x = 0` (`y = 1`, `z = 2`, `u = 3`) with the
pendant arcs `(y,4)`, `(y,5)`, `(z,6)`, `(u,7)`. -/
def vizingGraph : DiGraph :=
  ⟨[⟨0, 0, 1⟩, ⟨1, 0, 2⟩, ⟨2, 0, 3⟩, ⟨3, 1, 4⟩, ⟨4, 1, 5⟩, ⟨5, 2, 6⟩, ⟨6, 3, 7⟩]⟩

/-- The weight of an arc of `vizingGraph`: its id plus 1. -/
def vizingWeights : Arc → Nat := fun a => a.id + 1

/-- Three colours on `vizingGraph`: `(x,z)` has colour 1, `(x,u)` colour 2, the pendant arcs
have the colours 0, 2, 0, 0, and `(x,y)` is uncoloured. Colour 0 is free at `x`, colour 1 at
`y` and at `u`, colour 2 at `z`. -/
def vizingColoring : Coloring :=
  thenColor vizingWeights (freshColoring 3)
    [(⟨1, 0, 2⟩, 1), (⟨2, 0, 3⟩, 2), (⟨3, 1, 4⟩, 0), (⟨4, 1, 5⟩, 2), (⟨5, 2, 6⟩, 0),
      (⟨6, 3, 7⟩, 0)]

/-- The result of `color_edge`, the pair `d` after a fault. -/
def okOrStep (r : Except Fault (Nat × Coloring)) (d : Nat × Coloring) : Nat × Coloring :=
  match r with
  | Except.ok s => s
  | Except.error _ => d

/-- One colour on the path `0 - 1 - 2 - 3` with the weights 4, 1, 5, the lightest arc
`(1,2)` coloured. -/
def pathMiddle : Coloring :=
  thenColor pathWeights (freshColoring 1) [(⟨1, 1, 2⟩, 0)]

/-- The result of `attempt_match`, the pair `d` after a fault. -/
def okOrMatch (r : Except Fault (Bool × Coloring)) (d : Bool × Coloring) : Bool × Coloring :=
  match r with
  | Except.ok s => s
  | Except.error _ => d

/-- The weights 1, 5, 1 on the arcs of the path `0 - 1 - 2 - 3`. -/
def heavyMiddle : Arc → Nat := fun a =>
  if a.id = 0 then 1 else if a.id = 1 then 5 else if a.id = 2 then 1 else 0

/-- The weights 1, 2, 1: `heavyMiddle` after the weight of `(1,2)` fell from 5 to 2. -/
def heavyMiddleLowered : Arc → Nat := Function.update heavyMiddle ⟨1, 1, 2⟩ 2

/-- One colour on the path `0 - 1 - 2 - 3` with the weights 1, 5, 1, the arc `(1,2)`
coloured. -/
def heavyMiddleColoring : Coloring :=
  thenColor heavyMiddle (freshColoring 1) [(⟨1, 1, 2⟩, 0)]

/-- A DYNAMIC instance of `KEdgeColoring_2` on `heavyMiddleColoring` whose filter lets
every update through, without common colours, long rotation and post-processing. -/
def decreaseInstance : KEdgeColoring_2 :=
  { middleEdgeColoring k_edge_coloring_algo_type.DYNAMIC false with
    coloring := heavyMiddleColoring }

/-- The instance `decreaseInstance` after the colouring was told that the weight of `(1,2)`
fell from 5 to 2: the state in which the handler of the algorithm runs. -/
def decreaseObserved : KEdgeColoring_2 :=
  { decreaseInstance with
    coloring := { heavyMiddleColoring with
      base := heavyMiddleColoring.base.onEdgeWeightChange ⟨1, 1, 2⟩ 5 2 } }

/-- A STATIC instance of `KEdgeColoring_2` with three colours, common colours and
post-processing, freshly configured. -/
def staticInstance : KEdgeColoring_2 :=
  { middleEdgeColoring k_edge_coloring_algo_type.STATIC false with
    common_color := true
    post_process := true
    coloring := freshColoring 3 }

/-- The colouring with 64 colours and empty free-colour sets: what `set_num_matchings(64)`
leaves where the undefined shift `one << 64` yields `one` (the count of a 64-bit shift
taken modulo 64, as on x86-64), so that `all_bits = (one << 64) - 1 = 0`. -/
def emptyWordColoring : Coloring :=
  ⟨(Coloring.initial.base.setNumColors 64).reset,
    (Coloring.initial.am.setNumColors_impl 64).reset_impl,
    ⟨⟨0, 0, 64⟩, fun _ => ⟨0, 0, 64⟩⟩⟩

/-- An instance of `KEdgeColoring_2` in STATIC mode with common colours on
`emptyWordColoring`, with or without post-processing. -/
def wordWidthStatic (post_process : Bool) : KEdgeColoring_2 :=
  { staticInstance with
    post_process := post_process
    coloring := emptyWordColoring }

/-- The weights 5, 0 and `2 ^ 64 - 2` on the arcs of the path `0 - 1 - 2 - 3`. -/
def wrapWeights : Arc → Nat := fun a =>
  if a.id = 0 then 5 else if a.id = 2 then 2 ^ 64 - 2 else 0

/-- One colour on the path with the weights `wrapWeights` after `color((2,3), 0)`. -/
def wrapColoring : Coloring :=
  thenColor wrapWeights (freshColoring 1) [(⟨2, 2, 3⟩, 0)]

theorem shl_one_of_lt {i : Nat} (h : i < 64) : shl 1 i = some (2 ^ i) := by
  have h2 : 2 ^ i < 2 ^ 64 := Nat.pow_lt_pow_right (by decide) h
  unfold shl
  rw [if_pos h, one_mul, Nat.mod_eq_of_lt h2]

theorem and_two_pow_ne_zero (x i : Nat) : (x &&& 2 ^ i ≠ 0) ↔ x.testBit i = true := by
  constructor
  · intro h
    obtain ⟨j, hj⟩ := Nat.ne_zero_implies_bit_true h
    rw [Nat.testBit_and, Nat.testBit_two_pow] at hj
    simp only [Bool.and_eq_true, decide_eq_true_eq] at hj
    obtain ⟨h1, h2⟩ := hj
    subst h2
    exact h1
  · intro h h0
    have : (x &&& 2 ^ i).testBit i = true := by
      rw [Nat.testBit_and, Nat.testBit_two_pow_self, h]; rfl
    rw [h0] at this
    simp at this

theorem test_of_lt (s : color_set) {i : Nat} (h : i < 64) :
    s.test i = some (s.bits.testBit i) := by
  unfold color_set.test
  rw [shl_one_of_lt h]
  simp only [Option.map_some', Option.some.injEq]
  by_cases hb : s.bits.testBit i = true
  · rw [hb]; exact decide_eq_true ((and_two_pow_ne_zero _ _).2 hb)
  · have hb2 : s.bits.testBit i = false := by simpa using hb
    rw [hb2]
    exact decide_eq_false (fun hne => hb ((and_two_pow_ne_zero _ _).1 hne))

theorem lowestBitFrom_spec (b : Nat) :
    ∀ (n i : Nat), (∃ j, i ≤ j ∧ j < i + n ∧ b.testBit j = true) →
      ∃ r, lowestBitFrom b n i = some r ∧ i ≤ r ∧ r < i + n ∧ b.testBit r = true ∧
        ∀ j, i ≤ j → j < r → b.testBit j = false := by
  intro n
  induction n with
  | zero =>
    intro i ⟨j, h1, h2, _⟩
    omega
  | succ n ih =>
    intro i ⟨j, h1, h2, h3⟩
    by_cases hi : b.testBit i = true
    · refine ⟨i, ?_, le_refl _, by omega, hi, ?_⟩
      · simp [lowestBitFrom, hi]
      · intro j hj1 hj2; omega
    · have hi2 : b.testBit i = false := by simpa using hi
      have hne : j ≠ i := by
        intro e; subst e; exact hi h3
      obtain ⟨r, hr1, hr2, hr3, hr4, hr5⟩ := ih (i + 1) ⟨j, by omega, by omega, h3⟩
      refine ⟨r, ?_, by omega, by omega, hr4, ?_⟩
      · simp [lowestBitFrom, hi2, hr1]
      · intro k hk1 hk2
        by_cases hk : k = i
        · subst hk; exact hi2
        · exact hr5 k (by omega) hk2

theorem exists_testBit_lt {x : Nat} (h0 : x ≠ 0) (hx : x < 2 ^ 64) :
    ∃ j, j < 64 ∧ x.testBit j = true := by
  obtain ⟨j, hj⟩ := Nat.ne_zero_implies_bit_true h0
  refine ⟨j, ?_, hj⟩
  by_contra hge
  have hlt : x < 2 ^ j :=
    lt_of_lt_of_le hx (Nat.pow_le_pow_right (by decide) (by omega))
  rw [Nat.testBit_lt_two_pow hlt] at hj
  exact Bool.false_ne_true hj

theorem lowestBit_spec {x : Nat} (h0 : x ≠ 0) (hx : x < 2 ^ 64) :
    ∃ r, lowestBit x = some r ∧ r < 64 ∧ x.testBit r = true ∧
      ∀ j, j < r → x.testBit j = false := by
  obtain ⟨j, hj1, hj2⟩ := exists_testBit_lt h0 hx
  obtain ⟨r, hr1, _, hr3, hr4, hr5⟩ :=
    lowestBitFrom_spec x 64 0 ⟨j, Nat.zero_le _, by omega, hj2⟩
  exact ⟨r, hr1, by omega, hr4, fun k hk => hr5 k (Nat.zero_le _) hk⟩

theorem setOn_of_lt (s : color_set) {i : Nat} (h : i < 64) :
    s.setOn i = some { s with bits := s.bits ||| 2 ^ i } := by
  unfold color_set.setOn
  rw [shl_one_of_lt h]
  rfl

theorem setOff_of_lt (s : color_set) {i : Nat} (h : i < 64) :
    s.setOff i = some { s with bits := s.bits ^^^ 2 ^ i } := by
  unfold color_set.setOff
  rw [shl_one_of_lt h]
  rfl

/-- Effect of `setOn` on every bit test below the word width. -/
theorem setOn_test (s : color_set) {i j : Nat} (hi : i < 64) (hj : j < 64) :
    ∃ t, s.setOn i = some t ∧ t.bit_size = s.bit_size ∧ t.all_bits = s.all_bits ∧
      t.test j = some (if j = i then true else s.bits.testBit j) := by
  refine ⟨_, setOn_of_lt s hi, rfl, rfl, ?_⟩
  rw [test_of_lt _ hj]
  simp only [Nat.testBit_or, Nat.testBit_two_pow]
  by_cases hji : j = i
  · subst hji; simp
  · have hij : ¬ i = j := fun e => hji e.symm
    simp [hji, hij]

/-- Effect of `setOff` on every bit test below the word width: bit `i` is toggled. -/
theorem setOff_test (s : color_set) {i j : Nat} (hi : i < 64) (hj : j < 64) :
    ∃ t, s.setOff i = some t ∧ t.bit_size = s.bit_size ∧ t.all_bits = s.all_bits ∧
      t.test j = some (if j = i then !s.bits.testBit j else s.bits.testBit j) := by
  refine ⟨_, setOff_of_lt s hi, rfl, rfl, ?_⟩
  rw [test_of_lt _ hj]
  simp only [Nat.testBit_xor, Nat.testBit_two_pow]
  by_cases hji : j = i
  · subst hji; simp
  · have hij : ¬ i = j := fun e => hji e.symm
    simp [hji, hij]

theorem new_of_lt {size : Nat} (h : size < 64) :
    color_set.new size = some ⟨2 ^ size - 1, 2 ^ size - 1, size⟩ := by
  have h2 : 2 ^ size < 2 ^ 64 := Nat.pow_lt_pow_right (by decide) h
  have h1 : 0 < 2 ^ size := Nat.pow_pos (by decide)
  have e : (2 ^ size + 2 ^ 64 - 1) % 2 ^ 64 = 2 ^ size - 1 := by
    have : 2 ^ size + 2 ^ 64 - 1 = (2 ^ size - 1) + 2 ^ 64 := by omega
    rw [this, Nat.add_mod_right]
    exact Nat.mod_eq_of_lt (by omega)
  unfold color_set.new
  rw [shl_one_of_lt h]
  simp only [Option.map_some', e]

theorem count_loop (bits : Nat) :
    ∀ k, k ≤ 64 →
      (List.range k).foldlM
        (fun cnt i => (shl 1 i).map fun m => cnt + (if bits &&& m ≠ 0 then 1 else 0)) 0
      = some ((List.range k).filter fun i => bits.testBit i).length := by
  intro k
  induction k with
  | zero => intro _; rfl
  | succ k ih =>
    intro hk
    rw [List.range_succ, List.foldlM_append, ih (by omega), List.filter_append,
      List.length_append]
    have hk2 : k < 64 := by omega
    simp only [Option.some_bind, List.foldlM_cons, List.foldlM_nil, shl_one_of_lt hk2,
      Option.map_some', Option.bind_eq_bind, Option.pure_def]
    by_cases hb : bits.testBit k = true
    · have : bits &&& 2 ^ k ≠ 0 := (and_two_pow_ne_zero _ _).2 hb
      simp [hb, this]
    · have hb2 : bits.testBit k = false := by simpa using hb
      have : ¬ (bits &&& 2 ^ k ≠ 0) := fun hne => hb ((and_two_pow_ne_zero _ _).1 hne)
      simp [hb2, this]

/-- For every size below the word width the constructor is defined and yields exactly the
bits `0 .. size - 1`: `count() = size`, `all()` holds, `find_first()` is `0` for a positive
size and `npos` for size `0`. -/
theorem new_spec {size : Nat} (h : size < 64) :
    ∃ s, color_set.new size = some s ∧ s.size = size ∧
      (∀ i, i < 64 → s.test i = some (decide (i < size))) ∧
      s.count = some size ∧ s.all = true ∧
      s.find_first = some (if 0 < size then 0 else npos) := by
  refine ⟨_, new_of_lt h, rfl, ?_, ?_, ?_, ?_⟩
  · intro i hi
    rw [test_of_lt _ hi]
    simp
  · unfold color_set.count
    simp only
    rw [count_loop _ size (by omega)]
    congr 1
    have : ((List.range size).filter fun i => (2 ^ size - 1).testBit i) = List.range size := by
      apply List.filter_eq_self.2
      intro a ha
      simp [List.mem_range.1 ha]
    rw [this, List.length_range]
  · simp [color_set.all]
  · unfold color_set.find_first
    simp only
    by_cases hs : 0 < size
    · have h1 : 2 ≤ 2 ^ size := by
        calc 2 = 2 ^ 1 := rfl
          _ ≤ 2 ^ size := Nat.pow_le_pow_right (by decide) hs
      have h0 : 2 ^ size - 1 ≠ 0 := by omega
      have hx : 2 ^ size - 1 < 2 ^ 64 := by
        have : 2 ^ size < 2 ^ 64 := Nat.pow_lt_pow_right (by decide) h
        omega
      obtain ⟨r, hr1, _, _, hr4⟩ := lowestBit_spec h0 hx
      have hr0 : r = 0 := by
        by_contra hne
        have := hr4 0 (by omega)
        simp [hs] at this
      rw [if_neg h0, hr1, hr0, if_pos hs]
    · have : size = 0 := by omega
      subst this
      simp

theorem testBit_lt_width {x i : Nat} (hx : x < 2 ^ 64) (h : x.testBit i = true) : i < 64 := by
  by_contra hge
  have hlt : x < 2 ^ i :=
    lt_of_lt_of_le hx (Nat.pow_le_pow_right (by decide) (by omega))
  rw [Nat.testBit_lt_two_pow hlt] at h
  exact Bool.false_ne_true h

theorem test_eq_true_iff (s : color_set) {i : Nat} (h : i < 64) :
    s.test i = some true ↔ s.bits.testBit i = true := by
  rw [test_of_lt s h]; simp

theorem test_eq_false_iff (s : color_set) {i : Nat} (h : i < 64) :
    s.test i = some false ↔ s.bits.testBit i = false := by
  rw [test_of_lt s h]; simp

theorem find_first_spec (s : color_set) (hb : s.bits < 2 ^ 64) :
    ((∀ i, i < 64 → s.test i = some false) → s.find_first = some npos) ∧
    (∀ i, i < 64 → s.test i = some true →
      ∃ r, s.find_first = some r ∧ r ≤ i ∧ s.test r = some true ∧
        ∀ j, j < r → s.test j = some false) := by
  constructor
  · intro hall
    have h0 : s.bits = 0 := by
      by_contra hne
      obtain ⟨j, hj1, hj2⟩ := exists_testBit_lt hne hb
      have := (test_eq_false_iff s hj1).1 (hall j hj1)
      rw [this] at hj2
      exact Bool.false_ne_true hj2
    simp [color_set.find_first, h0]
  · intro i hi hset
    have hbit := (test_eq_true_iff s hi).1 hset
    have h0 : s.bits ≠ 0 := by
      intro e
      rw [e] at hbit
      simp at hbit
    obtain ⟨r, hr1, hr2, hr3, hr4⟩ := lowestBit_spec h0 hb
    refine ⟨r, ?_, ?_, (test_eq_true_iff s hr2).2 hr3, ?_⟩
    · simp [color_set.find_first, h0, hr1]
    · by_contra hlt
      have := hr4 i (by omega)
      rw [this] at hbit
      exact Bool.false_ne_true hbit
    · intro j hj
      exact (test_eq_false_iff s (by omega)).2 (hr4 j hj)

theorem find_next_spec (s : color_set) (hb : s.bits < 2 ^ 64) {pos : Nat} (hp : pos < 64) :
    ((∀ j, pos ≤ j → j < 64 → s.test j = some false) → s.find_next pos = some npos) ∧
    (∀ i, pos ≤ i → i < 64 → s.test i = some true →
      ∃ r, s.find_next pos = some r ∧ pos ≤ r ∧ r ≤ i ∧ s.test r = some true ∧
        ∀ j, pos ≤ j → j < r → s.test j = some false) := by
  have hshr : shr s.bits pos = some (s.bits >>> pos) := by
    simp [shr, hp, Nat.shiftRight_eq_div_pow]
  have hlt : s.bits >>> pos < 2 ^ 64 := by
    rw [Nat.shiftRight_eq_div_pow]
    exact lt_of_le_of_lt (Nat.div_le_self _ _) hb
  constructor
  · intro hall
    have h0 : s.bits >>> pos = 0 := by
      by_contra hne
      obtain ⟨j, _, hj2⟩ := exists_testBit_lt hne hlt
      rw [Nat.testBit_shiftRight] at hj2
      have hj3 : pos + j < 64 := testBit_lt_width hb hj2
      have := (test_eq_false_iff s hj3).1 (hall (pos + j) (by omega) hj3)
      rw [this] at hj2
      exact Bool.false_ne_true hj2
    simp [color_set.find_next, hshr, h0]
  · intro i hpi hi hset
    have hbit := (test_eq_true_iff s hi).1 hset
    have h0 : s.bits >>> pos ≠ 0 := by
      intro e
      have h1 : (s.bits >>> pos).testBit (i - pos) = true := by
        rw [Nat.testBit_shiftRight]
        have : pos + (i - pos) = i := by omega
        rw [this]; exact hbit
      rw [e] at h1
      simp at h1
    obtain ⟨r, hr1, _, hr3, hr4⟩ := lowestBit_spec h0 hlt
    rw [Nat.testBit_shiftRight] at hr3
    have hr5 : pos + r < 64 := testBit_lt_width hb hr3
    have hmod : (r + pos) % 2 ^ 32 = pos + r := by
      rw [Nat.add_comm]
      exact Nat.mod_eq_of_lt (by omega)
    refine ⟨pos + r, ?_, by omega, ?_, (test_eq_true_iff s hr5).2 hr3, ?_⟩
    · simp only [color_set.find_next, hshr, Option.some_bind, if_neg h0, hr1,
        Option.map_some', hmod]
    · by_contra hgt
      have h1 := hr4 (i - pos) (by omega)
      rw [Nat.testBit_shiftRight] at h1
      have : pos + (i - pos) = i := by omega
      rw [this, hbit] at h1
      exact Bool.false_ne_true h1.symm
    · intro j hj1 hj2
      have h1 := hr4 (j - pos) (by omega)
      rw [Nat.testBit_shiftRight] at h1
      have : pos + (j - pos) = j := by omega
      rw [this] at h1
      exact (test_eq_false_iff s (by omega)).2 h1

theorem check_ok {b : Bool} {u : Unit} : check b = Except.ok u ↔ b = true := by
  cases b <;> simp [check]

theorem defined_ok {α : Type} {o : Option α} {x : α} :
    defined o = Except.ok x ↔ o = some x := by
  cases o <;> simp [defined]

theorem bind_ok {α β : Type} {x : Except Fault α} {f : α → Except Fault β} {y : β} :
    (x >>= f) = Except.ok y ↔ ∃ a, x = Except.ok a ∧ f a = Except.ok y := by
  cases x with
  | error e => simp [bind, Except.bind]
  | ok a => simp [bind, Except.bind]

theorem common_colors_of_size {a b : color_set} (h : a.size = b.size) :
    color_set.common_colors a b
      = Except.ok ⟨a.bits &&& b.bits, a.all_bits, a.bit_size⟩ := by
  unfold color_set.common_colors color_set.and check
  rw [if_pos (beq_iff_eq.2 h)]
  rfl

theorem common_colors_of_size_ne {a b : color_set} (h : a.size ≠ b.size) :
    color_set.common_colors a b = Except.error Fault.assertion := by
  unfold color_set.common_colors color_set.and check
  rw [if_neg (fun q => h (beq_iff_eq.1 q))]
  rfl

theorem common_colors_test (a b : color_set) (hs : a.size = b.size) :
    ∃ r, color_set.common_colors a b = Except.ok r ∧ r.size = a.size ∧
      ∀ i, i < 64 →
        (r.test i = some true ↔ a.test i = some true ∧ b.test i = some true) := by
  refine ⟨_, common_colors_of_size hs, rfl, fun i h => ?_⟩
  rw [test_eq_true_iff _ h, test_eq_true_iff _ h, test_eq_true_iff _ h]
  simp

theorem common_free_color_of_size {fc : FreeColorsExtension} {v1 v2 : Nat}
    (h : (fc.free_colors v1).size = (fc.free_colors v2).size) :
    fc.common_free_color v1 v2 = defined (commonSet fc v1 v2).find_first := by
  unfold FreeColorsExtension.common_free_color
  rw [common_colors_of_size h]
  rfl

theorem setOff_size {s t : color_set} {i : Nat} (h : s.setOff i = some t) :
    t.size = s.size := by
  unfold color_set.setOff at h
  cases hs : shl 1 i with
  | none => rw [hs] at h; exact Option.noConfusion h
  | some m =>
    rw [hs] at h
    simp only [Option.map_some', Option.some.injEq] at h
    subst h
    rfl

theorem setOn_size {s t : color_set} {i : Nat} (h : s.setOn i = some t) :
    t.size = s.size := by
  unfold color_set.setOn at h
  cases hs : shl 1 i with
  | none => rw [hs] at h; exact Option.noConfusion h
  | some m =>
    rw [hs] at h
    simp only [Option.map_some', Option.some.injEq] at h
    subst h
    rfl

theorem color_impl_size {fc fc1 : FreeColorsExtension} {a : Arc} {c : Nat}
    (h : fc.color_impl a c = some fc1) (v : Nat) :
    (fc1.free_colors v).size = (fc.free_colors v).size := by
  unfold FreeColorsExtension.color_impl at h
  cases h1 : (fc.free_colors a.tail).setOff c with
  | none => rw [h1] at h; exact Option.noConfusion h
  | some s1 =>
    rw [h1] at h
    simp only [Option.some_bind] at h
    cases h2 : (Function.update fc.free_colors a.tail s1 a.head).setOff c with
    | none => rw [h2] at h; exact Option.noConfusion h
    | some s2 =>
      rw [h2] at h
      simp only [Option.map_some', Option.some.injEq] at h
      subst h
      have e1 := setOff_size h1
      have e2 := setOff_size h2
      simp only [Function.update_apply] at e2 ⊢
      by_cases hv : v = a.head
      · subst hv
        rw [if_pos rfl, e2]
        split
        · rename_i ht
          rw [e1, ht]
        · rfl
      · rw [if_neg hv]
        by_cases hv2 : v = a.tail
        · subst hv2
          rw [if_pos rfl, e1]
        · rw [if_neg hv2]

theorem uncolor_impl_size {fc fc1 : FreeColorsExtension} {a : Arc} {c : Nat}
    (h : fc.uncolor_impl a c = some fc1) (v : Nat) :
    (fc1.free_colors v).size = (fc.free_colors v).size := by
  unfold FreeColorsExtension.uncolor_impl at h
  cases h1 : (fc.free_colors a.tail).setOn c with
  | none => rw [h1] at h; exact Option.noConfusion h
  | some s1 =>
    rw [h1] at h
    simp only [Option.some_bind] at h
    cases h2 : (Function.update fc.free_colors a.tail s1 a.head).setOn c with
    | none => rw [h2] at h; exact Option.noConfusion h
    | some s2 =>
      rw [h2] at h
      simp only [Option.map_some', Option.some.injEq] at h
      subst h
      have e1 := setOn_size h1
      have e2 := setOn_size h2
      simp only [Function.update_apply] at e2 ⊢
      by_cases hv : v = a.head
      · subst hv
        rw [if_pos rfl, e2]
        split
        · rename_i ht
          rw [e1, ht]
        · rfl
      · rw [if_neg hv]
        by_cases hv2 : v = a.tail
        · subst hv2
          rw [if_pos rfl, e1]
        · rw [if_neg hv2]

/-! ### Claims on the colour set -/

/-- C8, evaluation of the code: `setOff` computes `bits ^ (one << i)`. On the set of size 1
whose bit 0 is already off (reached from `color_set(1)` by one `setOff(0)`) the call
`setOff(0)` turns bit 0 on again, so the bit test `s[0]` is true afterwards. -/
theorem C8_setOff_on_cleared_bit :
    (⟨0, 1, 1⟩ : color_set).setOff 0 = some ⟨1, 1, 1⟩ ∧
    (⟨1, 1, 1⟩ : color_set).test 0 = some true ∧
    ((color_set.new 1).bind fun s => (s.setOff 0).bind fun t => t.setOff 0)
      = some ⟨1, 1, 1⟩ := by
  decide

/-- C9, evaluation of the code: for size 64 the constructor evaluates `one << 64`, a shift
of a 64-bit word by its full width, which has no defined result. -/
theorem C9_new_at_word_width : color_set.new 64 = Option.none := by
  decide

/-- C10: on a set whose word fits 64 bits and whose size is at most 64, `find_first`
returns the lowest index whose bit test is true and `npos` when every bit test is false;
`find_next(pos)` with `pos < size` returns the lowest index `≥ pos` whose bit test is true
and `npos` when there is none; for every set `t` of the same size, the one case in which
the assertion `a.size() == b.size()` of `operator&` holds, `common_colors(s, t)` returns a
set of that size whose bit `i` is set iff it is set in both `s` and `t`. -/
theorem C10_search (s : color_set) (hb : s.bits < 2 ^ 64) (hs : s.bit_size ≤ 64) :
    ((∀ i, i < 64 → s.test i = some false) → s.find_first = some npos) ∧
    (∀ i, i < 64 → s.test i = some true →
      ∃ r, s.find_first = some r ∧ r ≤ i ∧ s.test r = some true ∧
        ∀ j, j < r → s.test j = some false) ∧
    (∀ pos, pos < s.bit_size →
      ((∀ j, pos ≤ j → j < 64 → s.test j = some false) → s.find_next pos = some npos) ∧
      (∀ i, pos ≤ i → i < 64 → s.test i = some true →
        ∃ r, s.find_next pos = some r ∧ pos ≤ r ∧ r ≤ i ∧ s.test r = some true ∧
          ∀ j, pos ≤ j → j < r → s.test j = some false)) ∧
    (∀ t, s.size = t.size →
      ∃ r, color_set.common_colors s t = Except.ok r ∧ r.size = s.size ∧
        ∀ i, i < 64 →
          (r.test i = some true ↔ s.test i = some true ∧ t.test i = some true)) :=
  ⟨(find_first_spec s hb).1, (find_first_spec s hb).2,
    fun _ hp => find_next_spec s hb (lt_of_lt_of_le hp hs),
    fun t ht => common_colors_test s t ht⟩

/-- C10 at the set `{1, 3}` of size 4; with the set `{2, 3}` of size 4 the common colours
are `{3}`. -/
theorem C10_search_witness :
    ((∀ i, i < 64 → (⟨10, 15, 4⟩ : color_set).test i = some false) →
      (⟨10, 15, 4⟩ : color_set).find_first = some npos) ∧
    (∀ i, i < 64 → (⟨10, 15, 4⟩ : color_set).test i = some true →
      ∃ r, (⟨10, 15, 4⟩ : color_set).find_first = some r ∧ r ≤ i ∧
        (⟨10, 15, 4⟩ : color_set).test r = some true ∧
        ∀ j, j < r → (⟨10, 15, 4⟩ : color_set).test j = some false) ∧
    (∀ pos, pos < (⟨10, 15, 4⟩ : color_set).bit_size →
      ((∀ j, pos ≤ j → j < 64 → (⟨10, 15, 4⟩ : color_set).test j = some false) →
        (⟨10, 15, 4⟩ : color_set).find_next pos = some npos) ∧
      (∀ i, pos ≤ i → i < 64 → (⟨10, 15, 4⟩ : color_set).test i = some true →
        ∃ r, (⟨10, 15, 4⟩ : color_set).find_next pos = some r ∧ pos ≤ r ∧ r ≤ i ∧
          (⟨10, 15, 4⟩ : color_set).test r = some true ∧
          ∀ j, pos ≤ j → j < r → (⟨10, 15, 4⟩ : color_set).test j = some false)) ∧
    (∀ t, (⟨10, 15, 4⟩ : color_set).size = t.size →
      ∃ r, color_set.common_colors (⟨10, 15, 4⟩ : color_set) t = Except.ok r ∧
        r.size = (⟨10, 15, 4⟩ : color_set).size ∧
        ∀ i, i < 64 →
          (r.test i = some true ↔
            (⟨10, 15, 4⟩ : color_set).test i = some true ∧ t.test i = some true)) ∧
    (⟨10, 15, 4⟩ : color_set).find_first = some 1 ∧
    (⟨10, 15, 4⟩ : color_set).find_next 2 = some 3 ∧
    color_set.common_colors ⟨10, 15, 4⟩ ⟨12, 15, 4⟩ = Except.ok ⟨8, 15, 4⟩ :=
  ⟨(C10_search ⟨10, 15, 4⟩ (by decide) (by decide)).1,
    (C10_search ⟨10, 15, 4⟩ (by decide) (by decide)).2.1,
    (C10_search ⟨10, 15, 4⟩ (by decide) (by decide)).2.2.1,
    (C10_search ⟨10, 15, 4⟩ (by decide) (by decide)).2.2.2, by decide, by decide, rfl⟩

/-! ### The vector of per-colour maps -/

theorem tableSet_length {α : Type} (t : List (Nat → Option α)) :
    ∀ c v x, (tableSet t c v x).length = t.length := by
  induction t with
  | nil => intro c v x; rfl
  | cons m t ih =>
    intro c v x
    cases c with
    | zero => rfl
    | succ c => simp [tableSet, ih]

theorem tableGet_tableSet {α : Type} (t : List (Nat → Option α)) :
    ∀ c v x c1 v1, tableGet (tableSet t c v x) c1 v1 =
      if c1 = c ∧ v1 = v ∧ c < t.length then x else tableGet t c1 v1 := by
  induction t with
  | nil => intro c v x c1 v1; simp [tableSet, tableGet]
  | cons m t ih =>
    intro c v x c1 v1
    cases c with
    | zero =>
      cases c1 with
      | zero =>
        by_cases hv : v1 = v
        · subst hv; simp [tableSet, tableGet]
        · simp [tableSet, tableGet, Function.update_noteq hv, hv]
      | succ c1 => simp [tableSet, tableGet]
    | succ c =>
      cases c1 with
      | zero => simp [tableSet, tableGet]
      | succ c1 => simp [tableSet, tableGet, ih]

theorem tableGet_map_none {α : Type} (t : List (Nat → Option α)) :
    ∀ c v, tableGet (t.map fun _ => fun _ => (Option.none : Option α)) c v = Option.none := by
  induction t with
  | nil => intro c v; rfl
  | cons m t ih =>
    intro c v
    cases c with
    | zero => rfl
    | succ c => simpa [tableGet] using ih c v

theorem resize_length {α : Type} (t : List α) (n : Nat) (d : α) :
    (resize t n d).length = n := by
  simp [resize]
  omega

/-- Reading the mate table after `color`. -/
theorem mates_color (k : KColoring) (w : Arc → Nat) (a : Arc) (c c1 v : Nat)
    (hc : c < k.mates_by_color.length) :
    tableGet (k.color w a c).mates_by_color c1 v =
      if c1 = c ∧ v = a.tail then some a.head
      else if c1 = c ∧ v = a.head then some a.tail
      else tableGet k.mates_by_color c1 v := by
  simp only [KColoring.color, tableGet_tableSet, tableSet_length, hc, and_true]

/-- Reading the mate table after `uncolor`. -/
theorem mates_uncolor (k : KColoring) (w : Arc → Nat) (a : Arc) (c1 v : Nat)
    (hc : k.arc_colors a < k.mates_by_color.length) :
    tableGet (k.uncolor w a).mates_by_color c1 v =
      if c1 = k.arc_colors a ∧ (v = a.tail ∨ v = a.head) then Option.none
      else tableGet k.mates_by_color c1 v := by
  simp only [KColoring.uncolor, tableGet_tableSet, tableSet_length, hc, and_true]
  by_cases h1 : c1 = k.arc_colors a <;> by_cases h2 : v = a.tail <;>
    by_cases h3 : v = a.head <;> simp [h1, h2, h3]

theorem is_color_free_iff (k : KColoring) (v c : Nat) (hc : c ≠ UNCOLORED) :
    k.is_color_free v c = true ↔ tableGet k.mates_by_color c v = Option.none := by
  simp [KColoring.is_color_free, hc]

/-! ### Consistency is preserved by every valid operation -/

theorem lt_ne_UNCOLORED {b c : Nat} (hb : b ≤ UNCOLORED) (hc : c < b) : c ≠ UNCOLORED :=
  Nat.ne_of_lt (lt_of_lt_of_le hc hb)

theorem Consistent.uncolored_eq {G : DiGraph} {b : Nat} {k : KColoring}
    (hk : Consistent G b k) {a : Arc} (h : k.is_colored a = false) :
    k.arc_colors a = UNCOLORED := by
  rcases hk.rng a with h1 | h1
  · have : k.is_colored a = true := by
      simp [KColoring.is_colored, hk.nc, h1]
    rw [h] at this
    exact absurd this (by decide)
  · exact h1

theorem Consistent.colored_lt {G : DiGraph} {b : Nat} {k : KColoring}
    (hk : Consistent G b k) {a : Arc} (h : k.is_colored a = true) :
    k.arc_colors a < b := by
  have := of_decide_eq_true h
  rw [hk.nc] at this
  exact this

theorem Consistent.of_reset (G : DiGraph) {b : Nat} (hb : b ≤ UNCOLORED) (k0 : KColoring)
    (h0 : k0.num_colors = b) : Consistent G b k0.reset where
  nc := h0
  len := by simp [KColoring.reset, resize_length, h0]
  rng := fun _ => Or.inr rfl
  mate_of_arc := by
    intro a _ hlt
    exact absurd (lt_of_lt_of_le hlt hb) (lt_irrefl _)
  arc_of_mate := by
    intro c v u _ hget
    simp only [KColoring.reset] at hget
    rw [tableGet_map_none] at hget
    exact absurd hget (by simp)
  proper := by
    intro a1 _ a2 _ v _ _ hlt _
    exact absurd (lt_of_lt_of_le hlt hb) (lt_irrefl _)

theorem Consistent.color {G : DiGraph} {b : Nat} {k : KColoring} (hk : Consistent G b k)
    (hb : b ≤ UNCOLORED) (w : Arc → Nat) {a : Arc} {c : Nat} (ha : a ∈ G.arcs)
    (hun : k.is_colored a = false) (hc : c < b)
    (ht : k.is_color_free a.tail c = true) (hh : k.is_color_free a.head c = true) :
    Consistent G b (k.color w a c) := by
  have hlen : c < k.mates_by_color.length := by rw [hk.len]; exact hc
  have hcU : c ≠ UNCOLORED := lt_ne_UNCOLORED hb hc
  have htn := (is_color_free_iff k a.tail c hcU).1 ht
  have hhn := (is_color_free_iff k a.head c hcU).1 hh
  have hua := hk.uncolored_eq hun
  have hcol : ∀ x, (k.color w a c).arc_colors x = if x = a then c else k.arc_colors x := by
    intro x
    simp only [KColoring.color, Function.update_apply]
  refine ⟨hk.nc, ?_, ?_, ?_, ?_, ?_⟩
  · simp [KColoring.color, tableSet_length, hk.len]
  · intro x
    rw [hcol]
    by_cases hx : x = a
    · rw [if_pos hx]; exact Or.inl hc
    · rw [if_neg hx]; exact hk.rng x
  · intro x hx hlt
    rw [hcol] at hlt ⊢
    by_cases hxa : x = a
    · subst hxa
      rw [if_pos rfl, mates_color k w x c c _ hlen, mates_color k w x c c _ hlen]
      by_cases hl : x.head = x.tail
      · simp [hl]
      · simp [hl]
    · rw [if_neg hxa] at hlt ⊢
      obtain ⟨m1, m2⟩ := hk.mate_of_arc x hx hlt
      rw [mates_color k w a c _ _ hlen, mates_color k w a c _ _ hlen]
      have n1 : ¬ (k.arc_colors x = c ∧ x.tail = a.tail) := by
        rintro ⟨e1, e2⟩; rw [e1, e2, htn] at m1; exact absurd m1 (by simp)
      have n2 : ¬ (k.arc_colors x = c ∧ x.tail = a.head) := by
        rintro ⟨e1, e2⟩; rw [e1, e2, hhn] at m1; exact absurd m1 (by simp)
      have n3 : ¬ (k.arc_colors x = c ∧ x.head = a.tail) := by
        rintro ⟨e1, e2⟩; rw [e1, e2, htn] at m2; exact absurd m2 (by simp)
      have n4 : ¬ (k.arc_colors x = c ∧ x.head = a.head) := by
        rintro ⟨e1, e2⟩; rw [e1, e2, hhn] at m2; exact absurd m2 (by simp)
      rw [if_neg n1, if_neg n2, if_neg n3, if_neg n4]
      exact ⟨m1, m2⟩
  · intro c1 v u hc1 hget
    rw [mates_color k w a c _ _ hlen] at hget
    by_cases h1 : c1 = c ∧ v = a.tail
    · rw [if_pos h1] at hget
      refine ⟨a, ha, ?_, Or.inl ⟨h1.2.symm, Option.some.inj hget⟩⟩
      rw [hcol, if_pos rfl]; exact h1.1.symm
    · rw [if_neg h1] at hget
      by_cases h2 : c1 = c ∧ v = a.head
      · rw [if_pos h2] at hget
        refine ⟨a, ha, ?_, Or.inr ⟨h2.2.symm, Option.some.inj hget⟩⟩
        rw [hcol, if_pos rfl]; exact h2.1.symm
      · rw [if_neg h2] at hget
        obtain ⟨x, hx, hxc, hxe⟩ := hk.arc_of_mate c1 v u hc1 hget
        refine ⟨x, hx, ?_, hxe⟩
        have hxa : x ≠ a := by
          intro e; subst e
          rw [hua] at hxc
          exact lt_ne_UNCOLORED hb hc1 hxc.symm
        rw [hcol, if_neg hxa]; exact hxc
  · intro a1 h1 a2 h2 v i1 i2 hlt heq
    rw [hcol] at hlt
    rw [hcol, hcol] at heq
    have clash : ∀ x ∈ G.arcs, x.incident v → a.incident v → k.arc_colors x = c → False := by
      intro x hx ix ia hxc
      obtain ⟨m1, m2⟩ := hk.mate_of_arc x hx (by rw [hxc]; exact hc)
      rw [hxc] at m1 m2
      have hv : tableGet k.mates_by_color c v = Option.none := by
        rcases ia with e | e
        · rw [← e]; exact htn
        · rw [← e]; exact hhn
      rcases ix with e | e
      · rw [e, hv] at m1; exact absurd m1 (by simp)
      · rw [e, hv] at m2; exact absurd m2 (by simp)
    by_cases e1 : a1 = a
    · by_cases e2 : a2 = a
      · rw [e1, e2]
      · rw [if_pos e1, if_neg e2] at heq
        rw [e1] at i1
        exact (clash a2 h2 i2 i1 heq.symm).elim
    · by_cases e2 : a2 = a
      · rw [if_neg e1, if_pos e2] at heq
        rw [e2] at i2
        exact (clash a1 h1 i1 i2 heq).elim
      · rw [if_neg e1] at hlt
        rw [if_neg e1, if_neg e2] at heq
        exact hk.proper a1 h1 a2 h2 v i1 i2 hlt heq

theorem Consistent.uncolor {G : DiGraph} {b : Nat} {k : KColoring} (hk : Consistent G b k)
    (hb : b ≤ UNCOLORED) (w : Arc → Nat) {a : Arc} (ha : a ∈ G.arcs)
    (hcd : k.is_colored a = true) : Consistent G b (k.uncolor w a) := by
  have hlt := hk.colored_lt hcd
  have hlen : k.arc_colors a < k.mates_by_color.length := by rw [hk.len]; exact hlt
  have hcol : ∀ x, (k.uncolor w a).arc_colors x =
      if x = a then UNCOLORED else k.arc_colors x := by
    intro x
    simp only [KColoring.uncolor, Function.update_apply]
  have hUb : ¬ UNCOLORED < b := Nat.not_lt.2 hb
  refine ⟨hk.nc, ?_, ?_, ?_, ?_, ?_⟩
  · simp [KColoring.uncolor, tableSet_length, hk.len]
  · intro x
    rw [hcol]
    by_cases hx : x = a
    · rw [if_pos hx]; exact Or.inr rfl
    · rw [if_neg hx]; exact hk.rng x
  · intro x hx hxlt
    rw [hcol] at hxlt ⊢
    by_cases hxa : x = a
    · rw [if_pos hxa] at hxlt; exact absurd hxlt hUb
    · rw [if_neg hxa] at hxlt ⊢
      obtain ⟨m1, m2⟩ := hk.mate_of_arc x hx hxlt
      rw [mates_uncolor k w a _ _ hlen, mates_uncolor k w a _ _ hlen]
      have n1 : ¬ (k.arc_colors x = k.arc_colors a ∧ (x.tail = a.tail ∨ x.tail = a.head)) := by
        rintro ⟨e1, e2⟩
        apply hxa
        refine hk.proper x hx a ha x.tail (Or.inl rfl) ?_ hxlt e1
        rcases e2 with e | e
        · exact Or.inl e.symm
        · exact Or.inr e.symm
      have n2 : ¬ (k.arc_colors x = k.arc_colors a ∧ (x.head = a.tail ∨ x.head = a.head)) := by
        rintro ⟨e1, e2⟩
        apply hxa
        refine hk.proper x hx a ha x.head (Or.inr rfl) ?_ hxlt e1
        rcases e2 with e | e
        · exact Or.inl e.symm
        · exact Or.inr e.symm
      rw [if_neg n1, if_neg n2]
      exact ⟨m1, m2⟩
  · intro c1 v u hc1 hget
    rw [mates_uncolor k w a _ _ hlen] at hget
    by_cases h1 : c1 = k.arc_colors a ∧ (v = a.tail ∨ v = a.head)
    · rw [if_pos h1] at hget; exact absurd hget (by simp)
    · rw [if_neg h1] at hget
      obtain ⟨x, hx, hxc, hxe⟩ := hk.arc_of_mate c1 v u hc1 hget
      refine ⟨x, hx, ?_, hxe⟩
      have hxa : x ≠ a := by
        intro e; subst e
        apply h1
        refine ⟨hxc.symm, ?_⟩
        rcases hxe with ⟨e1, _⟩ | ⟨e1, _⟩
        · exact Or.inl e1.symm
        · exact Or.inr e1.symm
      rw [hcol, if_neg hxa]; exact hxc
  · intro a1 h1 a2 h2 v i1 i2 hlt1 heq
    rw [hcol] at hlt1
    rw [hcol, hcol] at heq
    by_cases e1 : a1 = a
    · rw [if_pos e1] at hlt1; exact absurd hlt1 hUb
    · rw [if_neg e1] at hlt1 heq
      by_cases e2 : a2 = a
      · rw [if_pos e2] at heq
        rw [heq] at hlt1
        exact absurd hlt1 hUb
      · rw [if_neg e2] at heq
        exact hk.proper a1 h1 a2 h2 v i1 i2 hlt1 heq

theorem Consistent.onEdgeWeightChange {G : DiGraph} {b : Nat} {k : KColoring}
    (hk : Consistent G b k) (a : Arc) (o n : Nat) :
    Consistent G b (k.onEdgeWeightChange a o n) := by
  unfold KColoring.onEdgeWeightChange
  by_cases h : k.is_colored a = true
  · rw [if_pos h]
    exact ⟨hk.nc, hk.len, hk.rng, hk.mate_of_arc, hk.arc_of_mate, hk.proper⟩
  · rw [if_neg h]
    exact hk

theorem Reachable.consistent {G : DiGraph} {b : Nat} (hb : b ≤ UNCOLORED) {w : Arc → Nat}
    {k : KColoring} (h : Reachable G b w k) : Consistent G b k := by
  induction h with
  | reset w k0 h0 => exact Consistent.of_reset G hb k0 h0
  | color a c _ ha hun hc ht hh ih => exact ih.color hb _ ha hun hc ht hh
  | uncolor a _ ha hcd ih => exact ih.uncolor hb _ ha hcd
  | weight a x _ _ ih => exact ih.onEdgeWeightChange a _ x

/-! ### Weight bookkeeping -/

theorem sum_map_congr_of_not_mem (l : List Arc) (a : Arc) (f g : Arc → Nat) (ha : a ∉ l)
    (hfg : ∀ x, x ≠ a → f x = g x) : (l.map f).sum = (l.map g).sum := by
  induction l with
  | nil => rfl
  | cons x l ih =>
    have hx : x ≠ a := fun e => ha (by rw [e]; exact List.mem_cons_self _ _)
    have hl : a ∉ l := fun h => ha (List.mem_cons_of_mem _ h)
    simp only [List.map_cons, List.sum_cons, hfg x hx, ih hl]

theorem sum_map_update (l : List Arc) (a : Arc) (f g : Arc → Nat) (hnd : l.Nodup)
    (ha : a ∈ l) (hfg : ∀ x, x ≠ a → f x = g x) :
    (l.map f).sum + g a = (l.map g).sum + f a := by
  induction l with
  | nil => exact absurd ha (List.not_mem_nil _)
  | cons x l ih =>
    have hnd2 := List.nodup_cons.1 hnd
    simp only [List.map_cons, List.sum_cons]
    by_cases hx : x = a
    · subst hx
      rw [sum_map_congr_of_not_mem l x f g hnd2.1 hfg]
      omega
    · have hl : a ∈ l := by
        rcases List.mem_cons.1 ha with e | e
        · exact absurd e.symm hx
        · exact e
      have := ih hnd2.2 hl
      rw [hfg x hx]
      omega

theorem is_colored_color {G : DiGraph} {b : Nat} {k : KColoring} (hk : Consistent G b k)
    (w : Arc → Nat) (a : Arc) {c : Nat} (hc : c < b) (x : Arc) :
    (k.color w a c).is_colored x = if x = a then true else k.is_colored x := by
  simp only [KColoring.is_colored, KColoring.color, Function.update_apply]
  by_cases hx : x = a
  · simp [hx, hk.nc, hc]
  · simp [hx]

theorem is_colored_uncolor {G : DiGraph} {b : Nat} {k : KColoring} (hk : Consistent G b k)
    (hb : b ≤ UNCOLORED) (w : Arc → Nat) (a : Arc) (x : Arc) :
    (k.uncolor w a).is_colored x = if x = a then false else k.is_colored x := by
  simp only [KColoring.is_colored, KColoring.uncolor, Function.update_apply]
  by_cases hx : x = a
  · simp [hx, hk.nc, hb]
  · simp [hx]

theorem is_colored_onEdgeWeightChange (k : KColoring) (a : Arc) (o n : Nat) (x : Arc) :
    (k.onEdgeWeightChange a o n).is_colored x = k.is_colored x := by
  unfold KColoring.onEdgeWeightChange
  by_cases h : k.is_colored a = true
  · rw [if_pos h]; rfl
  · rw [if_neg h]

theorem coloredWeight_color {G : DiGraph} {b : Nat} {k : KColoring} (hk : Consistent G b k)
    (hnd : G.arcs.Nodup) (w : Arc → Nat) {a : Arc} {c : Nat} (ha : a ∈ G.arcs)
    (hun : k.is_colored a = false) (hc : c < b) :
    coloredWeight G w (k.color w a c) = coloredWeight G w k + w a := by
  have := sum_map_update G.arcs a
    (fun x => if k.is_colored x = true then w x else 0)
    (fun x => if (k.color w a c).is_colored x = true then w x else 0) hnd ha
    (by intro x hx; simp only [is_colored_color hk w a hc x, if_neg hx])
  simp only [is_colored_color hk w a hc a, hun, if_true] at this
  unfold coloredWeight
  simp at this
  omega

theorem coloredWeight_uncolor {G : DiGraph} {b : Nat} {k : KColoring}
    (hk : Consistent G b k) (hb : b ≤ UNCOLORED) (hnd : G.arcs.Nodup) (w : Arc → Nat)
    {a : Arc} (ha : a ∈ G.arcs) (hcd : k.is_colored a = true) :
    coloredWeight G w (k.uncolor w a) + w a = coloredWeight G w k := by
  have := sum_map_update G.arcs a
    (fun x => if k.is_colored x = true then w x else 0)
    (fun x => if (k.uncolor w a).is_colored x = true then w x else 0) hnd ha
    (by intro x hx; simp only [is_colored_uncolor hk hb w a x, if_neg hx])
  simp only [is_colored_uncolor hk hb w a a, hcd, if_true] at this
  unfold coloredWeight
  simp at this
  omega

theorem coloredWeight_weight (G : DiGraph) (k : KColoring) (hnd : G.arcs.Nodup)
    (w : Arc → Nat) {a : Arc} (ha : a ∈ G.arcs) (x : Nat) :
    coloredWeight G (Function.update w a x) (k.onEdgeWeightChange a (w a) x)
        + (if k.is_colored a = true then w a else 0)
      = coloredWeight G w k + (if k.is_colored a = true then x else 0) := by
  have := sum_map_update G.arcs a
    (fun y => if k.is_colored y = true then w y else 0)
    (fun y => if (k.onEdgeWeightChange a (w a) x).is_colored y = true
      then Function.update w a x y else 0) hnd ha
    (by
      intro y hy
      simp only [is_colored_onEdgeWeightChange, Function.update_noteq hy])
  simp only [is_colored_onEdgeWeightChange, Function.update_same] at this
  unfold coloredWeight
  simp only [is_colored_onEdgeWeightChange]
  omega

theorem Reachable.weight_inv {G : DiGraph} {b : Nat} (hb : b ≤ UNCOLORED)
    (hnd : G.arcs.Nodup) {w : Arc → Nat} {k : KColoring} (h : Reachable G b w k) :
    k.total_weight = coloredWeight G w k % 2 ^ 64 := by
  induction h with
  | reset w k0 h0 =>
    have : coloredWeight G w k0.reset = 0 := by
      unfold coloredWeight
      have hz : ∀ a, (k0.reset).is_colored a = false := by
        intro a
        simp [KColoring.is_colored, KColoring.reset, h0, hb]
      simp [hz]
    rw [this]
    rfl
  | @color w k a c hr ha hun hc ht hh ih =>
    have hk := hr.consistent hb
    rw [coloredWeight_color hk hnd w ha hun hc]
    have hua := hk.uncolored_eq hun
    simp only [KColoring.color, hua, if_true, add64]
    rw [ih]
    omega
  | @uncolor w k a hr ha hcd ih =>
    have hk := hr.consistent hb
    have hS := coloredWeight_uncolor hk hb hnd w ha hcd
    generalize coloredWeight G w (k.uncolor w a) = S1 at hS ⊢
    simp only [KColoring.uncolor, sub64]
    rw [ih]
    omega
  | @weight w k a x hr ha ih =>
    have hS := coloredWeight_weight G k hnd w ha x
    generalize coloredWeight G (Function.update w a x) (k.onEdgeWeightChange a (w a) x) = S1
      at hS ⊢
    unfold KColoring.onEdgeWeightChange
    by_cases hcd : k.is_colored a = true
    · simp only [hcd, if_true, add64, sub64] at hS ⊢
      rw [ih]
      omega
    · rw [if_neg hcd] at hS ⊢
      rw [if_neg hcd] at hS
      rw [ih]
      omega

/-! ### Claims on the k-colouring -/

theorem length_le_one_of_all_eq {α : Type} (l : List α) (hnd : l.Nodup)
    (h : ∀ x ∈ l, ∀ y ∈ l, x = y) : l.length ≤ 1 := by
  match l, hnd, h with
  | [], _, _ => exact Nat.zero_le _
  | [_], _, _ => exact le_refl _
  | x :: y :: t, hnd, h =>
    have hxy : x = y := h x (List.mem_cons_self _ _)
      y (List.mem_cons_of_mem _ (List.mem_cons_self _ _))
    have := (List.nodup_cons.1 hnd).1
    rw [hxy] at this
    exact absurd (List.mem_cons_self _ _) this

theorem triangleColoring_reachable :
    Reachable triangle 2 triangleWeights triangleColoring :=
  Reachable.color _ _
    (Reachable.color _ _ (Reachable.reset triangleWeights (KColoring.initial 2) rfl)
      (by decide) (by decide) (by decide) (by decide) (by decide))
    (by decide) (by decide) (by decide) (by decide) (by decide)

/-- C1 (proper colouring, I1/P1): in every state reached from `reset()` with `b` colours by
valid `color`/`uncolor` calls (and weight changes), for every vertex `v` and colour `c < b`
any two arcs of the graph incident to `v` and coloured `c` are the same arc; on a graph
whose arc list has no repetition the number of such arcs is at most one. -/
theorem C1_proper_coloring (G : DiGraph) (b : Nat) (w : Arc → Nat) (k : KColoring)
    (hb : b ≤ UNCOLORED) (h : Reachable G b w k) :
    (∀ v c, c < b → ∀ a1 ∈ G.arcs, ∀ a2 ∈ G.arcs, a1.incident v → a2.incident v →
      k.get_color a1 = c → k.get_color a2 = c → a1 = a2) ∧
    (G.arcs.Nodup → ∀ v c, c < b →
      (G.arcs.filter fun a => decide (a.incident v ∧ k.get_color a = c)).length ≤ 1) := by
  have hk := h.consistent hb
  have key : ∀ v c, c < b → ∀ a1 ∈ G.arcs, ∀ a2 ∈ G.arcs, a1.incident v → a2.incident v →
      k.get_color a1 = c → k.get_color a2 = c → a1 = a2 := by
    intro v c hc a1 h1 a2 h2 i1 i2 e1 e2
    unfold KColoring.get_color at e1 e2
    exact hk.proper a1 h1 a2 h2 v i1 i2 (by rw [e1]; exact hc) (by rw [e1, e2])
  refine ⟨key, ?_⟩
  intro hnd v c hc
  apply length_le_one_of_all_eq _ (hnd.filter _)
  intro x hx y hy
  rw [List.mem_filter] at hx hy
  have px := of_decide_eq_true hx.2
  have py := of_decide_eq_true hy.2
  exact key v c hc x hx.1 y hy.1 px.1 py.1 px.2 py.2

/-- C1 on the triangle coloured with two colours. -/
theorem C1_proper_coloring_witness :
    (∀ v c, c < 2 → ∀ a1 ∈ triangle.arcs, ∀ a2 ∈ triangle.arcs,
      a1.incident v → a2.incident v →
      triangleColoring.get_color a1 = c → triangleColoring.get_color a2 = c → a1 = a2) ∧
    (triangle.arcs.Nodup → ∀ v c, c < 2 →
      (triangle.arcs.filter fun a =>
        decide (a.incident v ∧ triangleColoring.get_color a = c)).length ≤ 1) :=
  C1_proper_coloring triangle 2 triangleWeights triangleColoring (by decide)
    triangleColoring_reachable

/-- C2 (weight consistency, I3/P2): in every state reached from `reset()` by valid
`color`/`uncolor` calls and weight changes delivered through `onEdgeWeightChange(a, old, x)`
with `old` the weight before the change, `getTotalWeight()` is the sum of the current
weights of the coloured arcs as an `unsigned long`, hence equal to that sum whenever the sum
fits 64 bits; a weight change on an uncoloured arc leaves `total_weight` unchanged and one
on a coloured arc changes it by `x - old`. -/
theorem C2_weight_consistency (G : DiGraph) (b : Nat) (w : Arc → Nat) (k : KColoring)
    (hb : b ≤ UNCOLORED) (hnd : G.arcs.Nodup) (h : Reachable G b w k) :
    k.getTotalWeight = coloredWeight G w k % 2 ^ 64 ∧
    (coloredWeight G w k < 2 ^ 64 → k.getTotalWeight = coloredWeight G w k) ∧
    (∀ a ∈ G.arcs, ∀ x, k.is_colored a = false →
      (k.onEdgeWeightChange a (w a) x).getTotalWeight = k.getTotalWeight) ∧
    (∀ a ∈ G.arcs, ∀ x, k.is_colored a = true →
      w a ≤ coloredWeight G w k ∧
      (k.onEdgeWeightChange a (w a) x).getTotalWeight
        = (coloredWeight G w k - w a + x) % 2 ^ 64 ∧
      (coloredWeight G w k - w a + x < 2 ^ 64 → coloredWeight G w k < 2 ^ 64 →
        (k.onEdgeWeightChange a (w a) x).getTotalWeight + w a = k.getTotalWeight + x)) := by
  have hinv := h.weight_inv hb hnd
  refine ⟨hinv, ?_, ?_, ?_⟩
  · intro hlt
    show k.total_weight = _
    rw [hinv]
    exact Nat.mod_eq_of_lt hlt
  · intro a _ x hun
    unfold KColoring.onEdgeWeightChange
    rw [hun]
    rfl
  · intro a ha x hcd
    have hinv2 := (Reachable.weight a x h ha).weight_inv hb hnd
    have hS := coloredWeight_weight G k hnd w ha x
    rw [if_pos hcd, if_pos hcd] at hS
    unfold KColoring.getTotalWeight
    rw [hinv2, hinv]
    generalize coloredWeight G (Function.update w a x) (k.onEdgeWeightChange a (w a) x) = S1
      at hS ⊢
    have hle : w a ≤ coloredWeight G w k := by
      unfold coloredWeight
      apply List.single_le_sum (by intro _ _; exact Nat.zero_le _)
      rw [List.mem_map]
      exact ⟨a, ha, by rw [if_pos hcd]⟩
    refine ⟨hle, ?_, ?_⟩
    · congr 1; omega
    · intro h1 h2
      have e1 : S1 = coloredWeight G w k - w a + x := by omega
      rw [e1, Nat.mod_eq_of_lt h1, Nat.mod_eq_of_lt h2]
      omega

/-- C2 on the triangle coloured with two colours (total weight `5 + 3`). -/
theorem C2_weight_consistency_witness :
    triangleColoring.getTotalWeight
      = coloredWeight triangle triangleWeights triangleColoring % 2 ^ 64 ∧
    (coloredWeight triangle triangleWeights triangleColoring < 2 ^ 64 →
      triangleColoring.getTotalWeight
        = coloredWeight triangle triangleWeights triangleColoring) ∧
    (∀ a ∈ triangle.arcs, ∀ x, triangleColoring.is_colored a = false →
      (triangleColoring.onEdgeWeightChange a (triangleWeights a) x).getTotalWeight
        = triangleColoring.getTotalWeight) ∧
    (∀ a ∈ triangle.arcs, ∀ x, triangleColoring.is_colored a = true →
      triangleWeights a ≤ coloredWeight triangle triangleWeights triangleColoring ∧
      (triangleColoring.onEdgeWeightChange a (triangleWeights a) x).getTotalWeight
        = (coloredWeight triangle triangleWeights triangleColoring - triangleWeights a + x)
          % 2 ^ 64 ∧
      (coloredWeight triangle triangleWeights triangleColoring - triangleWeights a + x
          < 2 ^ 64 →
        coloredWeight triangle triangleWeights triangleColoring < 2 ^ 64 →
        (triangleColoring.onEdgeWeightChange a (triangleWeights a) x).getTotalWeight
            + triangleWeights a
          = triangleColoring.getTotalWeight + x)) :=
  C2_weight_consistency triangle 2 triangleWeights triangleColoring (by decide) (by decide)
    triangleColoring_reachable

/-! ### The arc-mate extension -/

theorem am_color (am : ArcMateExtension) (a : Arc) (c c1 v : Nat)
    (hc : c < am.arcs_to_mates_by_color.length) :
    (am.color_impl a c).getArcToMate c1 v =
      if c1 = c ∧ v = a.tail then some a
      else if c1 = c ∧ v = a.head then some a
      else am.getArcToMate c1 v := by
  simp only [ArcMateExtension.getArcToMate, ArcMateExtension.color_impl, tableGet_tableSet,
    tableSet_length, hc, and_true]

theorem am_uncolor (am : ArcMateExtension) (a : Arc) (c c1 v : Nat)
    (hc : c < am.arcs_to_mates_by_color.length) :
    (am.uncolor_impl a c).getArcToMate c1 v =
      if c1 = c ∧ (v = a.tail ∨ v = a.head) then Option.none
      else am.getArcToMate c1 v := by
  simp only [ArcMateExtension.getArcToMate, ArcMateExtension.uncolor_impl, tableGet_tableSet,
    tableSet_length, hc, and_true]
  by_cases h1 : c1 = c <;> by_cases h2 : v = a.tail <;>
    by_cases h3 : v = a.head <;> simp [h1, h2, h3]

theorem ReachableAM.base_reachable {G : DiGraph} {b : Nat} {w : Arc → Nat} {k : KColoring}
    {am : ArcMateExtension} (h : ReachableAM G b w k am) : Reachable G b w k := by
  induction h with
  | start k0 am0 h0 _ => exact Reachable.reset w k0 h0
  | color a c _ ha hun hc ht hh ih => exact Reachable.color a c ih ha hun hc ht hh
  | uncolor a _ ha hcd ih => exact Reachable.uncolor a ih ha hcd

theorem ReachableAM.am_consistent {G : DiGraph} {b : Nat} (hb : b ≤ UNCOLORED) {w : Arc → Nat}
    {k : KColoring} {am : ArcMateExtension} (h : ReachableAM G b w k am) :
    AMConsistent G b k am := by
  induction h with
  | start k0 am0 _ hl0 =>
    refine ⟨?_, ?_, ?_⟩
    · simp [ArcMateExtension.reset_impl, hl0]
    · intro a _ hlt
      exact absurd (lt_of_lt_of_le hlt hb) (lt_irrefl _)
    · intro c v a _ hget
      simp only [ArcMateExtension.getArcToMate, ArcMateExtension.reset_impl] at hget
      rw [tableGet_map_none] at hget
      exact absurd hget (by simp)
  | @color k am a c hr ha hun hc ht hh ih =>
    have hk := hr.base_reachable.consistent hb
    have hlen : c < am.arcs_to_mates_by_color.length := by rw [ih.len]; exact hc
    have hcU : c ≠ UNCOLORED := lt_ne_UNCOLORED hb hc
    have htn := (is_color_free_iff k a.tail c hcU).1 ht
    have hhn := (is_color_free_iff k a.head c hcU).1 hh
    have hua := hk.uncolored_eq hun
    have hcol : ∀ x, (k.color w a c).arc_colors x = if x = a then c else k.arc_colors x := by
      intro x
      simp only [KColoring.color, Function.update_apply]
    refine ⟨?_, ?_, ?_⟩
    · simp [ArcMateExtension.color_impl, tableSet_length, ih.len]
    · intro x hx hlt
      rw [hcol] at hlt ⊢
      by_cases hxa : x = a
      · subst hxa
        rw [if_pos rfl, am_color am x c c _ hlen, am_color am x c c _ hlen]
        by_cases hl : x.head = x.tail <;> simp [hl]
      · rw [if_neg hxa] at hlt ⊢
        obtain ⟨m1, m2⟩ := hk.mate_of_arc x hx hlt
        obtain ⟨e1, e2⟩ := ih.entry_of_arc x hx hlt
        rw [am_color am a c _ _ hlen, am_color am a c _ _ hlen]
        have n1 : ¬ (k.arc_colors x = c ∧ x.tail = a.tail) := by
          rintro ⟨e1, e2⟩; rw [e1, e2, htn] at m1; exact absurd m1 (by simp)
        have n2 : ¬ (k.arc_colors x = c ∧ x.tail = a.head) := by
          rintro ⟨e1, e2⟩; rw [e1, e2, hhn] at m1; exact absurd m1 (by simp)
        have n3 : ¬ (k.arc_colors x = c ∧ x.head = a.tail) := by
          rintro ⟨e1, e2⟩; rw [e1, e2, htn] at m2; exact absurd m2 (by simp)
        have n4 : ¬ (k.arc_colors x = c ∧ x.head = a.head) := by
          rintro ⟨e1, e2⟩; rw [e1, e2, hhn] at m2; exact absurd m2 (by simp)
        rw [if_neg n1, if_neg n2, if_neg n3, if_neg n4]
        exact ⟨e1, e2⟩
    · intro c1 v x hc1 hget
      rw [am_color am a c _ _ hlen] at hget
      by_cases h1 : c1 = c ∧ v = a.tail
      · rw [if_pos h1] at hget
        have hx : a = x := Option.some.inj hget
        subst hx
        exact ⟨ha, Or.inl h1.2.symm, by rw [hcol, if_pos rfl]; exact h1.1.symm⟩
      · rw [if_neg h1] at hget
        by_cases h2 : c1 = c ∧ v = a.head
        · rw [if_pos h2] at hget
          have hx : a = x := Option.some.inj hget
          subst hx
          exact ⟨ha, Or.inr h2.2.symm, by rw [hcol, if_pos rfl]; exact h2.1.symm⟩
        · rw [if_neg h2] at hget
          obtain ⟨hx, hi, hxc⟩ := ih.arc_of_entry c1 v x hc1 hget
          refine ⟨hx, hi, ?_⟩
          have hxa : x ≠ a := by
            intro e; subst e
            rw [hua] at hxc
            exact lt_ne_UNCOLORED hb hc1 hxc.symm
          rw [hcol, if_neg hxa]; exact hxc
  | @uncolor k am a hr ha hcd ih =>
    have hk := hr.base_reachable.consistent hb
    have hlt := hk.colored_lt hcd
    have hlen : k.arc_colors a < am.arcs_to_mates_by_color.length := by
      rw [ih.len]; exact hlt
    have hcol : ∀ x, (k.uncolor w a).arc_colors x =
        if x = a then UNCOLORED else k.arc_colors x := by
      intro x
      simp only [KColoring.uncolor, Function.update_apply]
    have hUb : ¬ UNCOLORED < b := Nat.not_lt.2 hb
    refine ⟨?_, ?_, ?_⟩
    · simp [ArcMateExtension.uncolor_impl, tableSet_length, ih.len]
    · intro x hx hxlt
      rw [hcol] at hxlt ⊢
      by_cases hxa : x = a
      · rw [if_pos hxa] at hxlt; exact absurd hxlt hUb
      · rw [if_neg hxa] at hxlt ⊢
        obtain ⟨e1, e2⟩ := ih.entry_of_arc x hx hxlt
        rw [am_uncolor am a _ _ _ hlen, am_uncolor am a _ _ _ hlen]
        have n1 : ¬ (k.arc_colors x = k.arc_colors a ∧
            (x.tail = a.tail ∨ x.tail = a.head)) := by
          rintro ⟨e1, e2⟩
          apply hxa
          refine hk.proper x hx a ha x.tail (Or.inl rfl) ?_ hxlt e1
          rcases e2 with e | e
          · exact Or.inl e.symm
          · exact Or.inr e.symm
        have n2 : ¬ (k.arc_colors x = k.arc_colors a ∧
            (x.head = a.tail ∨ x.head = a.head)) := by
          rintro ⟨e1, e2⟩
          apply hxa
          refine hk.proper x hx a ha x.head (Or.inr rfl) ?_ hxlt e1
          rcases e2 with e | e
          · exact Or.inl e.symm
          · exact Or.inr e.symm
        rw [if_neg n1, if_neg n2]
        exact ⟨e1, e2⟩
    · intro c1 v x hc1 hget
      rw [am_uncolor am a _ _ _ hlen] at hget
      by_cases h1 : c1 = k.arc_colors a ∧ (v = a.tail ∨ v = a.head)
      · rw [if_pos h1] at hget; exact absurd hget (by simp)
      · rw [if_neg h1] at hget
        obtain ⟨hx, hi, hxc⟩ := ih.arc_of_entry c1 v x hc1 hget
        refine ⟨hx, hi, ?_⟩
        have hxa : x ≠ a := by
          intro e; subst e
          apply h1
          refine ⟨hxc.symm, ?_⟩
          rcases hi with e1 | e1
          · exact Or.inl e1.symm
          · exact Or.inr e1.symm
        rw [hcol, if_neg hxa]; exact hxc

theorem triangleArcMates_reachable :
    ReachableAM triangle 2 triangleWeights triangleColoring triangleArcMates :=
  ReachableAM.color _ _
    (ReachableAM.color _ _
      (ReachableAM.start (KColoring.initial 2)
        ((ArcMateExtension.mk []).setNumColors_impl 2) rfl rfl)
      (by decide) (by decide) (by decide) (by decide) (by decide))
    (by decide) (by decide) (by decide) (by decide) (by decide)

/-- C3 (mate consistency, I2): in every state reached from `reset()` on a colouring set to
`b` colours by valid `color`/`uncolor` calls, for every colour `c < b` and vertices `v`, `u`:
`mates_by_color[c][v] = u` iff some arc of the graph between `v` and `u` is coloured `c`;
`getArcToMate(c, v) = a` iff `a` is an arc of the graph incident to `v` with colour `c`
(unique by properness), and `getArcToMate(c, v)` is null iff no such arc exists. -/
theorem C3_mate_consistency (G : DiGraph) (b : Nat) (w : Arc → Nat) (k : KColoring)
    (am : ArcMateExtension) (hb : b ≤ UNCOLORED) (h : ReachableAM G b w k am) :
    (∀ c v u, c < b →
      (tableGet k.mates_by_color c v = some u ↔
        ∃ a ∈ G.arcs, k.get_color a = c ∧
          ((a.tail = v ∧ a.head = u) ∨ (a.head = v ∧ a.tail = u)))) ∧
    (∀ c v a, c < b →
      (am.getArcToMate c v = some a ↔ a ∈ G.arcs ∧ a.incident v ∧ k.get_color a = c)) ∧
    (∀ c v, c < b →
      (am.getArcToMate c v = Option.none ↔
        ∀ a ∈ G.arcs, a.incident v → k.get_color a ≠ c)) ∧
    (∀ c v a1 a2, c < b → a1 ∈ G.arcs → a2 ∈ G.arcs → a1.incident v → a2.incident v →
      k.get_color a1 = c → k.get_color a2 = c → a1 = a2) := by
  have hk := h.base_reachable.consistent hb
  have ha := h.am_consistent hb
  have second : ∀ c v a, c < b →
      (am.getArcToMate c v = some a ↔ a ∈ G.arcs ∧ a.incident v ∧ k.get_color a = c) := by
    intro c v a hc
    constructor
    · exact ha.arc_of_entry c v a hc
    · rintro ⟨hx, hi, hcol⟩
      unfold KColoring.get_color at hcol
      obtain ⟨e1, e2⟩ := ha.entry_of_arc a hx (by rw [hcol]; exact hc)
      rw [hcol] at e1 e2
      rcases hi with e | e
      · rw [← e]; exact e1
      · rw [← e]; exact e2
  refine ⟨?_, second, ?_, ?_⟩
  · intro c v u hc
    constructor
    · exact hk.arc_of_mate c v u hc
    · rintro ⟨a, hx, hcol, hends⟩
      unfold KColoring.get_color at hcol
      obtain ⟨m1, m2⟩ := hk.mate_of_arc a hx (by rw [hcol]; exact hc)
      rw [hcol] at m1 m2
      rcases hends with ⟨e1, e2⟩ | ⟨e1, e2⟩
      · rw [← e1, ← e2]; exact m1
      · rw [← e1, ← e2]; exact m2
  · intro c v hc
    constructor
    · intro hnone a hx hi hcol
      have := (second c v a hc).2 ⟨hx, hi, hcol⟩
      rw [hnone] at this
      exact absurd this (by simp)
    · intro hno
      cases hget : am.getArcToMate c v with
      | none => rfl
      | some a =>
        obtain ⟨hx, hi, hcol⟩ := (second c v a hc).1 hget
        exact absurd hcol (hno a hx hi)
  · intro c v a1 a2 hc h1 h2 i1 i2 e1 e2
    unfold KColoring.get_color at e1 e2
    exact hk.proper a1 h1 a2 h2 v i1 i2 (by rw [e1]; exact hc) (by rw [e1, e2])

/-- C3 on the triangle coloured with two colours. -/
theorem C3_mate_consistency_witness :
    (∀ c v u, c < 2 →
      (tableGet triangleColoring.mates_by_color c v = some u ↔
        ∃ a ∈ triangle.arcs, triangleColoring.get_color a = c ∧
          ((a.tail = v ∧ a.head = u) ∨ (a.head = v ∧ a.tail = u)))) ∧
    (∀ c v a, c < 2 →
      (triangleArcMates.getArcToMate c v = some a ↔
        a ∈ triangle.arcs ∧ a.incident v ∧ triangleColoring.get_color a = c)) ∧
    (∀ c v, c < 2 →
      (triangleArcMates.getArcToMate c v = Option.none ↔
        ∀ a ∈ triangle.arcs, a.incident v → triangleColoring.get_color a ≠ c)) ∧
    (∀ c v a1 a2, c < 2 → a1 ∈ triangle.arcs → a2 ∈ triangle.arcs →
      a1.incident v → a2.incident v →
      triangleColoring.get_color a1 = c → triangleColoring.get_color a2 = c → a1 = a2) :=
  C3_mate_consistency triangle 2 triangleWeights triangleColoring triangleArcMates
    (by decide) triangleArcMates_reachable

theorem Consistent.free_iff_no_arc {G : DiGraph} {b : Nat} {k : KColoring}
    (hk : Consistent G b k) (hb : b ≤ UNCOLORED) (v : Nat) {c : Nat} (hc : c < b) :
    k.is_color_free v c = true ↔ ∀ e ∈ G.arcs, e.incident v → k.get_color e ≠ c := by
  rw [is_color_free_iff k v c (lt_ne_UNCOLORED hb hc)]
  constructor
  · intro hnone e he hi hcol
    unfold KColoring.get_color at hcol
    obtain ⟨m1, m2⟩ := hk.mate_of_arc e he (by rw [hcol]; exact hc)
    rw [hcol] at m1 m2
    rcases hi with e1 | e1
    · rw [e1, hnone] at m1; exact absurd m1 (by simp)
    · rw [e1, hnone] at m2; exact absurd m2 (by simp)
  · intro hno
    cases hget : tableGet k.mates_by_color c v with
    | none => rfl
    | some u =>
      obtain ⟨e, he, hcol, hends⟩ := hk.arc_of_mate c v u hc hget
      have hi : e.incident v := by
        rcases hends with ⟨e1, _⟩ | ⟨e1, _⟩
        · exact Or.inl e1
        · exact Or.inr e1
      exact absurd hcol (hno e he hi)

theorem triangleOne_reachable : Reachable triangle 2 triangleWeights triangleOne :=
  Reachable.color _ _ (Reachable.reset triangleWeights (KColoring.initial 2) rfl)
    (by decide) (by decide) (by decide) (by decide) (by decide)

/-- C5, the claim as stated fails: on the triangle with two colours, after
`color((u,v), 0)` the call `can_color((u,v), 1)` returns true although colour 1 is free at
both end points and the arc `(u,v)` is coloured, not uncoloured. -/
theorem C5_counterexample :
    Reachable triangle 2 triangleWeights triangleOne ∧
    ¬ (triangleOne.can_color ⟨0, 0, 1⟩ 1 = true ↔
        (triangleOne.is_color_free 0 1 = true ∧ triangleOne.is_color_free 1 1 = true ∧
          triangleOne.is_colored ⟨0, 0, 1⟩ = false)) :=
  ⟨triangleOne_reachable, by decide⟩

/-- C5 as amended: `can_color(a, c)` returns true iff colour `c` is free at both end points
of `a`; on a reachable colouring and for `c < b` this is the case iff no arc of the graph
incident to an end point of `a` is coloured `c`. Whether `a` itself is coloured is not
tested. -/
theorem C5_can_color (G : DiGraph) (b : Nat) (w : Arc → Nat) (k : KColoring) (a : Arc)
    (c : Nat) (hb : b ≤ UNCOLORED) (h : Reachable G b w k) (hc : c < b) :
    (k.can_color a c = true ↔
      (k.is_color_free a.tail c = true ∧ k.is_color_free a.head c = true)) ∧
    (k.can_color a c = true ↔
      ∀ e ∈ G.arcs, (e.incident a.tail ∨ e.incident a.head) → k.get_color e ≠ c) := by
  have hk := h.consistent hb
  have first : k.can_color a c = true ↔
      (k.is_color_free a.tail c = true ∧ k.is_color_free a.head c = true) := by
    unfold KColoring.can_color
    exact Bool.and_eq_true _ _ ▸ Iff.rfl
  refine ⟨first, ?_⟩
  rw [first, hk.free_iff_no_arc hb a.tail hc, hk.free_iff_no_arc hb a.head hc]
  constructor
  · rintro ⟨h1, h2⟩ e he hi
    rcases hi with hi | hi
    · exact h1 e he hi
    · exact h2 e he hi
  · intro hall
    exact ⟨fun e he hi => hall e he (Or.inl hi), fun e he hi => hall e he (Or.inr hi)⟩

/-- C5 as amended, on the triangle after `color((u,v), 0)`, arc `(u,v)` and colour 1. -/
theorem C5_can_color_witness :
    (triangleOne.can_color ⟨0, 0, 1⟩ 1 = true ↔
      (triangleOne.is_color_free (⟨0, 0, 1⟩ : Arc).tail 1 = true ∧
        triangleOne.is_color_free (⟨0, 0, 1⟩ : Arc).head 1 = true)) ∧
    (triangleOne.can_color ⟨0, 0, 1⟩ 1 = true ↔
      ∀ e ∈ triangle.arcs,
        (e.incident (⟨0, 0, 1⟩ : Arc).tail ∨ e.incident (⟨0, 0, 1⟩ : Arc).head) →
        triangleOne.get_color e ≠ 1) :=
  C5_can_color triangle 2 triangleWeights triangleOne ⟨0, 0, 1⟩ 1 (by decide)
    triangleOne_reachable (by decide)

/-! ### The free-colours extension -/

theorem fc_color_of_lt (fc : FreeColorsExtension) (a : Arc) {c : Nat} (hc : c < 64)
    (hl : a.tail ≠ a.head) :
    ∃ fc1, fc.color_impl a c = some fc1 ∧ fc1.defaultValue = fc.defaultValue ∧
      ∀ v, (fc1.free_colors v).bits =
        if v = a.tail ∨ v = a.head then (fc.free_colors v).bits ^^^ 2 ^ c
        else (fc.free_colors v).bits := by
  unfold FreeColorsExtension.color_impl
  rw [setOff_of_lt _ hc]
  simp only [Option.some_bind]
  rw [setOff_of_lt _ hc]
  simp only [Option.map_some']
  refine ⟨_, rfl, rfl, ?_⟩
  intro v
  simp only [Function.update_apply]
  by_cases h1 : v = a.head
  · subst h1
    simp [Ne.symm hl]
  · by_cases h2 : v = a.tail
    · subst h2
      simp [hl]
    · simp [h1, h2]

theorem fc_uncolor_of_lt (fc : FreeColorsExtension) (a : Arc) {c : Nat} (hc : c < 64)
    (hl : a.tail ≠ a.head) :
    ∃ fc1, fc.uncolor_impl a c = some fc1 ∧ fc1.defaultValue = fc.defaultValue ∧
      ∀ v, (fc1.free_colors v).bits =
        if v = a.tail ∨ v = a.head then (fc.free_colors v).bits ||| 2 ^ c
        else (fc.free_colors v).bits := by
  unfold FreeColorsExtension.uncolor_impl
  rw [setOn_of_lt _ hc]
  simp only [Option.some_bind]
  rw [setOn_of_lt _ hc]
  simp only [Option.map_some']
  refine ⟨_, rfl, rfl, ?_⟩
  intro v
  simp only [Function.update_apply]
  by_cases h1 : v = a.head
  · subst h1
    simp [Ne.symm hl]
  · by_cases h2 : v = a.tail
    · subst h2
      simp [hl]
    · simp [h1, h2]

theorem fc_start_of_lt (fc0 : FreeColorsExtension) {b : Nat} (hb : b < 64) :
    fc0.setNumColors_impl b
      = some ⟨⟨2 ^ b - 1, 2 ^ b - 1, b⟩, fun _ => ⟨2 ^ b - 1, 2 ^ b - 1, b⟩⟩ := by
  unfold FreeColorsExtension.setNumColors_impl
  rw [new_of_lt hb]
  rfl

theorem is_color_free_reset (k0 : KColoring) (v : Nat) {c : Nat} (hc : c ≠ UNCOLORED) :
    (k0.reset).is_color_free v c = true := by
  rw [is_color_free_iff _ _ _ hc]
  simp only [KColoring.reset]
  exact tableGet_map_none _ _ _

theorem is_color_free_color {G : DiGraph} {b : Nat} {k : KColoring} (hk : Consistent G b k)
    (hb : b ≤ UNCOLORED) (w : Arc → Nat) (a : Arc) {c : Nat} (hc : c < b) (v : Nat)
    {c1 : Nat} (hc1 : c1 < b) :
    (k.color w a c).is_color_free v c1 =
      if c1 = c ∧ (v = a.tail ∨ v = a.head) then false else k.is_color_free v c1 := by
  have hlen : c < k.mates_by_color.length := by rw [hk.len]; exact hc
  have hU := lt_ne_UNCOLORED hb hc1
  simp only [KColoring.is_color_free, mates_color k w a c c1 v hlen]
  by_cases h1 : c1 = c <;> by_cases h2 : v = a.tail <;> by_cases h3 : v = a.head <;>
    simp [h1, h2, h3, hU]
  intro _
  split
  all_goals simp

theorem is_color_free_uncolor {G : DiGraph} {b : Nat} {k : KColoring}
    (hk : Consistent G b k) (hb : b ≤ UNCOLORED) (w : Arc → Nat) (a : Arc)
    (hcd : k.is_colored a = true) (v : Nat) {c1 : Nat} (hc1 : c1 < b) :
    (k.uncolor w a).is_color_free v c1 =
      if c1 = k.arc_colors a ∧ (v = a.tail ∨ v = a.head) then true
      else k.is_color_free v c1 := by
  have hlen : k.arc_colors a < k.mates_by_color.length := by
    rw [hk.len]; exact hk.colored_lt hcd
  have hU := lt_ne_UNCOLORED hb hc1
  simp only [KColoring.is_color_free, mates_uncolor k w a c1 v hlen]
  by_cases h1 : c1 = k.arc_colors a ∧ (v = a.tail ∨ v = a.head)
  · have hU2 : k.arc_colors a ≠ UNCOLORED := h1.1 ▸ hU
    simp [h1, hU2]
  · simp [h1]

theorem ReachableFC.to_reachable {G : DiGraph} {b : Nat} {w : Arc → Nat} {k : KColoring}
    {fc : FreeColorsExtension} (h : ReachableFC G b w k fc) : Reachable G b w k := by
  induction h with
  | start k0 fc0 fc1 _ => exact Reachable.reset w (k0.setNumColors b) rfl
  | color a c _ ha hun hc ht hh _ ih => exact Reachable.color a c ih ha hun hc ht hh
  | uncolor a _ ha hcd _ ih => exact Reachable.uncolor a ih ha hcd

theorem two_pow_lt_of_lt {c b : Nat} (h : c < b) : 2 ^ c < 2 ^ b :=
  Nat.pow_lt_pow_right (by decide) h

theorem ReachableFC.fc_consistent {G : DiGraph} {b : Nat} (hb : b < 64)
    (hloop : ∀ a ∈ G.arcs, a.tail ≠ a.head) {w : Arc → Nat} {k : KColoring}
    {fc : FreeColorsExtension} (h : ReachableFC G b w k fc) : FCConsistent b k fc := by
  have hbU : b ≤ UNCOLORED := by unfold UNCOLORED; omega
  induction h with
  | start k0 fc0 fc1 hs =>
    rw [fc_start_of_lt fc0 hb] at hs
    have hs := Option.some.inj hs
    subst hs
    refine ⟨?_, ?_, fun _ _ => rfl⟩
    · intro v
      show 2 ^ b - 1 < 2 ^ b
      have : 0 < 2 ^ b := Nat.pow_pos (by decide)
      omega
    · intro v c hc
      rw [is_color_free_reset _ _ (lt_ne_UNCOLORED hbU hc)]
      show (2 ^ b - 1).testBit c = true
      simp [hc]
  | @color k fc fc1 a c hr ha hun hc ht hh hstep ih =>
    have hk := hr.to_reachable.consistent hbU
    have hsz := color_impl_size hstep
    obtain ⟨fc2, h2, _, hbits⟩ := fc_color_of_lt fc a (lt_trans hc hb) (hloop a ha)
    rw [h2] at hstep
    have := Option.some.inj hstep
    subst this
    refine ⟨?_, ?_, fun u v => by rw [hsz u, hsz v]; exact ih.size u v⟩
    · intro v
      rw [hbits]
      by_cases hv : v = a.tail ∨ v = a.head
      · rw [if_pos hv]
        exact Nat.xor_lt_two_pow (ih.bound v) (two_pow_lt_of_lt hc)
      · rw [if_neg hv]; exact ih.bound v
    · intro v c1 hc1
      rw [hbits, is_color_free_color hk hbU w a hc v hc1]
      by_cases hv : v = a.tail ∨ v = a.head
      · rw [if_pos hv, Nat.testBit_xor, Nat.testBit_two_pow, ih.bit v c1 hc1]
        by_cases hcc : c1 = c
        · subst hcc
          have hfree : k.is_color_free v c1 = true := by
            rcases hv with e | e
            · rw [e]; exact ht
            · rw [e]; exact hh
          simp [hfree, hv]
        · have hcc2 : ¬ c = c1 := fun e => hcc e.symm
          simp [hcc, hcc2]
      · rw [if_neg hv, ih.bit v c1 hc1]
        simp [hv]
  | @uncolor k fc fc1 a hr ha hcd hstep ih =>
    have hk := hr.to_reachable.consistent hbU
    have hlt := hk.colored_lt hcd
    have hsz := uncolor_impl_size hstep
    obtain ⟨fc2, h2, _, hbits⟩ := fc_uncolor_of_lt fc a (lt_trans hlt hb) (hloop a ha)
    rw [h2] at hstep
    have := Option.some.inj hstep
    subst this
    refine ⟨?_, ?_, fun u v => by rw [hsz u, hsz v]; exact ih.size u v⟩
    · intro v
      rw [hbits]
      by_cases hv : v = a.tail ∨ v = a.head
      · rw [if_pos hv]
        exact Nat.or_lt_two_pow (ih.bound v) (two_pow_lt_of_lt hlt)
      · rw [if_neg hv]; exact ih.bound v
    · intro v c1 hc1
      rw [hbits, is_color_free_uncolor hk hbU w a hcd v hc1]
      by_cases hv : v = a.tail ∨ v = a.head
      · rw [if_pos hv, Nat.testBit_or, Nat.testBit_two_pow, ih.bit v c1 hc1]
        by_cases hcc : c1 = k.arc_colors a
        · simp [hcc, hv]
        · have hcc2 : ¬ k.arc_colors a = c1 := fun e => hcc e.symm
          simp [hcc, hcc2]
      · rw [if_neg hv, ih.bit v c1 hc1]
        simp [hv]

theorem testBit_false_of_bound {x b i : Nat} (hx : x < 2 ^ b) (hi : b ≤ i) :
    x.testBit i = false :=
  Nat.testBit_lt_two_pow (lt_of_lt_of_le hx (Nat.pow_le_pow_right (by decide) hi))

theorem loopFree_reachable :
    ReachableFC loopGraph 1 (fun _ => 1) loopColoring loopFree :=
  @ReachableFC.color loopGraph 1 (fun _ => 1) _ oneColorFree.reset_impl loopFree _ _
    (ReachableFC.start (KColoring.initial 1) oneColorFree oneColorFree rfl)
    (by decide) (by decide) (by decide) (by decide) (by decide) rfl

/-- The free-colour sets below the word width and away from self-loops: with `b < 64`
colours on a graph without self-loops, in every state
reached from `setNumColors(b); reset()` by valid `color`/`uncolor` calls every hook has a
defined result, bit `c` of `free_colors[v]` is set iff `is_color_free(v, c)` for every
vertex `v` and colour `c < b`, and `common_free_color(u, v)` returns the smallest colour
free at both `u` and `v`, or `npos` when there is none. -/
theorem free_colors_consistent (G : DiGraph) (b : Nat) (w : Arc → Nat) (k : KColoring)
    (fc : FreeColorsExtension) (hb : b < 64) (hloop : ∀ a ∈ G.arcs, a.tail ≠ a.head)
    (h : ReachableFC G b w k fc) :
    (∀ v c, c < b → (fc.free_colors v).test c = some (k.is_color_free v c)) ∧
    (∀ u v, (∀ c, c < b → ¬ (k.is_color_free u c = true ∧ k.is_color_free v c = true)) →
      fc.common_free_color u v = Except.ok npos) ∧
    (∀ u v c, c < b → k.is_color_free u c = true → k.is_color_free v c = true →
      ∃ r, fc.common_free_color u v = Except.ok r ∧ r ≤ c ∧
        k.is_color_free u r = true ∧ k.is_color_free v r = true ∧
        ∀ j, j < r → ¬ (k.is_color_free u j = true ∧ k.is_color_free v j = true)) ∧
    (∀ fc0 : FreeColorsExtension, ∃ fc1, fc0.setNumColors_impl b = some fc1) ∧
    (∀ a ∈ G.arcs, ∀ c, c < b → ∃ fc1, fc.color_impl a c = some fc1) ∧
    (∀ a ∈ G.arcs, k.is_colored a = true →
      ∃ fc1, fc.uncolor_impl a (k.arc_colors a) = some fc1) := by
  have hbU : b ≤ UNCOLORED := by unfold UNCOLORED; omega
  have hk := h.to_reachable.consistent hbU
  have hf := h.fc_consistent hb hloop
  have hcommon : ∀ u v i, i < 64 →
      ((commonSet fc u v).test i = some true ↔
        i < b ∧ k.is_color_free u i = true ∧ k.is_color_free v i = true) := by
    intro u v i hi
    rw [test_eq_true_iff _ hi]
    show ((fc.free_colors u).bits &&& (fc.free_colors v).bits).testBit i = true ↔ _
    rw [Nat.testBit_and, Bool.and_eq_true]
    by_cases hib : i < b
    · rw [hf.bit u i hib, hf.bit v i hib]
      simp [hib]
    · rw [testBit_false_of_bound (hf.bound u) (Nat.le_of_not_lt hib)]
      simp [hib]
  have hcb : ∀ u v, (commonSet fc u v).bits < 2 ^ 64 := by
      intro u v
      exact lt_of_le_of_lt Nat.and_le_left
        (lt_of_lt_of_le (hf.bound u) (Nat.pow_le_pow_right (by decide) (le_of_lt hb)))
  refine ⟨?_, ?_, ?_, fun fc0 => ⟨_, fc_start_of_lt fc0 hb⟩, ?_, ?_⟩
  · intro v c hc
    rw [test_of_lt _ (lt_trans hc hb), hf.bit v c hc]
  · intro u v hno
    rw [common_free_color_of_size (hf.size u v)]
    refine defined_ok.2 ?_
    apply (find_first_spec _ (hcb u v)).1
    intro i hi
    cases ht : (commonSet fc u v).test i with
    | none =>
      rw [test_of_lt _ hi] at ht
      exact absurd ht (by simp)
    | some t =>
      cases t with
      | false => rfl
      | true =>
        obtain ⟨hib, h1, h2⟩ := (hcommon u v i hi).1 ht
        exact absurd ⟨h1, h2⟩ (hno i hib)
  · intro u v c hc h1 h2
    rw [common_free_color_of_size (hf.size u v)]
    have hc64 : c < 64 := lt_trans hc hb
    obtain ⟨r, hr1, hr2, hr3, hr4⟩ :=
      (find_first_spec _ (hcb u v)).2 c hc64 ((hcommon u v c hc64).2 ⟨hc, h1, h2⟩)
    have hr64 : r < 64 := lt_of_le_of_lt hr2 hc64
    obtain ⟨_, f1, f2⟩ := (hcommon u v r hr64).1 hr3
    refine ⟨r, defined_ok.2 hr1, hr2, f1, f2, ?_⟩
    intro j hj hboth
    have hj64 : j < 64 := lt_trans hj hr64
    have := (hcommon u v j hj64).2 ⟨lt_of_lt_of_le hj (le_trans hr2 (le_of_lt hc)), hboth⟩
    rw [hr4 j hj] at this
    exact absurd this (by simp)
  · intro a ha c hc
    obtain ⟨fc1, h1, _⟩ := fc_color_of_lt fc a (lt_trans hc hb) (hloop a ha)
    exact ⟨fc1, h1⟩
  · intro a ha hcd
    obtain ⟨fc1, h1, _⟩ :=
      fc_uncolor_of_lt fc a (lt_trans (hk.colored_lt hcd) hb) (hloop a ha)
    exact ⟨fc1, h1⟩

theorem triangleOneFree_reachable :
    ReachableFC triangle 2 triangleWeights triangleOne triangleOneFree :=
  @ReachableFC.color triangle 2 triangleWeights _ twoColorFree.reset_impl triangleOneFree _ _
    (ReachableFC.start (KColoring.initial 2) twoColorFree twoColorFree rfl)
    (by decide) (by decide) (by decide) (by decide) (by decide) rfl

/-- The free-colour sets on the triangle with two colours after `color((u,v), 0)`. -/
theorem free_colors_consistent_triangle :
    (∀ v c, c < 2 →
      (triangleOneFree.free_colors v).test c = some (triangleOne.is_color_free v c)) ∧
    (∀ u v, (∀ c, c < 2 →
        ¬ (triangleOne.is_color_free u c = true ∧ triangleOne.is_color_free v c = true)) →
      triangleOneFree.common_free_color u v = Except.ok npos) ∧
    (∀ u v c, c < 2 → triangleOne.is_color_free u c = true →
      triangleOne.is_color_free v c = true →
      ∃ r, triangleOneFree.common_free_color u v = Except.ok r ∧ r ≤ c ∧
        triangleOne.is_color_free u r = true ∧ triangleOne.is_color_free v r = true ∧
        ∀ j, j < r →
          ¬ (triangleOne.is_color_free u j = true ∧ triangleOne.is_color_free v j = true)) ∧
    (∀ fc0 : FreeColorsExtension, ∃ fc1, fc0.setNumColors_impl 2 = some fc1) ∧
    (∀ a ∈ triangle.arcs, ∀ c, c < 2 → ∃ fc1, triangleOneFree.color_impl a c = some fc1) ∧
    (∀ a ∈ triangle.arcs, triangleOne.is_colored a = true →
      ∃ fc1, triangleOneFree.uncolor_impl a (triangleOne.arc_colors a) = some fc1) :=
  free_colors_consistent triangle 2 triangleWeights triangleOne triangleOneFree (by decide)
    (by decide) triangleOneFree_reachable

/-! ### `set_num_matchings` -/

/-- Below the word width: for `b < 64` and any prior state, `set_num_matchings(b)` is defined and
afterwards every arc is uncoloured, every entry of the mate table and of the arc-mate table
is null, `total_weight` is 0 and at every vertex exactly the colours `0..b-1` are free (in
the free-colour set and according to `is_color_free`). For the class without extensions the
first three hold for every `color_t` value `n`. -/
theorem set_num_matchings_below_width (s : Coloring) (b : Nat) (hb : b < 64) :
    (∃ s1, set_num_matchings s b = some s1 ∧
      s1.base.num_colors = b ∧
      (∀ a, s1.base.is_colored a = false ∧ s1.base.get_color a = UNCOLORED) ∧
      s1.base.mates_by_color.length = b ∧
      (∀ c v, tableGet s1.base.mates_by_color c v = Option.none) ∧
      (∀ c v, s1.am.getArcToMate c v = Option.none) ∧
      s1.base.getTotalWeight = 0 ∧
      (∀ v c, c < 64 → (s1.fc.free_colors v).test c = some (decide (c < b))) ∧
      (∀ v c, c < b → s1.base.is_color_free v c = true)) ∧
    (∀ (k : KColoring) (n : Nat), n ≤ UNCOLORED →
      (∀ a, ((k.setNumColors n).reset).is_colored a = false) ∧
      (∀ c v, tableGet ((k.setNumColors n).reset).mates_by_color c v = Option.none) ∧
      ((k.setNumColors n).reset).getTotalWeight = 0) := by
  have hbU : b ≤ UNCOLORED := by unfold UNCOLORED; omega
  constructor
  · refine ⟨⟨(s.base.setNumColors b).reset, (s.am.setNumColors_impl b).reset_impl,
      FreeColorsExtension.reset_impl
        ⟨⟨2 ^ b - 1, 2 ^ b - 1, b⟩, fun _ => ⟨2 ^ b - 1, 2 ^ b - 1, b⟩⟩⟩,
      ?_, rfl, ?_, ?_, ?_, ?_, rfl, ?_, ?_⟩
    · unfold set_num_matchings Coloring.setNumColors
      rw [fc_start_of_lt _ hb]
      rfl
    · intro a
      refine ⟨?_, rfl⟩
      simp [KColoring.is_colored, KColoring.reset, KColoring.setNumColors, hbU]
    · simp [KColoring.reset, KColoring.setNumColors, resize_length]
    · intro c v
      simp only [KColoring.reset]
      exact tableGet_map_none _ _ _
    · intro c v
      simp only [ArcMateExtension.getArcToMate, ArcMateExtension.reset_impl]
      exact tableGet_map_none _ _ _
    · intro v c hc
      rw [test_of_lt _ hc]
      simp [FreeColorsExtension.reset_impl]
    · intro v c hc
      exact is_color_free_reset _ v (lt_ne_UNCOLORED hbU hc)
  · intro k n hn
    refine ⟨?_, ?_, rfl⟩
    · intro a
      simp [KColoring.is_colored, KColoring.reset, KColoring.setNumColors, hn]
    · intro c v
      simp only [KColoring.reset]
      exact tableGet_map_none _ _ _

/-- The set-up of the freshly constructed colouring for `b = 2`. -/
theorem set_num_matchings_two :
    (∃ s1, set_num_matchings Coloring.initial 2 = some s1 ∧
      s1.base.num_colors = 2 ∧
      (∀ a, s1.base.is_colored a = false ∧ s1.base.get_color a = UNCOLORED) ∧
      s1.base.mates_by_color.length = 2 ∧
      (∀ c v, tableGet s1.base.mates_by_color c v = Option.none) ∧
      (∀ c v, s1.am.getArcToMate c v = Option.none) ∧
      s1.base.getTotalWeight = 0 ∧
      (∀ v c, c < 64 → (s1.fc.free_colors v).test c = some (decide (c < 2))) ∧
      (∀ v c, c < 2 → s1.base.is_color_free v c = true)) ∧
    (∀ (k : KColoring) (n : Nat), n ≤ UNCOLORED →
      (∀ a, ((k.setNumColors n).reset).is_colored a = false) ∧
      (∀ c v, tableGet ((k.setNumColors n).reset).mates_by_color c v = Option.none) ∧
      ((k.setNumColors n).reset).getTotalWeight = 0) :=
  set_num_matchings_below_width Coloring.initial 2 (by decide)

/-! ### `local_swap` -/

theorem starLoopColoring_reachable :
    Reachable starLoopGraph 1 starLoopWeights starLoopColoring :=
  Reachable.color _ _ (Reachable.reset starLoopWeights (KColoring.initial 1) rfl)
    (by decide) (by decide) (by decide) (by decide) (by decide)

/-- C7, evaluation of the code: on the graph with the self-loop `a = (0,0)` of weight 1,
coloured 0 by a valid `color` call, and the uncoloured arcs `(0,1)` of weight 6 and `(0,2)`
of weight 5, `local_swap(a)` selects `(0,1)` at the tail and `(0,2)` at the head, returns
true and colours both with colour 0: afterwards two different arcs incident to vertex 0
have colour 0. -/
theorem C7_local_swap_on_loop :
    Reachable starLoopGraph 1 starLoopWeights starLoopColoring ∧
    starLoopColoring.is_colored ⟨0, 0, 0⟩ = true ∧
    (starLoopColoring.swapTail starLoopGraph starLoopWeights ⟨0, 0, 0⟩).arc
      = some ⟨1, 0, 1⟩ ∧
    (starLoopColoring.swapHead starLoopGraph starLoopWeights ⟨0, 0, 0⟩).arc
      = some ⟨2, 0, 2⟩ ∧
    (starLoopColoring.local_swap starLoopGraph starLoopWeights ⟨0, 0, 0⟩).1 = true ∧
    (starLoopColoring.local_swap starLoopGraph starLoopWeights ⟨0, 0, 0⟩).2.get_color
      ⟨1, 0, 1⟩ = 0 ∧
    (starLoopColoring.local_swap starLoopGraph starLoopWeights ⟨0, 0, 0⟩).2.get_color
      ⟨2, 0, 2⟩ = 0 ∧
    (⟨1, 0, 1⟩ : Arc).incident 0 ∧ (⟨2, 0, 2⟩ : Arc).incident 0 :=
  ⟨starLoopColoring_reachable, by decide, by decide, by decide, by decide, by decide,
    by decide, by decide, by decide⟩

theorem foldl_invariant {α β : Type} (P : β → Prop) (f : β → α → β) (l : List α) :
    ∀ init, P init → (∀ st x, x ∈ l → P st → P (f st x)) → P (l.foldl f init) := by
  induction l with
  | nil => intro init h0 _; exact h0
  | cons y l ih =>
    intro init h0 hstep
    simp only [List.foldl_cons]
    apply ih
    · exact hstep init y (List.mem_cons_self _ _) h0
    · intro st x hx hP
      exact hstep st x (List.mem_cons_of_mem _ hx) hP

theorem mem_mapIncidentArcs {G : DiGraph} {v : Nat} {x : Arc} :
    x ∈ G.mapIncidentArcs v ↔ x ∈ G.arcs ∧ x.incident v := by
  simp [DiGraph.mapIncidentArcs, List.mem_filter]

/-- What the tail-side scan of `local_swap` returns: nothing with weight 0, or an uncoloured
arc at the tail, different from `arc`, whose far end has the colour of `arc` free. -/
theorem swapTail_spec (k : KColoring) (G : DiGraph) (w : Arc → Nat) (a : Arc) :
    ((k.swapTail G w a).arc = Option.none ∧ (k.swapTail G w a).weight = 0 ∧
      (k.swapTail G w a).target = Option.none) ∨
    ∃ x, (k.swapTail G w a).arc = some x ∧ x ∈ G.arcs ∧ x.incident a.tail ∧ x ≠ a ∧
      k.is_colored x = false ∧ (k.swapTail G w a).target = some (x.getOther a.tail) ∧
      k.is_color_free (x.getOther a.tail) (k.arc_colors a) = true ∧
      (k.swapTail G w a).weight = w x := by
  unfold KColoring.swapTail
  apply foldl_invariant
    (fun st : SwapCandidate =>
      (st.arc = Option.none ∧ st.weight = 0 ∧ st.target = Option.none) ∨
      ∃ x, st.arc = some x ∧ x ∈ G.arcs ∧ x.incident a.tail ∧ x ≠ a ∧
        k.is_colored x = false ∧ st.target = some (x.getOther a.tail) ∧
        k.is_color_free (x.getOther a.tail) (k.arc_colors a) = true ∧ st.weight = w x)
  · exact Or.inl ⟨rfl, rfl, rfl⟩
  · intro st x hx hP
    obtain ⟨hxG, hxi⟩ := mem_mapIncidentArcs.1 hx
    unfold KColoring.swapTailStep
    by_cases h1 : x = a ∨ k.is_colored x = true
    · rw [if_pos h1]; exact hP
    · rw [if_neg h1]
      simp only
      by_cases h2 : k.is_color_free (x.getOther a.tail) (k.arc_colors a) = true
      · rw [if_pos h2]
        by_cases h3 : w x > st.weight
        · rw [if_pos h3]
          refine Or.inr ⟨x, rfl, hxG, hxi, fun e => h1 (Or.inl e), ?_, rfl, h2, rfl⟩
          cases hc : k.is_colored x with
          | false => rfl
          | true => exact absurd (Or.inr hc) h1
        · rw [if_neg h3]; exact hP
      · rw [if_neg h2]; exact hP

/-- What the head-side scan of `local_swap` returns: nothing with weight 0, or an uncoloured
arc at the head, different from `arc`, whose far end has the colour of `arc` free and
differs from the far end of the tail-side arc. -/
theorem swapHead_spec (k : KColoring) (G : DiGraph) (w : Arc → Nat) (a : Arc) :
    ((k.swapHead G w a).arc = Option.none ∧ (k.swapHead G w a).weight = 0) ∨
    ∃ x, (k.swapHead G w a).arc = some x ∧ x ∈ G.arcs ∧ x.incident a.head ∧ x ≠ a ∧
      k.is_colored x = false ∧ some (x.getOther a.head) ≠ (k.swapTail G w a).target ∧
      k.is_color_free (x.getOther a.head) (k.arc_colors a) = true ∧
      (k.swapHead G w a).weight = w x := by
  unfold KColoring.swapHead
  apply foldl_invariant
    (fun st : SwapCandidate =>
      (st.arc = Option.none ∧ st.weight = 0) ∨
      ∃ x, st.arc = some x ∧ x ∈ G.arcs ∧ x.incident a.head ∧ x ≠ a ∧
        k.is_colored x = false ∧ some (x.getOther a.head) ≠ (k.swapTail G w a).target ∧
        k.is_color_free (x.getOther a.head) (k.arc_colors a) = true ∧ st.weight = w x)
  · exact Or.inl ⟨rfl, rfl⟩
  · intro st x hx hP
    obtain ⟨hxG, hxi⟩ := mem_mapIncidentArcs.1 hx
    unfold KColoring.swapHeadStep
    by_cases h1 : x = a ∨ k.is_colored x = true
    · rw [if_pos h1]; exact hP
    · rw [if_neg h1]
      simp only
      by_cases h2 : k.is_color_free (x.getOther a.head) (k.arc_colors a) = true ∧
          some (x.getOther a.head) ≠ (k.swapTail G w a).target
      · rw [if_pos h2]
        by_cases h3 : w x > st.weight
        · rw [if_pos h3]
          refine Or.inr ⟨x, rfl, hxG, hxi, fun e => h1 (Or.inl e), ?_, h2.2, h2.1, rfl⟩
          cases hc : k.is_colored x with
          | false => rfl
          | true => exact absurd (Or.inr hc) h1
        · rw [if_neg h3]; exact hP
      · rw [if_neg h2]; exact hP

theorem getOther_ends (x : Arc) (v : Nat) (hi : x.incident v) :
    (x.tail = v ∧ x.head = x.getOther v) ∨ (x.head = v ∧ x.tail = x.getOther v) := by
  unfold Arc.getOther
  by_cases h : v = x.tail
  · rw [if_pos h]; exact Or.inl ⟨h.symm, rfl⟩
  · rw [if_neg h]
    rcases hi with e | e
    · exact absurd e.symm h
    · exact Or.inr ⟨e, rfl⟩

theorem Consistent.not_free_of_colored {G : DiGraph} {b : Nat} {k : KColoring}
    (hk : Consistent G b k) {a : Arc} (ha : a ∈ G.arcs) (hcd : k.is_colored a = true) :
    k.is_color_free a.tail (k.arc_colors a) = false ∧
    k.is_color_free a.head (k.arc_colors a) = false := by
  obtain ⟨m1, m2⟩ := hk.mate_of_arc a ha (hk.colored_lt hcd)
  simp [KColoring.is_color_free, m1, m2]

theorem arc_colors_color (k : KColoring) (w : Arc → Nat) (a : Arc) (c : Nat) (x : Arc) :
    (k.color w a c).arc_colors x = if x = a then c else k.arc_colors x := by
  simp only [KColoring.color, Function.update_apply]

theorem arc_colors_uncolor (k : KColoring) (w : Arc → Nat) (a : Arc) (x : Arc) :
    (k.uncolor w a).arc_colors x = if x = a then UNCOLORED else k.arc_colors x := by
  simp only [KColoring.uncolor, Function.update_apply]

theorem Consistent.not_colored_of_eq {G : DiGraph} {b : Nat} {k : KColoring}
    (hk : Consistent G b k) (hb : b ≤ UNCOLORED) {a : Arc}
    (h : k.arc_colors a = UNCOLORED) : k.is_colored a = false := by
  simp only [KColoring.is_colored, hk.nc, h]
  exact decide_eq_false (Nat.not_lt.2 hb)

/-- The state `local_swap` builds when it swaps, for an arc with two different end points:
it is reached by three valid calls, the arc is uncoloured, the selected arcs carry its
colour and the coloured weight changes by the selected weights minus `w(arc)`. -/
theorem swap_state {G : DiGraph} {b : Nat} {w : Arc → Nat} {k : KColoring} {a : Arc}
    (hb : b ≤ UNCOLORED) (hnd : G.arcs.Nodup) (hr : Reachable G b w k) (ha : a ∈ G.arcs)
    (hcd : k.is_colored a = true) (hl : a.tail ≠ a.head) :
    Reachable G b w
      (((k.uncolor w a).colorIfSome w (k.swapTail G w a).arc (k.arc_colors a)).colorIfSome w
        (k.swapHead G w a).arc (k.arc_colors a)) ∧
    coloredWeight G w
      (((k.uncolor w a).colorIfSome w (k.swapTail G w a).arc (k.arc_colors a)).colorIfSome w
        (k.swapHead G w a).arc (k.arc_colors a)) + w a
      = coloredWeight G w k + (k.swapTail G w a).weight + (k.swapHead G w a).weight ∧
    (((k.uncolor w a).colorIfSome w (k.swapTail G w a).arc (k.arc_colors a)).colorIfSome w
        (k.swapHead G w a).arc (k.arc_colors a)).is_colored a = false ∧
    (∀ x, (k.swapTail G w a).arc = some x →
      (((k.uncolor w a).colorIfSome w (k.swapTail G w a).arc (k.arc_colors a)).colorIfSome w
        (k.swapHead G w a).arc (k.arc_colors a)).get_color x = k.arc_colors a) ∧
    (∀ y, (k.swapHead G w a).arc = some y →
      (((k.uncolor w a).colorIfSome w (k.swapTail G w a).arc (k.arc_colors a)).colorIfSome w
        (k.swapHead G w a).arc (k.arc_colors a)).get_color y = k.arc_colors a) := by
  have hk := hr.consistent hb
  have hc := hk.colored_lt hcd
  obtain ⟨nft, nfh⟩ := hk.not_free_of_colored ha hcd
  have hr1 : Reachable G b w (k.uncolor w a) := Reachable.uncolor a hr ha hcd
  have hk1 := hr1.consistent hb
  have hw1 := coloredWeight_uncolor hk hb hnd w ha hcd
  have free1 : ∀ v, (v = a.tail ∨ v = a.head ∨ k.is_color_free v (k.arc_colors a) = true) →
      (k.uncolor w a).is_color_free v (k.arc_colors a) = true := by
    intro v hv
    rw [is_color_free_uncolor hk hb w a hcd v hc]
    by_cases h1 : k.arc_colors a = k.arc_colors a ∧ (v = a.tail ∨ v = a.head)
    · rw [if_pos h1]
    · rw [if_neg h1]
      rcases hv with e | e | e
      · exact absurd ⟨rfl, Or.inl e⟩ h1
      · exact absurd ⟨rfl, Or.inr e⟩ h1
      · exact e
  have unc1 : ∀ x, x ≠ a → k.is_colored x = false → (k.uncolor w a).is_colored x = false := by
    intro x hx hun
    rw [is_colored_uncolor hk hb w a x, if_neg hx]; exact hun
  have hUa : (k.uncolor w a).arc_colors a = UNCOLORED := by
    rw [arc_colors_uncolor, if_pos rfl]
  have hUb : ¬ UNCOLORED < b := Nat.not_lt.2 hb
  -- far ends of candidates are different from both end points of `a`
  have far_ne : ∀ v, k.is_color_free v (k.arc_colors a) = true → v ≠ a.tail ∧ v ≠ a.head := by
    intro v hv
    constructor
    · intro e; rw [e, nft] at hv; exact absurd hv (by decide)
    · intro e; rw [e, nfh] at hv; exact absurd hv (by decide)
  rcases swapTail_spec k G w a with ⟨t1, t2, t3⟩ | ⟨x, t1, hxG, hxi, hxa, hxun, t3, hxf, t2⟩
  · -- no tail-side arc
    rcases swapHead_spec k G w a with ⟨h1, h2⟩ | ⟨y, h1, hyG, hyi, hya, hyun, hyt, hyf, h2⟩
    · rw [t1, h1, t2, h2]
      simp only [KColoring.colorIfSome]
      refine ⟨hr1, by omega, ?_, ?_, ?_⟩
      · rw [is_colored_uncolor hk hb w a a, if_pos rfl]
      · intro x hx; exact absurd hx (by simp)
      · intro y hy; exact absurd hy (by simp)
    · rw [t1, h1, t2, h2]
      simp only [KColoring.colorIfSome]
      have hends := getOther_ends y a.head hyi
      have fy : (k.uncolor w a).is_color_free y.tail (k.arc_colors a) = true ∧
          (k.uncolor w a).is_color_free y.head (k.arc_colors a) = true := by
        rcases hends with ⟨e1, e2⟩ | ⟨e1, e2⟩
        · exact ⟨free1 _ (Or.inr (Or.inl e1)), by rw [e2]; exact free1 _ (Or.inr (Or.inr hyf))⟩
        · exact ⟨by rw [e2]; exact free1 _ (Or.inr (Or.inr hyf)), free1 _ (Or.inr (Or.inl e1))⟩
      have hyun1 := unc1 y hya hyun
      have hr3 := Reachable.color y _ hr1 hyG hyun1 hc fy.1 fy.2
      refine ⟨hr3, ?_, ?_, ?_, ?_⟩
      · rw [coloredWeight_color hk1 hnd w hyG hyun1 hc]; omega
      · apply (hr3.consistent hb).not_colored_of_eq hb
        rw [arc_colors_color, if_neg (Ne.symm hya), hUa]
      · intro x hx; exact absurd hx (by simp)
      · intro z hz
        have : y = z := Option.some.inj hz
        subst this
        simp only [KColoring.get_color]
        rw [arc_colors_color, if_pos rfl]
  · -- a tail-side arc `x`
    have hxends := getOther_ends x a.tail hxi
    have fx : (k.uncolor w a).is_color_free x.tail (k.arc_colors a) = true ∧
        (k.uncolor w a).is_color_free x.head (k.arc_colors a) = true := by
      rcases hxends with ⟨e1, e2⟩ | ⟨e1, e2⟩
      · exact ⟨free1 _ (Or.inl e1), by rw [e2]; exact free1 _ (Or.inr (Or.inr hxf))⟩
      · exact ⟨by rw [e2]; exact free1 _ (Or.inr (Or.inr hxf)), free1 _ (Or.inl e1)⟩
    have hxun1 := unc1 x hxa hxun
    have hr2 : Reachable G b w ((k.uncolor w a).color w x (k.arc_colors a)) :=
      Reachable.color x _ hr1 hxG hxun1 hc fx.1 fx.2
    have hk2 := hr2.consistent hb
    have hw2 := coloredWeight_color hk1 hnd w hxG hxun1 hc
    have hx_inc : ∀ v, (v = x.tail ∨ v = x.head) → v = a.tail ∨ v = x.getOther a.tail := by
      intro v hv
      rcases hxends with ⟨e1, e2⟩ | ⟨e1, e2⟩
      · rcases hv with e | e
        · exact Or.inl (e.trans e1)
        · exact Or.inr (e.trans e2)
      · rcases hv with e | e
        · exact Or.inr (e.trans e2)
        · exact Or.inl (e.trans e1)
    rcases swapHead_spec k G w a with ⟨h1, h2⟩ | ⟨y, h1, hyG, hyi, hya, hyun, hyt, hyf, h2⟩
    · rw [t1, h1, t2, h2]
      simp only [KColoring.colorIfSome]
      refine ⟨hr2, by omega, ?_, ?_, ?_⟩
      · apply hk2.not_colored_of_eq hb
        rw [arc_colors_color, if_neg (Ne.symm hxa), hUa]
      · intro z hz
        have : x = z := Option.some.inj hz
        subst this
        simp only [KColoring.get_color]
        rw [arc_colors_color, if_pos rfl]
      · intro y hy; exact absurd hy (by simp)
    · rw [t1, h1, t2, h2]
      simp only [KColoring.colorIfSome]
      have hyends := getOther_ends y a.head hyi
      rw [t3] at hyt
      have hne_far : y.getOther a.head ≠ x.getOther a.tail := fun e => hyt (by rw [e])
      -- the end points of `y` are not end points of `x`
      have hy_free : ∀ v, (v = a.head ∨ v = y.getOther a.head) →
          ((k.uncolor w a).color w x (k.arc_colors a)).is_color_free v (k.arc_colors a)
            = true := by
        intro v hv
        rw [is_color_free_color hk1 hb w x hc v hc]
        have hnot : ¬ (k.arc_colors a = k.arc_colors a ∧ (v = x.tail ∨ v = x.head)) := by
          rintro ⟨_, hvx⟩
          rcases hx_inc v hvx with e | e
          · rcases hv with e2 | e2
            · exact hl (e.symm.trans e2)
            · exact (far_ne _ hyf).1 (e2.symm.trans e)
          · rcases hv with e2 | e2
            · exact (far_ne _ hxf).2 (e.symm.trans e2)
            · exact hne_far (e2.symm.trans e)
        rw [if_neg hnot]
        rcases hv with e | e
        · exact free1 v (Or.inr (Or.inl e))
        · exact free1 v (Or.inr (Or.inr (by rw [e]; exact hyf)))
      have fy : ((k.uncolor w a).color w x (k.arc_colors a)).is_color_free y.tail
            (k.arc_colors a) = true ∧
          ((k.uncolor w a).color w x (k.arc_colors a)).is_color_free y.head
            (k.arc_colors a) = true := by
        rcases hyends with ⟨e1, e2⟩ | ⟨e1, e2⟩
        · exact ⟨hy_free _ (Or.inl e1), hy_free _ (Or.inr e2)⟩
        · exact ⟨hy_free _ (Or.inr e2), hy_free _ (Or.inl e1)⟩
      have hyx : y ≠ x := by
        intro e
        subst e
        rcases hx_inc a.head (by
          rcases hyends with ⟨e1, _⟩ | ⟨e1, _⟩
          · exact Or.inl e1.symm
          · exact Or.inr e1.symm) with e | e
        · exact hl e.symm
        · exact (far_ne _ hxf).2 e.symm
      have hyun2 : ((k.uncolor w a).color w x (k.arc_colors a)).is_colored y = false := by
        rw [is_colored_color hk1 w x hc y, if_neg hyx]
        exact unc1 y hya hyun
      have hr3 := Reachable.color y _ hr2 hyG hyun2 hc fy.1 fy.2
      refine ⟨hr3, ?_, ?_, ?_, ?_⟩
      · rw [coloredWeight_color hk2 hnd w hyG hyun2 hc]; omega
      · apply (hr3.consistent hb).not_colored_of_eq hb
        rw [arc_colors_color, if_neg (Ne.symm hya), arc_colors_color, if_neg (Ne.symm hxa), hUa]
      · intro z hz
        have : x = z := Option.some.inj hz
        subst this
        simp only [KColoring.get_color]
        rw [arc_colors_color, arc_colors_color, if_pos rfl]
        simp
      · intro z hz
        have : y = z := Option.some.inj hz
        subst this
        simp only [KColoring.get_color]
        rw [arc_colors_color, if_pos rfl]

theorem coloredWeight_le_sum (G : DiGraph) (w : Arc → Nat) (k : KColoring) :
    coloredWeight G w k ≤ (G.arcs.map w).sum := by
  unfold coloredWeight
  apply List.sum_le_sum
  intro x _
  by_cases h : k.is_colored x = true
  · rw [if_pos h]
  · rw [if_neg h]; exact Nat.zero_le _

theorem le_coloredWeight_of_colored (G : DiGraph) (w : Arc → Nat) (k : KColoring) {a : Arc}
    (ha : a ∈ G.arcs) (hcd : k.is_colored a = true) : w a ≤ coloredWeight G w k := by
  unfold coloredWeight
  apply List.single_le_sum (by intro _ _; exact Nat.zero_le _)
  rw [List.mem_map]
  exact ⟨a, ha, by rw [if_pos hcd]⟩

/-- Behaviour of `local_swap(a)` on a reachable colouring for a coloured arc `a` with two
different end points, when the weights of the graph sum to less than `2 ^ 64`: it returns
true iff the selected weights exceed `w(a)`; then `a` is uncoloured, each selected arc has
the former colour of `a`, the state is again reachable (hence proper and consistent) and
`total_weight` has grown by the selected weights minus `w(a)`; when it returns false the
state is unchanged. -/
theorem local_swap_spec (G : DiGraph) (b : Nat) (w : Arc → Nat) (k : KColoring) (a : Arc)
    (hb : b ≤ UNCOLORED) (hnd : G.arcs.Nodup) (hr : Reachable G b w k) (ha : a ∈ G.arcs)
    (hcd : k.is_colored a = true) (hl : a.tail ≠ a.head)
    (hsum : (G.arcs.map w).sum < 2 ^ 64) :
    ((k.local_swap G w a).1 = true ↔
      (k.swapTail G w a).weight + (k.swapHead G w a).weight > w a) ∧
    ((k.local_swap G w a).1 = true →
      Reachable G b w (k.local_swap G w a).2 ∧
      Consistent G b (k.local_swap G w a).2 ∧
      (k.local_swap G w a).2.is_colored a = false ∧
      (∀ x, (k.swapTail G w a).arc = some x →
        (k.local_swap G w a).2.get_color x = k.get_color a) ∧
      (∀ y, (k.swapHead G w a).arc = some y →
        (k.local_swap G w a).2.get_color y = k.get_color a) ∧
      (k.local_swap G w a).2.getTotalWeight + w a
        = k.getTotalWeight + (k.swapTail G w a).weight + (k.swapHead G w a).weight ∧
      k.getTotalWeight < (k.local_swap G w a).2.getTotalWeight) ∧
    ((k.local_swap G w a).1 = false → (k.local_swap G w a).2 = k) := by
  obtain ⟨hr3, hw3, hun3, htl, hhd⟩ := swap_state hb hnd hr ha hcd hl
  have hle3 := coloredWeight_le_sum G w
    (((k.uncolor w a).colorIfSome w (k.swapTail G w a).arc (k.arc_colors a)).colorIfSome w
      (k.swapHead G w a).arc (k.arc_colors a))
  have hle := coloredWeight_le_sum G w k
  have hwa := le_coloredWeight_of_colored G w k ha hcd
  have hT := hr.weight_inv hb hnd
  have hT3 := hr3.weight_inv hb hnd
  rw [Nat.mod_eq_of_lt (lt_of_le_of_lt hle hsum)] at hT
  rw [Nat.mod_eq_of_lt (lt_of_le_of_lt hle3 hsum)] at hT3
  have hadd : add64 (k.swapHead G w a).weight (k.swapTail G w a).weight
      = (k.swapTail G w a).weight + (k.swapHead G w a).weight := by
    unfold add64
    rw [Nat.mod_eq_of_lt (by omega)]
    omega
  unfold KColoring.local_swap
  simp only [hadd]
  by_cases hgt : (k.swapTail G w a).weight + (k.swapHead G w a).weight > w a
  · rw [if_pos hgt]
    refine ⟨⟨fun _ => hgt, fun _ => rfl⟩, ?_, fun h => absurd h (by simp)⟩
    intro _
    refine ⟨hr3, hr3.consistent hb, hun3, htl, hhd, ?_, ?_⟩
    · show KColoring.total_weight _ + w a = k.total_weight + _ + _
      rw [hT3, hT]; exact hw3
    · show k.total_weight < KColoring.total_weight _
      rw [hT3, hT]; omega
  · rw [if_neg hgt]
    refine ⟨⟨fun h => absurd h (by simp), fun h => absurd h hgt⟩,
      fun h => absurd h (by simp), fun _ => rfl⟩

theorem pathColoring_reachable : Reachable pathGraph 1 pathWeights pathColoring :=
  Reachable.color _ _ (Reachable.reset pathWeights (KColoring.initial 1) rfl)
    (by decide) (by decide) (by decide) (by decide) (by decide)

/-- `local_swap` on the path `0 - 1 - 2 - 3` with weights 4, 1, 5 and the middle arc
coloured: the two outer arcs replace it. -/
theorem local_swap_spec_witness :
    ((pathColoring.local_swap pathGraph pathWeights ⟨1, 1, 2⟩).1 = true ↔
      (pathColoring.swapTail pathGraph pathWeights ⟨1, 1, 2⟩).weight
        + (pathColoring.swapHead pathGraph pathWeights ⟨1, 1, 2⟩).weight
        > pathWeights ⟨1, 1, 2⟩) ∧
    ((pathColoring.local_swap pathGraph pathWeights ⟨1, 1, 2⟩).1 = true →
      Reachable pathGraph 1 pathWeights
        (pathColoring.local_swap pathGraph pathWeights ⟨1, 1, 2⟩).2 ∧
      Consistent pathGraph 1 (pathColoring.local_swap pathGraph pathWeights ⟨1, 1, 2⟩).2 ∧
      (pathColoring.local_swap pathGraph pathWeights ⟨1, 1, 2⟩).2.is_colored ⟨1, 1, 2⟩
        = false ∧
      (∀ x, (pathColoring.swapTail pathGraph pathWeights ⟨1, 1, 2⟩).arc = some x →
        (pathColoring.local_swap pathGraph pathWeights ⟨1, 1, 2⟩).2.get_color x
          = pathColoring.get_color ⟨1, 1, 2⟩) ∧
      (∀ y, (pathColoring.swapHead pathGraph pathWeights ⟨1, 1, 2⟩).arc = some y →
        (pathColoring.local_swap pathGraph pathWeights ⟨1, 1, 2⟩).2.get_color y
          = pathColoring.get_color ⟨1, 1, 2⟩) ∧
      (pathColoring.local_swap pathGraph pathWeights ⟨1, 1, 2⟩).2.getTotalWeight
          + pathWeights ⟨1, 1, 2⟩
        = pathColoring.getTotalWeight
          + (pathColoring.swapTail pathGraph pathWeights ⟨1, 1, 2⟩).weight
          + (pathColoring.swapHead pathGraph pathWeights ⟨1, 1, 2⟩).weight ∧
      pathColoring.getTotalWeight
        < (pathColoring.local_swap pathGraph pathWeights ⟨1, 1, 2⟩).2.getTotalWeight) ∧
    ((pathColoring.local_swap pathGraph pathWeights ⟨1, 1, 2⟩).1 = false →
      (pathColoring.local_swap pathGraph pathWeights ⟨1, 1, 2⟩).2 = pathColoring) :=
  local_swap_spec pathGraph 1 pathWeights pathColoring ⟨1, 1, 2⟩ (by decide) (by decide)
    pathColoring_reachable (by decide) (by decide) (by decide) (by decide)

/-! ## The checked operations -/

theorem Coloring.color_inv {s s1 : Coloring} {w : Arc → Nat} {a : Arc} {c : Nat}
    (h : s.color w a c = Except.ok s1) :
    s.base.is_colored a = false ∧ c < s.base.num_colors ∧
    s.base.is_color_free a.tail c = true ∧ s.base.is_color_free a.head c = true ∧
    s1.base = s.base.color w a c ∧ s1.am = s.am.color_impl a c ∧
    s.fc.color_impl a c = some s1.fc := by
  unfold Coloring.color at h
  simp only [bind_ok, check_ok, defined_ok, pure, Except.pure, Except.ok.injEq] at h
  obtain ⟨_, h1, _, h2, _, h3, _, h4, _, h5, _, h6, t, ht, _, ht2, hh, hh1, _, hh2, fc, hfc,
    rfl⟩ := h
  simp at h1 h2
  exact ⟨h1, h2, h3, h4, rfl, rfl, hfc⟩

theorem Coloring.uncolor_inv {s s1 : Coloring} {w : Arc → Nat} {a : Arc}
    (h : s.uncolor w a = Except.ok s1) :
    s.base.is_colored a = true ∧ s1.base = s.base.uncolor w a ∧
    s1.am = s.am.uncolor_impl a (s.base.arc_colors a) ∧
    s.fc.uncolor_impl a (s.base.arc_colors a) = some s1.fc := by
  unfold Coloring.uncolor at h
  simp only [bind_ok, check_ok, defined_ok, pure, Except.pure, Except.ok.injEq] at h
  obtain ⟨_, h1, _, h2, _, h3, t, ht, _, ht2, hh, hh1, _, hh2, fc, hfc, rfl⟩ := h
  exact ⟨h1, rfl, rfl, hfc⟩

theorem AMConsistent.step_color {G : DiGraph} {b : Nat} {k : KColoring} {am : ArcMateExtension}
    (ih : AMConsistent G b k am) (hk : Consistent G b k) (hb : b ≤ UNCOLORED) (w : Arc → Nat)
    {a : Arc} {c : Nat} (ha : a ∈ G.arcs) (hun : k.is_colored a = false) (hc : c < b)
    (ht : k.is_color_free a.tail c = true) (hh : k.is_color_free a.head c = true) :
    AMConsistent G b (k.color w a c) (am.color_impl a c) := by
  have hlen : c < am.arcs_to_mates_by_color.length := by rw [ih.len]; exact hc
  have hcU : c ≠ UNCOLORED := lt_ne_UNCOLORED hb hc
  have htn := (is_color_free_iff k a.tail c hcU).1 ht
  have hhn := (is_color_free_iff k a.head c hcU).1 hh
  have hua := hk.uncolored_eq hun
  have hcol : ∀ x, (k.color w a c).arc_colors x = if x = a then c else k.arc_colors x := by
    intro x
    simp only [KColoring.color, Function.update_apply]
  refine ⟨?_, ?_, ?_⟩
  · simp [ArcMateExtension.color_impl, tableSet_length, ih.len]
  · intro x hx hlt
    rw [hcol] at hlt ⊢
    by_cases hxa : x = a
    · subst hxa
      rw [if_pos rfl, am_color am x c c _ hlen, am_color am x c c _ hlen]
      by_cases hl : x.head = x.tail <;> simp [hl]
    · rw [if_neg hxa] at hlt ⊢
      obtain ⟨m1, m2⟩ := hk.mate_of_arc x hx hlt
      obtain ⟨e1, e2⟩ := ih.entry_of_arc x hx hlt
      rw [am_color am a c _ _ hlen, am_color am a c _ _ hlen]
      have n1 : ¬ (k.arc_colors x = c ∧ x.tail = a.tail) := by
        rintro ⟨e1, e2⟩; rw [e1, e2, htn] at m1; exact absurd m1 (by simp)
      have n2 : ¬ (k.arc_colors x = c ∧ x.tail = a.head) := by
        rintro ⟨e1, e2⟩; rw [e1, e2, hhn] at m1; exact absurd m1 (by simp)
      have n3 : ¬ (k.arc_colors x = c ∧ x.head = a.tail) := by
        rintro ⟨e1, e2⟩; rw [e1, e2, htn] at m2; exact absurd m2 (by simp)
      have n4 : ¬ (k.arc_colors x = c ∧ x.head = a.head) := by
        rintro ⟨e1, e2⟩; rw [e1, e2, hhn] at m2; exact absurd m2 (by simp)
      rw [if_neg n1, if_neg n2, if_neg n3, if_neg n4]
      exact ⟨e1, e2⟩
  · intro c1 v x hc1 hget
    rw [am_color am a c _ _ hlen] at hget
    by_cases h1 : c1 = c ∧ v = a.tail
    · rw [if_pos h1] at hget
      have hx : a = x := Option.some.inj hget
      subst hx
      exact ⟨ha, Or.inl h1.2.symm, by rw [hcol, if_pos rfl]; exact h1.1.symm⟩
    · rw [if_neg h1] at hget
      by_cases h2 : c1 = c ∧ v = a.head
      · rw [if_pos h2] at hget
        have hx : a = x := Option.some.inj hget
        subst hx
        exact ⟨ha, Or.inr h2.2.symm, by rw [hcol, if_pos rfl]; exact h2.1.symm⟩
      · rw [if_neg h2] at hget
        obtain ⟨hx, hi, hxc⟩ := ih.arc_of_entry c1 v x hc1 hget
        refine ⟨hx, hi, ?_⟩
        have hxa : x ≠ a := by
          intro e; subst e
          rw [hua] at hxc
          exact lt_ne_UNCOLORED hb hc1 hxc.symm
        rw [hcol, if_neg hxa]; exact hxc

theorem AMConsistent.step_uncolor {G : DiGraph} {b : Nat} {k : KColoring} {am : ArcMateExtension}
    (ih : AMConsistent G b k am) (hk : Consistent G b k) (hb : b ≤ UNCOLORED) (w : Arc → Nat)
    {a : Arc} (ha : a ∈ G.arcs) (hcd : k.is_colored a = true) :
    AMConsistent G b (k.uncolor w a) (am.uncolor_impl a (k.arc_colors a)) := by
  have hlt := hk.colored_lt hcd
  have hlen : k.arc_colors a < am.arcs_to_mates_by_color.length := by
    rw [ih.len]; exact hlt
  have hcol : ∀ x, (k.uncolor w a).arc_colors x =
      if x = a then UNCOLORED else k.arc_colors x := by
    intro x
    simp only [KColoring.uncolor, Function.update_apply]
  have hUb : ¬ UNCOLORED < b := Nat.not_lt.2 hb
  refine ⟨?_, ?_, ?_⟩
  · simp [ArcMateExtension.uncolor_impl, tableSet_length, ih.len]
  · intro x hx hxlt
    rw [hcol] at hxlt ⊢
    by_cases hxa : x = a
    · rw [if_pos hxa] at hxlt; exact absurd hxlt hUb
    · rw [if_neg hxa] at hxlt ⊢
      obtain ⟨e1, e2⟩ := ih.entry_of_arc x hx hxlt
      rw [am_uncolor am a _ _ _ hlen, am_uncolor am a _ _ _ hlen]
      have n1 : ¬ (k.arc_colors x = k.arc_colors a ∧
          (x.tail = a.tail ∨ x.tail = a.head)) := by
        rintro ⟨e1, e2⟩
        apply hxa
        refine hk.proper x hx a ha x.tail (Or.inl rfl) ?_ hxlt e1
        rcases e2 with e | e
        · exact Or.inl e.symm
        · exact Or.inr e.symm
      have n2 : ¬ (k.arc_colors x = k.arc_colors a ∧
          (x.head = a.tail ∨ x.head = a.head)) := by
        rintro ⟨e1, e2⟩
        apply hxa
        refine hk.proper x hx a ha x.head (Or.inr rfl) ?_ hxlt e1
        rcases e2 with e | e
        · exact Or.inl e.symm
        · exact Or.inr e.symm
      rw [if_neg n1, if_neg n2]
      exact ⟨e1, e2⟩
  · intro c1 v x hc1 hget
    rw [am_uncolor am a _ _ _ hlen] at hget
    by_cases h1 : c1 = k.arc_colors a ∧ (v = a.tail ∨ v = a.head)
    · rw [if_pos h1] at hget; exact absurd hget (by simp)
    · rw [if_neg h1] at hget
      obtain ⟨hx, hi, hxc⟩ := ih.arc_of_entry c1 v x hc1 hget
      refine ⟨hx, hi, ?_⟩
      have hxa : x ≠ a := by
        intro e; subst e
        apply h1
        refine ⟨hxc.symm, ?_⟩
        rcases hi with e1 | e1
        · exact Or.inl e1.symm
        · exact Or.inr e1.symm
      rw [hcol, if_neg hxa]; exact hxc

theorem FCConsistent.free_color {b : Nat} {k : KColoring} {fc fc1 : FreeColorsExtension}
    (ih : FCConsistent b k fc) {G : DiGraph} (hk : Consistent G b k) (hb : b < 64)
    (w : Arc → Nat) {a : Arc} {c : Nat} (hl : a.tail ≠ a.head) (hc : c < b)
    (ht : k.is_color_free a.tail c = true) (hh : k.is_color_free a.head c = true)
    (hstep : fc.color_impl a c = some fc1) : FCConsistent b (k.color w a c) fc1 := by
  have hbU : b ≤ UNCOLORED := by unfold UNCOLORED; omega
  have hsz := color_impl_size hstep
  obtain ⟨fc2, h2, _, hbits⟩ := fc_color_of_lt fc a (lt_trans hc hb) hl
  rw [h2] at hstep
  have := Option.some.inj hstep
  subst this
  refine ⟨?_, ?_, fun u v => by rw [hsz u, hsz v]; exact ih.size u v⟩
  · intro v
    rw [hbits]
    by_cases hv : v = a.tail ∨ v = a.head
    · rw [if_pos hv]
      exact Nat.xor_lt_two_pow (ih.bound v) (two_pow_lt_of_lt hc)
    · rw [if_neg hv]; exact ih.bound v
  · intro v c1 hc1
    rw [hbits, is_color_free_color hk hbU w a hc v hc1]
    by_cases hv : v = a.tail ∨ v = a.head
    · rw [if_pos hv, Nat.testBit_xor, Nat.testBit_two_pow, ih.bit v c1 hc1]
      by_cases hcc : c1 = c
      · subst hcc
        have hfree : k.is_color_free v c1 = true := by
          rcases hv with e | e
          · rw [e]; exact ht
          · rw [e]; exact hh
        simp [hfree, hv]
      · have hcc2 : ¬ c = c1 := fun e => hcc e.symm
        simp [hcc, hcc2]
    · rw [if_neg hv, ih.bit v c1 hc1]
      simp [hv]

theorem FCConsistent.free_uncolor {b : Nat} {k : KColoring} {fc fc1 : FreeColorsExtension}
    (ih : FCConsistent b k fc) {G : DiGraph} (hk : Consistent G b k) (hb : b < 64)
    (w : Arc → Nat) {a : Arc} (hl : a.tail ≠ a.head) (hcd : k.is_colored a = true)
    (hstep : fc.uncolor_impl a (k.arc_colors a) = some fc1) :
    FCConsistent b (k.uncolor w a) fc1 := by
  have hbU : b ≤ UNCOLORED := by unfold UNCOLORED; omega
  have hlt := hk.colored_lt hcd
  have hsz := uncolor_impl_size hstep
  obtain ⟨fc2, h2, _, hbits⟩ := fc_uncolor_of_lt fc a (lt_trans hlt hb) hl
  rw [h2] at hstep
  have := Option.some.inj hstep
  subst this
  refine ⟨?_, ?_, fun u v => by rw [hsz u, hsz v]; exact ih.size u v⟩
  · intro v
    rw [hbits]
    by_cases hv : v = a.tail ∨ v = a.head
    · rw [if_pos hv]
      exact Nat.or_lt_two_pow (ih.bound v) (two_pow_lt_of_lt hlt)
    · rw [if_neg hv]; exact ih.bound v
  · intro v c1 hc1
    rw [hbits, is_color_free_uncolor hk hbU w a hcd v hc1]
    by_cases hv : v = a.tail ∨ v = a.head
    · rw [if_pos hv, Nat.testBit_or, Nat.testBit_two_pow, ih.bit v c1 hc1]
      by_cases hcc : c1 = k.arc_colors a
      · simp [hcc, hv]
      · have hcc2 : ¬ k.arc_colors a = c1 := fun e => hcc e.symm
        simp [hcc, hcc2]
    · rw [if_neg hv, ih.bit v c1 hc1]
      simp [hv]

theorem CInv.bU {G : DiGraph} {b : Nat} {w : Arc → Nat} {s : Coloring} (h : CInv G b w s) :
    b ≤ UNCOLORED := by
  have := h.width
  unfold UNCOLORED
  omega

theorem CInv.am_none_of_free {G : DiGraph} {b : Nat} {w : Arc → Nat} {s : Coloring}
    (h : CInv G b w s) {v c : Nat} (hc : c < b) (hf : s.base.is_color_free v c = true) :
    s.am.getArcToMate c v = Option.none := by
  cases hx : s.am.getArcToMate c v with
  | none => rfl
  | some x =>
    obtain ⟨hxG, hi, hxc⟩ := h.am.arc_of_entry c v x hc hx
    exact absurd hxc ((h.base.free_iff_no_arc h.bU v hc).1 hf x hxG hi)

theorem CInv.am_some_of_not_free {G : DiGraph} {b : Nat} {w : Arc → Nat} {s : Coloring}
    (h : CInv G b w s) {v c : Nat} (hc : c < b) (hf : s.base.is_color_free v c = false) :
    ∃ a, s.am.getArcToMate c v = some a ∧ a ∈ G.arcs ∧ a.incident v ∧
      s.base.arc_colors a = c := by
  have hn : ¬ ∀ e ∈ G.arcs, e.incident v → s.base.get_color e ≠ c := by
    intro hall
    rw [(h.base.free_iff_no_arc h.bU v hc).2 hall] at hf
    exact Bool.noConfusion hf
  push_neg at hn
  obtain ⟨e, heG, hi, hec⟩ := hn
  have hec2 : s.base.arc_colors e = c := hec
  have hlt : s.base.arc_colors e < b := by rw [hec2]; exact hc
  obtain ⟨e1, e2⟩ := h.am.entry_of_arc e heG hlt
  rw [hec2] at e1 e2
  rcases hi with hi | hi
  · exact ⟨e, by rw [← hi]; exact e1, heG, Or.inl hi, hec2⟩
  · exact ⟨e, by rw [← hi]; exact e2, heG, Or.inr hi, hec2⟩

theorem CInv.test_eq {G : DiGraph} {b : Nat} {w : Arc → Nat} {s : Coloring}
    (h : CInv G b w s) (v : Nat) {c : Nat} (hc : c < b) :
    (s.fc.free_colors v).test c = some (s.base.is_color_free v c) := by
  rw [test_of_lt _ (lt_trans hc h.width), h.fc.bit v c hc]

theorem Coloring.color_ok {G : DiGraph} {b : Nat} {w : Arc → Nat} {s : Coloring}
    (h : CInv G b w s) {a : Arc} {c : Nat} (ha : a ∈ G.arcs)
    (hun : s.base.is_colored a = false) (hc : c < b)
    (ht : s.base.is_color_free a.tail c = true) (hh : s.base.is_color_free a.head c = true)
    (hl : a.tail ≠ a.head) :
    ∃ s1, s.color w a c = Except.ok s1 ∧ CInv G b w s1 ∧ s1.base = s.base.color w a c ∧
      s1.am = s.am.color_impl a c := by
  obtain ⟨fc1, hfc, _, _⟩ := fc_color_of_lt s.fc a (lt_trans hc h.width) hl
  have hcn : c < s.base.num_colors := by rw [h.base.nc]; exact hc
  refine ⟨⟨s.base.color w a c, s.am.color_impl a c, fc1⟩, ?_, ?_, rfl, rfl⟩
  · simp [Coloring.color, check, defined, hun, hcn, ht, hh, h.am_none_of_free hc ht,
      h.am_none_of_free hc hh, h.test_eq _ hc, hfc, bind, Except.bind, pure, Except.pure]
  · refine ⟨h.width, h.nodup, h.base.color h.bU w ha hun hc ht hh,
      h.am.step_color h.base h.bU w ha hun hc ht hh,
      h.fc.free_color h.base h.width w hl hc ht hh hfc, ?_, ?_⟩
    · show (s.base.color w a c).total_weight = coloredWeight G w (s.base.color w a c) % 2 ^ 64
      rw [coloredWeight_color h.base h.nodup w ha hun hc]
      have hua := h.base.uncolored_eq hun
      simp only [KColoring.color, hua, if_true, add64]
      rw [h.wt]
      omega
    · intro x hx hxc
      change (s.base.color w a c).is_colored x = true at hxc
      rw [is_colored_color h.base w a hc x] at hxc
      by_cases hxa : x = a
      · rw [hxa]; exact hl
      · rw [if_neg hxa] at hxc
        exact h.edges x hx hxc

theorem Coloring.uncolor_ok {G : DiGraph} {b : Nat} {w : Arc → Nat} {s : Coloring}
    (h : CInv G b w s) {a : Arc} (ha : a ∈ G.arcs) (hcd : s.base.is_colored a = true) :
    ∃ s1, s.uncolor w a = Except.ok s1 ∧ CInv G b w s1 ∧ s1.base = s.base.uncolor w a ∧
      s1.am = s.am.uncolor_impl a (s.base.arc_colors a) := by
  have hlt := h.base.colored_lt hcd
  have hl := h.edges a ha hcd
  obtain ⟨fc1, hfc, _, _⟩ := fc_uncolor_of_lt s.fc a (lt_trans hlt h.width) hl
  obtain ⟨e1, e2⟩ := h.am.entry_of_arc a ha hlt
  obtain ⟨f1, f2⟩ := h.base.not_free_of_colored ha hcd
  refine ⟨⟨s.base.uncolor w a, s.am.uncolor_impl a (s.base.arc_colors a), fc1⟩, ?_, ?_, rfl,
    rfl⟩
  · simp [Coloring.uncolor, check, defined, hcd, e1, e2, h.test_eq _ hlt, f1, f2, hfc, bind,
      Except.bind, pure, Except.pure]
  · refine ⟨h.width, h.nodup, h.base.uncolor h.bU w ha hcd, h.am.step_uncolor h.base h.bU w ha hcd,
      h.fc.free_uncolor h.base h.width w hl hcd hfc, ?_, ?_⟩
    · show (s.base.uncolor w a).total_weight
        = coloredWeight G w (s.base.uncolor w a) % 2 ^ 64
      have hS := coloredWeight_uncolor h.base h.bU h.nodup w ha hcd
      generalize coloredWeight G w (s.base.uncolor w a) = S1 at hS ⊢
      simp only [KColoring.uncolor, sub64]
      rw [h.wt]
      omega
    · intro x hx hxc
      change (s.base.uncolor w a).is_colored x = true at hxc
      rw [is_colored_uncolor h.base h.bU w a x] at hxc
      by_cases hxa : x = a
      · rw [if_pos hxa] at hxc; exact Bool.noConfusion hxc
      · rw [if_neg hxa] at hxc
        exact h.edges x hx hxc

theorem CInv.of_set_num_matchings (G : DiGraph) (hnd : G.arcs.Nodup) (w : Arc → Nat)
    {b : Nat} (hb : b < 64) {s0 s : Coloring} (h : set_num_matchings s0 b = some s) :
    CInv G b w s := by
  have hbU : b ≤ UNCOLORED := by unfold UNCOLORED; omega
  unfold set_num_matchings Coloring.setNumColors at h
  rw [fc_start_of_lt _ hb] at h
  simp only [Option.map_some', Option.some.injEq] at h
  subst h
  have hun : ∀ a, ((s0.base.setNumColors b).reset).is_colored a = false := by
    intro a
    simp [KColoring.is_colored, KColoring.reset, KColoring.setNumColors, hbU]
  refine ⟨hb, hnd, Consistent.of_reset G hbU _ rfl, ⟨?_, ?_, ?_⟩,
    ⟨?_, ?_, fun _ _ => rfl⟩, ?_, ?_⟩
  · simp [Coloring.reset, ArcMateExtension.reset_impl, ArcMateExtension.setNumColors_impl,
      resize_length]
  · intro a _ hlt
    exact absurd (lt_of_lt_of_le hlt hbU) (lt_irrefl _)
  · intro c v a _ hget
    simp only [Coloring.reset, ArcMateExtension.getArcToMate,
      ArcMateExtension.reset_impl] at hget
    rw [tableGet_map_none] at hget
    exact absurd hget (by simp)
  · intro v
    show 2 ^ b - 1 < 2 ^ b
    have : 0 < 2 ^ b := Nat.pow_pos (by decide)
    omega
  · intro v c hc
    show (2 ^ b - 1).testBit c = ((s0.base.setNumColors b).reset).is_color_free v c
    rw [is_color_free_reset _ _ (lt_ne_UNCOLORED hbU hc)]
    simp [hc]
  · show 0 = coloredWeight G w ((s0.base.setNumColors b).reset) % 2 ^ 64
    have : coloredWeight G w ((s0.base.setNumColors b).reset) = 0 := by
      unfold coloredWeight
      simp [hun]
    rw [this]
    rfl
  · intro a _ hcd
    change ((s0.base.setNumColors b).reset).is_colored a = true at hcd
    rw [hun a] at hcd
    exact Bool.noConfusion hcd

theorem CInv.of_color {G : DiGraph} {b : Nat} {w : Arc → Nat} {s s1 : Coloring}
    (h : CInv G b w s) {a : Arc} {c : Nat} (ha : a ∈ G.arcs) (hl : a.tail ≠ a.head)
    (he : s.color w a c = Except.ok s1) : CInv G b w s1 := by
  obtain ⟨h1, h2, h3, h4, _⟩ := Coloring.color_inv he
  rw [h.base.nc] at h2
  obtain ⟨s2, e2, hinv, _⟩ := Coloring.color_ok h ha h1 h2 h3 h4 hl
  rw [he] at e2
  rw [Except.ok.inj e2]
  exact hinv

theorem CInv.of_uncolor {G : DiGraph} {b : Nat} {w : Arc → Nat} {s s1 : Coloring}
    (h : CInv G b w s) {a : Arc} (ha : a ∈ G.arcs) (he : s.uncolor w a = Except.ok s1) :
    CInv G b w s1 := by
  obtain ⟨h1, _⟩ := Coloring.uncolor_inv he
  obtain ⟨s2, e2, hinv, _⟩ := Coloring.uncolor_ok h ha h1
  rw [he] at e2
  rw [Except.ok.inj e2]
  exact hinv

/-! ## Fans -/

theorem tableGet_zero {α : Type} (m : Nat → Option α) (t : List (Nat → Option α)) (v : Nat) :
    tableGet (m :: t) 0 v = m v := rfl

theorem tableGet_succ {α : Type} (m : Nat → Option α) (t : List (Nat → Option α))
    (c v : Nat) : tableGet (m :: t) (c + 1) v = tableGet t c v := rfl

theorem mem_filterMap_table {α : Type} (t : List (Nat → Option α)) (v : Nat) (a : α) :
    a ∈ t.filterMap (fun m => m v) ↔ ∃ c, c < t.length ∧ tableGet t c v = some a := by
  induction t with
  | nil => simp [tableGet]
  | cons m t ih =>
    rw [List.filterMap_cons]
    constructor
    · intro h
      cases hm : m v with
      | none =>
        rw [hm] at h
        obtain ⟨c, hc, hg⟩ := ih.1 h
        exact ⟨c + 1, by simpa using hc, hg⟩
      | some y =>
        rw [hm] at h
        rcases List.mem_cons.1 h with e | h
        · exact ⟨0, by simp, by rw [tableGet_zero, hm, e]⟩
        · obtain ⟨c, hc, hg⟩ := ih.1 h
          exact ⟨c + 1, by simpa using hc, hg⟩
    · rintro ⟨c, hc, hg⟩
      cases c with
      | zero =>
        rw [tableGet_zero] at hg
        rw [hg]
        exact List.mem_cons_self _ _
      | succ c =>
        rw [tableGet_succ] at hg
        have : a ∈ t.filterMap (fun m => m v) := ih.2 ⟨c, by simpa using hc, hg⟩
        cases hm : m v with
        | none => exact this
        | some y => exact List.mem_cons_of_mem _ this

theorem nodup_filterMap_table {α : Type} (col : α → Nat) (t : List (Nat → Option α))
    (v n : Nat) (h : ∀ c a, c < t.length → tableGet t c v = some a → col a = n + c) :
    (t.filterMap (fun m => m v)).Nodup := by
  induction t generalizing n with
  | nil => simp
  | cons m t ih =>
    have ht : (t.filterMap (fun m => m v)).Nodup := by
      apply ih (n + 1)
      intro c a hc hg
      have := h (c + 1) a (by simpa using hc) hg
      omega
    rw [List.filterMap_cons]
    cases hm : m v with
    | none => exact ht
    | some y =>
      refine List.nodup_cons.2 ⟨?_, ht⟩
      intro hy
      obtain ⟨c, hc, hg⟩ := (mem_filterMap_table t v y).1 hy
      have h0 := h 0 y (by simp) (by rw [tableGet_zero, hm])
      have h1 := h (c + 1) y (by simpa using hc) hg
      omega

theorem getColoredArcs_spec {G : DiGraph} {b : Nat} {k : KColoring} {am : ArcMateExtension}
    (hk : Consistent G b k) (ha : AMConsistent G b k am) (x : Nat) :
    (∀ e, e ∈ am.getColoredArcs x ↔ e ∈ G.arcs ∧ e.incident x ∧ k.is_colored e = true) ∧
    (am.getColoredArcs x).Nodup := by
  constructor
  · intro e
    unfold ArcMateExtension.getColoredArcs
    rw [mem_filterMap_table]
    constructor
    · rintro ⟨c, hc, hg⟩
      rw [ha.len] at hc
      obtain ⟨h1, h2, h3⟩ := ha.arc_of_entry c x e hc hg
      refine ⟨h1, h2, ?_⟩
      unfold KColoring.is_colored
      rw [h3, hk.nc]
      exact decide_eq_true hc
    · rintro ⟨h1, h2, h3⟩
      have hlt := hk.colored_lt h3
      obtain ⟨e1, e2⟩ := ha.entry_of_arc e h1 hlt
      refine ⟨k.arc_colors e, by rw [ha.len]; exact hlt, ?_⟩
      rcases h2 with h2 | h2
      · rw [← h2]; exact e1
      · rw [← h2]; exact e2
  · apply nodup_filterMap_table k.arc_colors _ x 0
    intro c a hc hg
    rw [ha.len] at hc
    rw [(ha.arc_of_entry c x a hc hg).2.2]
    omega

theorem chain_concat {α : Type} {R : α → α → Prop} {l : List α} {d a : α}
    (hc : l.Chain' R) (hr : R (l.getLastD d) a) : (l ++ [a]).Chain' R := by
  rw [List.chain'_append]
  refine ⟨hc, List.chain'_singleton a, ?_⟩
  intro p hp y hy
  simp only [List.head?_cons, Option.mem_def, Option.some.injEq] at hy
  subst hy
  rw [Option.mem_def] at hp
  rw [List.getLastD_eq_getLast?, hp] at hr
  exact hr

theorem perm_of_count {α : Type} [DecidableEq α] {l1 l2 : List α}
    (h : ∀ a, l1.count a = l2.count a) : l1.Perm l2 :=
  List.perm_iff_count.2 h

theorem fanPass_spec (G : DiGraph) (s : Coloring) (x : Nat) (xy : Arc) :
    ∀ (todo : List Arc) (st : FanPass), st.done = false → st.fan ≠ [] →
      st.fan.Chain' (FanLink G s.base x) →
      (∀ a ∈ todo, a ∈ G.arcs ∧ a.incident x ∧ s.base.is_colored a = true) →
      (fanPass s x xy todo st).fan ≠ [] ∧
      (fanPass s x xy todo st).fan.head? = st.fan.head? ∧
      (fanPass s x xy todo st).fan.Chain' (FanLink G s.base x) ∧
      (∀ a ∈ (fanPass s x xy todo st).colored_arcs_other,
        a ∈ st.colored_arcs_other ∨ a ∈ todo) ∧
      (∃ dropped, ((fanPass s x xy todo st).fan ++
          (fanPass s x xy todo st).colored_arcs_other ++ dropped).Perm
          (st.fan ++ st.colored_arcs_other ++ todo) ∧
        ((fanPass s x xy todo st).done = false → dropped = [])) ∧
      ((fanPass s x xy todo st).done = true →
        s.fc.no_color_free (((fanPass s x xy todo st).fan.getLastD xy).getOther x) = true) ∧
      ((fanPass s x xy todo st).done = false →
        ((fanPass s x xy todo st).extended = st.extended ∧
          (fanPass s x xy todo st).fan = st.fan ∧
          (fanPass s x xy todo st).colored_arcs_other = st.colored_arcs_other ++ todo ∧
          ∀ a ∈ todo, s.base.is_color_free ((st.fan.getLastD xy).getOther x)
            (s.base.get_color a) = false) ∨
        ((fanPass s x xy todo st).extended = true ∧
          (fanPass s x xy todo st).colored_arcs_other.length
            < st.colored_arcs_other.length + todo.length)) := by
  intro todo
  induction todo with
  | nil =>
    intro st hd hne hch _
    refine ⟨hne, rfl, hch, fun a ha => Or.inl ha, ⟨[], by simp [fanPass], fun _ => rfl⟩,
      ?_, ?_⟩
    · intro hd1
      rw [show fanPass s x xy [] st = st from rfl, hd] at hd1
      exact Bool.noConfusion hd1
    · intro _
      exact Or.inl ⟨rfl, rfl, by simp [fanPass], by simp⟩
  | cons arc rest ih =>
    intro st hd hne hch htodo
    have harc := htodo arc (List.mem_cons_self _ _)
    have hrest : ∀ a ∈ rest, a ∈ G.arcs ∧ a.incident x ∧ s.base.is_colored a = true :=
      fun a ha => htodo a (List.mem_cons_of_mem _ ha)
    by_cases ht : s.base.is_color_free ((st.fan.getLastD xy).getOther x)
        (s.base.get_color arc) = true
    · have hch1 : (st.fan ++ [arc]).Chain' (FanLink G s.base x) :=
        chain_concat hch ⟨harc.1, harc.2.1, harc.2.2, ht⟩
      have hne1 : st.fan ++ [arc] ≠ [] := by simp
      have hhead : (st.fan ++ [arc]).head? = st.fan.head? :=
        List.head?_append_of_ne_nil _ hne
      by_cases hn : s.fc.no_color_free (arc.getOther x) = true
      · have e : fanPass s x xy (arc :: rest) st
            = ⟨st.fan ++ [arc], st.colored_arcs_other, false, true⟩ := by
          simp only [fanPass, ht, hn, if_true]
        rw [e]
        refine ⟨hne1, hhead, hch1, fun a ha => Or.inl ha, ⟨rest, ?_, ?_⟩, ?_, ?_⟩
        · apply perm_of_count
          intro a
          simp only [List.count_append, List.count_cons, List.count_nil]
          omega
        · intro h; exact Bool.noConfusion h
        · intro _
          simp only [List.getLastD_concat]
          exact hn
        · intro h; exact Bool.noConfusion h
      · have e : fanPass s x xy (arc :: rest) st
            = fanPass s x xy rest ⟨st.fan ++ [arc], st.colored_arcs_other, true, false⟩ := by
          simp only [fanPass, ht, hn, if_true, if_false]
          rfl
        rw [e]
        obtain ⟨i1, i2, i3, i0, ⟨dr, i4, i5⟩, i6, i7⟩ := ih
          ⟨st.fan ++ [arc], st.colored_arcs_other, true, false⟩ rfl hne1 hch1 hrest
        refine ⟨i1, i2.trans hhead, i3, ?_, ⟨dr, i4.trans ?_, i5⟩, i6, ?_⟩
        · intro a ha
          rcases i0 a ha with h1 | h1
          · exact Or.inl h1
          · exact Or.inr (List.mem_cons_of_mem _ h1)
        · apply perm_of_count
          intro a
          simp only [List.count_append, List.count_cons, List.count_nil]
          omega
        · intro hdn
          right
          rcases i7 hdn with ⟨j1, _, j3, _⟩ | ⟨j1, j2⟩
          · refine ⟨j1, ?_⟩
            rw [j3]
            simp
          · refine ⟨j1, ?_⟩
            have j2 : (fanPass s x xy rest ⟨st.fan ++ [arc], st.colored_arcs_other, true,
                false⟩).colored_arcs_other.length
                < st.colored_arcs_other.length + rest.length := j2
            simp only [List.length_cons]
            omega
    · have e : fanPass s x xy (arc :: rest) st
          = fanPass s x xy rest ⟨st.fan, st.colored_arcs_other ++ [arc], st.extended, false⟩ := by
        simp only [fanPass, ht, if_false]
        rfl
      rw [e]
      obtain ⟨i1, i2, i3, i0, ⟨dr, i4, i5⟩, i6, i7⟩ := ih
        ⟨st.fan, st.colored_arcs_other ++ [arc], st.extended, false⟩ rfl hne hch hrest
      refine ⟨i1, i2, i3, ?_, ⟨dr, i4.trans ?_, i5⟩, i6, ?_⟩
      · intro a ha
        rcases i0 a ha with h1 | h1
        · rcases List.mem_append.1 h1 with h2 | h2
          · exact Or.inl h2
          · rw [List.mem_singleton.1 h2]
            exact Or.inr (List.mem_cons_self _ _)
        · exact Or.inr (List.mem_cons_of_mem _ h1)
      · apply perm_of_count
        intro a
        simp only [List.count_append, List.count_cons, List.count_nil]
        omega
      · intro hdn
        rcases i7 hdn with ⟨j1, j2, j3, j4⟩ | ⟨j1, j2⟩
        · left
          refine ⟨j1, j2, ?_, ?_⟩
          · rw [j3]; simp
          · intro a ha
            rcases List.mem_cons.1 ha with e1 | e1
            · rw [e1]; simpa using ht
            · exact j4 a e1
        · right
          refine ⟨j1, ?_⟩
          simp only [List.length_append, List.length_cons, List.length_nil] at j2 ⊢
          omega

theorem no_color_free_iff {b : Nat} {k : KColoring} {fc : FreeColorsExtension}
    (h : FCConsistent b k fc) (v : Nat) :
    fc.no_color_free v = true ↔ ∀ c, c < b → k.is_color_free v c = false := by
  unfold FreeColorsExtension.no_color_free color_set.none
  rw [beq_iff_eq]
  constructor
  · intro h0 c hc
    rw [← h.bit v c hc, h0]
    exact Nat.zero_testBit c
  · intro hall
    apply Nat.eq_of_testBit_eq
    intro i
    rw [Nat.zero_testBit]
    by_cases hi : i < b
    · rw [h.bit v i hi]; exact hall i hi
    · exact testBit_false_of_bound (h.bound v) (Nat.le_of_not_lt hi)

theorem fanLoop_spec (G : DiGraph) {b : Nat} (s : Coloring) (hk : Consistent G b s.base)
    (hf : FCConsistent b s.base s.fc) (x : Nat) (xy : Arc) :
    ∀ (n : Nat) (fan colored : List Arc), colored.length < n → fan ≠ [] →
      fan.head? = some xy → fan.Chain' (FanLink G s.base x) →
      (∀ a ∈ colored, a ∈ G.arcs ∧ a.incident x ∧ s.base.is_colored a = true) →
      (fan ++ colored).Nodup →
      (∀ e ∈ G.arcs, e.incident x → s.base.is_colored e = true → e ∈ fan ∨ e ∈ colored) →
      ∃ r, fanLoop s x xy n fan colored = Except.ok r ∧ r.head? = some xy ∧
        r.Chain' (FanLink G s.base x) ∧ r.Nodup ∧
        ∀ e ∈ G.arcs, e.incident x → s.base.is_colored e = true → e ∉ r →
          s.base.is_color_free ((r.getLastD xy).getOther x) (s.base.get_color e) = false := by
  intro n
  induction n with
  | zero => intro fan colored hlen; exact absurd hlen (Nat.not_lt_zero _)
  | succ n ih =>
    intro fan colored hlen hne hhead hch hcol hnd hcov
    obtain ⟨i1, i2, i3, i0, ⟨dr, i4, i5⟩, i6, i7⟩ :=
      fanPass_spec G s x xy colored ⟨fan, [], false, false⟩ rfl hne hch hcol
    simp only [List.append_nil] at i4
    have hnd2 := (List.Perm.nodup_iff i4).2 hnd
    have hndr : (fanPass s x xy colored ⟨fan, [], false, false⟩).fan.Nodup :=
      (List.nodup_append.1 (List.nodup_append.1 hnd2).1).1
    unfold fanLoop
    by_cases hd : (fanPass s x xy colored ⟨fan, [], false, false⟩).done = true
    · simp only [hd, if_true]
      refine ⟨_, rfl, i2.trans hhead, i3, hndr, ?_⟩
      intro e _ _ hec _
      exact (no_color_free_iff hf _).1 (i6 hd) _ (hk.colored_lt hec)
    · have hd : (fanPass s x xy colored ⟨fan, [], false, false⟩).done = false := by
        simpa using hd
      have hdr := i5 hd
      subst hdr
      simp only [List.append_nil] at i4 hnd2
      simp only [hd, Bool.false_eq_true, if_false]
      by_cases hx : (fanPass s x xy colored ⟨fan, [], false, false⟩).extended = true
      · simp only [hx, if_true]
        have hlt : (fanPass s x xy colored ⟨fan, [], false, false⟩).colored_arcs_other.length
            < n := by
          rcases i7 hd with ⟨j1, _⟩ | ⟨_, j2⟩
          · rw [hx] at j1; exact Bool.noConfusion j1
          · simp only [List.length_nil, Nat.zero_add] at j2
            omega
        apply ih _ _ hlt i1 (i2.trans hhead) i3 _ hnd2
        · intro e heG hi hec
          have := hcov e heG hi hec
          have hm : e ∈ fan ++ colored := List.mem_append.2 this
          exact List.mem_append.1 ((List.Perm.mem_iff i4).2 hm)
        · intro a ha
          rcases i0 a ha with h1 | h1
          · exact absurd h1 (List.not_mem_nil _)
          · exact hcol a h1
      · simp only [hx, Bool.false_eq_true, if_false]
        rcases i7 hd with ⟨_, j2, _, j4⟩ | ⟨j1, _⟩
        · refine ⟨_, rfl, i2.trans hhead, i3, hndr, ?_⟩
          intro e heG hi hec hnot
          rw [j2] at hnot ⊢
          rcases hcov e heG hi hec with h1 | h1
          · exact absurd h1 hnot
          · exact j4 e h1
        · exact absurd j1 hx

theorem fanColoring_inv : CInv triangle 2 triangleWeights fanColoring := by
  have h0 : CInv triangle 2 triangleWeights (freshColoring 2) :=
    CInv.of_set_num_matchings triangle (by decide) triangleWeights (by decide)
      (show set_num_matchings Coloring.initial 2 = some (freshColoring 2) from rfl)
  have h1 := h0.of_color (show (⟨1, 1, 2⟩ : Arc) ∈ triangle.arcs by decide) (by decide)
    (show (freshColoring 2).color triangleWeights ⟨1, 1, 2⟩ 0 = Except.ok
      (okOr ((freshColoring 2).color triangleWeights ⟨1, 1, 2⟩ 0) Coloring.initial) from rfl)
  exact h1.of_color (show (⟨2, 0, 2⟩ : Arc) ∈ triangle.arcs by decide) (by decide)
    (show (okOr ((freshColoring 2).color triangleWeights ⟨1, 1, 2⟩ 0) Coloring.initial).color
      triangleWeights ⟨2, 0, 2⟩ 1 = Except.ok fanColoring from rfl)

/-- C11: `compute_fan(coloring, x, xy)` on a consistent colouring with `xy` uncoloured
returns a fan. The fan starts with `xy`; every later arc is a coloured arc at `x` whose
colour is free at the far end of the arc just before it; no arc occurs twice; and no
coloured arc at `x` outside the fan has a colour that is free at the far end of the last arc
of the fan, also when the construction stopped at an arc whose far end has no free colour. -/
theorem C11_compute_fan (G : DiGraph) (b : Nat) (s : Coloring) (x : Nat) (xy : Arc)
    (hk : Consistent G b s.base) (ha : AMConsistent G b s.base s.am)
    (hf : FCConsistent b s.base s.fc) (hxy : s.base.is_colored xy = false) :
    ∃ fan, compute_fan s x xy = Except.ok fan ∧ fan.head? = some xy ∧
      fan.Chain' (FanLink G s.base x) ∧ fan.Nodup ∧
      ∀ e ∈ G.arcs, e.incident x → s.base.is_colored e = true → e ∉ fan →
        s.base.is_color_free ((fan.getLastD xy).getOther x) (s.base.get_color e) = false := by
  obtain ⟨hmem, hnd⟩ := getColoredArcs_spec hk ha x
  unfold compute_fan
  apply fanLoop_spec G s hk hf x xy _ [xy] (s.am.getColoredArcs x) (Nat.lt_succ_self _)
    (by simp) rfl (List.chain'_singleton xy)
  · intro a h
    exact (hmem a).1 h
  · rw [List.singleton_append, List.nodup_cons]
    refine ⟨?_, hnd⟩
    intro h
    rw [((hmem xy).1 h).2.2] at hxy
    exact Bool.noConfusion hxy
  · intro e heG hi hec
    exact Or.inr ((hmem e).2 ⟨heG, hi, hec⟩)

/-- C11 on the triangle with `(v,w)` coloured 0 and `(u,w)` coloured 1: the fan of `(u,v)`
at `u`. -/
theorem C11_compute_fan_witness :
    fanColoring.base.is_colored ⟨0, 0, 1⟩ = false ∧
    ∃ fan, compute_fan fanColoring 0 ⟨0, 0, 1⟩ = Except.ok fan ∧ fan.head? = some ⟨0, 0, 1⟩ ∧
      fan.Chain' (FanLink triangle fanColoring.base 0) ∧ fan.Nodup ∧
      ∀ e ∈ triangle.arcs, e.incident 0 → fanColoring.base.is_colored e = true → e ∉ fan →
        fanColoring.base.is_color_free ((fan.getLastD ⟨0, 0, 1⟩).getOther 0)
          (fanColoring.base.get_color e) = false :=
  ⟨by decide, C11_compute_fan triangle 2 fanColoring 0 ⟨0, 0, 1⟩ fanColoring_inv.base
    fanColoring_inv.am fanColoring_inv.fc (by decide)⟩

theorem compute_fan_triangle :
    compute_fan fanColoring 0 ⟨0, 0, 1⟩ = Except.ok [⟨0, 0, 1⟩, ⟨2, 0, 2⟩] := by
  rfl

/-! ## Rotating a fan -/

theorem coloredWeight_color_any {G : DiGraph} {b : Nat} {k : KColoring}
    (hk : Consistent G b k) (hnd : G.arcs.Nodup) (w w1 : Arc → Nat) {a : Arc} {c : Nat}
    (ha : a ∈ G.arcs) (hun : k.is_colored a = false) (hc : c < b) :
    coloredWeight G w1 (k.color w a c) = coloredWeight G w1 k + w1 a :=
  coloredWeight_color hk hnd w1 ha hun hc

theorem coloredWeight_uncolor_any {G : DiGraph} {b : Nat} {k : KColoring}
    (hk : Consistent G b k) (hb : b ≤ UNCOLORED) (hnd : G.arcs.Nodup) (w w1 : Arc → Nat)
    {a : Arc} (ha : a ∈ G.arcs) (hcd : k.is_colored a = true) :
    coloredWeight G w1 (k.uncolor w a) + w1 a = coloredWeight G w1 k :=
  coloredWeight_uncolor hk hb hnd w1 ha hcd

theorem rotateLoop_spec (G : DiGraph) (b : Nat) (w : Arc → Nat) (x : Nat) :
    ∀ (rest : List Arc) (s : Coloring) (p : Arc), CInv G b w s → p ∈ G.arcs →
      s.base.is_colored p = false → p.incident x →
      List.Chain (FanLink G s.base x) p rest → (p :: rest).Nodup →
      ∃ s1, rotateLoop w rest s p = Except.ok s1 ∧ CInv G b w s1 ∧
        (∀ e, e ∉ p :: rest → s1.base.arc_colors e = s.base.arc_colors e) ∧
        (∀ q ∈ (p :: rest).zip rest, s1.base.get_color q.1 = s.base.get_color q.2) ∧
        s1.base.is_colored (rest.getLastD p) = false ∧
        coloredWeight G (fun _ => 1) s1.base = coloredWeight G (fun _ => 1) s.base := by
  intro rest
  induction rest with
  | nil =>
    intro s p h _ hun _ _ _
    exact ⟨s, rfl, h, fun _ _ => rfl, by simp, hun, rfl⟩
  | cons it rest ih =>
    intro s p h hp hun hi hch hnd
    rw [List.chain_cons] at hch
    obtain ⟨⟨hitG, hiti, hitc, hfree⟩, hch2⟩ := hch
    rw [List.nodup_cons] at hnd
    obtain ⟨hpn, hnd2⟩ := hnd
    have hpit : p ≠ it := fun e => hpn (e ▸ List.mem_cons_self _ _)
    have hprest : p ∉ rest := fun e => hpn (List.mem_cons_of_mem _ e)
    have hitrest : it ∉ rest := (List.nodup_cons.1 hnd2).1
    have hlt : s.base.arc_colors it < b := h.base.colored_lt hitc
    obtain ⟨s1, e1, h1, b1, _⟩ := Coloring.uncolor_ok h hitG hitc
    have hfu : ∀ v c1, c1 < b → s1.base.is_color_free v c1 =
        if c1 = s.base.arc_colors it ∧ (v = it.tail ∨ v = it.head) then true
        else s.base.is_color_free v c1 := by
      intro v c1 hc1
      rw [b1]
      exact is_color_free_uncolor h.base h.bU w it hitc v hc1
    have hitx : x = it.tail ∨ x = it.head := by
      rcases hiti with e | e
      · exact Or.inl e.symm
      · exact Or.inr e.symm
    have hx1 : s1.base.is_color_free x (s.base.arc_colors it) = true := by
      rw [hfu _ _ hlt, if_pos ⟨rfl, hitx⟩]
    have hy1 : s1.base.is_color_free (p.getOther x) (s.base.arc_colors it) = true := by
      rw [hfu _ _ hlt]
      split
      · rfl
      · exact hfree
    have hxnf : s.base.is_color_free x (s.base.arc_colors it) = false := by
      obtain ⟨f1, f2⟩ := h.base.not_free_of_colored hitG hitc
      rcases hiti with e | e
      · rw [← e]; exact f1
      · rw [← e]; exact f2
    have hne : p.getOther x ≠ x := by
      intro e
      have hfree2 : s.base.is_color_free (p.getOther x) (s.base.arc_colors it) = true := hfree
      rw [e, hxnf] at hfree2
      exact Bool.noConfusion hfree2
    have hends : p.tail ≠ p.head ∧
        s1.base.is_color_free p.tail (s.base.arc_colors it) = true ∧
        s1.base.is_color_free p.head (s.base.arc_colors it) = true := by
      rcases getOther_ends p x hi with ⟨e1, e2⟩ | ⟨e1, e2⟩
      · refine ⟨?_, ?_, ?_⟩
        · rw [e1, e2]; exact fun e => hne e.symm
        · rw [e1]; exact hx1
        · rw [e2]; exact hy1
      · refine ⟨?_, ?_, ?_⟩
        · rw [e1, e2]; exact hne
        · rw [e2]; exact hy1
        · rw [e1]; exact hx1
    obtain ⟨hl, ht, hh⟩ := hends
    have hun1 : s1.base.is_colored p = false := by
      rw [b1, is_colored_uncolor h.base h.bU w it p, if_neg hpit]; exact hun
    obtain ⟨s2, e2, h2, b2, _⟩ := Coloring.color_ok h1 hp hun1 hlt ht hh hl
    have hcols : ∀ e, e ≠ p → e ≠ it → s2.base.arc_colors e = s.base.arc_colors e := by
      intro e hep heit
      rw [b2, arc_colors_color, if_neg hep, b1, arc_colors_uncolor, if_neg heit]
    have hcold : ∀ e, e ≠ p → e ≠ it → s2.base.is_colored e = s.base.is_colored e := by
      intro e hep heit
      rw [b2, is_colored_color h1.base w p hlt e, if_neg hep, b1,
        is_colored_uncolor h.base h.bU w it e, if_neg heit]
    have hun2 : s2.base.is_colored it = false := by
      rw [b2, is_colored_color h1.base w p hlt it, if_neg (Ne.symm hpit), b1,
        is_colored_uncolor h.base h.bU w it it, if_pos rfl]
    have hch3 : List.Chain (FanLink G s2.base x) it rest := by
      rw [List.Chain.iff_mem] at hch2
      refine hch2.imp ?_
      rintro a c1 ⟨_, hcm, hcG, hci, hcc, hcf⟩
      have hcp : c1 ≠ p := fun e => hprest (e ▸ hcm)
      have hcit : c1 ≠ it := fun e => hitrest (e ▸ hcm)
      have hclt : s.base.arc_colors c1 < b := h.base.colored_lt hcc
      have hd : s.base.arc_colors c1 ≠ s.base.arc_colors it := fun e =>
        hcit (h.base.proper c1 hcG it hitG x hci hiti hclt e)
      refine ⟨hcG, hci, by rw [hcold c1 hcp hcit]; exact hcc, ?_⟩
      show s2.base.is_color_free (a.getOther x) (s2.base.arc_colors c1) = true
      rw [hcols c1 hcp hcit, b2, is_color_free_color h1.base h.bU w p hlt _ hclt,
        if_neg (fun e => hd e.1), hfu _ _ hclt, if_neg (fun e => hd e.1)]
      exact hcf
    obtain ⟨s3, e3, h3, fr, pr, last, cnt⟩ := ih s2 it h2 hitG hun2 hiti hch3 hnd2
    refine ⟨s3, ?_, h3, ?_, ?_, ?_, ?_⟩
    · simp only [rotateLoop, e1, bind, Except.bind]
      have e2 : s1.color w p (s.base.get_color it) = Except.ok s2 := e2
      rw [e2]
      exact e3
    · intro e he
      have hep : e ≠ p := fun h => he (h ▸ List.mem_cons_self _ _)
      have her : e ∉ it :: rest := fun h => he (List.mem_cons_of_mem _ h)
      have heit : e ≠ it := fun h => her (h ▸ List.mem_cons_self _ _)
      rw [fr e her, hcols e hep heit]
    · intro q hq
      rw [List.zip_cons_cons, List.mem_cons] at hq
      rcases hq with e | hq
      · rw [e]
        show s3.base.arc_colors p = s.base.arc_colors it
        rw [fr p (fun hm => hpn hm), b2, arc_colors_color, if_pos rfl]
      · rw [pr q hq]
        have hq2 : q.2 ∈ rest := (List.of_mem_zip hq).2
        exact hcols q.2 (fun e => hprest (e ▸ hq2)) (fun e => hitrest (e ▸ hq2))
    · rw [List.getLastD_cons]; exact last
    · rw [cnt, b2, coloredWeight_color_any h1.base h.nodup w _ hp hun1 hlt, b1]
      exact coloredWeight_uncolor_any h.base h.bU h.nodup w _ hitG hitc

/-- C12: `rotate_fan` on a fan prefix `f0, f1, .., fk` at `x` of a consistent colouring (`f0`
an uncoloured arc of the graph at `x`, every later arc coloured with a colour that is free
at the far end of the arc before it, no arc twice) runs without a failed assertion.
Afterwards every arc of the prefix has the colour its successor had, the last arc is
uncoloured, the arcs outside the prefix keep their colours, the colouring is consistent
(proper, with the accumulator equal to the weight of the coloured arcs) and the number of
coloured arcs is the same. -/
theorem C12_rotate_fan (G : DiGraph) (b : Nat) (w : Arc → Nat) (s : Coloring) (x : Nat)
    (f0 : Arc) (rest : List Arc) (h : CInv G b w s) (h0 : f0 ∈ G.arcs)
    (hun : s.base.is_colored f0 = false) (hi : f0.incident x)
    (hch : (f0 :: rest).Chain' (FanLink G s.base x)) (hnd : (f0 :: rest).Nodup) :
    ∃ s1, rotate_fan s w (f0 :: rest) = Except.ok s1 ∧
      (∀ q ∈ (f0 :: rest).zip rest, s1.base.get_color q.1 = s.base.get_color q.2) ∧
      s1.base.is_colored (rest.getLastD f0) = false ∧
      (∀ e, e ∉ f0 :: rest → s1.base.get_color e = s.base.get_color e) ∧
      CInv G b w s1 ∧
      coloredWeight G (fun _ => 1) s1.base = coloredWeight G (fun _ => 1) s.base := by
  obtain ⟨s1, e1, h1, fr, pr, last, cnt⟩ := rotateLoop_spec G b w x rest s f0 h h0 hun hi hch hnd
  exact ⟨s1, e1, pr, last, fr, h1, cnt⟩

/-- C12 on the triangle with `(v,w)` coloured 0 and `(u,w)` coloured 1, for the fan
`(u,v), (u,w)` at `u`. -/
theorem C12_rotate_fan_witness :
    ∃ s1, rotate_fan fanColoring triangleWeights [⟨0, 0, 1⟩, ⟨2, 0, 2⟩] = Except.ok s1 ∧
      (∀ q ∈ ([⟨0, 0, 1⟩, ⟨2, 0, 2⟩] : List Arc).zip [⟨2, 0, 2⟩],
        s1.base.get_color q.1 = fanColoring.base.get_color q.2) ∧
      s1.base.is_colored (([⟨2, 0, 2⟩] : List Arc).getLastD ⟨0, 0, 1⟩) = false ∧
      (∀ e, e ∉ ([⟨0, 0, 1⟩, ⟨2, 0, 2⟩] : List Arc) →
        s1.base.get_color e = fanColoring.base.get_color e) ∧
      CInv triangle 2 triangleWeights s1 ∧
      coloredWeight triangle (fun _ => 1) s1.base
        = coloredWeight triangle (fun _ => 1) fanColoring.base :=
  C12_rotate_fan triangle 2 triangleWeights fanColoring 0 ⟨0, 0, 1⟩ [⟨2, 0, 2⟩]
    fanColoring_inv (by decide) (by decide) (by decide)
    (List.chain'_pair.2 ⟨by decide, by decide, by decide, by decide⟩) (by decide)

/-! ## Inverting an alternating path -/

theorem swapcd_other {c d nc oc : Nat} (hp : (nc = c ∧ oc = d) ∨ (nc = d ∧ oc = c))
    (hcd : c ≠ d) : swapcd c d oc = nc ∧ nc ≠ oc ∧
      (∀ K, (K = c ∨ K = d) → swapcd c d K = nc → K = oc) ∧
      (∀ K, (K = c ∨ K = d) → swapcd c d K = oc → K = nc) ∧
      (oc = c ∨ oc = d) ∧ (nc = c ∨ nc = d) := by
  have hdc : d ≠ c := fun e => hcd e.symm
  rcases hp with ⟨e1, e2⟩ | ⟨e1, e2⟩
  · subst e1 e2
    refine ⟨by simp [swapcd, hdc], hcd, ?_, ?_, Or.inr rfl, Or.inl rfl⟩
    · rintro K (e | e) h
      · subst e; simp [swapcd] at h; exact absurd h hdc
      · exact e
    · rintro K (e | e) h
      · exact e
      · subst e; simp [swapcd, hdc] at h; exact absurd h hcd
  · subst e1 e2
    refine ⟨by simp [swapcd], hdc, ?_, ?_, Or.inl rfl, Or.inr rfl⟩
    · rintro K (e | e) h
      · exact e
      · subst e; simp [swapcd, hdc] at h; exact absurd h hcd
    · rintro K (e | e) h
      · subst e; simp [swapcd] at h; exact absurd h hdc
      · exact e

theorem is_colored_of_lt {G : DiGraph} {b : Nat} {k : KColoring} (hk : Consistent G b k)
    {a : Arc} (h : k.arc_colors a < b) : k.is_colored a = true := by
  unfold KColoring.is_colored
  rw [hk.nc]
  exact decide_eq_true h

theorem getOther_incident {a : Arc} {x : Nat} (hi : a.incident x) :
    a.incident (a.getOther x) := by
  rcases getOther_ends a x hi with ⟨_, e2⟩ | ⟨_, e2⟩
  · exact Or.inr e2
  · exact Or.inl e2

theorem free_at_ends {k : KColoring} {a : Arc} {x col : Nat} (hi : a.incident x)
    (h1 : k.is_color_free x col = true) (h2 : k.is_color_free (a.getOther x) col = true) :
    k.is_color_free a.tail col = true ∧ k.is_color_free a.head col = true := by
  rcases getOther_ends a x hi with ⟨e1, e2⟩ | ⟨e1, e2⟩
  · exact ⟨by rw [e1]; exact h1, by rw [e2]; exact h2⟩
  · exact ⟨by rw [e2]; exact h2, by rw [e1]; exact h1⟩

theorem getOther_ne {a : Arc} {x : Nat} (hi : a.incident x) (hl : a.tail ≠ a.head) :
    a.getOther x ≠ x := by
  rcases getOther_ends a x hi with ⟨e1, e2⟩ | ⟨e1, e2⟩
  · rw [← e2, ← e1]; exact fun e => hl e.symm
  · rw [← e2, ← e1]; exact hl

theorem invertLoop_spec (G : DiGraph) (b : Nat) (w : Arc → Nat) (s0 : Coloring) (c d : Nat)
    (h0 : CInv G b w s0) (hcd : c ≠ d) (hc : c < b) (hd : d < b) :
    ∀ (fuel : Nat) (s : Coloring) (x : Nat) (A : Arc) (nc oc : Nat) (F : List Arc),
      InvertInv G b w s0 s c d x A nc oc F → G.arcs.length ≤ fuel + F.length →
      ∃ s1 Q, invertLoop w fuel s x A nc oc = Except.ok s1 ∧ CInv G b w s1 ∧
        AltPath G s0.base x oc nc (A :: Q) ∧
        ∀ e, s1.base.arc_colors e =
          if e ∈ F ∨ e ∈ A :: Q then swapcd c d (s0.base.arc_colors e)
          else s0.base.arc_colors e := by
  intro fuel
  induction fuel with
  | zero =>
    intro s x A nc oc F hI hfuel
    exfalso
    have hsub : (A :: F) ⊆ G.arcs := by
      intro e he
      rcases List.mem_cons.1 he with e1 | e1
      · rw [e1]; exact hI.mem
      · exact hI.sub e e1
    have hnd : (A :: F).Nodup := List.nodup_cons.2 ⟨hI.fresh, hI.nodup⟩
    have := (List.subperm_of_subset hnd hsub).length_le
    simp only [List.length_cons] at this
    omega
  | succ fuel ih =>
    intro s x A nc oc F hI hfuel
    have hs := hI.inv
    obtain ⟨hsw, hne, hswn, hswo, hocd, hncd⟩ := swapcd_other hI.pair hcd
    have hnc : nc < b := by rcases hncd with e | e <;> rw [e] <;> assumption
    have hoc : oc < b := by rcases hocd with e | e <;> rw [e] <;> assumption
    have hbU := hs.bU
    have hA0c : s0.base.is_colored A = true :=
      is_colored_of_lt h0.base (by rw [hI.orig]; exact hoc)
    have hnl : A.tail ≠ A.head := h0.edges A hI.mem hA0c
    have hAi1 := getOther_incident hI.inc
    have hx1 : A.getOther x ≠ x := getOther_ne hI.inc hnl
    have hAun : s.base.arc_colors A = UNCOLORED := by rw [hI.cols, if_pos rfl]
    have hAuc : s.base.is_colored A = false := hs.base.not_colored_of_eq hbU hAun
    unfold invertLoop
    cases hN : s.am.getArcToMate nc (A.getOther x) with
    | none =>
      have hf1 : s.base.is_color_free (A.getOther x) nc = true := by
        cases hf : s.base.is_color_free (A.getOther x) nc with
        | true => rfl
        | false =>
          obtain ⟨a, ha, _⟩ := hs.am_some_of_not_free hnc hf
          rw [hN] at ha
          exact Option.noConfusion ha
      obtain ⟨ht, hh⟩ := free_at_ends hI.inc hI.free hf1
      obtain ⟨s1, e1, h1, b1, _⟩ := Coloring.color_ok hs hI.mem hAuc hnc ht hh hnl
      refine ⟨s1, [], e1, h1, ⟨hI.mem, hI.inc, hI.orig, ?_⟩, ?_⟩
      · show s0.base.is_color_free (A.getOther x) nc = true
        rw [h0.base.free_iff_no_arc hbU _ hnc]
        intro e heG hei hec
        have hec : s0.base.arc_colors e = nc := hec
        by_cases heA : e = A
        · rw [heA, hI.orig] at hec; exact hne hec.symm
        · by_cases heF : e ∈ F
          · rcases hI.closed e heF _ hei A hI.mem hAi1 (by rw [hI.orig]; exact hocd)
              with h | ⟨_, h⟩
            · exact hI.fresh h
            · exact hx1 h
          · have := (hs.base.free_iff_no_arc hbU _ hnc).1 hf1 e heG hei
            apply this
            show s.base.arc_colors e = nc
            rw [hI.cols, if_neg heA, if_neg heF]; exact hec
      · intro e
        rw [b1, arc_colors_color]
        by_cases heA : e = A
        · rw [if_pos heA, if_pos (Or.inr (by rw [heA]; exact List.mem_cons_self _ _)), heA,
            hI.orig, hsw]
        · rw [if_neg heA, hI.cols, if_neg heA]
          by_cases heF : e ∈ F
          · rw [if_pos heF, if_pos (Or.inl heF)]
          · rw [if_neg heF, if_neg]
            simp [heF, heA]
    | some N =>
      obtain ⟨hNG, hNi, hNc⟩ := hs.am.arc_of_entry nc _ N hnc hN
      have hNA : N ≠ A := by
        intro e
        rw [e, hAun] at hNc
        exact lt_ne_UNCOLORED hbU hnc hNc.symm
      have hNF : N ∉ F := by
        intro hNF
        have h1 := hI.cols N
        rw [if_neg hNA, if_pos hNF, hNc] at h1
        have h2 := hswn _ (hI.fcd N hNF) h1.symm
        exact hNA (h0.base.proper N hNG A hI.mem _ hNi hAi1 (by rw [h2]; exact hoc)
          (by rw [h2, hI.orig]))
      have hN0 : s0.base.arc_colors N = nc := by
        have h1 := hI.cols N
        rw [if_neg hNA, if_neg hNF, hNc] at h1
        exact h1.symm
      have hNcd : s.base.is_colored N = true :=
        is_colored_of_lt hs.base (by rw [hNc]; exact hnc)
      obtain ⟨s1, e1, h1, b1, _⟩ := Coloring.uncolor_ok hs hNG hNcd
      have hfu : ∀ v c1, c1 < b → s1.base.is_color_free v c1 =
          if c1 = nc ∧ (v = N.tail ∨ v = N.head) then true
          else s.base.is_color_free v c1 := by
        intro v c1 hc1
        rw [b1, is_color_free_uncolor hs.base hbU w N hNcd v hc1, hNc]
      have hNx1 : A.getOther x = N.tail ∨ A.getOther x = N.head := by
        rcases hNi with e | e
        · exact Or.inl e.symm
        · exact Or.inr e.symm
      have hfx : s1.base.is_color_free x nc = true := by
        rw [hfu _ _ hnc]
        split
        · rfl
        · exact hI.free
      have hfx1 : s1.base.is_color_free (A.getOther x) nc = true := by
        rw [hfu _ _ hnc, if_pos ⟨rfl, hNx1⟩]
      obtain ⟨ht, hh⟩ := free_at_ends hI.inc hfx hfx1
      have hAuc1 : s1.base.is_colored A = false := by
        rw [b1, is_colored_uncolor hs.base hbU w N A, if_neg (Ne.symm hNA)]
        exact hAuc
      obtain ⟨s2, e2, h2, b2, _⟩ := Coloring.color_ok h1 hI.mem hAuc1 hnc ht hh hnl
      have hcols2 : ∀ e, s2.base.arc_colors e =
          if e = N then UNCOLORED
          else if e ∈ A :: F then swapcd c d (s0.base.arc_colors e)
          else s0.base.arc_colors e := by
        intro e
        rw [b2, arc_colors_color, b1, arc_colors_uncolor]
        by_cases heN : e = N
        · subst heN
          simp [hNA]
        · by_cases heA : e = A
          · subst heA
            simp [heN, hI.orig, hsw]
          · have h3 := hI.cols e
            rw [if_neg heA] at h3
            simp only [heN, heA, if_false, h3, List.mem_cons, false_or]
      have hfree2 : s2.base.is_color_free (A.getOther x) oc = true := by
        rw [b2, is_color_free_color h1.base hbU w A hnc _ hoc,
          if_neg (fun e => hne e.1.symm), hfu _ _ hoc, if_neg (fun e => hne e.1.symm),
          hs.base.free_iff_no_arc hbU _ hoc]
        intro e heG hei hec
        have hec : s.base.arc_colors e = oc := hec
        rw [hI.cols] at hec
        by_cases heA : e = A
        · rw [if_pos heA] at hec
          exact lt_ne_UNCOLORED hbU hoc hec.symm
        · rw [if_neg heA] at hec
          by_cases heF : e ∈ F
          · rw [if_pos heF] at hec
            have h3 := hswo _ (hI.fcd e heF) hec
            apply hNF
            rw [← h0.base.proper e heG N hNG _ hei hNi (by rw [h3]; exact hnc)
              (by rw [h3, hN0])]
            exact heF
          · rw [if_neg heF] at hec
            exact heA (h0.base.proper e heG A hI.mem _ hei hAi1 (by rw [hec]; exact hoc)
              (by rw [hec, hI.orig]))
      have hI2 : InvertInv G b w s0 s2 c d (A.getOther x) N oc nc (A :: F) := by
        refine ⟨h2, ?_, List.nodup_cons.2 ⟨hI.fresh, hI.nodup⟩, ?_, hNG, ?_, hNi, hN0, hcols2,
          ?_, hfree2, ?_, ?_⟩
        · rcases hI.pair with ⟨e1, e2⟩ | ⟨e1, e2⟩
          · exact Or.inr ⟨e2, e1⟩
          · exact Or.inl ⟨e2, e1⟩
        · intro e he
          rcases List.mem_cons.1 he with e1 | e1
          · rw [e1]; exact hI.mem
          · exact hI.sub e e1
        · intro h
          rcases List.mem_cons.1 h with e1 | e1
          · exact hNA e1
          · exact hNF e1
        · intro e he
          rcases List.mem_cons.1 he with e1 | e1
          · rw [e1, hI.orig]; exact hocd
          · exact hI.fcd e e1
        · intro e he v hev e3 he3G he3i he3c
          rcases List.mem_cons.1 he with e1 | e1
          · subst e1
            by_cases hv : v = x
            · subst hv
              rcases hI.entry e3 he3G he3i he3c with h | h
              · exact Or.inl (List.mem_cons_of_mem _ h)
              · exact Or.inl (by rw [h]; exact List.mem_cons_self _ _)
            · have hv1 : v = e.getOther x := by
                rcases getOther_ends e x hI.inc with ⟨q1, q2⟩ | ⟨q1, q2⟩
                · rcases hev with q | q
                  · exact absurd (q.symm.trans q1) hv
                  · rw [← q2, q]
                · rcases hev with q | q
                  · rw [← q2, q]
                  · exact absurd (q.symm.trans q1) hv
              subst hv1
              rcases he3c with q | q
              · rcases hI.pair with ⟨p1, p2⟩ | ⟨p1, p2⟩
                · right
                  exact ⟨h0.base.proper e3 he3G N hNG _ he3i hNi (by rw [q]; exact hc)
                    (by rw [q, hN0, p1]), rfl⟩
                · left
                  rw [h0.base.proper e3 he3G e hI.mem _ he3i hAi1 (by rw [q]; exact hc)
                    (by rw [q, hI.orig, p2])]
                  exact List.mem_cons_self _ _
              · rcases hI.pair with ⟨p1, p2⟩ | ⟨p1, p2⟩
                · left
                  rw [h0.base.proper e3 he3G e hI.mem _ he3i hAi1 (by rw [q]; exact hd)
                    (by rw [q, hI.orig, p2])]
                  exact List.mem_cons_self _ _
                · right
                  exact ⟨h0.base.proper e3 he3G N hNG _ he3i hNi (by rw [q]; exact hd)
                    (by rw [q, hN0, p1]), rfl⟩
          · rcases hI.closed e e1 v hev e3 he3G he3i he3c with h | ⟨h, _⟩
            · exact Or.inl (List.mem_cons_of_mem _ h)
            · exact Or.inl (by rw [h]; exact List.mem_cons_self _ _)
        · intro e3 he3G he3i he3c
          have hK : s0.base.arc_colors e3 = oc ∨ s0.base.arc_colors e3 = nc := by
            rcases hI.pair with ⟨p1, p2⟩ | ⟨p1, p2⟩
            · rw [p1, p2]; exact he3c.symm
            · rw [p1, p2]; exact he3c
          rcases hK with q | q
          · left
            rw [h0.base.proper e3 he3G A hI.mem _ he3i hAi1 (by rw [q]; exact hoc)
              (by rw [q, hI.orig])]
            exact List.mem_cons_self _ _
          · right
            exact h0.base.proper e3 he3G N hNG _ he3i hNi (by rw [q]; exact hnc)
              (by rw [q, hN0])
      obtain ⟨s3, Q, e3, h3, hp3, hc3⟩ := ih s2 _ N oc nc (A :: F) hI2
        (by simp only [List.length_cons]; omega)
      refine ⟨s3, N :: Q, ?_, h3, ⟨hI.mem, hI.inc, hI.orig, hp3⟩, ?_⟩
      · simp only [e1, e2, bind, Except.bind]
        exact e3
      · intro e
        rw [hc3]
        by_cases hm : e ∈ A :: F ∨ e ∈ N :: Q
        · have hm2 : e ∈ F ∨ e ∈ A :: N :: Q := by
            rcases hm with h | h
            · rcases List.mem_cons.1 h with q | q
              · exact Or.inr (by rw [q]; exact List.mem_cons_self _ _)
              · exact Or.inl q
            · exact Or.inr (List.mem_cons_of_mem _ h)
          rw [if_pos hm, if_pos hm2]
        · have hm2 : ¬ (e ∈ F ∨ e ∈ A :: N :: Q) := by
            intro h
            apply hm
            rcases h with h | h
            · exact Or.inl (List.mem_cons_of_mem _ h)
            · rcases List.mem_cons.1 h with q | q
              · exact Or.inl (by rw [q]; exact List.mem_cons_self _ _)
              · exact Or.inr q
          rw [if_neg hm, if_neg hm2]

theorem altPath_colors (G : DiGraph) (k : KColoring) :
    ∀ (P : List Arc) (v col other : Nat), AltPath G k v col other P →
      ∀ e ∈ P, e ∈ G.arcs ∧ (k.get_color e = col ∨ k.get_color e = other) := by
  intro P
  induction P with
  | nil => intro v col other _ e he; exact absurd he (List.not_mem_nil _)
  | cons a rest ih =>
    intro v col other hp e he
    obtain ⟨h1, _, h3, h4⟩ := hp
    rcases List.mem_cons.1 he with q | q
    · rw [q]; exact ⟨h1, Or.inl h3⟩
    · obtain ⟨g1, g2⟩ := ih _ _ _ h4 e q
      exact ⟨g1, g2.symm⟩

theorem coloredWeight_congr (G : DiGraph) (w : Arc → Nat) {k1 k2 : KColoring}
    (h : ∀ e, k1.is_colored e = k2.is_colored e) :
    coloredWeight G w k1 = coloredWeight G w k2 := by
  unfold coloredWeight
  simp only [h]

theorem thenColor_inv {G : DiGraph} {b : Nat} {w : Arc → Nat} :
    ∀ (ops : List (Arc × Nat)) (s : Coloring), CInv G b w s →
      (∀ op ∈ ops, op.1 ∈ G.arcs ∧ op.1.tail ≠ op.1.head) → CInv G b w (thenColor w s ops) := by
  intro ops
  induction ops with
  | nil => intro s h _; exact h
  | cons op rest ih =>
    intro s h hops
    have hop := hops op (List.mem_cons_self _ _)
    apply ih _ _ (fun o ho => hops o (List.mem_cons_of_mem _ ho))
    show CInv G b w (okOr (s.color w op.1 op.2) s)
    cases hr : s.color w op.1 op.2 with
    | error e => exact h
    | ok s1 => exact h.of_color hop.1 hop.2 hr

theorem freshColoring_inv (G : DiGraph) (hnd : G.arcs.Nodup) (w : Arc → Nat) {b : Nat}
    (hb : b < 64) : CInv G b w (freshColoring b) := by
  have hbU : b ≤ UNCOLORED := by unfold UNCOLORED; omega
  apply @CInv.of_set_num_matchings G hnd w b hb Coloring.initial
  unfold freshColoring set_num_matchings Coloring.setNumColors
  rw [fc_start_of_lt _ hb]
  rfl

theorem pathAlternating_inv : CInv pathGraph 2 pathWeights pathAlternating :=
  thenColor_inv _ _ (freshColoring_inv pathGraph (by decide) pathWeights (by decide))
    (by decide)

/-- C13: `invert_cd_path(coloring, x, c, d)` on a consistent colouring with `c ≠ d`, `c` free
at `x` and `d` not free at `x` ends within as many rounds as the graph has arcs, without a
failed assertion. The arcs recoloured are those of the maximal path `P` of the old colouring
that starts at `x` and alternates `d`, `c`, `d`, ..: each of them has `c` and `d` exchanged,
every other arc keeps its colour, the same arcs are coloured as before, `total_weight` is
the same, the colouring is still consistent, and `d` is free at `x`. -/
theorem C13_invert_cd_path (G : DiGraph) (b : Nat) (w : Arc → Nat) (s : Coloring)
    (x c d fuel : Nat) (h : CInv G b w s) (hcd : c ≠ d) (hc : c < b) (hd : d < b)
    (hfc : s.base.is_color_free x c = true) (hfd : s.base.is_color_free x d = false)
    (hfuel : G.arcs.length ≤ fuel) :
    ∃ s1 P, invert_cd_path fuel s w x c d = Except.ok s1 ∧ AltPath G s.base x d c P ∧
      (∀ e ∈ P, (s.base.get_color e = c ∧ s1.base.get_color e = d) ∨
        (s.base.get_color e = d ∧ s1.base.get_color e = c)) ∧
      (∀ e, e ∉ P → s1.base.get_color e = s.base.get_color e) ∧
      (∀ e, s1.base.is_colored e = s.base.is_colored e) ∧
      s1.base.getTotalWeight = s.base.getTotalWeight ∧
      CInv G b w s1 ∧ s1.base.is_color_free x d = true := by
  have hbU := h.bU
  have hdc : d ≠ c := fun e => hcd e.symm
  obtain ⟨a1, ha1, ha1G, ha1i, ha1c⟩ := h.am_some_of_not_free hd hfd
  have ha1cd : s.base.is_colored a1 = true := is_colored_of_lt h.base (by rw [ha1c]; exact hd)
  obtain ⟨s1, e1, h1, b1, _⟩ := Coloring.uncolor_ok h ha1G ha1cd
  have hI : InvertInv G b w s s1 c d x a1 c d [] := by
    refine ⟨h1, Or.inl ⟨rfl, rfl⟩, List.nodup_nil, fun e he => absurd he (List.not_mem_nil _),
      ha1G, List.not_mem_nil _, ha1i, ha1c, ?_, fun e he => absurd he (List.not_mem_nil _), ?_,
      fun e he => absurd he (List.not_mem_nil _), ?_⟩
    · intro e
      rw [b1, arc_colors_uncolor]
      simp
    · rw [b1, is_color_free_uncolor h.base hbU w a1 ha1cd x hc, ha1c,
        if_neg (fun e => hcd e.1)]
      exact hfc
    · intro e3 he3G he3i he3c
      right
      rcases he3c with q | q
      · exact absurd q ((h.base.free_iff_no_arc hbU x hc).1 hfc e3 he3G he3i)
      · exact h.base.proper e3 he3G a1 ha1G x he3i ha1i (by rw [q]; exact hd)
          (by rw [q, ha1c])
  obtain ⟨s2, Q, e2, h2, hp, hcols⟩ := invertLoop_spec G b w s c d h hcd hc hd fuel s1 x a1
    c d [] hI (by simpa using hfuel)
  have hcols2 : ∀ e, s2.base.arc_colors e =
      if e ∈ a1 :: Q then swapcd c d (s.base.arc_colors e) else s.base.arc_colors e := by
    intro e
    rw [hcols]
    simp
  have hPc := altPath_colors G s.base (a1 :: Q) x d c hp
  have hPcols : ∀ e ∈ a1 :: Q, (s.base.get_color e = c ∧ s2.base.get_color e = d) ∨
      (s.base.get_color e = d ∧ s2.base.get_color e = c) := by
    intro e he
    have h3 : s2.base.arc_colors e = swapcd c d (s.base.arc_colors e) := by
      rw [hcols2, if_pos he]
    rcases (hPc e he).2 with q | q
    · right
      have q : s.base.arc_colors e = d := q
      refine ⟨q, ?_⟩
      show s2.base.arc_colors e = c
      rw [h3, q]
      simp [swapcd, hdc]
    · left
      have q : s.base.arc_colors e = c := q
      refine ⟨q, ?_⟩
      show s2.base.arc_colors e = d
      rw [h3, q]
      simp [swapcd]
  have hcolored : ∀ e, s2.base.is_colored e = s.base.is_colored e := by
    intro e
    unfold KColoring.is_colored
    rw [h2.base.nc, h.base.nc]
    by_cases he : e ∈ a1 :: Q
    · rcases hPcols e he with ⟨q1, q2⟩ | ⟨q1, q2⟩
      · have q1 : s.base.arc_colors e = c := q1
        have q2 : s2.base.arc_colors e = d := q2
        rw [q1, q2]
        simp [hc, hd]
      · have q1 : s.base.arc_colors e = d := q1
        have q2 : s2.base.arc_colors e = c := q2
        rw [q1, q2]
        simp [hc, hd]
    · rw [hcols2, if_neg he]
  refine ⟨s2, a1 :: Q, ?_, hp, hPcols, ?_, hcolored, ?_, h2, ?_⟩
  · unfold invert_cd_path
    rw [ha1]
    simp only [e1, bind, Except.bind]
    exact e2
  · intro e he
    show s2.base.arc_colors e = s.base.arc_colors e
    rw [hcols2, if_neg he]
  · show s2.base.total_weight = s.base.total_weight
    rw [h2.wt, h.wt, coloredWeight_congr G w hcolored]
  · rw [h2.base.free_iff_no_arc hbU x hd]
    intro e heG hei hec
    have hec : s2.base.arc_colors e = d := hec
    by_cases he : e ∈ a1 :: Q
    · rcases hPcols e he with ⟨q1, _⟩ | ⟨_, q2⟩
      · exact (h.base.free_iff_no_arc hbU x hc).1 hfc e heG hei q1
      · have q2 : s2.base.arc_colors e = c := q2
        rw [q2] at hec
        exact hcd hec
    · rw [hcols2, if_neg he] at hec
      apply he
      rw [h.base.proper e heG a1 ha1G x hei ha1i (by rw [hec]; exact hd) (by rw [hec, ha1c])]
      exact List.mem_cons_self _ _

/-- C13 on the path `0 - 1 - 2 - 3` coloured 1, 0, 1, for `x = 0`, `c = 0` and `d = 1`. -/
theorem C13_invert_cd_path_witness :
    ∃ s1 P, invert_cd_path 3 pathAlternating pathWeights 0 0 1 = Except.ok s1 ∧
      AltPath pathGraph pathAlternating.base 0 1 0 P ∧
      (∀ e ∈ P, (pathAlternating.base.get_color e = 0 ∧ s1.base.get_color e = 1) ∨
        (pathAlternating.base.get_color e = 1 ∧ s1.base.get_color e = 0)) ∧
      (∀ e, e ∉ P → s1.base.get_color e = pathAlternating.base.get_color e) ∧
      (∀ e, s1.base.is_colored e = pathAlternating.base.is_colored e) ∧
      s1.base.getTotalWeight = pathAlternating.base.getTotalWeight ∧
      CInv pathGraph 2 pathWeights s1 ∧ s1.base.is_color_free 0 1 = true :=
  C13_invert_cd_path pathGraph 2 pathWeights pathAlternating 0 0 1 3 pathAlternating_inv
    (by decide) (by decide) (by decide) (by decide) (by decide) (by decide)

theorem invert_cd_path_on_path :
    (okOr (invert_cd_path 3 pathAlternating pathWeights 0 0 1) Coloring.initial).base.get_color
      <$> pathGraph.arcs = [0, 1, 0] := by
  decide

/-! ## The maximality queue -/

theorem CInv.toBInv {G : DiGraph} {b : Nat} {w : Arc → Nat} {s : Coloring}
    (h : CInv G b w s) : BInv G b s :=
  ⟨h.bU, h.nodup, h.base, h.am⟩

theorem BInv.color_facts {G : DiGraph} {b : Nat} {s s1 : Coloring} (h : BInv G b s)
    {w : Arc → Nat} {a : Arc} {c : Nat} (ha : a ∈ G.arcs)
    (he : s.color w a c = Except.ok s1) :
    BInv G b s1 ∧ s.base.is_colored a = false ∧ c < b ∧ s1.base = s.base.color w a c ∧
      ∀ w1 : Arc → Nat, coloredWeight G w1 s1.base = coloredWeight G w1 s.base + w1 a := by
  obtain ⟨h1, h2, h3, h4, h5, h6, _⟩ := Coloring.color_inv he
  rw [h.base.nc] at h2
  refine ⟨⟨h.range, h.nodup, ?_, ?_⟩, h1, h2, h5, ?_⟩
  · rw [h5]; exact h.base.color h.range w ha h1 h2 h3 h4
  · rw [h5, h6]; exact h.am.step_color h.base h.range w ha h1 h2 h3 h4
  · intro w1
    rw [h5]
    exact coloredWeight_color_any h.base h.nodup w w1 ha h1 h2

theorem BInv.uncolor_facts {G : DiGraph} {b : Nat} {s s1 : Coloring} (h : BInv G b s)
    {w : Arc → Nat} {a : Arc} (ha : a ∈ G.arcs) (he : s.uncolor w a = Except.ok s1) :
    BInv G b s1 ∧ s.base.is_colored a = true ∧ s1.base = s.base.uncolor w a ∧
      ∀ w1 : Arc → Nat, coloredWeight G w1 s1.base + w1 a = coloredWeight G w1 s.base := by
  obtain ⟨h1, h2, h3, _⟩ := Coloring.uncolor_inv he
  refine ⟨⟨h.range, h.nodup, ?_, ?_⟩, h1, h2, ?_⟩
  · rw [h2]; exact h.base.uncolor h.range w ha h1
  · rw [h2, h3]; exact h.am.step_uncolor h.base h.range w ha h1
  · intro w1
    rw [h2]
    exact coloredWeight_uncolor_any h.base h.range h.nodup w w1 ha h1

theorem displace_inv {w : Arc → Nat} {s s1 : Coloring} {q q1 : List (Arc × Nat)}
    {a : Option Arc} (he : displace w (s, q) a = Except.ok (s1, q1)) :
    q1 = q ++ pushOf w a ∧
      ((a = Option.none ∧ s1 = s) ∨ ∃ x, a = some x ∧ s.uncolor w x = Except.ok s1) := by
  cases a with
  | none =>
    simp only [displace, pure, Except.pure, Except.ok.injEq, Prod.mk.injEq] at he
    exact ⟨by rw [← he.2]; simp [pushOf], Or.inl ⟨rfl, he.1.symm⟩⟩
  | some x =>
    simp only [displace, bind_ok, pure, Except.pure, Except.ok.injEq, Prod.mk.injEq] at he
    obtain ⟨s2, h1, h2, h3⟩ := he
    subst h2
    exact ⟨by rw [← h3]; rfl, Or.inr ⟨x, rfl, h1⟩⟩

theorem colorLoop_inv (w : Arc → Nat) (arc : Arc) (key : Nat) (s : Coloring)
    (q : List (Arc × Nat)) :
    ∀ (cs : List Nat) (s1 : Coloring) (q1 : List (Arc × Nat)),
      colorLoop w arc key cs (s, q) = Except.ok (s1, q1) →
      ((∀ c ∈ cs, displaceGuard w s arc key c = false) ∧ s1 = s ∧ q1 = q) ∨
      ∃ c ∈ cs, displaceGuard w s arc key c = true ∧ ∃ st1 st2,
        displace w (s, q) (s.am.getArcToMate c arc.tail) = Except.ok st1 ∧
        displace w st1 (s.am.getArcToMate c arc.head) = Except.ok st2 ∧
        st2.1.color w arc c = Except.ok s1 ∧ q1 = st2.2 := by
  intro cs
  induction cs with
  | nil =>
    intro s1 q1 he
    simp only [colorLoop, Except.ok.injEq, Prod.mk.injEq] at he
    exact Or.inl ⟨by simp, he.1.symm, he.2.symm⟩
  | cons c rest ih =>
    intro s1 q1 he
    by_cases hg : displaceGuard w s arc key c = true
    · right
      refine ⟨c, List.mem_cons_self _ _, hg, ?_⟩
      unfold displaceGuard at hg
      simp only [colorLoop, hg, if_true, bind_ok, pure, Except.pure, Except.ok.injEq,
        Prod.mk.injEq] at he
      obtain ⟨st1, h1, st2, h2, s3, h3, h4, h5⟩ := he
      exact ⟨st1, st2, h1, h2, by rw [← h4]; exact h3, h5.symm⟩
    · have hg : displaceGuard w s arc key c = false := by simpa using hg
      have hg2 := hg
      unfold displaceGuard at hg2
      simp only [colorLoop, hg2, Bool.false_eq_true, if_false] at he
      rcases ih s1 q1 he with ⟨h1, h2, h3⟩ | ⟨c1, hc1, h⟩
      · left
        refine ⟨?_, h2, h3⟩
        intro c2 hc2
        rcases List.mem_cons.1 hc2 with e | e
        · rw [e]; exact hg
        · exact h1 c2 e
      · exact Or.inr ⟨c1, List.mem_cons_of_mem _ hc1, h⟩

theorem foldl_max_spec (l : List (Arc × Nat)) :
    ∀ init : Nat, init ≤ l.foldl (fun m e => max m e.2) init ∧
      (∀ e ∈ l, e.2 ≤ l.foldl (fun m e => max m e.2) init) ∧
      (l.foldl (fun m e => max m e.2) init = init ∨
        ∃ e ∈ l, e.2 = l.foldl (fun m e => max m e.2) init) := by
  induction l with
  | nil => intro init; simp
  | cons a rest ih =>
    intro init
    obtain ⟨h1, h2, h3⟩ := ih (max init a.2)
    simp only [List.foldl_cons]
    refine ⟨le_trans (le_max_left _ _) h1, ?_, ?_⟩
    · intro e he
      rcases List.mem_cons.1 he with q | q
      · rw [q]; exact le_trans (le_max_right _ _) h1
      · exact h2 e q
    · rcases h3 with q | ⟨e, he, q⟩
      · rcases le_total init a.2 with r | r
        · right
          exact ⟨a, List.mem_cons_self _ _, by rw [q, max_eq_right r]⟩
        · left
          rw [q, max_eq_left r]
      · exact Or.inr ⟨e, List.mem_cons_of_mem _ he, q⟩

theorem pqTop_some {q : List (Arc × Nat)} {e : Arc × Nat} (h : pqTop q = some e) :
    e ∈ q ∧ ∀ e1 ∈ q, e1.2 ≤ e.2 := by
  unfold pqTop at h
  have hm := List.mem_of_find?_eq_some h
  have hk := List.find?_some h
  rw [beq_iff_eq] at hk
  refine ⟨hm, ?_⟩
  intro e1 he1
  rw [hk]
  exact (foldl_max_spec q 0).2.1 e1 he1

theorem pqTop_none {q : List (Arc × Nat)} : pqTop q = Option.none ↔ q = [] := by
  constructor
  · intro h
    unfold pqTop at h
    rw [List.find?_eq_none] at h
    cases q with
    | nil => rfl
    | cons a rest =>
      exfalso
      rcases (foldl_max_spec (a :: rest) 0).2.2 with h0 | ⟨e, he, h1⟩
      · have h2 := (foldl_max_spec (a :: rest) 0).2.1 a (List.mem_cons_self _ _)
        apply h a (List.mem_cons_self _ _)
        rw [beq_iff_eq]
        unfold maxKey
        omega
      · apply h e he
        rw [beq_iff_eq]
        exact h1
  · intro h
    rw [h]
    rfl

theorem pqStep_none {w : Arc → Nat} {q : List (Arc × Nat)} {s : Coloring} :
    pqStep w q s = Except.ok Option.none ↔ q = [] := by
  constructor
  · intro h
    cases ht : pqTop q with
    | none => exact pqTop_none.1 ht
    | some top =>
      exfalso
      unfold pqStep at h
      rw [ht] at h
      simp only [bind_ok, pure, Except.pure] at h
      obtain ⟨col, _, h2⟩ := h
      by_cases hc : col ≠ npos
      · rw [if_pos hc] at h2
        simp only [bind_ok, Except.ok.injEq] at h2
        obtain ⟨_, _, h3⟩ := h2
        exact Option.noConfusion h3
      · rw [if_neg hc] at h2
        simp only [bind_ok, Except.ok.injEq] at h2
        obtain ⟨_, _, h3⟩ := h2
        exact Option.noConfusion h3
  · intro h
    rw [h]
    rfl

theorem pqStep_inv {w : Arc → Nat} {q q1 : List (Arc × Nat)} {s s1 : Coloring}
    (he : pqStep w q s = Except.ok (some (s1, q1))) :
    ∃ top, pqTop q = some top ∧
      ((∃ col, s.fc.common_free_color top.1.tail top.1.head = Except.ok col ∧ col ≠ npos ∧
          s.color w top.1 col = Except.ok s1 ∧ q1 = q.erase top) ∨
        (s.fc.common_free_color top.1.tail top.1.head = Except.ok npos ∧
          colorLoop w top.1 top.2 (List.range s.base.num_colors) (s, q.erase top)
            = Except.ok (s1, q1))) := by
  cases ht : pqTop q with
  | none =>
    unfold pqStep at he
    rw [ht] at he
    simp only [Except.ok.injEq] at he
    exact Option.noConfusion he
  | some top =>
    refine ⟨top, rfl, ?_⟩
    unfold pqStep at he
    rw [ht] at he
    simp only [bind_ok, pure, Except.pure, defined_ok] at he
    obtain ⟨col, h1, h2⟩ := he
    by_cases hc : col ≠ npos
    · rw [if_pos hc] at h2
      simp only [bind_ok, Except.ok.injEq, Option.some.injEq, Prod.mk.injEq] at h2
      obtain ⟨s2, h3, h4, h5⟩ := h2
      subst h4
      exact Or.inl ⟨col, h1, hc, h3, h5.symm⟩
    · rw [if_neg hc] at h2
      simp only [bind_ok, Except.ok.injEq, Option.some.injEq] at h2
      obtain ⟨st, h3, h4⟩ := h2
      have hc : col = npos := by
        by_contra h
        exact hc h
      subst hc
      subst h4
      exact Or.inr ⟨h1, h3⟩

theorem displace_facts {G : DiGraph} {b : Nat} {w : Arc → Nat} {s s1 : Coloring}
    {q q1 : List (Arc × Nat)} {a : Option Arc} (h : BInv G b s)
    (ha : ∀ x, a = some x → x ∈ G.arcs)
    (he : displace w (s, q) a = Except.ok (s1, q1)) :
    BInv G b s1 ∧ q1 = q ++ pushOf w a ∧
      (∀ w1 : Arc → Nat, coloredWeight G w1 s1.base + mateWeight w1 a
        = coloredWeight G w1 s.base) ∧
      (∀ e, s1.base.is_colored e = if some e = a then false else s.base.is_colored e) ∧
      (∀ x, a = some x → s.base.is_colored x = true) ∧
      (∀ e, s1.base.arc_colors e = if some e = a then UNCOLORED else s.base.arc_colors e) := by
  obtain ⟨hq, hs⟩ := displace_inv he
  rcases hs with ⟨h1, h2⟩ | ⟨x, h1, h2⟩
  · subst h1 h2
    exact ⟨h, hq, fun w1 => rfl, fun e => by simp, fun x hx => Option.noConfusion hx,
      fun e => by simp⟩
  · subst h1
    obtain ⟨g1, g2, g3, g4⟩ := h.uncolor_facts (ha x rfl) h2
    refine ⟨g1, hq, g4, ?_, ?_, ?_⟩
    rotate_left 2
    · intro e
      rw [g3, arc_colors_uncolor]
      by_cases hex : e = x
      · simp [hex]
      · have : ¬ some e = some x := fun q => hex (Option.some.inj q)
        rw [if_neg hex, if_neg this]
    · intro e
      rw [g3, is_colored_uncolor h.base h.range w x e]
      by_cases hex : e = x
      · simp [hex]
      · have : ¬ some e = some x := fun q => hex (Option.some.inj q)
        rw [if_neg hex, if_neg this]
    · intro y hy
      rw [← Option.some.inj hy]
      exact g2

theorem mateHeavier_false {w : Arc → Nat} {key : Nat} {a : Option Arc}
    (h : mateHeavier w key a = false) : a = Option.none ∨ mateWeight w a < key := by
  cases a with
  | none => exact Or.inl rfl
  | some x =>
    right
    simpa [mateHeavier, mateWeight] using h

theorem displaceGuard_true {w : Arc → Nat} {s : Coloring} {arc : Arc} {key c : Nat}
    (h : displaceGuard w s arc key c = true) :
    mateHeavier w key (s.am.getArcToMate c arc.tail) = false ∧
    mateHeavier w key (s.am.getArcToMate c arc.head) = false ∧
    add64 (add64 0 (mateWeight w (s.am.getArcToMate c arc.tail)))
      (mateWeight w (s.am.getArcToMate c arc.head)) < key := by
  unfold displaceGuard at h
  simp only [Bool.and_eq_true, Bool.not_eq_true', Bool.or_eq_false_iff,
    decide_eq_true_eq] at h
  exact ⟨h.1.1, h.1.2, h.2⟩

theorem pqStep_facts {G : DiGraph} {b : Nat} {w : Arc → Nat} {s s1 : Coloring}
    {q q1 : List (Arc × Nat)} (h : BInv G b s)
    (hq : ∀ e ∈ q, e.1 ∈ G.arcs ∧ e.2 = w e.1) (hsum : (G.arcs.map w).sum < 2 ^ 64)
    (he : pqStep w q s = Except.ok (some (s1, q1))) :
    ∃ top, pqTop q = some top ∧ BInv G b s1 ∧ (∀ e ∈ q1, e.1 ∈ G.arcs ∧ e.2 = w e.1) ∧
      (∀ e, s1.base.is_colored e = true → s.base.is_colored e = true ∨ e = top.1) ∧
      (∀ e ∈ q1, e ∈ q.erase top ∨ s.base.is_colored e.1 = true) ∧
      coloredWeight G w s.base ≤ coloredWeight G w s1.base ∧
      (q1.length + 1 = q.length ∨
        (coloredWeight G w s.base < coloredWeight G w s1.base ∧ q1.length ≤ q.length + 1)) := by
  obtain ⟨top, ht, hcase⟩ := pqStep_inv he
  obtain ⟨htm, _⟩ := pqTop_some ht
  obtain ⟨htG, htk⟩ := hq top htm
  have hlen : (q.erase top).length + 1 = q.length := by
    rw [List.length_erase_of_mem htm]
    have : 0 < q.length := List.length_pos_of_mem htm
    omega
  have hqe : ∀ e ∈ q.erase top, e.1 ∈ G.arcs ∧ e.2 = w e.1 :=
    fun e he => hq e (List.mem_of_mem_erase he)
  refine ⟨top, ht, ?_⟩
  rcases hcase with ⟨col, _, _, hc, hq1⟩ | ⟨_, hloop⟩
  · obtain ⟨g1, _, g3, g4, g5⟩ := h.color_facts htG hc
    subst hq1
    refine ⟨g1, hqe, ?_, fun e he => Or.inl he, ?_, Or.inl hlen⟩
    · intro e hec
      rw [g4, is_colored_color h.base w top.1 g3 e] at hec
      by_cases hex : e = top.1
      · exact Or.inr hex
      · rw [if_neg hex] at hec; exact Or.inl hec
    · rw [g5 w]; omega
  · rcases colorLoop_inv w top.1 top.2 s (q.erase top) _ s1 q1 hloop with
      ⟨_, h2, h3⟩ | ⟨c, hc, hg, ⟨sa, qa⟩, ⟨sb, qb⟩, d1, d2, d3, d4⟩
    · subst h2 h3
      exact ⟨h, hqe, fun e he => Or.inl he, fun e he => Or.inl he, le_refl _, Or.inl hlen⟩
    · have hcb : c < b := by
        rw [← h.base.nc]
        exact List.mem_range.1 hc
      have hatG : ∀ x, s.am.getArcToMate c top.1.tail = some x → x ∈ G.arcs :=
        fun x hx => (h.am.arc_of_entry c _ x hcb hx).1
      have hahG : ∀ x, s.am.getArcToMate c top.1.head = some x → x ∈ G.arcs :=
        fun x hx => (h.am.arc_of_entry c _ x hcb hx).1
      obtain ⟨a1, a2, a3, a4, a5, _⟩ := displace_facts h hatG d1
      obtain ⟨b1, b2, b3, b4, b5, _⟩ := displace_facts a1 hahG d2
      obtain ⟨g1, g2, g3, g4, g5⟩ := b1.color_facts htG d3
      obtain ⟨k1, k2, k3⟩ := displaceGuard_true hg
      have hA := a3 w
      have hB := b3 w
      have hC := g5 w
      have hle := coloredWeight_le_sum G w s.base
      have hlt : mateWeight w (s.am.getArcToMate c top.1.tail)
          + mateWeight w (s.am.getArcToMate c top.1.head) < w top.1 := by
        rw [← htk]
        unfold add64 at k3
        generalize mateWeight w (s.am.getArcToMate c top.1.tail) = m1 at *
        generalize mateWeight w (s.am.getArcToMate c top.1.head) = m2 at *
        generalize coloredWeight G w s.base = S at *
        generalize coloredWeight G w sa.base = Sa at *
        generalize coloredWeight G w sb.base = Sb at *
        generalize (G.arcs.map w).sum = T at *
        omega
      have hq1 : q1 = q.erase top ++ pushOf w (s.am.getArcToMate c top.1.tail)
          ++ pushOf w (s.am.getArcToMate c top.1.head) := by
        rw [d4]
        show qb = _
        rw [b2, a2]
      have hpush : ∀ (a : Option Arc), (∀ x, a = some x → x ∈ G.arcs ∧
          s.base.is_colored x = true) → ∀ e ∈ pushOf w a, (e.1 ∈ G.arcs ∧ e.2 = w e.1) ∧
            s.base.is_colored e.1 = true := by
        intro a ha e hea
        cases a with
        | none => exact absurd hea (List.not_mem_nil _)
        | some x =>
          simp only [pushOf, List.mem_singleton] at hea
          rw [hea]
          exact ⟨⟨(ha x rfl).1, rfl⟩, (ha x rfl).2⟩
      have hp1 := hpush _ (fun x hx => ⟨hatG x hx, a5 x hx⟩)
      have hp2 := hpush _ (fun x hx => ⟨hahG x hx, by
        have := b5 x hx
        rw [a4] at this
        split at this
        · exact Bool.noConfusion this
        · exact this⟩)
      refine ⟨g1, ?_, ?_, ?_, ?_, ?_⟩
      · intro e heq
        rw [hq1] at heq
        rcases List.mem_append.1 heq with r | r
        · rcases List.mem_append.1 r with r | r
          · exact hqe e r
          · exact (hp1 e r).1
        · exact (hp2 e r).1
      · intro e hec
        rw [g4, is_colored_color b1.base w top.1 g3 e] at hec
        by_cases hex : e = top.1
        · exact Or.inr hex
        · rw [if_neg hex, b4] at hec
          split at hec
          · exact Bool.noConfusion hec
          · rw [a4] at hec
            split at hec
            · exact Bool.noConfusion hec
            · exact Or.inl hec
      · intro e heq
        rw [hq1] at heq
        rcases List.mem_append.1 heq with r | r
        · rcases List.mem_append.1 r with r | r
          · exact Or.inl r
          · exact Or.inr (hp1 e r).2
        · exact Or.inr (hp2 e r).2
      · omega
      · right
        refine ⟨by omega, ?_⟩
        rw [hq1]
        simp only [List.length_append]
        have l1 : ∀ a : Option Arc, (pushOf w a).length ≤ 1 := by
          intro a
          cases a <;> simp [pushOf]
        have := l1 (s.am.getArcToMate c top.1.tail)
        have := l1 (s.am.getArcToMate c top.1.head)
        omega

theorem countP_lt_of_mem {w : Arc → Nat} {x y : Arc} (h : w x < w y) :
    ∀ l : List Arc, x ∈ l →
      l.countP (fun e => decide (w e < w x)) < l.countP (fun e => decide (w e < w y)) := by
  intro l
  induction l with
  | nil => intro hx; exact absurd hx (List.not_mem_nil _)
  | cons a t ih =>
    intro hx
    have hmono : t.countP (fun e => decide (w e < w x))
        ≤ t.countP (fun e => decide (w e < w y)) := by
      apply List.countP_mono_left
      intro e _ he
      simp only [decide_eq_true_eq] at he ⊢
      omega
    rw [List.countP_cons, List.countP_cons]
    by_cases hax : a = x
    · subst hax
      have h1 : decide (w a < w a) = false := by simp
      have h2 : decide (w a < w y) = true := by simp [h]
      rw [h1, h2]
      simp only [Bool.false_eq_true, if_false, if_true]
      omega
    · have hxt : x ∈ t := by
        rcases List.mem_cons.1 hx with e | e
        · exact absurd e.symm hax
        · exact e
      have := ih hxt
      by_cases hlt : w a < w x
      · have h1 : decide (w a < w x) = true := by simp [hlt]
        have h2 : decide (w a < w y) = true := by simp; omega
        rw [h1, h2]
        simp only [if_true]
        omega
      · have h1 : decide (w a < w x) = false := by simp [hlt]
        rw [h1]
        simp only [Bool.false_eq_true, if_false]
        split <;> omega

theorem lighterCount_lt {G : DiGraph} {w : Arc → Nat} {x y : Arc} (hx : x ∈ G.arcs)
    (h : w x < w y) : lighterCount G w x < lighterCount G w y :=
  countP_lt_of_mem h G.arcs hx

theorem rankWeight_pos (G : DiGraph) (w : Arc → Nat) (a : Arc) : 0 < rankWeight G w a :=
  Nat.pow_pos (by decide)

theorem rankWeight_mate {G : DiGraph} {w : Arc → Nat} {t : Arc} {m : Option Arc}
    (hm : ∀ x, m = some x → x ∈ G.arcs) (hk : mateHeavier w (w t) m = false) :
    3 * mateWeight (rankWeight G w) m ≤ rankWeight G w t := by
  cases m with
  | none => exact Nat.zero_le _
  | some x =>
    have hlt : w x < w t := by simpa [mateHeavier] using hk
    have hr := lighterCount_lt (hm x rfl) hlt
    show 3 * 3 ^ lighterCount G w x ≤ 3 ^ lighterCount G w t
    calc 3 * 3 ^ lighterCount G w x = 3 ^ (lighterCount G w x + 1) := by
          rw [Nat.pow_succ, Nat.mul_comm]
      _ ≤ 3 ^ lighterCount G w t := Nat.pow_le_pow_right (by decide) hr

/-- One round of `process_maximal_pq` in terms of the rank weights: the round keeps the
tables consistent, and either the queue gets shorter while the rank weight of the coloured
arcs does not drop, or that rank weight grows and the queue gets at most one entry longer.
No bound on the weights is needed. -/
theorem pqStep_rank {G : DiGraph} {b : Nat} {w : Arc → Nat} {s s1 : Coloring}
    {q q1 : List (Arc × Nat)} (h : BInv G b s)
    (hq : ∀ e ∈ q, e.1 ∈ G.arcs ∧ e.2 = w e.1)
    (he : pqStep w q s = Except.ok (some (s1, q1))) :
    ∃ top, pqTop q = some top ∧ BInv G b s1 ∧ (∀ e ∈ q1, e.1 ∈ G.arcs ∧ e.2 = w e.1) ∧
      (∀ e, s1.base.is_colored e = true → s.base.is_colored e = true ∨ e = top.1) ∧
      (∀ e ∈ q1, e ∈ q.erase top ∨ s.base.is_colored e.1 = true) ∧
      coloredWeight G (rankWeight G w) s.base ≤ coloredWeight G (rankWeight G w) s1.base ∧
      (q1.length + 1 = q.length ∨
        (coloredWeight G (rankWeight G w) s.base < coloredWeight G (rankWeight G w) s1.base ∧
          q1.length ≤ q.length + 1)) := by
  obtain ⟨top, ht, hcase⟩ := pqStep_inv he
  obtain ⟨htm, _⟩ := pqTop_some ht
  obtain ⟨htG, htk⟩ := hq top htm
  have hlen : (q.erase top).length + 1 = q.length := by
    rw [List.length_erase_of_mem htm]
    have : 0 < q.length := List.length_pos_of_mem htm
    omega
  have hqe : ∀ e ∈ q.erase top, e.1 ∈ G.arcs ∧ e.2 = w e.1 :=
    fun e he => hq e (List.mem_of_mem_erase he)
  refine ⟨top, ht, ?_⟩
  rcases hcase with ⟨col, _, _, hc, hq1⟩ | ⟨_, hloop⟩
  · obtain ⟨g1, _, g3, g4, g5⟩ := h.color_facts htG hc
    subst hq1
    refine ⟨g1, hqe, ?_, fun e he => Or.inl he, ?_, Or.inl hlen⟩
    · intro e hec
      rw [g4, is_colored_color h.base w top.1 g3 e] at hec
      by_cases hex : e = top.1
      · exact Or.inr hex
      · rw [if_neg hex] at hec; exact Or.inl hec
    · rw [g5 (rankWeight G w)]; omega
  · rcases colorLoop_inv w top.1 top.2 s (q.erase top) _ s1 q1 hloop with
      ⟨_, h2, h3⟩ | ⟨c, hc, hg, ⟨sa, qa⟩, ⟨sb, qb⟩, d1, d2, d3, d4⟩
    · subst h2 h3
      exact ⟨h, hqe, fun e he => Or.inl he, fun e he => Or.inl he, le_refl _, Or.inl hlen⟩
    · have hcb : c < b := by
        rw [← h.base.nc]
        exact List.mem_range.1 hc
      have hatG : ∀ x, s.am.getArcToMate c top.1.tail = some x → x ∈ G.arcs :=
        fun x hx => (h.am.arc_of_entry c _ x hcb hx).1
      have hahG : ∀ x, s.am.getArcToMate c top.1.head = some x → x ∈ G.arcs :=
        fun x hx => (h.am.arc_of_entry c _ x hcb hx).1
      obtain ⟨a1, a2, a3, a4, a5, _⟩ := displace_facts h hatG d1
      obtain ⟨b1, b2, b3, b4, b5, _⟩ := displace_facts a1 hahG d2
      obtain ⟨g1, g2, g3, g4, g5⟩ := b1.color_facts htG d3
      obtain ⟨k1, k2, _⟩ := displaceGuard_true hg
      rw [htk] at k1 k2
      have hA := a3 (rankWeight G w)
      have hB := b3 (rankWeight G w)
      have hC := g5 (rankWeight G w)
      have r1 := rankWeight_mate hatG k1
      have r2 := rankWeight_mate hahG k2
      have r3 := rankWeight_pos G w top.1
      have hq1 : q1 = q.erase top ++ pushOf w (s.am.getArcToMate c top.1.tail)
          ++ pushOf w (s.am.getArcToMate c top.1.head) := by
        rw [d4]
        show qb = _
        rw [b2, a2]
      have hpush : ∀ (a : Option Arc), (∀ x, a = some x → x ∈ G.arcs ∧
          s.base.is_colored x = true) → ∀ e ∈ pushOf w a, (e.1 ∈ G.arcs ∧ e.2 = w e.1) ∧
            s.base.is_colored e.1 = true := by
        intro a ha e hea
        cases a with
        | none => exact absurd hea (List.not_mem_nil _)
        | some x =>
          simp only [pushOf, List.mem_singleton] at hea
          rw [hea]
          exact ⟨⟨(ha x rfl).1, rfl⟩, (ha x rfl).2⟩
      have hp1 := hpush _ (fun x hx => ⟨hatG x hx, a5 x hx⟩)
      have hp2 := hpush _ (fun x hx => ⟨hahG x hx, by
        have := b5 x hx
        rw [a4] at this
        split at this
        · exact Bool.noConfusion this
        · exact this⟩)
      refine ⟨g1, ?_, ?_, ?_, ?_, ?_⟩
      · intro e heq
        rw [hq1] at heq
        rcases List.mem_append.1 heq with r | r
        · rcases List.mem_append.1 r with r | r
          · exact hqe e r
          · exact (hp1 e r).1
        · exact (hp2 e r).1
      · intro e hec
        rw [g4, is_colored_color b1.base w top.1 g3 e] at hec
        by_cases hex : e = top.1
        · exact Or.inr hex
        · rw [if_neg hex, b4] at hec
          split at hec
          · exact Bool.noConfusion hec
          · rw [a4] at hec
            split at hec
            · exact Bool.noConfusion hec
            · exact Or.inl hec
      · intro e heq
        rw [hq1] at heq
        rcases List.mem_append.1 heq with r | r
        · rcases List.mem_append.1 r with r | r
          · exact Or.inl r
          · exact Or.inr (hp1 e r).2
        · exact Or.inr (hp2 e r).2
      · omega
      · right
        refine ⟨by omega, ?_⟩
        rw [hq1]
        simp only [List.length_append]
        have l1 : ∀ a : Option Arc, (pushOf w a).length ≤ 1 := by
          intro a
          cases a <;> simp [pushOf]
        have := l1 (s.am.getArcToMate c top.1.tail)
        have := l1 (s.am.getArcToMate c top.1.head)
        omega

theorem halts_bind {α β : Type} {x : Except Fault α} {f : α → Except Fault β}
    (hx : Halts x) (hf : ∀ a, x = Except.ok a → Halts (f a)) : Halts (x >>= f) := by
  cases x with
  | error e =>
    intro h
    apply hx
    simpa [bind, Except.bind] using h
  | ok a => exact hf a rfl

theorem halts_check (b : Bool) : Halts (check b) := by
  cases b <;> simp [Halts, check]

theorem halts_defined {α : Type} (o : Option α) : Halts (defined o) := by
  cases o <;> simp [Halts, defined]

theorem halts_ok {α : Type} (a : α) : Halts (Except.ok a : Except Fault α) := by
  simp [Halts]

theorem halts_color (s : Coloring) (w : Arc → Nat) (a : Arc) (c : Nat) :
    Halts (s.color w a c) := by
  unfold Coloring.color
  refine halts_bind (halts_check _) fun _ _ => ?_
  refine halts_bind (halts_check _) fun _ _ => ?_
  refine halts_bind (halts_check _) fun _ _ => ?_
  refine halts_bind (halts_check _) fun _ _ => ?_
  refine halts_bind (halts_check _) fun _ _ => ?_
  refine halts_bind (halts_check _) fun _ _ => ?_
  refine halts_bind (halts_defined _) fun _ _ => ?_
  refine halts_bind (halts_check _) fun _ _ => ?_
  refine halts_bind (halts_defined _) fun _ _ => ?_
  refine halts_bind (halts_check _) fun _ _ => ?_
  refine halts_bind (halts_defined _) fun _ _ => ?_
  exact halts_ok _

theorem halts_uncolor (s : Coloring) (w : Arc → Nat) (a : Arc) : Halts (s.uncolor w a) := by
  unfold Coloring.uncolor
  refine halts_bind (halts_check _) fun _ _ => ?_
  refine halts_bind (halts_check _) fun _ _ => ?_
  refine halts_bind (halts_check _) fun _ _ => ?_
  refine halts_bind (halts_defined _) fun _ _ => ?_
  refine halts_bind (halts_check _) fun _ _ => ?_
  refine halts_bind (halts_defined _) fun _ _ => ?_
  refine halts_bind (halts_check _) fun _ _ => ?_
  refine halts_bind (halts_defined _) fun _ _ => ?_
  exact halts_ok _

theorem halts_displace (w : Arc → Nat) (st : Coloring × List (Arc × Nat)) (a : Option Arc) :
    Halts (displace w st a) := by
  cases a with
  | none => exact halts_ok _
  | some x => exact halts_bind (halts_uncolor _ _ _) fun _ _ => halts_ok _

theorem halts_colorLoop (w : Arc → Nat) (arc : Arc) (key : Nat) :
    ∀ (cs : List Nat) (st : Coloring × List (Arc × Nat)), Halts (colorLoop w arc key cs st) := by
  intro cs
  induction cs with
  | nil => intro st; exact halts_ok _
  | cons c rest ih =>
    intro st
    unfold colorLoop
    simp only []
    split
    · refine halts_bind (halts_displace _ _ _) fun _ _ => ?_
      refine halts_bind (halts_displace _ _ _) fun _ _ => ?_
      exact halts_bind (halts_color _ _ _ _) fun _ _ => halts_ok _
    · exact ih st

theorem halts_common (fc : FreeColorsExtension) (v1 v2 : Nat) :
    Halts (fc.common_free_color v1 v2) := by
  unfold FreeColorsExtension.common_free_color color_set.common_colors color_set.and
  exact halts_bind (halts_bind (halts_check _) fun _ _ => halts_ok _)
    fun _ _ => halts_defined _

theorem halts_pqStep (w : Arc → Nat) (q : List (Arc × Nat)) (s : Coloring) :
    Halts (pqStep w q s) := by
  unfold pqStep
  split
  · exact halts_ok _
  · refine halts_bind (halts_common _ _ _) fun col _ => ?_
    split
    · exact halts_bind (halts_color _ _ _ _) fun _ _ => halts_ok _
    · exact halts_bind (halts_colorLoop _ _ _ _ _) fun _ _ => halts_ok _

theorem process_halts {G : DiGraph} {b : Nat} {w : Arc → Nat} :
    ∀ (fuel : Nat) (q : List (Arc × Nat)) (s : Coloring), BInv G b s →
      (∀ e ∈ q, e.1 ∈ G.arcs ∧ e.2 = w e.1) →
      2 * (rankSum G w - coloredWeight G (rankWeight G w) s.base) + q.length < fuel →
      Halts (process_maximal_pq w fuel q s) := by
  intro fuel
  induction fuel with
  | zero => intro q s _ _ h; exact absurd h (Nat.not_lt_zero _)
  | succ fuel ih =>
    intro q s h hq hfuel
    unfold process_maximal_pq
    refine halts_bind (halts_pqStep w q s) fun r hr => ?_
    cases r with
    | none => exact halts_ok _
    | some st =>
      obtain ⟨s1, q1⟩ := st
      obtain ⟨top, _, g1, g2, _, _, g5, g6⟩ := pqStep_rank h hq hr
      apply ih q1 s1 g1 g2
      have := coloredWeight_le_sum G (rankWeight G w) s1.base
      unfold rankSum at hfuel ⊢
      rcases g6 with g6 | ⟨g6, g7⟩ <;> omega

theorem common_free_color_spec {b : Nat} {k : KColoring} {fc : FreeColorsExtension}
    (h : FCConsistent b k fc) (hb : b < 64) (v1 v2 : Nat) :
    ∃ col, fc.common_free_color v1 v2 = Except.ok col ∧
      ((col = npos ∧ ∀ c, c < b → ¬ (k.is_color_free v1 c = true ∧
          k.is_color_free v2 c = true)) ∨
        (col ≠ npos ∧ col < b ∧ k.is_color_free v1 col = true ∧
          k.is_color_free v2 col = true)) := by
  rw [common_free_color_of_size (h.size v1 v2)]
  unfold color_set.find_first commonSet
  simp only []
  have hlt : (fc.free_colors v1).bits &&& (fc.free_colors v2).bits < 2 ^ b :=
    Nat.and_lt_two_pow _ (h.bound v2)
  have hlt64 : (fc.free_colors v1).bits &&& (fc.free_colors v2).bits < 2 ^ 64 :=
    lt_trans hlt (Nat.pow_lt_pow_right (by decide) hb)
  by_cases h0 : (fc.free_colors v1).bits &&& (fc.free_colors v2).bits = 0
  · rw [if_pos h0]
    refine ⟨npos, rfl, Or.inl ⟨rfl, ?_⟩⟩
    intro c hc ⟨f1, f2⟩
    have := congrArg (fun x => x.testBit c) h0
    simp only [Nat.testBit_and, Nat.zero_testBit, h.bit v1 c hc, h.bit v2 c hc, f1, f2] at this
    exact Bool.noConfusion this
  · rw [if_neg h0]
    obtain ⟨r, hr1, hr2, hr3, _⟩ := lowestBit_spec h0 hlt64
    have hrb : r < b := by
      by_contra hge
      rw [testBit_false_of_bound hlt (Nat.le_of_not_lt hge)] at hr3
      exact Bool.noConfusion hr3
    rw [Nat.testBit_and, Bool.and_eq_true, h.bit v1 r hrb, h.bit v2 r hrb] at hr3
    refine ⟨r, defined_ok.2 hr1, Or.inr ⟨?_, hrb, hr3.1, hr3.2⟩⟩
    unfold npos
    omega

theorem displace_ok {G : DiGraph} {b : Nat} {w : Arc → Nat} {s : Coloring}
    (h : CInv G b w s) (q : List (Arc × Nat)) {a : Option Arc}
    (ha : ∀ x, a = some x → x ∈ G.arcs ∧ s.base.is_colored x = true) :
    ∃ s1, displace w (s, q) a = Except.ok (s1, q ++ pushOf w a) ∧ CInv G b w s1 := by
  cases a with
  | none => exact ⟨s, by simp [displace, pushOf, pure, Except.pure], h⟩
  | some x =>
    obtain ⟨s1, e1, h1, _⟩ := Coloring.uncolor_ok h (ha x rfl).1 (ha x rfl).2
    refine ⟨s1, ?_, h1⟩
    simp only [displace, e1, bind, Except.bind, pure, Except.pure, pushOf]

theorem map_fst_pushOf (w : Arc → Nat) (a : Option Arc) :
    (pushOf w a).map Prod.fst = a.toList := by
  cases a <;> rfl

theorem colorLoop_ok {G : DiGraph} {b : Nat} {w : Arc → Nat} {s : Coloring}
    (h : CInv G b w s) (hG : G.simple) {x : Arc} (key : Nat) (hx : x ∈ G.arcs)
    (hxu : s.base.is_colored x = false) {q : List (Arc × Nat)} (hq : QInv G w s q)
    (hxq : x ∉ q.map Prod.fst) :
    ∀ cs : List Nat, (∀ c ∈ cs, c < b) →
      ∃ s1 q1, colorLoop w x key cs (s, q) = Except.ok (s1, q1) ∧ CInv G b w s1 ∧
        QInv G w s1 q1 := by
  intro cs
  induction cs with
  | nil => intro _; exact ⟨s, q, rfl, h, hq⟩
  | cons c rest ih =>
    intro hcs
    have hc : c < b := hcs c (List.mem_cons_self _ _)
    by_cases hg : displaceGuard w s x key c = true
    · have hbU := h.bU
      have hat : ∀ v y, s.am.getArcToMate c v = some y →
          y ∈ G.arcs ∧ y.incident v ∧ s.base.arc_colors y = c ∧
            s.base.is_colored y = true := by
        intro v y hy
        obtain ⟨g1, g2, g3⟩ := h.am.arc_of_entry c v y hc hy
        exact ⟨g1, g2, g3, is_colored_of_lt h.base (by rw [g3]; exact hc)⟩
      obtain ⟨sa, d1, ha⟩ := displace_ok h q
        (fun y hy => ⟨(hat _ y hy).1, (hat _ y hy).2.2.2⟩)
      obtain ⟨_, _, _, a4, _, a6⟩ := displace_facts h.toBInv
        (fun y hy => (hat _ y hy).1) d1
      have hne : ∀ y, s.am.getArcToMate c x.head = some y →
          some y ≠ s.am.getArcToMate c x.tail := by
        intro y hy e
        obtain ⟨g1, g2, _, g4⟩ := hat _ y hy
        obtain ⟨_, g5, _, _⟩ := hat _ y e.symm
        have := hG.2 y g1 x hx g5 g2
        rw [this, hxu] at g4
        exact Bool.noConfusion g4
      obtain ⟨sb, d2, hb⟩ := displace_ok ha (q ++ pushOf w (s.am.getArcToMate c x.tail))
        (fun y hy => ⟨(hat _ y hy).1, by
          rw [a4, if_neg (hne y hy)]; exact (hat _ y hy).2.2.2⟩)
      obtain ⟨_, _, _, b4, _, b6⟩ := displace_facts ha.toBInv
        (fun y hy => (hat _ y hy).1) d2
      have hunc : ∀ e, s.base.is_colored e = false → sb.base.is_colored e = false := by
        intro e he
        rw [b4]
        split
        · rfl
        · rw [a4]
          split
          · rfl
          · exact he
      have hfree : ∀ v, v = x.tail ∨ v = x.head → sb.base.is_color_free v c = true := by
        intro v hv
        rw [hb.base.free_iff_no_arc hbU v hc]
        intro e heG hei hec
        have hec : sb.base.arc_colors e = c := hec
        rw [b6] at hec
        by_cases q1 : some e = s.am.getArcToMate c x.head
        · rw [if_pos q1] at hec
          exact lt_ne_UNCOLORED hbU hc hec.symm
        · rw [if_neg q1, a6] at hec
          by_cases q2 : some e = s.am.getArcToMate c x.tail
          · rw [if_pos q2] at hec
            exact lt_ne_UNCOLORED hbU hc hec.symm
          · rw [if_neg q2] at hec
            obtain ⟨m1, m2⟩ := h.am.entry_of_arc e heG (by rw [hec]; exact hc)
            rw [hec] at m1 m2
            have hv2 : s.am.getArcToMate c v = some e := by
              rcases hei with r | r
              · rw [← r]; exact m1
              · rw [← r]; exact m2
            rcases hv with r | r
            · rw [r] at hv2; exact q2 hv2.symm
            · rw [r] at hv2; exact q1 hv2.symm
      obtain ⟨s3, d3, h3, b3, _⟩ := Coloring.color_ok hb hx (hunc x hxu) hc
        (hfree _ (Or.inl rfl)) (hfree _ (Or.inr rfl)) (hG.1 x hx)
      refine ⟨s3, q ++ pushOf w (s.am.getArcToMate c x.tail)
        ++ pushOf w (s.am.getArcToMate c x.head), ?_, h3, ?_⟩
      · have hg2 := hg
        unfold displaceGuard at hg2
        simp only [colorLoop, hg2, if_true, d1, d2, d3, bind, Except.bind, pure, Except.pure]
      · have hcol3 : ∀ e, e ≠ x → sb.base.is_colored e = false →
            s3.base.is_colored e = false := by
          intro e hex he
          rw [b3, is_colored_color hb.base w x hc e, if_neg hex]
          exact he
        have hpu : ∀ (a : Option Arc), (∀ y, a = some y → y ∈ G.arcs ∧
            s.base.is_colored y = true ∧ sb.base.is_colored y = false) →
            ∀ e ∈ pushOf w a, (e.1 ∈ G.arcs ∧ e.2 = w e.1) ∧
              s3.base.is_colored e.1 = false := by
          intro a hya e hea
          cases a with
          | none => exact absurd hea (List.not_mem_nil _)
          | some y =>
            simp only [pushOf, List.mem_singleton] at hea
            obtain ⟨y1, y2, y3⟩ := hya y rfl
            rw [hea]
            refine ⟨⟨y1, rfl⟩, hcol3 y ?_ y3⟩
            intro e2
            rw [e2, hxu] at y2
            exact Bool.noConfusion y2
        have hp1 := hpu (s.am.getArcToMate c x.tail) (fun y hy =>
          ⟨(hat _ y hy).1, (hat _ y hy).2.2.2, by
            rw [b4]
            split
            · rfl
            · rw [a4, if_pos hy.symm]⟩)
        have hp2 := hpu (s.am.getArcToMate c x.head) (fun y hy =>
          ⟨(hat _ y hy).1, (hat _ y hy).2.2.2, by rw [b4, if_pos hy.symm]⟩)
        refine ⟨?_, ?_, ?_⟩
        · intro e he
          rcases List.mem_append.1 he with r | r
          · rcases List.mem_append.1 r with r | r
            · exact hq.key e r
            · exact (hp1 e r).1
          · exact (hp2 e r).1
        · intro e he
          rcases List.mem_append.1 he with r | r
          · rcases List.mem_append.1 r with r | r
            · apply hcol3 _ _ (hunc _ (hq.unc e r))
              intro e2
              exact hxq (by rw [← e2]; exact List.mem_map_of_mem _ r)
            · exact (hp1 e r).2
          · exact (hp2 e r).2
        · rw [List.map_append, List.map_append, map_fst_pushOf, map_fst_pushOf]
          have hdis : ∀ v y, s.am.getArcToMate c v = some y → y ∉ q.map Prod.fst := by
            intro v y hy hm
            obtain ⟨e, he, e2⟩ := List.mem_map.1 hm
            have := hq.unc e he
            rw [e2, (hat _ y hy).2.2.2] at this
            exact Bool.noConfusion this
          rw [List.nodup_append]
          refine ⟨?_, ?_, ?_⟩
          · rw [List.nodup_append]
            refine ⟨hq.nodup, ?_, ?_⟩
            · cases s.am.getArcToMate c x.tail <;> simp
            · intro y hy1 hy2
              rw [Option.mem_toList, Option.mem_def] at hy2
              exact hdis _ y hy2 hy1
          · cases s.am.getArcToMate c x.head <;> simp
          · intro y hy1 hy2
            rw [Option.mem_toList, Option.mem_def] at hy2
            rcases List.mem_append.1 hy1 with r | r
            · exact hdis _ y hy2 r
            · rw [Option.mem_toList, Option.mem_def] at r
              exact hne y hy2 r.symm
    · have hg : displaceGuard w s x key c = false := by simpa using hg
      obtain ⟨s1, q1, e1, g1, g2⟩ := ih (fun c1 hc1 => hcs c1 (List.mem_cons_of_mem _ hc1))
      refine ⟨s1, q1, ?_, g1, g2⟩
      have hg2 := hg
      unfold displaceGuard at hg2
      simp only [colorLoop, hg2, Bool.false_eq_true, if_false]
      exact e1

theorem QInv.erase {G : DiGraph} {w : Arc → Nat} {s : Coloring} {q : List (Arc × Nat)}
    (hq : QInv G w s q) {top : Arc × Nat} (ht : top ∈ q) :
    QInv G w s (q.erase top) ∧ top.1 ∉ (q.erase top).map Prod.fst := by
  have hsub : (q.erase top).Sublist q := List.erase_sublist top q
  have hndq : q.Nodup := List.Nodup.of_map _ hq.nodup
  refine ⟨⟨fun e he => hq.key e (hsub.subset he), fun e he => hq.unc e (hsub.subset he),
    hq.nodup.sublist (hsub.map _)⟩, ?_⟩
  intro hm
  obtain ⟨e, he, e2⟩ := List.mem_map.1 hm
  have heq : e ∈ q := hsub.subset he
  have : e = top := by
    apply List.inj_on_of_nodup_map hq.nodup heq ht e2
  rw [this] at he
  exact (List.Nodup.mem_erase_iff hndq).1 he |>.1 rfl

theorem pqStep_ok {G : DiGraph} {b : Nat} {w : Arc → Nat} {s : Coloring}
    (h : CInv G b w s) (hG : G.simple) {q : List (Arc × Nat)} (hq : QInv G w s q) :
    ∃ r, pqStep w q s = Except.ok r ∧
      ∀ s1 q1, r = some (s1, q1) → CInv G b w s1 ∧ QInv G w s1 q1 := by
  cases ht : pqTop q with
  | none =>
    refine ⟨Option.none, ?_, fun s1 q1 e => Option.noConfusion e⟩
    unfold pqStep
    rw [ht]
  | some top =>
    obtain ⟨htm, _⟩ := pqTop_some ht
    obtain ⟨htG, _⟩ := hq.key top htm
    have htu := hq.unc top htm
    obtain ⟨hqe, hnm⟩ := hq.erase htm
    obtain ⟨col, hcol, hcase⟩ := common_free_color_spec h.fc h.width top.1.tail top.1.head
    rcases hcase with ⟨hnp, _⟩ | ⟨hnp, hcb, hf1, hf2⟩
    · subst hnp
      obtain ⟨s1, q1, e1, g1, g2⟩ := colorLoop_ok h hG top.2 htG htu hqe hnm
        (List.range s.base.num_colors) (fun c hc => by
          rw [← h.base.nc]; exact List.mem_range.1 hc)
      refine ⟨some (s1, q1), ?_, ?_⟩
      · unfold pqStep
        rw [ht]
        simp only [hcol, defined, bind, Except.bind, ne_eq, not_true_eq_false, if_false, e1,
          pure, Except.pure]
      · intro s2 q2 e
        simp only [Option.some.injEq, Prod.mk.injEq] at e
        rw [← e.1, ← e.2]
        exact ⟨g1, g2⟩
    · obtain ⟨s1, e1, g1, b1, _⟩ := Coloring.color_ok h htG htu hcb hf1 hf2 (hG.1 _ htG)
      refine ⟨some (s1, q.erase top), ?_, ?_⟩
      · unfold pqStep
        rw [ht]
        simp only [hcol, defined, bind, Except.bind, ne_eq, hnp, not_false_eq_true, if_true,
          e1, pure, Except.pure]
      · intro s2 q2 e
        simp only [Option.some.injEq, Prod.mk.injEq] at e
        rw [← e.1, ← e.2]
        refine ⟨g1, hqe.key, ?_, hqe.nodup⟩
        intro e3 he3
        rw [b1, is_colored_color h.base w top.1 hcb, if_neg]
        · exact hqe.unc e3 he3
        · intro e4
          exact hnm (by rw [← e4]; exact List.mem_map_of_mem _ he3)

theorem process_rule (w : Arc → Nat) (I : Coloring → List (Arc × Nat) → Prop)
    (μ : Coloring → List (Arc × Nat) → Nat)
    (hstep : ∀ s q, I s q → ∃ r, pqStep w q s = Except.ok r ∧
      ∀ s1 q1, r = some (s1, q1) → I s1 q1 ∧ μ s1 q1 < μ s q) :
    ∀ (fuel : Nat) (s : Coloring) (q : List (Arc × Nat)), I s q → μ s q < fuel →
      ∃ s1, process_maximal_pq w fuel q s = Except.ok s1 ∧ I s1 [] := by
  intro fuel
  induction fuel with
  | zero => intro s q _ h; exact absurd h (Nat.not_lt_zero _)
  | succ fuel ih =>
    intro s q hI hfuel
    obtain ⟨r, hr, hnext⟩ := hstep s q hI
    cases r with
    | none =>
      have hq := pqStep_none.1 hr
      subst hq
      refine ⟨s, ?_, hI⟩
      unfold process_maximal_pq
      simp only [hr, bind, Except.bind, pure, Except.pure]
    | some st =>
      obtain ⟨s1, q1⟩ := st
      obtain ⟨g1, g2⟩ := hnext s1 q1 rfl
      obtain ⟨s2, e2, g3⟩ := ih s1 q1 g1 (by omega)
      refine ⟨s2, ?_, g3⟩
      unfold process_maximal_pq
      simp only [hr, bind, Except.bind]
      exact e2

theorem process_rule_of_ok (w : Arc → Nat) (I : Coloring → List (Arc × Nat) → Prop)
    (hstep : ∀ s q s1 q1, I s q → pqStep w q s = Except.ok (some (s1, q1)) → I s1 q1) :
    ∀ (fuel : Nat) (s s1 : Coloring) (q : List (Arc × Nat)), I s q →
      process_maximal_pq w fuel q s = Except.ok s1 → I s1 [] := by
  intro fuel
  induction fuel with
  | zero =>
    intro s s1 q _ h
    simp [process_maximal_pq] at h
  | succ fuel ih =>
    intro s s1 q hI he
    unfold process_maximal_pq at he
    simp only [bind_ok] at he
    obtain ⟨r, hr, h2⟩ := he
    cases r with
    | none =>
      have hq := pqStep_none.1 hr
      subst hq
      simp only [pure, Except.pure, Except.ok.injEq] at h2
      rw [← h2]
      exact hI
    | some st =>
      obtain ⟨s2, q2⟩ := st
      exact ih s2 s1 q2 (hstep s q s2 q2 hI hr) h2

theorem process_ok {G : DiGraph} {b : Nat} {w : Arc → Nat} (hG : G.simple)
    (fuel : Nat) (s : Coloring) (q : List (Arc × Nat))
    (h : CInv G b w s) (hq : QInv G w s q)
    (hfuel : 2 * (rankSum G w - coloredWeight G (rankWeight G w) s.base) + q.length < fuel) :
    ∃ s1, process_maximal_pq w fuel q s = Except.ok s1 ∧ CInv G b w s1 := by
  obtain ⟨s1, e1, g1, _⟩ := process_rule w (fun s q => CInv G b w s ∧ QInv G w s q)
    (fun s q => 2 * (rankSum G w - coloredWeight G (rankWeight G w) s.base) + q.length)
    (by
      intro s q ⟨h, hq⟩
      obtain ⟨r, hr, hnext⟩ := pqStep_ok h hG hq
      refine ⟨r, hr, ?_⟩
      intro s1 q1 e
      refine ⟨hnext s1 q1 e, ?_⟩
      subst e
      obtain ⟨top, _, _, _, _, _, g5, g6⟩ := pqStep_rank h.toBInv hq.key hr
      have := coloredWeight_le_sum G (rankWeight G w) s1.base
      show 2 * (rankSum G w - coloredWeight G (rankWeight G w) s1.base) + q1.length
        < 2 * (rankSum G w - coloredWeight G (rankWeight G w) s.base) + q.length
      unfold rankSum
      rcases g6 with g6 | ⟨g6, g7⟩ <;> omega)
    fuel s q ⟨h, hq⟩ hfuel
  exact ⟨s1, e1, g1⟩

theorem longPathColoring_inv : CInv longPath 1 longPathWeights longPathColoring :=
  thenColor_inv _ _ (freshColoring_inv longPath (by decide) longPathWeights (by decide))
    (by decide)

theorem twoCycleColoring_inv : CInv twoCycle 1 twoCycleWeights twoCycleColoring :=
  thenColor_inv _ _ (freshColoring_inv twoCycle (by decide) twoCycleWeights (by decide))
    (by decide)

/-- C15: `process_maximal_pq` terminates, whatever the weights are. For every graph, every
state whose base and arc-mate tables agree with the arc colours and every queue of arcs of
the graph paired with their weights, the loop stops within
`2 * (sum over the arcs of 3 ^ (number of lighter arcs)) + (length of the queue)` rounds:
it returns, or it stops at a fault of the code. On a graph without self-loops and without
two arcs between the same vertices, from a consistent colouring and a queue of pairwise
different uncoloured arcs, it returns, and the colouring is consistent again. -/
theorem C15_process_maximal_pq_terminates (G : DiGraph) (b : Nat) (w : Arc → Nat)
    (s : Coloring) (q : List (Arc × Nat)) (fuel : Nat) (h : BInv G b s)
    (hq : ∀ e ∈ q, e.1 ∈ G.arcs ∧ e.2 = w e.1)
    (hfuel : 2 * rankSum G w + q.length < fuel) :
    Halts (process_maximal_pq w fuel q s) ∧
    (CInv G b w s → G.simple → QInv G w s q →
      ∃ s1, process_maximal_pq w fuel q s = Except.ok s1 ∧ CInv G b w s1) := by
  have hf2 : 2 * (rankSum G w - coloredWeight G (rankWeight G w) s.base) + q.length
      < fuel := by
    omega
  exact ⟨process_halts fuel q s h hq hf2,
    fun hc hG hqi => process_ok hG fuel s q hc hqi hf2⟩

theorem heavyPathColoring_inv : CInv longPath 1 heavyPathWeights heavyPathColoring :=
  thenColor_inv _ _ (freshColoring_inv longPath (by decide) heavyPathWeights (by decide))
    (by decide)

/-- C15 on the path `0 - 1 - 2 - 3 - 4` with the weights `2 ^ 63 + 3`, `2 ^ 63 + 5`,
`2 ^ 63 + 3` and 4, which add up to more than `2 ^ 64`; `(0,1)` and `(2,3)` are coloured
and the two uncoloured arcs are queued. -/
theorem C15_process_maximal_pq_terminates_witness :
    2 ^ 64 ≤ (longPath.arcs.map heavyPathWeights).sum ∧
    Halts (process_maximal_pq heavyPathWeights 100
      [(⟨1, 1, 2⟩, 2 ^ 63 + 5), (⟨3, 3, 4⟩, 4)] heavyPathColoring) ∧
    ∃ s1, process_maximal_pq heavyPathWeights 100 [(⟨1, 1, 2⟩, 2 ^ 63 + 5), (⟨3, 3, 4⟩, 4)]
      heavyPathColoring = Except.ok s1 ∧ CInv longPath 1 heavyPathWeights s1 :=
  ⟨by decide,
    (C15_process_maximal_pq_terminates longPath 1 heavyPathWeights heavyPathColoring
      [(⟨1, 1, 2⟩, 2 ^ 63 + 5), (⟨3, 3, 4⟩, 4)] 100 heavyPathColoring_inv.toBInv (by decide)
      (by decide)).1,
    (C15_process_maximal_pq_terminates longPath 1 heavyPathWeights heavyPathColoring
      [(⟨1, 1, 2⟩, 2 ^ 63 + 5), (⟨3, 3, 4⟩, 4)] 100 heavyPathColoring_inv.toBInv (by decide)
      (by decide)).2 heavyPathColoring_inv ⟨by decide, by decide⟩
      ⟨by decide, by decide, by decide⟩⟩

/-- The run of the witness evaluated: the arc `(1,2)` displaces both neighbours, whose
64-bit weight sum has wrapped to 6, so the weight of the coloured arcs falls from
`2 ^ 64 + 6` to `2 ^ 63 + 5` in this round; the loop ends with `(1,2)` and `(3,4)`
coloured. -/
theorem process_heavyPath :
    (okOr (process_maximal_pq heavyPathWeights 100 [(⟨1, 1, 2⟩, 2 ^ 63 + 5), (⟨3, 3, 4⟩, 4)]
      heavyPathColoring) heavyPathColoring).base.get_color <$> longPath.arcs
      = [UNCOLORED, 0, UNCOLORED, 0] ∧
    coloredWeight longPath heavyPathWeights heavyPathColoring.base = 2 ^ 64 + 6 ∧
    coloredWeight longPath heavyPathWeights
      (okOr (process_maximal_pq heavyPathWeights 100
        [(⟨1, 1, 2⟩, 2 ^ 63 + 5), (⟨3, 3, 4⟩, 4)] heavyPathColoring) heavyPathColoring).base
      = 2 ^ 63 + 9 := by
  decide

/-- C16, evaluation of the code on two arcs between the same vertices: `(1,0)` of weight 3
has colour 0 and the uncoloured `(0,1)` of weight 10 is popped. There is no common free
colour, both `atm_tail` and `atm_head` are `(1,0)`, neither is heavier and the sum 6 is
below 10, so the loop over `{atm_tail, atm_head}` calls `uncolor((1,0))` twice: the first
call returns and the second one fails `assert(is_colored(arc))`. -/
theorem C16_displaces_one_arc_twice :
    CInv twoCycle 1 twoCycleWeights twoCycleColoring ∧
    QInv twoCycle twoCycleWeights twoCycleColoring [(⟨0, 0, 1⟩, 10)] ∧
    faultOf (pqStep twoCycleWeights [(⟨0, 0, 1⟩, 10)] twoCycleColoring)
      = some Fault.assertion ∧
    twoCycleColoring.fc.common_free_color 0 1 = Except.ok npos ∧
    twoCycleColoring.am.getArcToMate 0 0 = some ⟨1, 1, 0⟩ ∧
    twoCycleColoring.am.getArcToMate 0 1 = some ⟨1, 1, 0⟩ ∧
    displaceGuard twoCycleWeights twoCycleColoring ⟨0, 0, 1⟩ 10 0 = true ∧
    (okOr (twoCycleColoring.uncolor twoCycleWeights ⟨1, 1, 0⟩)
      twoCycleColoring).base.is_colored ⟨1, 1, 0⟩ = false ∧
    faultOf ((okOr (twoCycleColoring.uncolor twoCycleWeights ⟨1, 1, 0⟩)
      twoCycleColoring).uncolor twoCycleWeights ⟨1, 1, 0⟩) = some Fault.assertion := by
  refine ⟨twoCycleColoring_inv, ⟨by decide, by decide, by decide⟩, ?_⟩
  repeat' apply And.intro
  all_goals first | decide | rfl

/-- One round of `process_maximal_pq` on a graph without self-loops and without two arcs
between the same vertices: it keeps the colouring consistent, and the weight of the coloured
arcs stays or grows. -/
theorem pqStep_simple {G : DiGraph} {b : Nat} {w : Arc → Nat} {s : Coloring}
    (h : CInv G b w s) (hG : G.simple) (hsum : (G.arcs.map w).sum < 2 ^ 64)
    {q : List (Arc × Nat)} (hq : QInv G w s q) :
    ∃ r, pqStep w q s = Except.ok r ∧ ∀ s1 q1, r = some (s1, q1) →
      CInv G b w s1 ∧ QInv G w s1 q1 ∧
      coloredWeight G w s.base ≤ coloredWeight G w s1.base := by
  obtain ⟨r, hr, hnext⟩ := pqStep_ok h hG hq
  refine ⟨r, hr, ?_⟩
  intro s1 q1 e
  subst e
  obtain ⟨_, _, _, _, _, _, g5, _⟩ := pqStep_facts h.toBInv hq.key hsum hr
  exact ⟨(hnext s1 q1 rfl).1, (hnext s1 q1 rfl).2, g5⟩

/-! ## The approximation invariant -/

theorem lightEndsColoring_inv : CInv pathGraph 1 lightEnds lightEndsColoring :=
  thenColor_inv _ _ (freshColoring_inv pathGraph (by decide) lightEnds (by decide))
    (by decide)

theorem mem_map_fst_erase {q : List (Arc × Nat)} {top : Arc × Nat} {u : Arc}
    (hu : u ∈ q.map Prod.fst) (hne : u ≠ top.1) : u ∈ (q.erase top).map Prod.fst := by
  obtain ⟨e, he, e2⟩ := List.mem_map.1 hu
  have het : e ≠ top := by
    intro h
    rw [h] at e2
    exact hne e2.symm
  exact List.mem_map.2 ⟨e, (List.mem_erase_of_ne het).2 he, e2⟩

theorem heavyFirst_step {G : DiGraph} {b : Nat} {w : Arc → Nat} (hG : G.simple)
    {s : Coloring} {q : List (Arc × Nat)} (h : HeavyFirst G b w s q) :
    ∃ r, pqStep w q s = Except.ok r ∧
      ∀ s1 q1, r = some (s1, q1) → HeavyFirst G b w s1 q1 ∧ q1.length < q.length := by
  obtain ⟨r, hr, hnext⟩ := pqStep_ok h.inv hG h.queue
  refine ⟨r, hr, ?_⟩
  intro s1 q1 e
  subst e
  obtain ⟨g1, g2⟩ := hnext s1 q1 rfl
  obtain ⟨top, ht, hcase⟩ := pqStep_inv hr
  obtain ⟨htm, hmax⟩ := pqTop_some ht
  obtain ⟨htG, htk⟩ := h.queue.key top htm
  have htu := h.queue.unc top htm
  have hlen : (q.erase top).length < q.length := by
    rw [List.length_erase_of_mem htm]
    have : 0 < q.length := List.length_pos_of_mem htm
    omega
  have hbU := h.inv.bU
  rcases hcase with ⟨col, _, _, hc, hq1⟩ | ⟨hcfc, hloop⟩
  · obtain ⟨_, _, f3, f4, _⟩ := h.inv.toBInv.color_facts htG hc
    subst hq1
    refine ⟨⟨g1, g2, ?_, ?_⟩, hlen⟩
    · intro y hy hyc e he
      have heq : e ∈ q := List.mem_of_mem_erase he
      rw [f4, is_colored_color h.inv.base w top.1 f3 y] at hyc
      by_cases hyx : y = top.1
      · rw [hyx, ← htk]; exact hmax e heq
      · rw [if_neg hyx] at hyc
        exact h.heavy y hy hyc e heq
    · intro u hu huc hw hnq
      rw [f4, is_colored_color h.inv.base w top.1 f3 u] at huc
      have hux : u ≠ top.1 := by
        intro e
        rw [if_pos e] at huc
        exact Bool.noConfusion huc
      rw [if_neg hux] at huc
      have hnq2 : u ∉ q.map Prod.fst := fun hm => hnq (mem_map_fst_erase hm hux)
      intro c hc
      obtain ⟨y, hy, hadj, hyc, hyw⟩ := h.done u hu huc hw hnq2 c hc
      refine ⟨y, hy, hadj, ?_, hyw⟩
      have hyc : s.base.arc_colors y = c := hyc
      show s1.base.arc_colors y = c
      rw [f4, arc_colors_color, if_neg]
      · exact hyc
      · intro e
        rw [e] at hyc
        have := is_colored_of_lt h.inv.base (by rw [hyc]; exact hc : s.base.arc_colors top.1 < b)
        rw [htu] at this
        exact Bool.noConfusion this
  · have hnone : ∀ c, c < b →
        ¬ (s.base.is_color_free top.1.tail c = true ∧
          s.base.is_color_free top.1.head c = true) := by
      obtain ⟨col, e1, hcase⟩ := common_free_color_spec h.inv.fc h.inv.width top.1.tail
        top.1.head
      rw [hcfc] at e1
      have e1 := Except.ok.inj e1
      rcases hcase with ⟨_, h2⟩ | ⟨h2, _⟩
      · exact h2
      · exact absurd e1.symm h2
    have hmate : ∀ c, c < b → ∃ y ∈ G.arcs, (∃ v, top.1.incident v ∧ y.incident v) ∧
        s.base.arc_colors y = c ∧ s.base.is_colored y = true ∧
        (s.am.getArcToMate c top.1.tail = some y ∨
          s.am.getArcToMate c top.1.head = some y) := by
      intro c hc
      have hn := hnone c hc
      by_cases hf : s.base.is_color_free top.1.tail c = true
      · have hf2 : s.base.is_color_free top.1.head c = false := by
          cases hh : s.base.is_color_free top.1.head c with
          | false => rfl
          | true => exact absurd ⟨hf, hh⟩ hn
        obtain ⟨y, y1, y2, y3, y4⟩ := h.inv.am_some_of_not_free hc hf2
        exact ⟨y, y2, ⟨_, Or.inr rfl, y3⟩, y4,
          is_colored_of_lt h.inv.base (by rw [y4]; exact hc), Or.inr y1⟩
      · have hf2 : s.base.is_color_free top.1.tail c = false := by simpa using hf
        obtain ⟨y, y1, y2, y3, y4⟩ := h.inv.am_some_of_not_free hc hf2
        exact ⟨y, y2, ⟨_, Or.inl rfl, y3⟩, y4,
          is_colored_of_lt h.inv.base (by rw [y4]; exact hc), Or.inl y1⟩
    rcases colorLoop_inv w top.1 top.2 s (q.erase top) _ s1 q1 hloop with
      ⟨_, h2, h3⟩ | ⟨c, hc, hg, _⟩
    · subst h2 h3
      refine ⟨⟨g1, g2, ?_, ?_⟩, hlen⟩
      · intro y hy hyc e he
        exact h.heavy y hy hyc e (List.mem_of_mem_erase he)
      · intro u hu huc hw hnq
        by_cases hux : u = top.1
        · intro c hc
          obtain ⟨y, y1, y2, y3, y4, _⟩ := hmate c hc
          refine ⟨y, y1, ?_, y3, ?_⟩
          · rw [hux]; exact y2
          · rw [hux, ← htk]; exact h.heavy y y1 y4 top htm
        · exact h.done u hu huc hw (fun hm => hnq (mem_map_fst_erase hm hux))
    · exfalso
      have hcb : c < b := by
        rw [← h.inv.base.nc]; exact List.mem_range.1 hc
      obtain ⟨k1, k2, _⟩ := displaceGuard_true hg
      obtain ⟨y, y1, _, _, y4, y5⟩ := hmate c hcb
      have hle := h.heavy y y1 y4 top htm
      rcases y5 with y5 | y5
      · rw [y5] at k1
        simp [mateHeavier] at k1
        omega
      · rw [y5] at k2
        simp [mateHeavier] at k2
        omega

theorem heavyFirst_process {G : DiGraph} {b : Nat} {w : Arc → Nat} (hG : G.simple)
    (fuel : Nat) (s : Coloring) (q : List (Arc × Nat)) (h : HeavyFirst G b w s q)
    (hfuel : q.length < fuel) :
    ∃ s1, process_maximal_pq w fuel q s = Except.ok s1 ∧ CInv G b w s1 ∧
      ∀ x ∈ G.arcs, s1.base.is_colored x = false → 0 < w x →
        HeavyNeighbours G b w s1.base x := by
  obtain ⟨s1, e1, g1⟩ := process_rule w (HeavyFirst G b w) (fun _ q => q.length)
    (fun s q hI => heavyFirst_step hG hI) fuel s q h hfuel
  exact ⟨s1, e1, g1.inv, fun x hx hxc hw => g1.done x hx hxc hw (List.not_mem_nil _)⟩

theorem heavyFirst_uncoloured {G : DiGraph} {b : Nat} {w : Arc → Nat} {s : Coloring}
    (h : CInv G b w s) (hun : ∀ a ∈ G.arcs, s.base.is_colored a = false) :
    HeavyFirst G b w s
      ((G.arcs.filter fun arc => !s.base.is_colored arc).map fun arc => (arc, w arc)) := by
  have hf : (G.arcs.filter fun arc => !s.base.is_colored arc) = G.arcs := by
    rw [List.filter_eq_self]
    intro a ha
    rw [hun a ha]
    rfl
  rw [hf]
  refine ⟨h, ⟨?_, ?_, ?_⟩, ?_, ?_⟩
  · intro e he
    obtain ⟨a, ha, e2⟩ := List.mem_map.1 he
    rw [← e2]
    exact ⟨ha, rfl⟩
  · intro e he
    obtain ⟨a, ha, e2⟩ := List.mem_map.1 he
    rw [← e2]
    exact hun a ha
  · rw [List.map_map]
    have : (Prod.fst ∘ fun arc => (arc, w arc)) = (id : Arc → Arc) := rfl
    rw [this, List.map_id]
    exact h.nodup
  · intro y hy hyc
    rw [hun y hy] at hyc
    exact Bool.noConfusion hyc
  · intro x hx _ _ hnq
    exfalso
    apply hnq
    rw [List.map_map]
    have : (Prod.fst ∘ fun arc => (arc, w arc)) = (id : Arc → Arc) := rfl
    rw [this, List.map_id]
    exact hx

/-- C18, evaluation of the code on the path `0 - 1 - 2 - 3` with weights 4, 0, 5, two
colours and no arc coloured: `make_coloring_maximal_pq` pushes every uncoloured arc, also
the middle arc of weight 0, and gives it the common free colour 1 when it is popped. -/
theorem C18_colours_zero_weight_arc :
    CInv pathGraph 2 zeroMiddle (freshColoring 2) ∧
    (∀ a ∈ pathGraph.arcs, (freshColoring 2).base.is_colored a = false) ∧
    ∃ s1, make_coloring_maximal_pq 4 (freshColoring 2) pathGraph zeroMiddle = Except.ok s1 ∧
      zeroMiddle ⟨1, 1, 2⟩ = 0 ∧ s1.base.is_colored ⟨1, 1, 2⟩ = true ∧
      s1.base.get_color ⟨1, 1, 2⟩ = 1 :=
  ⟨freshColoring_inv pathGraph (by decide) zeroMiddle (by decide), by decide,
    okOr (make_coloring_maximal_pq 4 (freshColoring 2) pathGraph zeroMiddle) Coloring.initial,
    rfl, rfl, by decide, by decide⟩

/-! ## Invariant greedy -/

theorem run_inv {fuel : Nat} {st st1 : InvariantGreedy} {w : Arc → Nat}
    (h : st.run fuel w = Except.ok st1) :
    process_maximal_pq w fuel
      (InvariantGreedy.fillQueue w st.arc_queue st.arcs_to_update.vector) st.coloring
      = Except.ok st1.coloring ∧ st1.arc_queue = [] ∧
    st1.arcs_to_update = st.arcs_to_update.next_round := by
  unfold InvariantGreedy.run at h
  simp only [bind_ok, pure, Except.pure, Except.ok.injEq] at h
  obtain ⟨s1, h1, h2⟩ := h
  subst h2
  exact ⟨h1, rfl, rfl⟩

theorem process_empty (w : Arc → Nat) (fuel : Nat) (s : Coloring) :
    process_maximal_pq w (fuel + 1) [] s = Except.ok s := rfl

/-- C20: a second `InvariantGreedy::run()` right after a first one that returned leaves the
colouring as it is: every arc keeps its colour, `total_weight` is the same, and the call
returns for every positive fuel. -/
theorem C20_run_twice (fuel fuel2 : Nat) (st st1 : InvariantGreedy) (w : Arc → Nat)
    (h : st.run fuel w = Except.ok st1) :
    ∃ st2, st1.run (fuel2 + 1) w = Except.ok st2 ∧ st2.coloring = st1.coloring ∧
      (∀ a, st2.coloring.base.get_color a = st1.coloring.base.get_color a) ∧
      st2.coloring.base.getTotalWeight = st1.coloring.base.getTotalWeight := by
  obtain ⟨_, h2, h3⟩ := run_inv h
  refine ⟨⟨st1.coloring, [], st1.arcs_to_update.next_round⟩, ?_, rfl, fun _ => rfl, rfl⟩
  unfold InvariantGreedy.run
  rw [h2, h3]
  rfl

/-- C20 on the path `0 - 1 - 2 - 3` with weights 3, 5, 3 after a first `run()`. -/
theorem C20_run_twice_witness :
    ∃ st2, (okOrGreedy (lightEndsGreedy.run 5 lightEnds) lightEndsGreedy).run (0 + 1) lightEnds
        = Except.ok st2 ∧
      st2.coloring = (okOrGreedy (lightEndsGreedy.run 5 lightEnds) lightEndsGreedy).coloring ∧
      (∀ a, st2.coloring.base.get_color a
        = (okOrGreedy (lightEndsGreedy.run 5 lightEnds)
            lightEndsGreedy).coloring.base.get_color a) ∧
      st2.coloring.base.getTotalWeight
        = (okOrGreedy (lightEndsGreedy.run 5 lightEnds)
            lightEndsGreedy).coloring.base.getTotalWeight :=
  C20_run_twice 5 0 lightEndsGreedy (okOrGreedy (lightEndsGreedy.run 5 lightEnds)
    lightEndsGreedy) lightEnds rfl

theorem fillQueue_eq (w : Arc → Nat) (arcs : List Arc) :
    ∀ q, InvariantGreedy.fillQueue w q arcs
      = q ++ (arcs.filter fun a => decide (0 < w a)).map fun a => (a, w a) := by
  induction arcs with
  | nil => intro q; simp [InvariantGreedy.fillQueue]
  | cons a rest ih =>
    intro q
    have ih2 := ih (if w a > 0 then q ++ [(a, w a)] else q)
    unfold InvariantGreedy.fillQueue at ih2 ⊢
    rw [List.foldl_cons, ih2]
    by_cases hw : 0 < w a
    · simp [hw, List.filter_cons]
    · simp [hw, List.filter_cons]

theorem handler_spec {G : DiGraph} {b : Nat} {w : Arc → Nat} (st : InvariantGreedy)
    (arc : Arc) (oldValue newValue : Nat) (h : CInv G b w st.coloring) (ha : arc ∈ G.arcs)
    (hw : w arc = newValue)
    (hz : ∀ a ∈ G.arcs, a ≠ arc → w a = 0 → st.coloring.base.is_colored a = false) :
    ∃ st1, st.onPropertyChange G w arc oldValue newValue = Except.ok st1 ∧
      CInv G b w st1.coloring ∧ st1.arc_queue = st.arc_queue ∧
      (∀ a ∈ G.arcs, w a = 0 → st1.coloring.base.is_colored a = false) ∧
      (∀ a, st.coloring.base.is_colored a = false →
        st1.coloring.base.is_colored a = false) ∧
      st1.arcs_to_update = st.register G arc oldValue newValue := by
  by_cases hcond : newValue = 0 ∧ st.coloring.base.is_colored arc = true
  · obtain ⟨s1, e1, h1, b1, _⟩ := Coloring.uncolor_ok h ha hcond.2
    refine ⟨⟨s1, st.arc_queue, st.register G arc oldValue newValue⟩, ?_, h1, rfl, ?_, ?_, ?_⟩
    · unfold InvariantGreedy.onPropertyChange
      simp only [hcond, and_self, if_true, e1, bind, Except.bind, pure, Except.pure]
    · intro a haG hwa
      show s1.base.is_colored a = false
      rw [b1, is_colored_uncolor h.base h.bU w arc a]
      by_cases hax : a = arc
      · rw [if_pos hax]
      · rw [if_neg hax]; exact hz a haG hax hwa
    · intro a hau
      show s1.base.is_colored a = false
      rw [b1, is_colored_uncolor h.base h.bU w arc a]
      split
      · rfl
      · exact hau
    · rfl
  · refine ⟨⟨st.coloring, st.arc_queue, st.register G arc oldValue newValue⟩, ?_, h, rfl, ?_,
      fun a hau => hau, rfl⟩
    · unfold InvariantGreedy.onPropertyChange
      simp only [hcond, if_false, pure, Except.pure]
    · intro a haG hwa
      show st.coloring.base.is_colored a = false
      by_cases hax : a = arc
      · cases hc : st.coloring.base.is_colored a with
        | false => rfl
        | true =>
          exfalso
          apply hcond
          rw [← hw, ← hax]
          exact ⟨hwa, hc⟩
      · exact hz a haG hax hwa

theorem process_keeps_zero {G : DiGraph} {b : Nat} {w : Arc → Nat}
    (fuel : Nat) (s s1 : Coloring)
    (q : List (Arc × Nat)) (h : BInv G b s) (hq : ∀ e ∈ q, e.1 ∈ G.arcs ∧ e.2 = w e.1)
    (hz : ∀ a ∈ G.arcs, w a = 0 → s.base.is_colored a = false) (hpos : ∀ e ∈ q, 0 < w e.1)
    (he : process_maximal_pq w fuel q s = Except.ok s1) :
    ∀ a ∈ G.arcs, w a = 0 → s1.base.is_colored a = false := by
  have := process_rule_of_ok w
    (fun s q => BInv G b s ∧ (∀ e ∈ q, e.1 ∈ G.arcs ∧ e.2 = w e.1) ∧
      (∀ a ∈ G.arcs, w a = 0 → s.base.is_colored a = false) ∧ (∀ e ∈ q, 0 < w e.1))
    (by
      intro s q s1 q1 ⟨h, hq, hz, hpos⟩ hr
      obtain ⟨top, ht, g1, g2, g3, g4, _, _⟩ := pqStep_rank h hq hr
      obtain ⟨htm, _⟩ := pqTop_some ht
      refine ⟨g1, g2, ?_, ?_⟩
      · intro a haG hwa
        cases hc : s1.base.is_colored a with
        | false => rfl
        | true =>
          exfalso
          rcases g3 a hc with r | r
          · rw [hz a haG hwa] at r
            exact Bool.noConfusion r
          · have := hpos top htm
            rw [← r, hwa] at this
            exact Nat.lt_irrefl _ this
      · intro e he
        rcases g4 e he with r | r
        · exact hpos e (List.mem_of_mem_erase r)
        · by_contra hn
          have h0 : w e.1 = 0 := by omega
          rw [hz e.1 (g2 e he).1 h0] at r
          exact Bool.noConfusion r)
    fuel s s1 q ⟨h, hq, hz, hpos⟩ he
  exact this.2.2.1

theorem SetInv.add {t : TimedArtifactSet} (h : SetInv t) (a : Arc) :
    SetInv (t.add a) ∧ ∀ x, x ∈ (t.add a).elements ↔ x ∈ t.elements ∨ x = a := by
  unfold TimedArtifactSet.add
  by_cases hm : t.marker.is_marked a = false
  · rw [if_pos hm]
    have ha : a ∉ t.elements := by
      intro hmem
      rw [(h.marked a).2 hmem] at hm
      exact Bool.noConfusion hm
    refine ⟨⟨?_, ?_, ?_⟩, ?_⟩
    · show (t.elements ++ [a]).Nodup
      rw [List.nodup_append]
      refine ⟨h.nodup, List.nodup_singleton a, ?_⟩
      intro x hx hx2
      rw [List.mem_singleton] at hx2
      exact ha (hx2 ▸ hx)
    · intro x
      show ((Function.update t.marker.marked_in_round a t.marker.round x == t.marker.round)
        = true) ↔ x ∈ t.elements ++ [a]
      rw [Function.update_apply, List.mem_append, List.mem_singleton]
      by_cases hxa : x = a
      · simp [hxa]
      · rw [if_neg hxa]
        have := h.marked x
        unfold ArtifactMarker.is_marked at this
        rw [this]
        simp [hxa]
    · intro x
      show Function.update t.marker.marked_in_round a t.marker.round x ≤ t.marker.round
      rw [Function.update_apply]
      split
      · exact le_refl _
      · exact h.rounds x
    · intro x
      show x ∈ t.elements ++ [a] ↔ _
      simp
  · rw [if_neg hm]
    have hm : t.marker.is_marked a = true := by simpa using hm
    refine ⟨h, ?_⟩
    intro x
    constructor
    · exact fun hx => Or.inl hx
    · rintro (hx | hx)
      · exact hx
      · rw [hx]; exact (h.marked a).1 hm

theorem registerNeighbours_spec (s : Coloring) (G : DiGraph) (arc : Arc)
    {t : TimedArtifactSet} (h : SetInv t) :
    SetInv (InvariantGreedy.registerNeighbours s G arc t) ∧
    ∀ x ∈ (InvariantGreedy.registerNeighbours s G arc t).elements,
      x ∈ t.elements ∨ (x ∈ G.arcs ∧ s.base.is_colored x = false) := by
  have hstep : ∀ (l : List Arc) (t1 : TimedArtifactSet), (∀ x ∈ l, x ∈ G.arcs) →
      SetInv t1 →
      SetInv (l.foldl (InvariantGreedy.registerStep s arc) t1) ∧
      ∀ x ∈ (l.foldl (InvariantGreedy.registerStep s arc) t1).elements,
        x ∈ t1.elements ∨ (x ∈ G.arcs ∧ s.base.is_colored x = false) := by
    intro l
    induction l with
    | nil => intro t1 _ h1; exact ⟨h1, fun x hx => Or.inl hx⟩
    | cons a rest ih =>
      intro t1 hl h1
      rw [List.foldl_cons]
      have hrest : ∀ x ∈ rest, x ∈ G.arcs := fun x hx => hl x (List.mem_cons_of_mem _ hx)
      unfold InvariantGreedy.registerStep
      by_cases hc : a ≠ arc ∧ s.base.is_colored a = false
      · rw [if_pos hc]
        obtain ⟨g1, g2⟩ := h1.add a
        obtain ⟨i1, i2⟩ := ih (t1.add a) hrest g1
        refine ⟨i1, ?_⟩
        intro x hx
        rcases i2 x hx with r | r
        · rcases (g2 x).1 r with r | r
          · exact Or.inl r
          · rw [r]; exact Or.inr ⟨hl a (List.mem_cons_self _ _), hc.2⟩
        · exact Or.inr r
      · rw [if_neg hc]
        exact ih t1 hrest h1
  have hinc : ∀ v, ∀ x ∈ G.mapIncidentArcs v, x ∈ G.arcs := by
    intro v x hx
    exact (mem_mapIncidentArcs.1 hx).1
  unfold InvariantGreedy.registerNeighbours
  simp only [List.foldl_cons, List.foldl_nil]
  obtain ⟨g1, g2⟩ := hstep (G.mapIncidentArcs arc.tail) t (hinc _) h
  obtain ⟨g3, g4⟩ := hstep (G.mapIncidentArcs arc.head) _ (hinc _) g1
  refine ⟨g3, ?_⟩
  intro x hx
  rcases g4 x hx with r | r
  · exact g2 x r
  · exact Or.inr r

theorem IGInv.setInv {G : DiGraph} {b : Nat} {w : Arc → Nat} {st : InvariantGreedy}
    (h : IGInv G b w st) : SetInv st.arcs_to_update :=
  ⟨h.nodup, h.marked, h.rounds⟩

theorem register_spec {G : DiGraph} {b : Nat} {w : Arc → Nat} {st : InvariantGreedy}
    (h : IGInv G b w st) {arc : Arc} (ha : arc ∈ G.arcs) (oldValue newValue : Nat) :
    SetInv (st.register G arc oldValue newValue) ∧
    ∀ x ∈ (st.register G arc oldValue newValue).elements,
      x ∈ G.arcs ∧ st.coloring.base.is_colored x = false := by
  unfold InvariantGreedy.register
  by_cases h1 : oldValue < newValue ∧ st.coloring.base.is_colored arc = false
  · rw [if_pos h1]
    obtain ⟨g1, g2⟩ := h.setInv.add arc
    refine ⟨g1, ?_⟩
    intro x hx
    rcases (g2 x).1 hx with r | r
    · exact h.mem x r
    · rw [r]; exact ⟨ha, h1.2⟩
  · rw [if_neg h1]
    by_cases h2 : oldValue > newValue ∧ st.coloring.base.is_colored arc = true
    · rw [if_pos h2]
      obtain ⟨g1, g2⟩ := registerNeighbours_spec st.coloring G arc h.setInv
      refine ⟨g1, ?_⟩
      intro x hx
      rcases g2 x hx with r | r
      · exact h.mem x r
      · exact r
    · rw [if_neg h2]
      exact ⟨h.setInv, h.mem⟩

theorem handler_keeps_inv {G : DiGraph} {b : Nat} {w : Arc → Nat} {st : InvariantGreedy}
    (h : IGInv G b w st) {arc : Arc} (ha : arc ∈ G.arcs) (oldValue : Nat) :
    ∃ st1, st.onPropertyChange G w arc oldValue (w arc) = Except.ok st1 ∧ IGInv G b w st1 := by
  by_cases hcond : w arc = 0 ∧ st.coloring.base.is_colored arc = true
  · obtain ⟨s1, e1, h1, b1, _⟩ := Coloring.uncolor_ok h.inv ha hcond.2
    obtain ⟨g1, g2⟩ := register_spec h ha oldValue (w arc)
    refine ⟨⟨s1, st.arc_queue, st.register G arc oldValue (w arc)⟩, ?_, h1, h.queue,
      g1.nodup, ?_, g1.marked, g1.rounds⟩
    · unfold InvariantGreedy.onPropertyChange
      simp only [hcond, and_self, if_true, e1, bind, Except.bind, pure, Except.pure]
    · intro x hx
      refine ⟨(g2 x hx).1, ?_⟩
      show s1.base.is_colored x = false
      rw [b1, is_colored_uncolor h.inv.base h.inv.bU w arc x]
      split
      · rfl
      · exact (g2 x hx).2
  · obtain ⟨g1, g2⟩ := register_spec h ha oldValue (w arc)
    refine ⟨⟨st.coloring, st.arc_queue, st.register G arc oldValue (w arc)⟩, ?_, h.inv,
      h.queue, g1.nodup, g2, g1.marked, g1.rounds⟩
    unfold InvariantGreedy.onPropertyChange
    simp only [hcond, if_false, pure, Except.pure]

theorem IGInv.queue_inv {G : DiGraph} {b : Nat} {w : Arc → Nat} {st : InvariantGreedy}
    (h : IGInv G b w st) :
    QInv G w st.coloring (InvariantGreedy.fillQueue w st.arc_queue st.arcs_to_update.vector) ∧
    (InvariantGreedy.fillQueue w st.arc_queue st.arcs_to_update.vector).length
      ≤ st.arcs_to_update.elements.length ∧
    ∀ e ∈ InvariantGreedy.fillQueue w st.arc_queue st.arcs_to_update.vector, 0 < w e.1 := by
  rw [fillQueue_eq, h.queue, List.nil_append]
  unfold TimedArtifactSet.vector
  have hsub : (st.arcs_to_update.elements.filter fun a => decide (0 < w a)).Sublist
      st.arcs_to_update.elements := List.filter_sublist _
  have hmap : ((st.arcs_to_update.elements.filter fun a => decide (0 < w a)).map
      fun a => (a, w a)).map Prod.fst
      = st.arcs_to_update.elements.filter fun a => decide (0 < w a) := by
    rw [List.map_map]
    have : (Prod.fst ∘ fun a => (a, w a)) = (id : Arc → Arc) := rfl
    rw [this, List.map_id]
  refine ⟨⟨?_, ?_, ?_⟩, ?_, ?_⟩
  · intro e he
    obtain ⟨a, ha, e2⟩ := List.mem_map.1 he
    rw [← e2]
    exact ⟨(h.mem a (hsub.subset ha)).1, rfl⟩
  · intro e he
    obtain ⟨a, ha, e2⟩ := List.mem_map.1 he
    rw [← e2]
    exact (h.mem a (hsub.subset ha)).2
  · rw [hmap]
    exact h.nodup.sublist hsub
  · rw [List.length_map]
    exact hsub.length_le
  · intro e he
    obtain ⟨a, ha, e2⟩ := List.mem_map.1 he
    rw [← e2]
    simpa using (List.mem_filter.1 ha).2

theorem run_keeps_inv {G : DiGraph} {b : Nat} {w : Arc → Nat} (hG : G.simple)
    {st : InvariantGreedy} (h : IGInv G b w st) (fuel : Nat)
    (hfuel : 2 * rankSum G w + st.arcs_to_update.elements.length < fuel) :
    ∃ st1, st.run fuel w = Except.ok st1 ∧ IGInv G b w st1 := by
  obtain ⟨q1, q2, _⟩ := h.queue_inv
  obtain ⟨s1, e1, g1⟩ := process_ok hG fuel st.coloring _ h.inv q1 (by omega)
  refine ⟨⟨s1, [], st.arcs_to_update.next_round⟩, ?_, g1, rfl, List.nodup_nil, ?_, ?_, ?_⟩
  · unfold InvariantGreedy.run
    simp only [e1, bind, Except.bind, pure, Except.pure]
  · intro a ha
    exact absurd ha (List.not_mem_nil _)
  · intro a
    show ((st.arcs_to_update.marker.marked_in_round a == st.arcs_to_update.marker.round + 1)
      = true) ↔ a ∈ []
    have := h.rounds a
    simp only [beq_iff_eq, List.not_mem_nil, iff_false]
    omega
  · intro a
    show st.arcs_to_update.marker.marked_in_round a ≤ st.arcs_to_update.marker.round + 1
    have := h.rounds a
    omega

theorem setInv_initial : SetInv TimedArtifactSet.initial :=
  ⟨List.nodup_nil, fun a => by simp [TimedArtifactSet.initial, ArtifactMarker.is_marked],
    fun a => by simp [TimedArtifactSet.initial]⟩

theorem zeroMiddleGreedy_inv : IGInv pathGraph 2 zeroMiddle zeroMiddleGreedy :=
  ⟨thenColor_inv _ _ (freshColoring_inv pathGraph (by decide) zeroMiddle (by decide))
      (by decide),
    rfl, setInv_initial.nodup, by decide, setInv_initial.marked, setInv_initial.rounds⟩

theorem zeroCandidateGreedy_inv : IGInv pathGraph 1 zeroMiddle zeroCandidateGreedy :=
  ⟨thenColor_inv _ _ (freshColoring_inv pathGraph (by decide) zeroMiddle (by decide))
      (by decide),
    rfl, ((setInv_initial.add _).1.add _).1.nodup, by decide,
    ((setInv_initial.add _).1.add _).1.marked, ((setInv_initial.add _).1.add _).1.rounds⟩

/-- C17: invariant greedy keeps no arc of weight 0 coloured, whatever the weights are. From
a state of the algorithm (consistent colouring, empty queue, uncoloured candidates) in which
no arc of weight 0 other than `arc` is coloured, `onPropertyChange(arc, old, new)` returns
and no arc of weight 0 is coloured. From such a state without a coloured arc of weight 0,
`run()` stops within
`2 * (sum over the arcs of 3 ^ (number of lighter arcs)) + (number of candidates)` rounds of
its loop, no arc of weight 0 is coloured whenever it returns, and on a graph without
self-loops and without two arcs between the same vertices it returns. -/
theorem C17_zero_weight_arcs_uncoloured (G : DiGraph) (b : Nat) (w : Arc → Nat) :
    (∀ (st : InvariantGreedy) (arc : Arc) (oldValue : Nat), IGInv G b w st → arc ∈ G.arcs →
      (∀ a ∈ G.arcs, a ≠ arc → w a = 0 → st.coloring.base.is_colored a = false) →
      ∃ st1, st.onPropertyChange G w arc oldValue (w arc) = Except.ok st1 ∧
        IGInv G b w st1 ∧ ∀ a ∈ G.arcs, w a = 0 → st1.coloring.base.is_colored a = false) ∧
    (∀ (st : InvariantGreedy) (fuel : Nat), IGInv G b w st →
      (∀ a ∈ G.arcs, w a = 0 → st.coloring.base.is_colored a = false) →
      2 * rankSum G w + st.arcs_to_update.elements.length < fuel →
      Halts (st.run fuel w) ∧
      (∀ st1, st.run fuel w = Except.ok st1 →
        ∀ a ∈ G.arcs, w a = 0 → st1.coloring.base.is_colored a = false) ∧
      (G.simple → ∃ st1, st.run fuel w = Except.ok st1 ∧ IGInv G b w st1)) := by
  constructor
  · intro st arc oldValue h ha hz
    obtain ⟨st1, e1, g1⟩ := handler_keeps_inv h ha oldValue
    obtain ⟨st2, e2, _, _, g2, _⟩ := handler_spec st arc oldValue (w arc) h.inv ha rfl hz
    rw [e1] at e2
    rw [← Except.ok.inj e2] at g2
    exact ⟨st1, e1, g1, g2⟩
  · intro st fuel h hz hfuel
    obtain ⟨q1, q2, q3⟩ := h.queue_inv
    refine ⟨?_, ?_, ?_⟩
    · unfold InvariantGreedy.run
      exact halts_bind (process_halts fuel _ _ h.inv.toBInv q1.key (by omega))
        fun _ _ => halts_ok _
    · intro st1 he
      obtain ⟨e1, _, _⟩ := run_inv he
      exact process_keeps_zero fuel _ _ _ h.inv.toBInv q1.key hz q3 e1
    · intro hG
      exact run_keeps_inv hG h fuel hfuel

theorem zeroHeavyGreedy_inv : IGInv pathGraph 2 zeroHeavy zeroHeavyGreedy :=
  ⟨thenColor_inv _ _ (freshColoring_inv pathGraph (by decide) zeroHeavy (by decide))
      (by decide),
    rfl, setInv_initial.nodup, by decide, setInv_initial.marked, setInv_initial.rounds⟩

theorem zeroHeavyCandidates_inv : IGInv pathGraph 1 zeroHeavy zeroHeavyCandidates :=
  ⟨thenColor_inv _ _ (freshColoring_inv pathGraph (by decide) zeroHeavy (by decide))
      (by decide),
    rfl, ((setInv_initial.add _).1.add _).1.nodup, by decide,
    ((setInv_initial.add _).1.add _).1.marked, ((setInv_initial.add _).1.add _).1.rounds⟩

/-- C17 on the path `0 - 1 - 2 - 3` with the weights `2 ^ 63 + 4`, 0 and `2 ^ 63 + 5`,
which add up to more than `2 ^ 64`: the handler for the coloured arc `(1,2)` whose weight
was set to 0, and `run()` with the candidates `(1,2)` and `(2,3)`. -/
theorem C17_zero_weight_arcs_uncoloured_witness :
    2 ^ 64 ≤ (pathGraph.arcs.map zeroHeavy).sum ∧
    (∃ st1, zeroHeavyGreedy.onPropertyChange pathGraph zeroHeavy ⟨1, 1, 2⟩ 7
        (zeroHeavy ⟨1, 1, 2⟩) = Except.ok st1 ∧
      IGInv pathGraph 2 zeroHeavy st1 ∧
      ∀ a ∈ pathGraph.arcs, zeroHeavy a = 0 → st1.coloring.base.is_colored a = false) ∧
    Halts (zeroHeavyCandidates.run 30 zeroHeavy) ∧
    (∀ a ∈ pathGraph.arcs, zeroHeavy a = 0 →
      (okOrGreedy (zeroHeavyCandidates.run 30 zeroHeavy)
        zeroHeavyCandidates).coloring.base.is_colored a = false) ∧
    (∃ st1, zeroHeavyCandidates.run 30 zeroHeavy = Except.ok st1 ∧
      IGInv pathGraph 1 zeroHeavy st1) :=
  ⟨by decide,
    (C17_zero_weight_arcs_uncoloured pathGraph 2 zeroHeavy).1 zeroHeavyGreedy
      ⟨1, 1, 2⟩ 7 zeroHeavyGreedy_inv (by decide) (by decide),
    ((C17_zero_weight_arcs_uncoloured pathGraph 1 zeroHeavy).2
      zeroHeavyCandidates 30 zeroHeavyCandidates_inv (by decide) (by decide)).1,
    ((C17_zero_weight_arcs_uncoloured pathGraph 1 zeroHeavy).2
      zeroHeavyCandidates 30 zeroHeavyCandidates_inv (by decide) (by decide)).2.1
      (okOrGreedy (zeroHeavyCandidates.run 30 zeroHeavy) zeroHeavyCandidates) rfl,
    ((C17_zero_weight_arcs_uncoloured pathGraph 1 zeroHeavy).2
      zeroHeavyCandidates 30 zeroHeavyCandidates_inv (by decide) (by decide)).2.2
      ⟨by decide, by decide⟩⟩

/-- The handler and the run of the witness evaluated: the handler uncolours `(1,2)`, and
the run colours no arc of weight 0. -/
theorem run_zeroHeavy :
    (okOrGreedy (zeroHeavyGreedy.onPropertyChange pathGraph zeroHeavy ⟨1, 1, 2⟩ 7 0)
      zeroHeavyGreedy).coloring.base.get_color <$> pathGraph.arcs
      = [0, UNCOLORED, UNCOLORED] ∧
    (okOrGreedy (zeroHeavyCandidates.run 30 zeroHeavy)
      zeroHeavyCandidates).coloring.base.get_color <$> pathGraph.arcs
      = [0, UNCOLORED, 0] := by
  decide

theorem run_zeroCandidate :
    (okOrGreedy (zeroCandidateGreedy.run 21 zeroMiddle)
      zeroCandidateGreedy).coloring.base.get_color <$> pathGraph.arcs
      = [0, UNCOLORED, 0] := by
  decide

/-- C14, counterexample: the path `0 - 1 - 2 - 3` with one colour and the weights 3, 5, 3.
With the outer arcs coloured and the middle arc uncoloured, `make_coloring_maximal_pq`
returns with the middle arc still uncoloured: neither neighbour is heavier, but their sum 6
is not below 5. The same state is reached by `InvariantGreedy` after the insertion of the
outer arcs, `run()` and the insertion of the middle arc, and the next `run()` leaves the
middle arc uncoloured too. In both results no arc at the ends of the middle arc has colour 0
and weight at least 5. -/
theorem C14_counterexample :
    CInv pathGraph 1 lightEnds lightEndsColoring ∧
    (∃ s1, make_coloring_maximal_pq 10 lightEndsColoring pathGraph lightEnds = Except.ok s1 ∧
      s1.base.is_colored ⟨1, 1, 2⟩ = false ∧ 0 < lightEnds ⟨1, 1, 2⟩ ∧
      ¬ HeavyNeighbours pathGraph 1 lightEnds s1.base ⟨1, 1, 2⟩) ∧
    lightEndsStream.coloring.base.get_color <$> pathGraph.arcs = [0, UNCOLORED, 0] ∧
    lightEndsStream.arcs_to_update.elements = [⟨1, 1, 2⟩] ∧
    ∃ st1, lightEndsStream.run 10 lightEnds = Except.ok st1 ∧
      st1.coloring.base.is_colored ⟨1, 1, 2⟩ = false ∧
      ¬ HeavyNeighbours pathGraph 1 lightEnds st1.coloring.base ⟨1, 1, 2⟩ := by
  refine ⟨lightEndsColoring_inv, ⟨okOr (make_coloring_maximal_pq 10 lightEndsColoring
    pathGraph lightEnds) Coloring.initial, rfl, by decide, by decide, ?_⟩, by decide,
    by decide, okOrGreedy (lightEndsStream.run 10 lightEnds) (freshGreedy 1), rfl, by decide,
    ?_⟩
  · intro h
    obtain ⟨y, hy, _, hc, hw⟩ := h 0 (by decide)
    have key : ∀ y ∈ pathGraph.arcs,
        (okOr (make_coloring_maximal_pq 10 lightEndsColoring pathGraph lightEnds)
          Coloring.initial).base.get_color y = 0 →
        ¬ lightEnds ⟨1, 1, 2⟩ ≤ lightEnds y := by decide
    exact key y hy hc hw
  · intro h
    obtain ⟨y, hy, _, hc, hw⟩ := h 0 (by decide)
    have key : ∀ y ∈ pathGraph.arcs,
        (okOrGreedy (lightEndsStream.run 10 lightEnds)
          (freshGreedy 1)).coloring.base.get_color y = 0 →
        ¬ lightEnds ⟨1, 1, 2⟩ ≤ lightEnds y := by decide
    exact key y hy hc hw

/-- C14 as amended: on a graph without self-loops and without two arcs between the same
vertices, `process_maximal_pq` returns a colouring with P5 (every uncoloured arc of positive
weight has, for every colour, an arc of that colour at one of its ends that weighs at least
as much) when it starts from a consistent colouring in which no coloured arc is lighter than
a queued arc and the uncoloured arcs of positive weight outside the queue already have P5.
So does `make_coloring_maximal_pq` on a colouring without coloured arcs, and
`InvariantGreedy::run()` when the queue it builds from its candidates is of that kind. -/
theorem C14_heavy_first (G : DiGraph) (b : Nat) (w : Arc → Nat) (fuel : Nat)
    (hG : G.simple) :
    (∀ s q, HeavyFirst G b w s q → q.length < fuel →
      ∃ s1, process_maximal_pq w fuel q s = Except.ok s1 ∧ CInv G b w s1 ∧
        ∀ x ∈ G.arcs, s1.base.is_colored x = false → 0 < w x →
          HeavyNeighbours G b w s1.base x) ∧
    (∀ s, CInv G b w s → (∀ a ∈ G.arcs, s.base.is_colored a = false) →
      G.arcs.length < fuel →
      ∃ s1, make_coloring_maximal_pq fuel s G w = Except.ok s1 ∧ CInv G b w s1 ∧
        ∀ x ∈ G.arcs, s1.base.is_colored x = false → 0 < w x →
          HeavyNeighbours G b w s1.base x) ∧
    (∀ st : InvariantGreedy,
      HeavyFirst G b w st.coloring
        (InvariantGreedy.fillQueue w st.arc_queue st.arcs_to_update.vector) →
      (InvariantGreedy.fillQueue w st.arc_queue st.arcs_to_update.vector).length < fuel →
      ∃ st1, st.run fuel w = Except.ok st1 ∧ CInv G b w st1.coloring ∧
        ∀ x ∈ G.arcs, st1.coloring.base.is_colored x = false → 0 < w x →
          HeavyNeighbours G b w st1.coloring.base x) := by
  refine ⟨fun s q h hfuel => heavyFirst_process hG fuel s q h hfuel, ?_, ?_⟩
  · intro s h hun hfuel
    unfold make_coloring_maximal_pq
    apply heavyFirst_process hG fuel s _ (heavyFirst_uncoloured h hun)
    rw [List.length_map]
    exact lt_of_le_of_lt (List.length_filter_le _ _) hfuel
  · intro st h hfuel
    obtain ⟨s1, e1, g1, g2⟩ := heavyFirst_process hG fuel _ _ h hfuel
    refine ⟨⟨s1, [], st.arcs_to_update.next_round⟩, ?_, g1, g2⟩
    unfold InvariantGreedy.run
    simp only [e1, bind, Except.bind, pure, Except.pure]

/-- C14 as amended, on the path `0 - 1 - 2 - 3 - 4` with weights 3, 5, 3, 4, one colour and
no arc coloured. -/
theorem C14_heavy_first_witness :
    (∃ s1, process_maximal_pq longPathWeights 5
        [(⟨0, 0, 1⟩, 3), (⟨1, 1, 2⟩, 5), (⟨2, 2, 3⟩, 3), (⟨3, 3, 4⟩, 4)] (freshColoring 1)
        = Except.ok s1 ∧ CInv longPath 1 longPathWeights s1 ∧
      ∀ x ∈ longPath.arcs, s1.base.is_colored x = false → 0 < longPathWeights x →
        HeavyNeighbours longPath 1 longPathWeights s1.base x) ∧
    (∃ s1, make_coloring_maximal_pq 5 (freshColoring 1) longPath longPathWeights
        = Except.ok s1 ∧ CInv longPath 1 longPathWeights s1 ∧
      ∀ x ∈ longPath.arcs, s1.base.is_colored x = false → 0 < longPathWeights x →
        HeavyNeighbours longPath 1 longPathWeights s1.base x) ∧
    (∃ st1, longPathGreedy.run 5 longPathWeights = Except.ok st1 ∧
      CInv longPath 1 longPathWeights st1.coloring ∧
      ∀ x ∈ longPath.arcs, st1.coloring.base.is_colored x = false → 0 < longPathWeights x →
        HeavyNeighbours longPath 1 longPathWeights st1.coloring.base x) :=
  ⟨(C14_heavy_first longPath 1 longPathWeights 5 ⟨by decide, by decide⟩).1
      (freshColoring 1) [(⟨0, 0, 1⟩, 3), (⟨1, 1, 2⟩, 5), (⟨2, 2, 3⟩, 3), (⟨3, 3, 4⟩, 4)]
      (heavyFirst_uncoloured
        (freshColoring_inv longPath (by decide) longPathWeights (by decide)) (by decide))
      (by decide),
    (C14_heavy_first longPath 1 longPathWeights 5 ⟨by decide, by decide⟩).2.1
      (freshColoring 1) (freshColoring_inv longPath (by decide) longPathWeights (by decide))
      (by decide) (by decide),
    (C14_heavy_first longPath 1 longPathWeights 5 ⟨by decide, by decide⟩).2.2
      longPathGreedy
      (heavyFirst_uncoloured
        (freshColoring_inv longPath (by decide) longPathWeights (by decide)) (by decide))
      (by decide)⟩

/-! ## Dynamic k-edge-colouring -/

theorem uncolor_keeps {s s1 : Coloring} {w : Arc → Nat} {x arc0 : Arc}
    (he : s.uncolor w x = Except.ok s1) (hP : s.base.is_colored arc0 = false) :
    s1.base.is_colored arc0 = false ∧ x ≠ arc0 := by
  obtain ⟨h1, h2, _⟩ := Coloring.uncolor_inv he
  have hne : x ≠ arc0 := by
    intro e
    rw [e, hP] at h1
    exact Bool.noConfusion h1
  refine ⟨?_, hne⟩
  rw [h2]
  have hne2 : arc0 ≠ x := fun e => hne e.symm
  simpa [KColoring.is_colored, KColoring.uncolor, Function.update_apply, hne2] using hP

theorem color_keeps {s s1 : Coloring} {w : Arc → Nat} {x arc0 : Arc} {c : Nat}
    (he : s.color w x c = Except.ok s1) (hne : x ≠ arc0)
    (hP : s.base.is_colored arc0 = false) : s1.base.is_colored arc0 = false := by
  obtain ⟨_, _, _, _, h2, _⟩ := Coloring.color_inv he
  rw [h2]
  have hne2 : arc0 ≠ x := fun e => hne e.symm
  simpa [KColoring.is_colored, KColoring.color, Function.update_apply, hne2] using hP

theorem uncolorIf_keeps {s s1 : Coloring} {w : Arc → Nat} {a : Option Arc} {arc0 : Arc}
    (he : uncolorIf s w a = Except.ok s1) (hP : s.base.is_colored arc0 = false) :
    s1.base.is_colored arc0 = false ∧ ∀ x, a = some x → x ≠ arc0 := by
  cases a with
  | none =>
    simp only [uncolorIf, pure, Except.pure, Except.ok.injEq] at he
    rw [← he]
    exact ⟨hP, fun x hx => Option.noConfusion hx⟩
  | some y =>
    obtain ⟨g1, g2⟩ := uncolor_keeps (show s.uncolor w y = Except.ok s1 from he) hP
    exact ⟨g1, fun x hx => by rw [← Option.some.inj hx]; exact g2⟩

theorem colorIf_keeps {s s1 : Coloring} {w : Arc → Nat} {a : Option Arc} {arc0 : Arc}
    {c : Nat} (he : colorIf s w a c = Except.ok s1) (hne : ∀ x, a = some x → x ≠ arc0)
    (hP : s.base.is_colored arc0 = false) : s1.base.is_colored arc0 = false := by
  cases a with
  | none =>
    simp only [colorIf, pure, Except.pure, Except.ok.injEq] at he
    rw [← he]
    exact hP
  | some y => exact color_keeps (show s.color w y c = Except.ok s1 from he) (hne y rfl) hP

theorem colorCommon_keeps {s s1 : Coloring} {w : Arc → Nat} {a : Option Arc} {arc0 : Arc}
    (he : colorCommon s w a = Except.ok s1) (hne : ∀ x, a = some x → x ≠ arc0)
    (hP : s.base.is_colored arc0 = false) : s1.base.is_colored arc0 = false := by
  cases a with
  | none =>
    simp only [colorCommon, pure, Except.pure, Except.ok.injEq] at he
    rw [← he]
    exact hP
  | some y =>
    simp only [colorCommon, bind_ok] at he
    obtain ⟨col, _, h2⟩ := he
    by_cases hc : col ≠ npos
    · rw [if_pos hc] at h2
      exact color_keeps h2 (hne y rfl) hP
    · rw [if_neg hc] at h2
      simp only [pure, Except.pure, Except.ok.injEq] at h2
      rw [← h2]
      exact hP

theorem rotateLoop_keeps (w : Arc → Nat) (arc0 : Arc) :
    ∀ (rest : List Arc) (s s1 : Coloring) (p : Arc),
      rotateLoop w rest s p = Except.ok s1 → s.base.is_colored arc0 = false → p ≠ arc0 →
      s1.base.is_colored arc0 = false ∧ rest.getLastD p ≠ arc0 := by
  intro rest
  induction rest with
  | nil =>
    intro s s1 p he hP hp
    simp only [rotateLoop, Except.ok.injEq] at he
    rw [← he]
    exact ⟨hP, hp⟩
  | cons it rest ih =>
    intro s s1 p he hP hp
    simp only [rotateLoop, bind_ok] at he
    obtain ⟨sa, h1, sb, h2, h3⟩ := he
    obtain ⟨g1, g2⟩ := uncolor_keeps h1 hP
    have g3 := color_keeps h2 hp g1
    obtain ⟨g4, g5⟩ := ih sb s1 it h3 g3 g2
    exact ⟨g4, by rw [List.getLastD_cons]; exact g5⟩

theorem invertLoop_keeps (w : Arc → Nat) (arc0 : Arc) :
    ∀ (fuel : Nat) (s s1 : Coloring) (x : Nat) (A : Arc) (nc oc : Nat),
      invertLoop w fuel s x A nc oc = Except.ok s1 → s.base.is_colored arc0 = false →
      A ≠ arc0 → s1.base.is_colored arc0 = false := by
  intro fuel
  induction fuel with
  | zero =>
    intro s s1 x A nc oc he
    simp [invertLoop] at he
  | succ fuel ih =>
    intro s s1 x A nc oc he hP hA
    unfold invertLoop at he
    cases hN : s.am.getArcToMate nc (A.getOther x) with
    | none =>
      rw [hN] at he
      exact color_keeps he hA hP
    | some N =>
      rw [hN] at he
      simp only [bind_ok] at he
      obtain ⟨sa, h1, sb, h2, h3⟩ := he
      obtain ⟨g1, g2⟩ := uncolor_keeps h1 hP
      exact ih sb s1 _ N oc nc h3 (color_keeps h2 hA g1) g2

theorem invert_keeps {fuel : Nat} {s s1 : Coloring} {w : Arc → Nat} {x c d : Nat}
    {arc0 : Arc} (he : invert_cd_path fuel s w x c d = Except.ok s1)
    (hP : s.base.is_colored arc0 = false) : s1.base.is_colored arc0 = false := by
  unfold invert_cd_path at he
  cases hA : s.am.getArcToMate d x with
  | none =>
    rw [hA] at he
    exact Except.noConfusion he
  | some A =>
    rw [hA] at he
    simp only [bind_ok] at he
    obtain ⟨sa, h1, h2⟩ := he
    obtain ⟨g1, g2⟩ := uncolor_keeps h1 hP
    exact invertLoop_keeps w arc0 fuel sa s1 x A c d h2 g1 g2

theorem fanPass_append (s : Coloring) (x : Nat) (xy : Arc) :
    ∀ (todo : List Arc) (st : FanPass), ∃ l, (fanPass s x xy todo st).fan = st.fan ++ l := by
  intro todo
  induction todo with
  | nil => intro st; exact ⟨[], by simp [fanPass]⟩
  | cons arc rest ih =>
    intro st
    unfold fanPass
    split
    · split
      · exact ⟨[arc], rfl⟩
      · obtain ⟨l, hl⟩ := ih ⟨st.fan ++ [arc], st.colored_arcs_other, true, false⟩
        exact ⟨arc :: l, by rw [hl]; simp⟩
    · exact ih ⟨st.fan, st.colored_arcs_other ++ [arc], st.extended, false⟩

theorem fanLoop_append (s : Coloring) (x : Nat) (xy : Arc) :
    ∀ (fuel : Nat) (fan colored r : List Arc),
      fanLoop s x xy fuel fan colored = Except.ok r → ∃ l, r = fan ++ l := by
  intro fuel
  induction fuel with
  | zero => intro fan colored r he; simp [fanLoop] at he
  | succ fuel ih =>
    intro fan colored r he
    obtain ⟨l, hl⟩ := fanPass_append s x xy colored ⟨fan, [], false, false⟩
    unfold fanLoop at he
    simp only [] at he
    split at he
    · simp only [Except.ok.injEq] at he
      exact ⟨l, by rw [← he, hl]⟩
    · split at he
      · obtain ⟨l2, hl2⟩ := ih _ _ r he
        exact ⟨l ++ l2, by rw [hl2, hl]; simp⟩
      · simp only [Except.ok.injEq] at he
        exact ⟨l, by rw [← he, hl]⟩

theorem compute_fan_head {s : Coloring} {x : Nat} {xy : Arc} {fan : List Arc}
    (he : compute_fan s x xy = Except.ok fan) : ∃ rest, fan = xy :: rest := by
  obtain ⟨l, hl⟩ := fanLoop_append s x xy _ _ _ fan he
  exact ⟨l, hl⟩

theorem fanUpTo_head {p : Arc → Bool} {a : Arc} {rest l : List Arc}
    (h : fanUpTo p (a :: rest) = some l) : ∃ l1, l = a :: l1 := by
  unfold fanUpTo at h
  split at h
  · exact ⟨[], (Option.some.inj h).symm⟩
  · cases hr : fanUpTo p rest with
    | none => rw [hr] at h; exact Option.noConfusion h
    | some l2 =>
      rw [hr] at h
      exact ⟨l2, (Option.some.inj h).symm⟩

theorem colorEdgeRotate_keeps {rotate_long : Bool} {fuel : Nat} {s s1 : Coloring}
    {w : Arc → Nat} {xy arc0 : Arc} {x c d r : Nat} {rest : List Arc}
    (he : colorEdgeRotate rotate_long fuel s w xy x c d (xy :: rest) = Except.ok (r, s1))
    (hne : xy ≠ arc0) (hP : s.base.is_colored arc0 = false) :
    s1.base.is_colored arc0 = false := by
  unfold colorEdgeRotate at he
  simp only [bind_ok] at he
  obtain ⟨sa, h1, rot, h2, sb, h3, sc, h4, h5⟩ := he
  simp only [pure, Except.pure, Except.ok.injEq, Prod.mk.injEq] at h5
  have hPa : sa.base.is_colored arc0 = false := by
    unfold invertIf at h1
    split at h1
    · exact invert_keeps h1 hP
    · simp only [pure, Except.pure, Except.ok.injEq] at h1
      rw [← h1]
      exact hP
  have hrot : ∃ l1, rot = xy :: l1 := by
    unfold rotatedPart at h2
    split at h2
    · split at h2
      · rename_i l hl
        simp only [pure, Except.pure, Except.ok.injEq] at h2
        rw [← h2]
        exact fanUpTo_head hl
      · exact Except.noConfusion h2
    · simp only [pure, Except.pure, Except.ok.injEq] at h2
      rw [← h2]
      exact ⟨rest, rfl⟩
  obtain ⟨l1, hl1⟩ := hrot
  subst hl1
  obtain ⟨g1, g2⟩ := rotateLoop_keeps w arc0 l1 sa sb xy h3 hPa hne
  rw [← h5.2]
  apply color_keeps h4 _ g1
  rw [List.getLastD_cons]
  exact g2

theorem colorEdgeFan_keeps {rotate_long : Bool} {fuel : Nat} {s s1 : Coloring}
    {w : Arc → Nat} {xy arc0 : Arc} {x c : Nat}
    (he : colorEdgeFan rotate_long fuel s w xy x = Except.ok (c, s1)) (hne : xy ≠ arc0)
    (hP : s.base.is_colored arc0 = false) : s1.base.is_colored arc0 = false := by
  unfold colorEdgeFan at he
  simp only [bind_ok] at he
  obtain ⟨c1, _, he⟩ := he
  by_cases hc : c1 = npos
  · rw [if_pos hc] at he
    simp only [pure, Except.pure, Except.ok.injEq, Prod.mk.injEq] at he
    rw [← he.2]
    exact hP
  · rw [if_neg hc] at he
    obtain ⟨fan, hfan, he⟩ := bind_ok.mp he
    obtain ⟨_, _, he⟩ := bind_ok.mp he
    obtain ⟨d, _, he⟩ := bind_ok.mp he
    by_cases hd : d = npos
    · rw [if_pos hd] at he
      simp only [pure, Except.pure, Except.ok.injEq, Prod.mk.injEq] at he
      rw [← he.2]
      exact hP
    · rw [if_neg hd] at he
      obtain ⟨rest, hfan2⟩ := compute_fan_head hfan
      subst hfan2
      exact colorEdgeRotate_keeps he hne hP

theorem color_edge_keeps {common_color rotate_long : Bool} {fuel : Nat} {s s1 : Coloring}
    {w : Arc → Nat} {xy arc0 : Arc} {x c : Nat}
    (he : color_edge common_color rotate_long fuel s w xy x = Except.ok (c, s1))
    (hne : xy ≠ arc0) (hP : s.base.is_colored arc0 = false) :
    s1.base.is_colored arc0 = false := by
  unfold color_edge at he
  split at he
  · simp only [bind_ok] at he
    obtain ⟨col, _, he⟩ := he
    split at he
    · simp only [bind_ok, pure, Except.pure, Except.ok.injEq, Prod.mk.injEq] at he
      obtain ⟨sa, h1, _, h3⟩ := he
      rw [← h3]
      exact color_keeps h1 hne hP
    · exact colorEdgeFan_keeps he hne hP
  · exact colorEdgeFan_keeps he hne hP

theorem retryAtHead_keeps {common_color rotate_long : Bool} {fuel : Nat} {s s1 : Coloring}
    {w : Arc → Nat} {xy arc0 : Arc}
    (he : retryAtHead common_color rotate_long fuel s w xy = Except.ok s1)
    (hne : xy ≠ arc0) (hP : s.base.is_colored arc0 = false) :
    s1.base.is_colored arc0 = false := by
  unfold retryAtHead at he
  split at he
  · obtain ⟨r, h1, h2⟩ := bind_ok.mp he
    simp only [pure, Except.pure, Except.ok.injEq] at h2
    rw [← h2]
    exact color_edge_keeps (show _ = Except.ok (r.1, r.2) from h1) hne hP
  · simp only [pure, Except.pure, Except.ok.injEq] at he
    rw [← he]
    exact hP

theorem finishMatch_keeps {s s1 : Coloring} {w : Arc → Nat} {arc arc0 : Arc}
    {lt lh : Option Arc} {ct ch : Nat} {r : Bool}
    (he : finishMatch s w arc lt lh ct ch = Except.ok (r, s1))
    (h1 : ∀ x, lt = some x → x ≠ arc0) (h2 : ∀ x, lh = some x → x ≠ arc0)
    (hP : s.base.is_colored arc0 = false) : s1.base.is_colored arc0 = false := by
  unfold finishMatch at he
  split at he
  · obtain ⟨s5, e5, he⟩ := bind_ok.mp he
    obtain ⟨s6, e6, he⟩ := bind_ok.mp he
    simp only [pure, Except.pure, Except.ok.injEq, Prod.mk.injEq] at he
    rw [← he.2]
    exact colorIf_keeps e6 h2 (colorIf_keeps e5 h1 hP)
  · obtain ⟨s5, e5, he⟩ := bind_ok.mp he
    obtain ⟨s6, e6, he⟩ := bind_ok.mp he
    simp only [pure, Except.pure, Except.ok.injEq, Prod.mk.injEq] at he
    rw [← he.2]
    exact colorCommon_keeps e6 h2 (colorCommon_keeps e5 h1 hP)

/-- A successful `attempt_match(arc)` leaves every other uncoloured arc uncoloured: each
arc it colours is `arc` itself or an arc it has uncoloured before. -/
theorem attempt_match_keeps {common_color rotate_long : Bool} {fuel : Nat} {s s1 : Coloring}
    {w : Arc → Nat} {arc arc0 : Arc} {r : Bool}
    (he : attempt_match common_color rotate_long fuel s w arc = Except.ok (r, s1))
    (hne : arc ≠ arc0) (hP : s.base.is_colored arc0 = false) :
    s1.base.is_colored arc0 = false := by
  unfold attempt_match at he
  obtain ⟨lt, _, he⟩ := bind_ok.mp he
  obtain ⟨lh, _, he⟩ := bind_ok.mp he
  dsimp only at he
  split at he
  · unfold replaceAndMatch at he
    obtain ⟨sa, e1, he⟩ := bind_ok.mp he
    obtain ⟨sb, e2, he⟩ := bind_ok.mp he
    obtain ⟨r3, e3, he⟩ := bind_ok.mp he
    obtain ⟨s4, e4, he⟩ := bind_ok.mp he
    obtain ⟨p1, n1⟩ := uncolorIf_keeps e1 hP
    obtain ⟨p2, n2⟩ := uncolorIf_keeps e2 p1
    have p3 := color_edge_keeps (show _ = Except.ok (r3.1, r3.2) from e3) hne p2
    have p4 := retryAtHead_keeps e4 hne p3
    exact finishMatch_keeps he n1 n2 p4
  · simp only [pure, Except.pure, Except.ok.injEq, Prod.mk.injEq] at he
    rw [← he.2]
    exact hP

theorem attemptIf_keeps {common_color rotate_long : Bool} {fuel : Nat} {s s1 : Coloring}
    {w : Arc → Nat} {a : Option Arc} {arc0 : Arc}
    (he : attemptIf common_color rotate_long fuel s w a = Except.ok s1)
    (hne : ∀ x, a = some x → x ≠ arc0) (hP : s.base.is_colored arc0 = false) :
    s1.base.is_colored arc0 = false := by
  cases a with
  | none =>
    simp only [attemptIf, pure, Except.pure, Except.ok.injEq] at he
    rw [← he]
    exact hP
  | some y =>
    unfold attemptIf at he
    obtain ⟨r, h1, h2⟩ := bind_ok.mp he
    simp only [pure, Except.pure, Except.ok.injEq] at h2
    rw [← h2]
    exact attempt_match_keeps (show _ = Except.ok (r.1, r.2) from h1) (hne y rfl) hP

theorem heaviest_foldl (s : Coloring) (w : Arc → Nat) (l : List Arc) :
    ∀ st : Option Arc × Nat, (∀ a, st.1 = some a → 0 < w a) →
      ∀ a, (l.foldl (heaviestStep s w) st).1 = some a → 0 < w a := by
  induction l with
  | nil => intro st h; exact h
  | cons x rest ih =>
    intro st h
    rw [List.foldl_cons]
    apply ih
    intro a ha
    unfold heaviestStep at ha
    split at ha
    · rename_i hc
      have e : x = a := Option.some.inj ha
      rw [← e]
      exact Nat.lt_of_le_of_lt (Nat.zero_le _) hc.2
    · exact h a ha

/-- The arc found by `find_heaviest_incident_uncolored_arc` has positive weight. -/
theorem find_heaviest_pos {s : Coloring} {G : DiGraph} {w : Arc → Nat} {v : Nat} {a : Arc}
    (h : find_heaviest_incident_uncolored_arc s G w v = some a) : 0 < w a :=
  heaviest_foldl s w _ _ (fun _ hx => Option.noConfusion hx) a h

theorem countUpdate_coloring (st : KEdgeColoring_2) :
    st.countUpdate.coloring = st.coloring ∧ st.countUpdate.algo_type = st.algo_type ∧
    st.countUpdate.common_color = st.common_color ∧
    st.countUpdate.rotate_long = st.rotate_long := by
  unfold KEdgeColoring_2.countUpdate
  split
  · split <;> exact ⟨rfl, rfl, rfl, rfl⟩
  · exact ⟨rfl, rfl, rfl, rfl⟩

theorem register_neighbors_coloring (st : KEdgeColoring_2) (G : DiGraph) (arc : Arc) :
    (st.register_neighbors_for_post_processing G arc).coloring = st.coloring := by
  unfold KEdgeColoring_2.register_neighbors_for_post_processing
  split <;> rfl

theorem filter_test_zero (f : UpdateFilter) (oldValue : Nat) : f.test oldValue 0 = false := by
  simp [UpdateFilter.test]

/-- After a successful `onDecrease` with new value 0 the arc, whose weight is 0, is
uncoloured. -/
theorem onDecrease_zero {fuel : Nat} {st st1 : KEdgeColoring_2} {G : DiGraph}
    {w : Arc → Nat} {arc : Arc} (hb : st.coloring.base.num_colors ≤ UNCOLORED)
    (hw : w arc = 0) (he : st.onDecrease fuel G w arc 0 = Except.ok st1) :
    st1.coloring.base.is_colored arc = false := by
  unfold KEdgeColoring_2.onDecrease at he
  obtain ⟨s1, e1, he⟩ := bind_ok.mp he
  obtain ⟨s2, e2, he⟩ := bind_ok.mp he
  obtain ⟨s3, e3, he⟩ := bind_ok.mp he
  simp only [pure, Except.pure, Except.ok.injEq] at he
  have e1b : st.coloring.uncolor w arc = Except.ok s1 := by
    simpa [uncolorIfZero] using e1
  obtain ⟨_, hbase, _⟩ := Coloring.uncolor_inv e1b
  have p1 : s1.base.is_colored arc = false := by
    rw [hbase]
    have hU : ¬ UNCOLORED < st.coloring.base.num_colors := Nat.not_lt.2 hb
    simpa [KColoring.is_colored, KColoring.uncolor] using hb
  have hne : ∀ v x, find_heaviest_incident_uncolored_arc s1 G w v = some x → x ≠ arc := by
    intro v x hx e
    have := find_heaviest_pos hx
    rw [e, hw] at this
    exact Nat.lt_irrefl 0 this
  have p2 := attemptIf_keeps e2 (hne arc.tail) p1
  have p3 := attemptIf_keeps e3 (hne arc.head) p2
  rw [← he, register_neighbors_coloring]
  exact p3

/-- C19, counterexample: a STATIC instance with the arc `(1,2)` of weight 5 coloured. When
the weight falls to 0, `onPropertyChange((1,2), 5, 0)` returns at once and the arc, now of
weight 0, is still coloured; the same holds for a HYBRID instance whose flag
`compute_from_scratch` is set. -/
theorem C19_counterexample :
    CInv pathGraph 1 lightEnds middleColoring ∧ droppedMiddle ⟨1, 1, 2⟩ = 0 ∧
    (∀ fuel, ∃ st1,
      (middleEdgeColoring k_edge_coloring_algo_type.STATIC false).onPropertyChange fuel
        pathGraph droppedMiddle ⟨1, 1, 2⟩ 5 0 = Except.ok st1 ∧
      st1.coloring.base.is_colored ⟨1, 1, 2⟩ = true) ∧
    (∀ fuel, ∃ st1,
      (middleEdgeColoring k_edge_coloring_algo_type.HYBRID true).onPropertyChange fuel
        pathGraph droppedMiddle ⟨1, 1, 2⟩ 5 0 = Except.ok st1 ∧
      st1.coloring.base.is_colored ⟨1, 1, 2⟩ = true) := by
  refine ⟨?_, by decide, ?_, ?_⟩
  · exact thenColor_inv _ _
      (freshColoring_inv pathGraph (by decide) lightEnds (by decide)) (by decide)
  · intro fuel
    exact ⟨_, rfl, by decide⟩
  · intro fuel
    exact ⟨_, rfl, by decide⟩

/-- C19, amended: a call `onPropertyChange(arc, old, 0)` with `old > 0` for a coloured arc
whose weight is now 0. In STATIC mode the handler returns the state as it was. In HYBRID
mode with `compute_from_scratch` set after the update has been counted, it returns with the
colouring as it was. In DYNAMIC mode, and in HYBRID mode with the flag not set, whenever the
handler returns (no assertion fails, no null arc is read, for any bound on the loop of
`invert_cd_path`), the arc is uncoloured. -/
theorem C19_handler_uncolours_zero_arc (fuel : Nat) (st st1 : KEdgeColoring_2) (G : DiGraph)
    (w : Arc → Nat) (arc : Arc) (oldValue : Nat)
    (hb : st.coloring.base.num_colors ≤ UNCOLORED) (hw : w arc = 0) (hold : 0 < oldValue)
    (hc : st.coloring.base.is_colored arc = true)
    (he : st.onPropertyChange fuel G w arc oldValue 0 = Except.ok st1) :
    (st.algo_type = k_edge_coloring_algo_type.STATIC → st1 = st) ∧
    (st.algo_type = k_edge_coloring_algo_type.HYBRID →
      st.countUpdate.compute_from_scratch = true → st1.coloring = st.coloring) ∧
    (st.algo_type = k_edge_coloring_algo_type.DYNAMIC ∨
      (st.algo_type = k_edge_coloring_algo_type.HYBRID ∧
        st.countUpdate.compute_from_scratch = false) →
      st1.coloring.base.is_colored arc = false) := by
  obtain ⟨cu1, cu2, _, _⟩ := countUpdate_coloring st
  unfold KEdgeColoring_2.onPropertyChange at he
  rw [filter_test_zero] at he
  refine ⟨?_, ?_, ?_⟩
  · intro hs
    rw [if_pos hs] at he
    exact (Except.ok.inj he).symm
  · intro hh hs
    have h1 : ¬ st.algo_type = k_edge_coloring_algo_type.STATIC := by
      rw [hh]; decide
    rw [if_neg h1, if_neg Bool.false_ne_true, if_pos ⟨cu2.trans hh, hs⟩] at he
    rw [← Except.ok.inj he]
    exact cu1
  · intro hm
    have h1 : ¬ st.algo_type = k_edge_coloring_algo_type.STATIC := by
      rcases hm with hm | ⟨hm, _⟩ <;> rw [hm] <;> decide
    have h2 : ¬ (st.countUpdate.algo_type = k_edge_coloring_algo_type.HYBRID ∧
        st.countUpdate.compute_from_scratch = true) := by
      rintro ⟨g1, g2⟩
      rcases hm with hm | ⟨_, hm⟩
      · rw [cu2, hm] at g1
        exact k_edge_coloring_algo_type.noConfusion g1
      · rw [hm] at g2
        exact Bool.noConfusion g2
    have h3 : ¬ (0 > oldValue ∧ st.countUpdate.coloring.base.is_colored arc = false) :=
      fun g => Nat.not_lt_zero _ g.1
    have h4 : 0 < oldValue ∧ st.countUpdate.coloring.base.is_colored arc = true :=
      ⟨hold, by rw [cu1]; exact hc⟩
    rw [if_neg h1, if_neg Bool.false_ne_true, if_neg h2, if_neg h3, if_pos h4] at he
    exact onDecrease_zero (by rw [cu1]; exact hb) hw he

theorem C19_handler_uncolours_zero_arc_witness :
    (okOrEdge ((middleEdgeColoring k_edge_coloring_algo_type.DYNAMIC false).onPropertyChange
      3 pathGraph droppedMiddle ⟨1, 1, 2⟩ 5 0)
      (middleEdgeColoring k_edge_coloring_algo_type.DYNAMIC false)).coloring.base.is_colored
        ⟨1, 1, 2⟩ = false :=
  (C19_handler_uncolours_zero_arc 3 (middleEdgeColoring k_edge_coloring_algo_type.DYNAMIC false)
    (okOrEdge ((middleEdgeColoring k_edge_coloring_algo_type.DYNAMIC false).onPropertyChange
      3 pathGraph droppedMiddle ⟨1, 1, 2⟩ 5 0)
      (middleEdgeColoring k_edge_coloring_algo_type.DYNAMIC false))
    pathGraph droppedMiddle ⟨1, 1, 2⟩ 5 (by decide) (by decide) (by decide) (by decide)
    rfl).2.2 (Or.inl rfl)

/-- The call of the witness evaluated: the handler uncolours `(1,2)` and both heaviest
uncoloured neighbours `(0,1)` and `(2,3)` get the colour 0 through `color_edge`. -/
theorem onPropertyChange_middle :
    (okOrEdge ((middleEdgeColoring k_edge_coloring_algo_type.DYNAMIC false).onPropertyChange
      3 pathGraph droppedMiddle ⟨1, 1, 2⟩ 5 0)
      (middleEdgeColoring k_edge_coloring_algo_type.DYNAMIC false)).coloring.base.get_color
      <$> pathGraph.arcs = [0, UNCOLORED, 0] := by
  decide

/-! ## Scenario S1 -/

/-- C30, counterexample: with two colours `run()` on the triangle with the weights 5, 3, 4
ends with `total_weight = 9`, not 8: the queue hands out the arcs by falling weight, so
`(u,w)` of weight 4 comes before `(v,w)` of weight 3 and gets the colour 1, which is free at
`u` and at `w`. -/
theorem C30_counterexample :
    (triangleStream 2).arcs_to_update.vector = [⟨0, 0, 1⟩, ⟨1, 1, 2⟩, ⟨2, 0, 2⟩] ∧
    ∃ st1, (triangleStream 2).run 10 triangleWeights = Except.ok st1 ∧
      st1.coloring.base.getTotalWeight ≠ 8 ∧
      st1.coloring.base.is_colored ⟨2, 0, 2⟩ = true :=
  ⟨by decide, okOrGreedy ((triangleStream 2).run 10 triangleWeights) (freshGreedy 2), rfl,
    by decide, by decide⟩

/-- C30, amended: scenario S1 on the triangle with the arcs `a = (u,v)`, `b = (v,w)`,
`c = (u,w)` inserted with the weights 5, 3, 4 in one delta. With two colours `run()` ends
with `a` coloured 0, `c` coloured 1, `b` uncoloured and `total_weight = 9`; with one colour
it ends with only `a` coloured and `total_weight = 5`. -/
theorem C30_scenario_triangle :
    (∃ st1, (triangleStream 2).run 10 triangleWeights = Except.ok st1 ∧
      st1.coloring.base.get_color <$> triangle.arcs = [0, UNCOLORED, 1] ∧
      st1.coloring.base.is_colored <$> triangle.arcs = [true, false, true] ∧
      st1.coloring.base.getTotalWeight = 9 ∧ CInv triangle 2 triangleWeights st1.coloring) ∧
    (∃ st1, (triangleStream 1).run 10 triangleWeights = Except.ok st1 ∧
      st1.coloring.base.get_color <$> triangle.arcs = [0, UNCOLORED, UNCOLORED] ∧
      st1.coloring.base.is_colored <$> triangle.arcs = [true, false, false] ∧
      st1.coloring.base.getTotalWeight = 5 ∧ CInv triangle 1 triangleWeights st1.coloring) := by
  refine ⟨⟨okOrGreedy ((triangleStream 2).run 10 triangleWeights) (freshGreedy 2), rfl,
    by decide, by decide, by decide, ?_⟩,
    ⟨okOrGreedy ((triangleStream 1).run 10 triangleWeights) (freshGreedy 1), rfl,
    by decide, by decide, by decide, ?_⟩⟩
  · have h : (okOrGreedy ((triangleStream 2).run 10 triangleWeights) (freshGreedy 2)).coloring
        = thenColor triangleWeights (freshColoring 2) [(⟨0, 0, 1⟩, 0), (⟨2, 0, 2⟩, 1)] := rfl
    rw [h]
    exact thenColor_inv _ _
      (freshColoring_inv triangle (by decide) triangleWeights (by decide)) (by decide)
  · have h : (okOrGreedy ((triangleStream 1).run 10 triangleWeights) (freshGreedy 1)).coloring
        = thenColor triangleWeights (freshColoring 1) [(⟨0, 0, 1⟩, 0)] := rfl
    rw [h]
    exact thenColor_inv _ _
      (freshColoring_inv triangle (by decide) triangleWeights (by decide)) (by decide)

/-! ## Node weights -/

theorem foldl_weightSum (weight : Arc → Nat) (l : List Arc) :
    ∀ acc, l.foldl (weightSum weight) acc % 2 ^ 64 = (acc + (l.map weight).sum) % 2 ^ 64 := by
  induction l with
  | nil => intro acc; simp
  | cons a rest ih =>
    intro acc
    rw [List.foldl_cons, ih, List.map_cons, List.sum_cons]
    unfold weightSum add64
    omega

theorem foldl_weightSum_cons (weight : Arc → Nat) (a : Arc) (l : List Arc) (acc : Nat) :
    (a :: l).foldl (weightSum weight) acc
      = (acc + ((a :: l).map weight).sum) % 2 ^ 64 := by
  have h := foldl_weightSum weight (a :: l) acc
  have hlt : (a :: l).foldl (weightSum weight) acc < 2 ^ 64 := by
    induction l using List.reverseRecOn with
    | nil =>
      simp only [List.foldl_cons, List.foldl_nil, weightSum, add64]
      exact Nat.mod_lt _ (by norm_num)
    | append_singleton l1 x _ =>
      rw [← List.cons_append, List.foldl_append]
      simp only [List.foldl_cons, List.foldl_nil, weightSum, add64]
      exact Nat.mod_lt _ (by norm_num)
  rw [← h, Nat.mod_eq_of_lt hlt]

/-- C28, evaluation of the code: on every list of at least two arcs each call of
`std::accumulate` starts from `weight(edges[0])` and then adds the weights of its range,
the first arc included. SUM returns the sum plus the first weight, AVG that value divided
by the size, B_SUM the first weight plus the sum of the first `min(size, b)` weights; MAX
returns the first weight, and a list of one arc returns its weight for every type. On the
list `(u,v)`, `(u,w)` of the triangle with the weights 5 and 4, whose sum is 9, SUM returns
14, AVG returns 7 and B_SUM with `b = 1` returns 10. -/
theorem C28_first_weight_counted_twice :
    (∀ (e0 e1 : Arc) (rest : List Arc) (weight : Arc → Nat) (b : Nat),
      aggregateWeights (e0 :: e1 :: rest) weight AggregateType.SUM b
        = Except.ok ((weight e0 + ((e0 :: e1 :: rest).map weight).sum) % 2 ^ 64) ∧
      aggregateWeights (e0 :: e1 :: rest) weight AggregateType.AVG b
        = Except.ok ((weight e0 + ((e0 :: e1 :: rest).map weight).sum) % 2 ^ 64
            / (e0 :: e1 :: rest).length) ∧
      aggregateWeights (e0 :: e1 :: rest) weight AggregateType.B_SUM (b + 1)
        = Except.ok ((weight e0 + (((e0 :: e1 :: rest).take
            (min (e0 :: e1 :: rest).length (b + 1))).map weight).sum) % 2 ^ 64) ∧
      aggregateWeights (e0 :: e1 :: rest) weight AggregateType.MAX b
        = Except.ok (weight e0)) ∧
    (∀ (e0 : Arc) (weight : Arc → Nat) (type : AggregateType) (b : Nat),
      aggregateWeights [e0] weight type b = Except.ok (weight e0)) ∧
    (([⟨0, 0, 1⟩, ⟨2, 0, 2⟩] : List Arc).map triangleWeights).sum = 9 ∧
    aggregateWeights [⟨0, 0, 1⟩, ⟨2, 0, 2⟩] triangleWeights AggregateType.SUM 2
      = Except.ok 14 ∧
    aggregateWeights [⟨0, 0, 1⟩, ⟨2, 0, 2⟩] triangleWeights AggregateType.AVG 2
      = Except.ok 7 ∧
    aggregateWeights [⟨0, 0, 1⟩, ⟨2, 0, 2⟩] triangleWeights AggregateType.B_SUM 1
      = Except.ok 10 := by
  refine ⟨?_, ?_, by decide, rfl, rfl, rfl⟩
  · intro e0 e1 rest weight b
    have hs : ¬ rest.length + 1 + 1 = 1 := by omega
    refine ⟨?_, ?_, ?_, ?_⟩
    · unfold aggregateWeights
      simp only [check, defined, List.head?_cons, hs, if_false, bind, Except.bind, pure,
        Except.pure, List.length_cons, gt_iff_lt, Nat.zero_lt_succ, decide_True, if_true]
      rw [foldl_weightSum_cons]
    · unfold aggregateWeights
      simp only [check, defined, List.head?_cons, hs, if_false, bind, Except.bind, pure,
        Except.pure, List.length_cons, gt_iff_lt, Nat.zero_lt_succ, decide_True, if_true]
      rw [foldl_weightSum_cons]
    · unfold aggregateWeights
      simp only [check, defined, List.head?_cons, hs, if_false, bind, Except.bind, pure,
        Except.pure, List.length_cons, gt_iff_lt, Nat.zero_lt_succ, decide_True, if_true]
      have hm : min (rest.length + 1 + 1) (b + 1) = (min (rest.length + 1) b) + 1 := by
        omega
      rw [hm, List.take_succ_cons, foldl_weightSum_cons]
    · unfold aggregateWeights
      simp only [check, defined, List.head?_cons, hs, if_false, bind, Except.bind, pure,
        Except.pure, List.length_cons, gt_iff_lt, Nat.zero_lt_succ, decide_True, if_true]
  · intro e0 weight type b
    unfold aggregateWeights
    simp [check, defined, bind, Except.bind, pure, Except.pure]

/-! ## Coarse colour-operation counts -/

/-- Every snapshot leaves the second component `UNCOLORED` in every entry it visits, and
moves the former second component to the first. -/
theorem coarse_entries (entries : List Arc) :
    ∀ st : ColoringStatsExtension, entries.Nodup → ∀ a,
      (entries.foldl coarseStep st).arc_color_changes a
        = if a ∈ entries then ((st.arc_color_changes a).2, UNCOLORED)
          else st.arc_color_changes a := by
  induction entries with
  | nil => intro st _ a; simp
  | cons x rest ih =>
    intro st hnd a
    rw [List.foldl_cons, ih _ (List.nodup_cons.1 hnd).2]
    have hx : x ∉ rest := (List.nodup_cons.1 hnd).1
    by_cases ha : a ∈ rest
    · have hax : a ≠ x := fun e => hx (e ▸ ha)
      rw [if_pos ha, if_pos (List.mem_cons_of_mem _ ha)]
      simp [coarseStep, Function.update_apply, hax]
    · rw [if_neg ha]
      by_cases hax : a = x
      · subst hax
        rw [if_pos (List.mem_cons_self _ _)]
        simp [coarseStep]
      · have : a ∉ x :: rest := fun h => by
          rcases List.mem_cons.1 h with h | h
          · exact hax h
          · exact ha h
        rw [if_neg this]
        simp [coarseStep, Function.update_apply, hax]

/-- C29, evaluation of the code on the triangle with one colour: `(u,v)` is coloured 0 in
the first delta and the snapshot counts one colouring. Nothing happens in the second delta,
the arc keeps its colour 0, and the next snapshot counts one uncolouring: the first
snapshot has left the entry `(0, UNCOLORED)`, since it sets `diff.second = UNCOLORED`. A
third snapshot counts nothing, and the entry of the coloured arc is then
`(UNCOLORED, UNCOLORED)`. -/
theorem C29_untouched_arc_counted_as_uncoloured :
    statsAfterFirstDelta.stats.get_coarse_counts = ⟨1, 0, 0⟩ ∧
    statsAfterFirstDelta.base.is_colored ⟨0, 0, 1⟩ = true ∧
    statsAfterFirstDelta.stats.arc_color_changes ⟨0, 0, 1⟩ = (0, UNCOLORED) ∧
    (statsAfterFirstDelta.snapshot triangle).base.get_color ⟨0, 0, 1⟩
      = statsAfterFirstDelta.base.get_color ⟨0, 0, 1⟩ ∧
    (statsAfterFirstDelta.snapshot triangle).stats.get_coarse_counts = ⟨0, 1, 0⟩ ∧
    ((statsAfterFirstDelta.snapshot triangle).snapshot triangle).stats.get_coarse_counts
      = ⟨0, 0, 0⟩ ∧
    (statsAfterFirstDelta.snapshot triangle).stats.arc_color_changes ⟨0, 0, 1⟩
      = (UNCOLORED, UNCOLORED) := by
  refine ⟨by decide, by decide, by decide, by decide, by decide, by decide, by decide⟩

/-! ## The per-round set -/

theorem firstOccurrences_concat (l : List Arc) (a : Arc) :
    ((l ++ [a]).reverse.dedup).reverse
      = if a ∈ l then (l.reverse.dedup).reverse else (l.reverse.dedup).reverse ++ [a] := by
  rw [List.reverse_append, List.reverse_singleton, List.singleton_append]
  by_cases h : a ∈ l
  · rw [if_pos h, List.dedup_cons_of_mem (List.mem_reverse.2 h)]
  · rw [if_neg h, List.dedup_cons_of_not_mem (fun h1 => h (List.mem_reverse.1 h1)),
      List.reverse_cons]

theorem mem_firstOccurrences (l : List Arc) (a : Arc) :
    a ∈ (l.reverse.dedup).reverse ↔ a ∈ l := by
  rw [List.mem_reverse, List.mem_dedup, List.mem_reverse]

theorem add_elements (t : TimedArtifactSet) (a : Arc) :
    (t.add a).elements
      = if t.marker.is_marked a = false then t.elements ++ [a] else t.elements := by
  unfold TimedArtifactSet.add
  split <;> rfl

theorem add_round (t : TimedArtifactSet) (a : Arc) :
    (t.add a).marker.round = t.marker.round := by
  unfold TimedArtifactSet.add
  split <;> rfl

theorem foldl_add_spec (l : List Arc) :
    ∀ t : TimedArtifactSet, SetInv t →
      SetInv (l.foldl TimedArtifactSet.add t) ∧
      (l.foldl TimedArtifactSet.add t).elements = ((t.elements ++ l).reverse.dedup).reverse ∧
      (l.foldl TimedArtifactSet.add t).marker.round = t.marker.round := by
  induction l using List.reverseRecOn with
  | nil =>
    intro t h
    refine ⟨h, ?_, rfl⟩
    rw [List.append_nil, List.foldl_nil, (List.nodup_reverse.2 h.nodup).dedup,
      List.reverse_reverse]
  | append_singleton l1 a ih =>
    intro t h
    obtain ⟨g1, g2, g3⟩ := ih t h
    rw [List.foldl_append, List.foldl_cons, List.foldl_nil]
    refine ⟨(g1.add a).1, ?_, ?_⟩
    · rw [← List.append_assoc, firstOccurrences_concat, add_elements]
      by_cases hm : (l1.foldl TimedArtifactSet.add t).marker.is_marked a = false
      · have ha : a ∉ t.elements ++ l1 := by
          intro hmem
          have := (g1.marked a).2 (by rw [g2]; exact (mem_firstOccurrences _ _).2 hmem)
          rw [this] at hm
          exact Bool.noConfusion hm
        rw [if_pos hm, if_neg ha, g2]
      · have hm2 : (l1.foldl TimedArtifactSet.add t).marker.is_marked a = true := by
          cases hx : (l1.foldl TimedArtifactSet.add t).marker.is_marked a
          · exact absurd hx hm
          · rfl
        have ha : a ∈ t.elements ++ l1 := by
          have := (g1.marked a).1 hm2
          rw [g2] at this
          exact (mem_firstOccurrences _ _).1 this
        rw [if_neg hm, if_pos ha]
        exact g2
    · rw [add_round]
      exact g3

theorem SetInv.next_round {t : TimedArtifactSet} (h : SetInv t) :
    SetInv t.next_round ∧ ∀ a, t.next_round.marker.is_marked a = false := by
  have hno : ∀ a, t.next_round.marker.is_marked a = false := by
    intro a
    show (t.marker.marked_in_round a == t.marker.round + 1) = false
    have := h.rounds a
    rw [beq_eq_false_iff_ne]
    omega
  refine ⟨⟨List.nodup_nil, ?_, ?_⟩, hno⟩
  · intro a
    rw [hno a]
    simp [TimedArtifactSet.next_round]
  · intro a
    show t.marker.marked_in_round a ≤ t.marker.round + 1
    have := h.rounds a
    omega

/-- C23: `TimedArtifactSet` is a per-round set. From a state `t` of the set (its elements
pairwise different and exactly the marked arcs, no mark from a later round) whose round
counter is below the largest `int`, any sequence `l` of `add` calls leaves the vector with
the former elements followed by the new arcs of `l`, each once, in the order of their first
occurrence. After `next_round()` the vector is empty and no arc is marked, and any sequence
`l2` of `add` calls in the new round, arcs of `l` included, gives the arcs of `l2`, each
once, in the order of their first occurrence. -/
theorem C23_timed_set_per_round (t : TimedArtifactSet) (l : List Arc) (h : SetInv t)
    (hr : t.marker.round < 2 ^ 31 - 1) :
    (l.foldl TimedArtifactSet.add t).vector = ((t.vector ++ l).reverse.dedup).reverse ∧
    (l.foldl TimedArtifactSet.add t).vector.Nodup ∧
    (∀ a, a ∈ (l.foldl TimedArtifactSet.add t).vector ↔ a ∈ t.vector ∨ a ∈ l) ∧
    (∀ a ∈ l, (l.foldl TimedArtifactSet.add t).vector.count a = 1) ∧
    (l.foldl TimedArtifactSet.add t).next_round.marker.round < 2 ^ 31 ∧
    (l.foldl TimedArtifactSet.add t).next_round.vector = [] ∧
    (∀ a, (l.foldl TimedArtifactSet.add t).next_round.marker.is_marked a = false) ∧
    ∀ l2 : List Arc,
      (l2.foldl TimedArtifactSet.add (l.foldl TimedArtifactSet.add t).next_round).vector
        = (l2.reverse.dedup).reverse ∧
      ∀ a ∈ l2,
        (l2.foldl TimedArtifactSet.add
          (l.foldl TimedArtifactSet.add t).next_round).vector.count a = 1 := by
  obtain ⟨g1, g2, g3⟩ := foldl_add_spec l t h
  have hmem : ∀ a, a ∈ (l.foldl TimedArtifactSet.add t).vector ↔ a ∈ t.vector ∨ a ∈ l := by
    intro a
    show a ∈ (l.foldl TimedArtifactSet.add t).elements ↔ _
    rw [g2, mem_firstOccurrences, List.mem_append]
    rfl
  obtain ⟨n1, n2⟩ := g1.next_round
  refine ⟨g2, g1.nodup, hmem, ?_, ?_, rfl, n2, ?_⟩
  · intro a ha
    exact List.count_eq_one_of_mem g1.nodup ((hmem a).2 (Or.inr ha))
  · show (l.foldl TimedArtifactSet.add t).marker.round + 1 < 2 ^ 31
    rw [g3]
    omega
  · intro l2
    obtain ⟨k1, k2, _⟩ := foldl_add_spec l2 _ n1
    have e : (l2.foldl TimedArtifactSet.add
        (l.foldl TimedArtifactSet.add t).next_round).vector = (l2.reverse.dedup).reverse := by
      show (l2.foldl TimedArtifactSet.add _).elements = _
      rw [k2]
      rfl
    refine ⟨e, ?_⟩
    intro a ha
    apply List.count_eq_one_of_mem
    · exact k1.nodup
    · rw [e]
      exact (mem_firstOccurrences _ _).2 ha

theorem C23_timed_set_per_round_witness :
    (([⟨0, 0, 1⟩, ⟨1, 1, 2⟩, ⟨0, 0, 1⟩, ⟨2, 0, 2⟩, ⟨1, 1, 2⟩] : List Arc).foldl
      TimedArtifactSet.add TimedArtifactSet.initial).vector
      = [⟨0, 0, 1⟩, ⟨1, 1, 2⟩, ⟨2, 0, 2⟩] ∧
    (([⟨2, 0, 2⟩, ⟨0, 0, 1⟩, ⟨2, 0, 2⟩] : List Arc).foldl TimedArtifactSet.add
      (([⟨0, 0, 1⟩, ⟨1, 1, 2⟩, ⟨0, 0, 1⟩, ⟨2, 0, 2⟩, ⟨1, 1, 2⟩] : List Arc).foldl
        TimedArtifactSet.add TimedArtifactSet.initial).next_round).vector
      = [⟨2, 0, 2⟩, ⟨0, 0, 1⟩] :=
  ⟨(C23_timed_set_per_round TimedArtifactSet.initial
      [⟨0, 0, 1⟩, ⟨1, 1, 2⟩, ⟨0, 0, 1⟩, ⟨2, 0, 2⟩, ⟨1, 1, 2⟩] setInv_initial
      (by decide)).1.trans (by decide),
    ((C23_timed_set_per_round TimedArtifactSet.initial
      [⟨0, 0, 1⟩, ⟨1, 1, 2⟩, ⟨0, 0, 1⟩, ⟨2, 0, 2⟩, ⟨1, 1, 2⟩] setInv_initial
      (by decide)).2.2.2.2.2.2.2 [⟨2, 0, 2⟩, ⟨0, 0, 1⟩, ⟨2, 0, 2⟩]).1.trans (by decide)⟩

/-! ## The approximate bucket queue -/

theorem highZerosFrom_spec (x : Nat) :
    ∀ n, x ≠ 0 → x < 2 ^ n →
      highZerosFrom x n < n ∧ 2 ^ (n - 1 - highZerosFrom x n) ≤ x ∧
      x < 2 ^ (n - highZerosFrom x n) := by
  intro n
  induction n with
  | zero =>
    intro h0 hx
    simp at hx
    exact absurd hx h0
  | succ n ih =>
    intro h0 hx
    unfold highZerosFrom
    by_cases hb : x.testBit n = true
    · rw [if_pos hb]
      refine ⟨Nat.succ_pos n, ?_, by simpa using hx⟩
      simp only [Nat.add_sub_cancel, Nat.sub_zero]
      exact Nat.testBit_implies_ge hb
    · rw [if_neg hb]
      have hb2 : x.testBit n = false := by simpa using hb
      have hlt : x < 2 ^ n := by
        by_contra hge
        have hge2 : 2 ^ n ≤ x := Nat.le_of_not_lt hge
        obtain ⟨j, hj1, hj2⟩ := Nat.ge_two_pow_implies_high_bit_true hge2
        have : j = n := by
          by_contra hne
          have hjn : n + 1 ≤ j := by omega
          have : x < 2 ^ j := lt_of_lt_of_le hx (Nat.pow_le_pow_right (by decide) hjn)
          rw [Nat.testBit_lt_two_pow this] at hj2
          exact Bool.false_ne_true hj2
        rw [this, hb2] at hj2
        exact Bool.false_ne_true hj2
      obtain ⟨g1, g2, g3⟩ := ih h0 hlt
      refine ⟨by omega, ?_, ?_⟩
      · have : n + 1 - 1 - (highZerosFrom x n + 1) = n - 1 - highZerosFrom x n := by omega
        rw [this]
        exact g2
      · have : n + 1 - (highZerosFrom x n + 1) = n - highZerosFrom x n := by omega
        rw [this]
        exact g3

theorem clzl_spec {x : Nat} (h0 : x ≠ 0) (hx : x < 2 ^ 64) :
    ∃ k, clzl x = some k ∧ k < 64 ∧ 2 ^ (63 - k) ≤ x ∧ x < 2 ^ (64 - k) := by
  obtain ⟨g1, g2, g3⟩ := highZerosFrom_spec x 64 h0 hx
  refine ⟨highZerosFrom x 64, ?_, g1, g2, g3⟩
  unfold clzl
  rw [if_neg h0]

theorem getElem?_swapPop (B : List Arc) (i : Nat) (last el : Arc) (j : Nat) :
    (((B.set i last).set (B.length - 1) el).dropLast)[j]? =
      if j < B.length - 1 then (if j = i then some last else B[j]?) else Option.none := by
  rw [List.dropLast_eq_take, List.getElem?_take]
  simp only [List.length_set]
  by_cases hj : j < B.length - 1
  · rw [if_pos hj, if_pos hj]
    have hne : B.length - 1 ≠ j := by omega
    rw [List.getElem?_set_ne hne]
    by_cases hji : j = i
    · subst hji
      rw [if_pos rfl, List.getElem?_set_eq_of_lt]
      omega
    · rw [if_neg hji, List.getElem?_set_ne (fun e => hji e.symm)]
  · rw [if_neg hj, if_neg hj]

theorem BQInv.index_inj {q : ApproximateBucketQueue} {prio : Arc → Nat} (h : BQInv q prio)
    {k1 k2 i1 i2 : Nat} {x : Arc} (h1 : (q.buckets k1)[i1]? = some x)
    (h2 : (q.buckets k2)[i2]? = some x) : k1 = k2 ∧ i1 = i2 := by
  have e1 := h.idx k1 i1 x h1
  have e2 := h.idx k2 i2 x h2
  rw [e1] at e2
  exact ⟨congrArg Prod.fst e2, congrArg Prod.snd e2⟩

theorem BQInv.bucket_nodup {q : ApproximateBucketQueue} {prio : Arc → Nat} (h : BQInv q prio)
    (k : Nat) : (q.buckets k).Nodup := by
  rw [List.nodup_iff_getElem?_ne_getElem?]
  intro i j hij hj e
  have hx : (q.buckets k)[j]? = some ((q.buckets k)[j]) := List.getElem?_eq_getElem hj
  have := (h.index_inj (e.trans hx) hx).2
  omega

theorem BQInv.lt_of_mem {q : ApproximateBucketQueue} {prio : Arc → Nat} (h : BQInv q prio)
    {k : Nat} {x : Arc} (hx : x ∈ q.buckets k) : k < 64 := by
  by_contra hge
  rw [h.range k (Nat.le_of_not_lt hge)] at hx
  exact List.not_mem_nil _ hx

theorem BQInv.bucket_eq {q : ApproximateBucketQueue} {prio : Arc → Nat} (h : BQInv q prio)
    {k1 k2 : Nat} {x : Arc} (h1 : x ∈ q.buckets k1) (h2 : x ∈ q.buckets k2) : k1 = k2 := by
  obtain ⟨i1, e1⟩ := List.mem_iff_getElem?.1 h1
  obtain ⟨i2, e2⟩ := List.mem_iff_getElem?.1 h2
  exact (h.index_inj e1 e2).1

theorem BQInv.of_initial (prio : Arc → Nat) : BQInv ApproximateBucketQueue.initial prio := by
  refine ⟨fun _ _ => rfl, ?_, ?_, by decide, ?_, fun h => absurd rfl h, ?_⟩
  · intro k i x hx
    simp [ApproximateBucketQueue.initial] at hx
  · intro k
    simp [ApproximateBucketQueue.initial]
  · intro k _
    simp [ApproximateBucketQueue.initial]
  · intro k x hx
    simp [ApproximateBucketQueue.initial] at hx

theorem BQInv.empty_iff {q : ApproximateBucketQueue} {prio : Arc → Nat} (h : BQInv q prio) :
    q.empty = true ↔ ∀ k, q.buckets k = [] := by
  unfold ApproximateBucketQueue.empty
  rw [beq_iff_eq]
  constructor
  · intro h0 k
    by_cases hk : k < 64
    · by_contra hne
      have := (h.mask k hk).2 hne
      rw [h0] at this
      simp at this
    · exact h.range k (Nat.le_of_not_lt hk)
  · intro hall
    by_contra hne
    obtain ⟨j, hj, hb⟩ := exists_testBit_lt hne h.mask_lt
    exact (h.mask j hj).1 hb (hall j)

theorem clzl_lt {p k : Nat} (hp0 : p ≠ 0) (hp : p < 2 ^ 64) (hk : clzl p = some k) :
    k < 64 ∧ 2 ^ (63 - k) ≤ p ∧ p < 2 ^ (64 - k) := by
  obtain ⟨k1, e, g⟩ := clzl_spec hp0 hp
  rw [hk] at e
  rw [Option.some.inj e]
  exact g

theorem BQInv.of_push {q : ApproximateBucketQueue} {prio : Arc → Nat} (h : BQInv q prio)
    {id : Arc} {p k : Nat} (hnew : ∀ j, j < 64 → id ∉ q.buckets j) (hp0 : p ≠ 0)
    (hp : p < 2 ^ 64) (hk : clzl p = some k) (hsize : (q.buckets k).length < 2 ^ 32) :
    ∃ q1, q.push id p = Except.ok q1 ∧ BQInv q1 (Function.update prio id p) ∧
      q1.buckets = Function.update q.buckets k (q.buckets k ++ [id]) := by
  have hk64 : k < 64 := (clzl_lt hp0 hp hk).1
  have hnew2 : ∀ j, id ∉ q.buckets j := by
    intro j hj
    exact hnew j (h.lt_of_mem hj) hj
  have hpush : q.push id p = Except.ok
      ({ q with
        indices := Function.update q.indices id (k, (q.buckets k).length % 2 ^ 32)
        buckets := Function.update q.buckets k (q.buckets k ++ [id])
        filled_mask := q.filled_mask ||| 2 ^ k }).compute_greatest_nonempty_bucket := by
    unfold ApproximateBucketQueue.push ApproximateBucketQueue.bucketAt bucket_from_priority
    rw [hk]
    simp [check, defined, hp0, bind, Except.bind, pure, Except.pure, shl_one_of_lt hk64, hk64]
  refine ⟨_, hpush, ⟨?_, ?_, ?_, ?_, ?_, fun _ => rfl, ?_⟩, rfl⟩
  · intro j hj
    show Function.update q.buckets k (q.buckets k ++ [id]) j = []
    rw [Function.update_noteq (by omega)]
    exact h.range j hj
  · intro j i x hx
    change (Function.update q.buckets k (q.buckets k ++ [id]) j)[i]? = some x at hx
    show Function.update q.indices id (k, (q.buckets k).length % 2 ^ 32) x = (j, i)
    by_cases hjk : j = k
    · subst hjk
      rw [Function.update_same, List.getElem?_append] at hx
      by_cases hi : i < (q.buckets j).length
      · rw [if_pos hi] at hx
        have hxid : x ≠ id := fun e => hnew2 j (e ▸ List.mem_iff_getElem?.2 ⟨i, hx⟩)
        rw [Function.update_noteq hxid]
        exact h.idx j i x hx
      · rw [if_neg hi] at hx
        have hi0 : i - (q.buckets j).length = 0 := by
          by_contra hne
          rw [List.getElem?_eq_none (by simp; omega)] at hx
          exact Option.noConfusion hx
        rw [hi0] at hx
        simp only [List.getElem?_cons_zero, Option.some.injEq] at hx
        rw [← hx, Function.update_same, Nat.mod_eq_of_lt hsize]
        have : i = (q.buckets j).length := by omega
        rw [this]
    · rw [Function.update_noteq hjk] at hx
      have hxid : x ≠ id := fun e => hnew2 j (e ▸ List.mem_iff_getElem?.2 ⟨i, hx⟩)
      rw [Function.update_noteq hxid]
      exact h.idx j i x hx
  · intro j
    show (Function.update q.buckets k (q.buckets k ++ [id]) j).length ≤ 2 ^ 32
    by_cases hjk : j = k
    · subst hjk
      rw [Function.update_same, List.length_append, List.length_singleton]
      omega
    · rw [Function.update_noteq hjk]
      exact h.small j
  · exact Nat.or_lt_two_pow h.mask_lt (Nat.pow_lt_pow_right (by decide) hk64)
  · intro j hj
    show (q.filled_mask ||| 2 ^ k).testBit j = true
      ↔ Function.update q.buckets k (q.buckets k ++ [id]) j ≠ []
    rw [Nat.testBit_or, Nat.testBit_two_pow]
    by_cases hjk : j = k
    · subst hjk
      simp
    · rw [Function.update_noteq hjk]
      have : ¬ k = j := fun e => hjk e.symm
      simp only [this, decide_False, Bool.or_false]
      exact h.mask j hj
  · intro j x hx
    change x ∈ Function.update q.buckets k (q.buckets k ++ [id]) j at hx
    by_cases hxid : x = id
    · subst hxid
      have hjk : j = k := by
        by_contra hne
        rw [Function.update_noteq hne] at hx
        exact hnew2 j hx
      rw [Function.update_same, hjk]
      exact ⟨hp0, hp, hk⟩
    · rw [Function.update_noteq hxid]
      apply h.prio j x
      by_cases hjk : j = k
      · subst hjk
        rw [Function.update_same, List.mem_append, List.mem_singleton] at hx
        rcases hx with hx | hx
        · exact hx
        · exact absurd hx hxid
      · rw [Function.update_noteq hjk] at hx
        exact hx

theorem BQInv.of_erase {q : ApproximateBucketQueue} {prio : Arc → Nat} (h : BQInv q prio)
    {id : Arc} {k : Nat} (hid : id ∈ q.buckets k) :
    ∃ q1, q.erase id = Except.ok q1 ∧ BQInv q1 prio ∧
      (∀ j x, x ∈ q1.buckets j ↔ x ∈ q.buckets j ∧ x ≠ id) ∧
      (∀ j, j ≠ k → q1.buckets j = q.buckets j) ∧
      (q1.buckets k).length + 1 = (q.buckets k).length := by
  obtain ⟨i, hi⟩ := List.mem_iff_getElem?.1 hid
  have hidx := h.idx k i id hi
  have hk64 := h.lt_of_mem hid
  have hilt : i < (q.buckets k).length := by
    by_contra hge
    rw [List.getElem?_eq_none (Nat.le_of_not_lt hge)] at hi
    exact Option.noConfusion hi
  have hlastget : (q.buckets k)[(q.buckets k).length - 1]?
      = some ((q.buckets k)[(q.buckets k).length - 1]) :=
    List.getElem?_eq_getElem (by omega)
  generalize hl : (q.buckets k)[(q.buckets k).length - 1] = last at hlastget
  have hlast : (q.buckets k).getLast? = some last := by
    rw [List.getLast?_eq_getElem?]
    exact hlastget
  have hget := getElem?_swapPop (q.buckets k) i last id
  generalize hpop :
    (((q.buckets k).set i last).set ((q.buckets k).length - 1) id).dropLast = popped at hget
  have hpoplen : popped.length + 1 = (q.buckets k).length := by
    rw [← hpop, List.length_dropLast, List.length_set, List.length_set]
    omega
  have herase : q.erase id = Except.ok
      ({ q with
        indices := Function.update q.indices last (k, i)
        buckets := Function.update q.buckets k popped
        filled_mask :=
          if popped.isEmpty then q.filled_mask &&& (all_ones ^^^ 2 ^ k)
          else q.filled_mask ||| 2 ^ k }).compute_greatest_nonempty_bucket := by
    unfold ApproximateBucketQueue.erase ApproximateBucketQueue.bucketAt
    rw [hidx]
    simp only [hk64, if_true, hlast, hi, elementOf, bind, Except.bind, pure, Except.pure,
      defined, shl_one_of_lt hk64, hpop]
  have hmem : ∀ x, x ∈ popped ↔ x ∈ q.buckets k ∧ x ≠ id := by
    intro x
    constructor
    · intro hx
      obtain ⟨j, hj⟩ := List.mem_iff_getElem?.1 hx
      rw [hget] at hj
      by_cases hjl : j < (q.buckets k).length - 1
      · rw [if_pos hjl] at hj
        by_cases hji : j = i
        · rw [if_pos hji] at hj
          rw [← Option.some.inj hj]
          refine ⟨List.mem_iff_getElem?.2 ⟨_, hlastget⟩, ?_⟩
          intro e
          rw [e] at hlastget
          have := (h.index_inj hlastget hi).2
          omega
        · rw [if_neg hji] at hj
          refine ⟨List.mem_iff_getElem?.2 ⟨_, hj⟩, ?_⟩
          intro e
          rw [e] at hj
          exact hji (h.index_inj hj hi).2
      · rw [if_neg hjl] at hj
        exact Option.noConfusion hj
    · rintro ⟨hx, hne⟩
      obtain ⟨j, hj⟩ := List.mem_iff_getElem?.1 hx
      have hji : j ≠ i := by
        intro e
        rw [e, hi] at hj
        exact hne (Option.some.inj hj).symm
      have hjlt : j < (q.buckets k).length := by
        by_contra hge
        rw [List.getElem?_eq_none (Nat.le_of_not_lt hge)] at hj
        exact Option.noConfusion hj
      by_cases hjl : j < (q.buckets k).length - 1
      · apply List.mem_iff_getElem?.2
        refine ⟨j, ?_⟩
        rw [hget, if_pos hjl, if_neg hji]
        exact hj
      · have hje : j = (q.buckets k).length - 1 := by omega
        rw [hje, hlastget] at hj
        apply List.mem_iff_getElem?.2
        refine ⟨i, ?_⟩
        rw [hget, if_pos (by omega), if_pos rfl]
        exact hj
  have hne_of_other : ∀ j, j ≠ k → ∀ x, x ∈ q.buckets j → x ≠ id ∧ x ≠ last := by
    intro j hjk x hx
    constructor
    · intro e
      exact hjk (h.bucket_eq (e ▸ hx) hid)
    · intro e
      exact hjk (h.bucket_eq (e ▸ hx) (List.mem_iff_getElem?.2 ⟨_, hlastget⟩))
  refine ⟨_, herase, ⟨?_, ?_, ?_, ?_, ?_, fun _ => rfl, ?_⟩, ?_, ?_, ?_⟩
  · intro j hj
    show Function.update q.buckets k popped j = []
    rw [Function.update_noteq (by omega)]
    exact h.range j hj
  · intro j i1 x hx
    change (Function.update q.buckets k popped j)[i1]? = some x at hx
    show Function.update q.indices last (k, i) x = (j, i1)
    by_cases hjk : j = k
    · subst hjk
      rw [Function.update_same, hget] at hx
      by_cases hjl : i1 < (q.buckets j).length - 1
      · rw [if_pos hjl] at hx
        by_cases hji : i1 = i
        · rw [if_pos hji] at hx
          rw [← Option.some.inj hx, Function.update_same, hji]
        · rw [if_neg hji] at hx
          have hxl : x ≠ last := by
            intro e
            rw [e] at hx
            have := (h.index_inj hx hlastget).2
            omega
          rw [Function.update_noteq hxl]
          exact h.idx j i1 x hx
      · rw [if_neg hjl] at hx
        exact Option.noConfusion hx
    · rw [Function.update_noteq hjk] at hx
      have hxl := (hne_of_other j hjk x (List.mem_iff_getElem?.2 ⟨_, hx⟩)).2
      rw [Function.update_noteq hxl]
      exact h.idx j i1 x hx
  · intro j
    show (Function.update q.buckets k popped j).length ≤ 2 ^ 32
    by_cases hjk : j = k
    · subst hjk
      rw [Function.update_same]
      have := h.small j
      omega
    · rw [Function.update_noteq hjk]
      exact h.small j
  · show (if popped.isEmpty then q.filled_mask &&& (all_ones ^^^ 2 ^ k)
      else q.filled_mask ||| 2 ^ k) < 2 ^ 64
    split
    · exact lt_of_le_of_lt Nat.and_le_left h.mask_lt
    · exact Nat.or_lt_two_pow h.mask_lt (Nat.pow_lt_pow_right (by decide) hk64)
  · intro j hj
    show (if popped.isEmpty then q.filled_mask &&& (all_ones ^^^ 2 ^ k)
      else q.filled_mask ||| 2 ^ k).testBit j = true ↔ Function.update q.buckets k popped j ≠ []
    by_cases hpe : popped.isEmpty = true
    · rw [if_pos hpe, Nat.testBit_and, Nat.testBit_xor, Nat.testBit_two_pow]
      unfold all_ones
      rw [Nat.testBit_two_pow_sub_one]
      by_cases hjk : j = k
      · subst hjk
        rw [Function.update_same]
        simp [List.isEmpty_iff.1 hpe, hj]
      · rw [Function.update_noteq hjk]
        have : ¬ k = j := fun e => hjk e.symm
        simp only [hj, this, decide_True, decide_False, Bool.xor_false, Bool.and_true]
        exact h.mask j hj
    · rw [if_neg hpe, Nat.testBit_or, Nat.testBit_two_pow]
      by_cases hjk : j = k
      · subst hjk
        rw [Function.update_same]
        have : popped ≠ [] := fun e => hpe (List.isEmpty_iff.2 e)
        simp [this]
      · rw [Function.update_noteq hjk]
        have : ¬ k = j := fun e => hjk e.symm
        simp only [this, decide_False, Bool.or_false]
        exact h.mask j hj
  · intro j x hx
    change x ∈ Function.update q.buckets k popped j at hx
    apply h.prio j x
    by_cases hjk : j = k
    · subst hjk
      rw [Function.update_same] at hx
      exact ((hmem x).1 hx).1
    · rw [Function.update_noteq hjk] at hx
      exact hx
  · intro j x
    show x ∈ Function.update q.buckets k popped j ↔ _
    by_cases hjk : j = k
    · subst hjk
      rw [Function.update_same]
      exact hmem x
    · rw [Function.update_noteq hjk]
      exact ⟨fun hx => ⟨hx, (hne_of_other j hjk x hx).1⟩, fun hx => hx.1⟩
  · intro j hjk
    show Function.update q.buckets k popped j = _
    rw [Function.update_noteq hjk]
  · show (Function.update q.buckets k popped k).length + 1 = _
    rw [Function.update_same]
    exact hpoplen

theorem BQInv.pop {q : ApproximateBucketQueue} {prio : Arc → Nat} (h : BQInv q prio)
    (hne : q.empty = false) :
    ∃ top q1 g, q.pop_max = Except.ok (top, q1) ∧ top ∈ q.buckets g ∧
      q.erase top = Except.ok q1 ∧
      (∀ k x, x ∈ q.buckets k → prio x < 2 * prio top) := by
  have hm : q.filled_mask ≠ 0 := by
    intro e
    unfold ApproximateBucketQueue.empty at hne
    rw [e] at hne
    exact Bool.noConfusion hne
  obtain ⟨g, hg1, hg2, hg3, hg4⟩ := lowestBit_spec hm h.mask_lt
  have hgb : q.buckets g ≠ [] := (h.mask g hg2).1 hg3
  obtain ⟨top, htop⟩ : ∃ top, (q.buckets g).getLast? = some top := by
    cases hx : (q.buckets g).getLast? with
    | none => exact absurd (List.getLast?_eq_none_iff.1 hx) hgb
    | some t => exact ⟨t, rfl⟩
  have hmem : top ∈ q.buckets g := List.mem_of_getLast?_eq_some htop
  obtain ⟨q1, he, _⟩ := h.of_erase hmem
  refine ⟨top, q1, g, ?_, hmem, he, ?_⟩
  · unfold ApproximateBucketQueue.pop_max ApproximateBucketQueue.bucketAt
    rw [h.top hm, hg1]
    simp only [defined, hg2, if_true, htop, elementOf, he, bind, Except.bind, pure,
      Except.pure]
  · intro k x hx
    have hk64 := h.lt_of_mem hx
    have hgk : g ≤ k := by
      by_contra hlt
      have hb := hg4 k (Nat.lt_of_not_le hlt)
      have := (h.mask k hk64).2 (List.ne_nil_of_mem hx)
      rw [hb] at this
      exact Bool.false_ne_true this
    obtain ⟨x1, x2, x3⟩ := h.prio k x hx
    obtain ⟨t1, t2, t3⟩ := h.prio g top hmem
    obtain ⟨_, _, xb⟩ := clzl_lt x1 x2 x3
    obtain ⟨_, tb, _⟩ := clzl_lt t1 t2 t3
    have e1 : 2 ^ (64 - k) ≤ 2 ^ (64 - g) := Nat.pow_le_pow_right (by decide) (by omega)
    have e2 : 2 ^ (64 - g) = 2 * 2 ^ (63 - g) := by
      have : 64 - g = (63 - g) + 1 := by omega
      rw [this, pow_succ]
      omega
    omega

/-- C21: ordering of the approximate bucket queue. For a queue whose ids are pairwise
different and lie in the buckets of the nonzero priorities `prio` they were pushed with,
`pop_max()` on the non-empty queue returns an id `top` of the queue with
`prio x < 2 * prio top` for every id `x` of the queue, so also for one of largest priority;
it removes `top` and nothing else. If the queue is then not empty, the next `pop_max()`
returns an id `top2` with `prio top2 < 2 * prio top`, that is `prio top ≥ prio top2 / 2`. -/
theorem C21_pop_max_order (q : ApproximateBucketQueue) (prio : Arc → Nat)
    (h : BQInv q prio) (hne : q.empty = false) :
    (∃ top q1, q.pop_max = Except.ok (top, q1) ∧ (∃ k, top ∈ q.buckets k) ∧
      (∀ k x, x ∈ q.buckets k → prio x < 2 * prio top) ∧
      BQInv q1 prio ∧ (∀ k x, x ∈ q1.buckets k ↔ x ∈ q.buckets k ∧ x ≠ top)) ∧
    ∀ top q1, q.pop_max = Except.ok (top, q1) → q1.empty = false →
      ∃ top2 q2, q1.pop_max = Except.ok (top2, q2) ∧
        (∃ k, top2 ∈ q1.buckets k) ∧ prio top2 < 2 * prio top ∧
        prio top2 / 2 ≤ prio top := by
  obtain ⟨top, q1, g, hp, hmem, he, hord⟩ := h.pop hne
  obtain ⟨q1b, he2, hinv, hm, _, _⟩ := h.of_erase hmem
  rw [he] at he2
  have e := Except.ok.inj he2
  subst e
  refine ⟨⟨top, q1, hp, ⟨g, hmem⟩, hord, hinv, hm⟩, ?_⟩
  intro top1 q1c hp1 hne2
  rw [hp] at hp1
  have e1 := Except.ok.inj hp1
  have et : top = top1 := congrArg Prod.fst e1
  have eq : q1 = q1c := congrArg Prod.snd e1
  subst et
  subst eq
  obtain ⟨top2, q2, g2, hp2, hmem2, _, _⟩ := hinv.pop hne2
  have h2 := hord g2 top2 ((hm g2 top2).1 hmem2).1
  exact ⟨top2, q2, hp2, ⟨g2, hmem2⟩, h2, by omega⟩

theorem BQInv.push_okOr {q : ApproximateBucketQueue} {prio : Arc → Nat} (h : BQInv q prio)
    {id : Arc} {p k : Nat} (hnew : ∀ j, j < 64 → id ∉ q.buckets j) (hp0 : p ≠ 0)
    (hp : p < 2 ^ 64) (hk : clzl p = some k) (hsize : (q.buckets k).length < 2 ^ 32)
    (d : ApproximateBucketQueue) :
    BQInv (okOrQueue (q.push id p) d) (Function.update prio id p) := by
  obtain ⟨q1, e, hinv, _⟩ := h.of_push hnew hp0 hp hk hsize
  rw [e]
  exact hinv

theorem threeQueue_inv : BQInv threeQueue threePrio :=
  (((BQInv.of_initial fun _ => 0).push_okOr (by decide) (by decide) (by decide)
    (show clzl 17 = some 59 by decide) (by decide) _).push_okOr (by decide) (by decide)
    (by decide) (show clzl 8 = some 60 by decide) (by decide) _).push_okOr (by decide)
    (by decide) (by decide) (show clzl 9 = some 60 by decide) (by decide) _

theorem C21_pop_max_order_witness :
    (∃ top q1, threeQueue.pop_max = Except.ok (top, q1) ∧
      (∃ k, top ∈ threeQueue.buckets k) ∧
      (∀ k x, x ∈ threeQueue.buckets k → threePrio x < 2 * threePrio top) ∧
      BQInv q1 threePrio ∧
      (∀ k x, x ∈ q1.buckets k ↔ x ∈ threeQueue.buckets k ∧ x ≠ top)) ∧
    ∃ top2 q2, (poppedQueue threeQueue.pop_max threeQueue).pop_max = Except.ok (top2, q2) ∧
      (∃ k, top2 ∈ (poppedQueue threeQueue.pop_max threeQueue).buckets k) ∧
      threePrio top2 < 2 * threePrio ⟨0, 0, 1⟩ ∧
      threePrio top2 / 2 ≤ threePrio ⟨0, 0, 1⟩ :=
  ⟨(C21_pop_max_order threeQueue threePrio threeQueue_inv (by decide)).1,
    (C21_pop_max_order threeQueue threePrio threeQueue_inv (by decide)).2 ⟨0, 0, 1⟩
      (poppedQueue threeQueue.pop_max threeQueue) rfl (by decide)⟩

/-- The scenario S6 evaluated: after `push(A, 17)`, `push(B, 8)`, `push(C, 9)` the id `A`
lies in the bucket 59 and `B`, `C` lie in the bucket 60; the first `pop_max()` returns `A`,
the second returns `C`, the third returns `B`, and the queue is empty then. -/
theorem pop_max_three :
    threeQueue.buckets 59 = [⟨0, 0, 1⟩] ∧ threeQueue.buckets 60 = [⟨1, 1, 2⟩, ⟨2, 0, 2⟩] ∧
    poppedId threeQueue.pop_max = some ⟨0, 0, 1⟩ ∧
    poppedId (poppedQueue threeQueue.pop_max threeQueue).pop_max = some ⟨2, 0, 2⟩ ∧
    poppedId (poppedQueue (poppedQueue threeQueue.pop_max threeQueue).pop_max
      threeQueue).pop_max = some ⟨1, 1, 2⟩ ∧
    (poppedQueue (poppedQueue (poppedQueue threeQueue.pop_max threeQueue).pop_max
      threeQueue).pop_max threeQueue).empty = true := by
  refine ⟨by decide, by decide, by decide, by decide, by decide, by decide⟩

/-- C22: `erase` and `update` of the approximate bucket queue. For a queue whose ids are
pairwise different and lie in the buckets of their priorities and an id of the queue,
`erase(id)` returns, every bucket afterwards is a rearrangement of the bucket before
without `id`, and `empty()` is true afterwards exactly when `id` was the only id. For a
nonzero priority `w` whose bucket `kw` has room for one more index, `update(id, w)`
returns, the queue holds the same ids as before, every other id is in the bucket it was in
and `id` is in the bucket `kw`. -/
theorem C22_erase_update (q : ApproximateBucketQueue) (prio : Arc → Nat) (id : Arc) (k : Nat)
    (h : BQInv q prio) (hid : id ∈ q.buckets k) :
    (∃ q1, q.erase id = Except.ok q1 ∧ BQInv q1 prio ∧
      (∀ j, (q1.buckets j).Perm ((q.buckets j).erase id)) ∧
      (∀ j, id ∉ q1.buckets j) ∧
      (q1.empty = true ↔ ∀ j x, x ∈ q.buckets j → x = id)) ∧
    ∀ w kw, w ≠ 0 → w < 2 ^ 64 → bucket_from_priority w = some kw →
      (q.buckets kw).length < 2 ^ 32 →
      ∃ q2, q.update id w = Except.ok q2 ∧ BQInv q2 (Function.update prio id w) ∧
        (∀ x, (∃ j, x ∈ q2.buckets j) ↔ ∃ j, x ∈ q.buckets j) ∧
        (∀ j x, x ≠ id → (x ∈ q2.buckets j ↔ x ∈ q.buckets j)) ∧
        (∀ j, id ∈ q2.buckets j ↔ j = kw) := by
  obtain ⟨q1, he, hinv, hm, hother, hlen⟩ := h.of_erase hid
  refine ⟨⟨q1, he, hinv, ?_, ?_, ?_⟩, ?_⟩
  · intro j
    rw [List.perm_ext_iff_of_nodup (hinv.bucket_nodup j) ((h.bucket_nodup j).erase id)]
    intro x
    rw [hm, (h.bucket_nodup j).mem_erase_iff]
    exact And.comm
  · intro j hj
    exact ((hm j id).1 hj).2 rfl
  · rw [hinv.empty_iff]
    constructor
    · intro hall j x hx
      by_contra hne
      have := (hm j x).2 ⟨hx, hne⟩
      rw [hall j] at this
      exact List.not_mem_nil _ this
    · intro hall j
      apply List.eq_nil_iff_forall_not_mem.2
      intro x hx
      obtain ⟨g1, g2⟩ := (hm j x).1 hx
      exact g2 (hall j x g1)
  · intro w kw hw0 hw hkw hsize
    have hsize1 : (q1.buckets kw).length < 2 ^ 32 := by
      by_cases hkk : kw = k
      · rw [hkk] at hsize ⊢
        omega
      · rw [hother kw hkk]
        exact hsize
    obtain ⟨q2, hpush, hinv2, hb⟩ :=
      hinv.of_push (fun j _ hj => ((hm j id).1 hj).2 rfl) hw0 hw hkw hsize1
    have hupd : q.update id w = Except.ok q2 := by
      unfold ApproximateBucketQueue.update
      simp only [check, hw0, he, hpush, bind, Except.bind, ne_eq, not_false_eq_true,
        decide_True, if_true]
    have hmem2 : ∀ j x, x ∈ q2.buckets j ↔ x ∈ q1.buckets j ∨ (j = kw ∧ x = id) := by
      intro j x
      rw [hb]
      by_cases hj : j = kw
      · subst hj
        rw [Function.update_same, List.mem_append, List.mem_singleton]
        simp
      · rw [Function.update_noteq hj]
        simp [hj]
    refine ⟨q2, hupd, hinv2, ?_, ?_, ?_⟩
    · intro x
      constructor
      · rintro ⟨j, hj⟩
        rcases (hmem2 j x).1 hj with hx | ⟨_, hx⟩
        · exact ⟨j, ((hm j x).1 hx).1⟩
        · exact ⟨k, hx ▸ hid⟩
      · rintro ⟨j, hj⟩
        by_cases hx : x = id
        · exact ⟨kw, (hmem2 kw x).2 (Or.inr ⟨rfl, hx⟩)⟩
        · exact ⟨j, (hmem2 j x).2 (Or.inl ((hm j x).2 ⟨hj, hx⟩))⟩
    · intro j x hx
      rw [hmem2, hm]
      constructor
      · rintro (⟨g, _⟩ | ⟨_, g⟩)
        · exact g
        · exact absurd g hx
      · intro g
        exact Or.inl ⟨g, hx⟩
    · intro j
      rw [hmem2, hm]
      constructor
      · rintro (⟨_, g⟩ | ⟨g, _⟩)
        · exact absurd rfl g
        · exact g
      · intro g
        exact Or.inr ⟨g, rfl⟩

theorem C22_erase_update_witness :
    (∃ q1, threeQueue.erase ⟨1, 1, 2⟩ = Except.ok q1 ∧ BQInv q1 threePrio ∧
      (∀ j, (q1.buckets j).Perm ((threeQueue.buckets j).erase ⟨1, 1, 2⟩)) ∧
      (∀ j, (⟨1, 1, 2⟩ : Arc) ∉ q1.buckets j) ∧
      (q1.empty = true ↔ ∀ j x, x ∈ threeQueue.buckets j → x = ⟨1, 1, 2⟩)) ∧
    ∃ q2, threeQueue.update ⟨1, 1, 2⟩ 5 = Except.ok q2 ∧
      BQInv q2 (Function.update threePrio ⟨1, 1, 2⟩ 5) ∧
      (∀ x, (∃ j, x ∈ q2.buckets j) ↔ ∃ j, x ∈ threeQueue.buckets j) ∧
      (∀ j x, x ≠ ⟨1, 1, 2⟩ → (x ∈ q2.buckets j ↔ x ∈ threeQueue.buckets j)) ∧
      (∀ j, ⟨1, 1, 2⟩ ∈ q2.buckets j ↔ j = 61) :=
  ⟨(C22_erase_update threeQueue threePrio ⟨1, 1, 2⟩ 60 threeQueue_inv (by decide)).1,
    (C22_erase_update threeQueue threePrio ⟨1, 1, 2⟩ 60 threeQueue_inv (by decide)).2 5 61
      (by decide) (by decide) (by decide) (by decide)⟩

/-- The calls `erase(B)` and `update(B, 5)` on the queue of the scenario S6 evaluated. -/
theorem erase_update_three :
    (okOrQueue (threeQueue.erase ⟨1, 1, 2⟩) threeQueue).buckets 60 = [⟨2, 0, 2⟩] ∧
    (okOrQueue (threeQueue.erase ⟨0, 0, 1⟩) threeQueue).buckets 59 = [] ∧
    (okOrQueue (threeQueue.erase ⟨0, 0, 1⟩) threeQueue).empty = false ∧
    (okOrQueue (threeQueue.update ⟨1, 1, 2⟩ 5) threeQueue).buckets 60 = [⟨2, 0, 2⟩] ∧
    (okOrQueue (threeQueue.update ⟨1, 1, 2⟩ 5) threeQueue).buckets 61 = [⟨1, 1, 2⟩] := by
  refine ⟨by decide, by decide, by decide, by decide, by decide⟩

/-! ## The update filter -/

theorem roundNearestEven_bounds (x : ℚ) :
    ⌊x⌋ ≤ roundNearestEven x ∧ roundNearestEven x ≤ ⌊x⌋ + 1 := by
  unfold roundNearestEven
  split_ifs <;> omega

theorem roundNearestEven_mono {x y : ℚ} (h : x ≤ y) :
    roundNearestEven x ≤ roundNearestEven y := by
  have hf : ⌊x⌋ ≤ ⌊y⌋ := Int.floor_mono h
  rcases lt_or_eq_of_le hf with hlt | heq
  · have h1 := (roundNearestEven_bounds x).2
    have h2 := (roundNearestEven_bounds y).1
    omega
  · unfold roundNearestEven
    rw [heq]
    split_ifs <;> first | omega | (exfalso; linarith)

theorem roundNearestEven_intCast (z : ℤ) : roundNearestEven (z : ℚ) = z := by
  unfold roundNearestEven
  rw [Int.floor_intCast]
  simp

theorem roundNearestEven_le {x : ℚ} {z : ℤ} (h : x ≤ z) : roundNearestEven x ≤ z := by
  have := roundNearestEven_mono h
  rwa [roundNearestEven_intCast] at this

theorem le_roundNearestEven {x : ℚ} {z : ℤ} (h : (z : ℚ) ≤ x) : z ≤ roundNearestEven x := by
  have := roundNearestEven_mono h
  rwa [roundNearestEven_intCast] at this

theorem roundNearestEven_error (x : ℚ) : |(roundNearestEven x : ℚ) - x| ≤ 1 / 2 := by
  have h1 := Int.floor_le x
  have h2 := Int.lt_floor_add_one x
  unfold roundNearestEven
  rw [abs_le]
  split_ifs <;> constructor <;> push_cast <;> linarith

theorem two_zpow_pos (e : ℤ) : (0 : ℚ) < 2 ^ e := zpow_pos (by norm_num) e

theorem two_zpow_split (b : ℤ) (n : ℕ) (c : ℤ) (h : b + c = n) :
    (2 : ℚ) ^ (n : ℕ) * 2 ^ (-c) = 2 ^ b := by
  rw [← zpow_natCast, ← zpow_add₀ (by norm_num : (2 : ℚ) ≠ 0)]
  congr 1
  omega

theorem binadeOf_mono {q1 q2 : ℚ} (h0 : 0 < q1) (h : q1 ≤ q2) : binadeOf q1 ≤ binadeOf q2 :=
  max_le_max (Int.log_mono_right h0 h) (le_refl _)

theorem lt_binadeOf (q : ℚ) : q < 2 ^ (binadeOf q + 1) := by
  have h1 : q < ((2 : ℕ) : ℚ) ^ (Int.log 2 q + 1) := Int.lt_zpow_succ_log_self (by norm_num) q
  have h2 : ((2 : ℕ) : ℚ) ^ (Int.log 2 q + 1) ≤ 2 ^ (binadeOf q + 1) := by
    push_cast
    apply zpow_le_zpow_right₀ (by norm_num)
    unfold binadeOf
    have := le_max_left (Int.log 2 q) (-1022)
    omega
  exact lt_of_lt_of_le h1 h2

theorem binadeOf_le {q : ℚ} (h0 : 0 < q) (hn : -1022 ≤ Int.log 2 q) : 2 ^ (binadeOf q) ≤ q := by
  have h1 : ((2 : ℕ) : ℚ) ^ (Int.log 2 q) ≤ q := Int.zpow_log_le_self (by norm_num) h0
  have h2 : binadeOf q = Int.log 2 q := by
    unfold binadeOf
    exact max_eq_left hn
  rw [h2]
  exact_mod_cast h1

theorem binadeOf_eq {q : ℚ} {e : ℤ} (h0 : 0 < q) (he : -1022 ≤ e) (h1 : 2 ^ e ≤ q)
    (h2 : q < 2 ^ (e + 1)) : binadeOf q = e ∧ Int.log 2 q = e := by
  have g1 : e ≤ Int.log 2 q := by
    apply (Int.zpow_le_iff_le_log (by norm_num : 1 < 2) h0).1
    exact_mod_cast h1
  have g2 : Int.log 2 q < e + 1 := by
    apply (Int.lt_zpow_iff_log_lt (by norm_num : 1 < 2) h0).1
    exact_mod_cast h2
  have g3 : Int.log 2 q = e := by omega
  refine ⟨?_, g3⟩
  unfold binadeOf
  rw [g3]
  exact max_eq_left he

theorem toDouble_le_top {q : ℚ} : toDouble q ≤ 2 ^ (binadeOf q + 1) := by
  unfold toDouble
  have hu := two_zpow_pos (binadeOf q - 52)
  have hx : q / 2 ^ (binadeOf q - 52) ≤ ((2 ^ 53 : ℤ) : ℚ) := by
    rw [div_le_iff₀ hu]
    have := le_of_lt (lt_binadeOf q)
    have e : (((2 : ℤ) ^ 53 : ℤ) : ℚ) * 2 ^ (binadeOf q - 52) = 2 ^ (binadeOf q + 1) := by
      have := two_zpow_split (binadeOf q + 1) 53 (-(binadeOf q - 52)) (by omega)
      rw [neg_neg] at this
      rw [← this]
      norm_num
    rw [e]
    exact this
  have hr : ((roundNearestEven (q / 2 ^ (binadeOf q - 52)) : ℤ) : ℚ) ≤ ((2 ^ 53 : ℤ) : ℚ) := by
    exact_mod_cast roundNearestEven_le hx
  have e : (((2 : ℤ) ^ 53 : ℤ) : ℚ) * 2 ^ (binadeOf q - 52) = 2 ^ (binadeOf q + 1) := by
    have := two_zpow_split (binadeOf q + 1) 53 (-(binadeOf q - 52)) (by omega)
    rw [neg_neg] at this
    rw [← this]
    norm_num
  rw [← e]
  exact mul_le_mul_of_nonneg_right hr (le_of_lt hu)

theorem le_toDouble_bot {q : ℚ} (h0 : 0 < q) (hn : -1022 ≤ Int.log 2 q) :
    2 ^ (binadeOf q) ≤ toDouble q := by
  unfold toDouble
  have hu := two_zpow_pos (binadeOf q - 52)
  have e : (((2 : ℤ) ^ 52 : ℤ) : ℚ) * 2 ^ (binadeOf q - 52) = 2 ^ (binadeOf q) := by
    have := two_zpow_split (binadeOf q) 52 (-(binadeOf q - 52)) (by omega)
    rw [neg_neg] at this
    rw [← this]
    norm_num
  have hx : ((2 ^ 52 : ℤ) : ℚ) ≤ q / 2 ^ (binadeOf q - 52) := by
    rw [le_div_iff₀ hu, e]
    exact binadeOf_le h0 hn
  have hr : ((2 ^ 52 : ℤ) : ℚ) ≤ ((roundNearestEven (q / 2 ^ (binadeOf q - 52)) : ℤ) : ℚ) := by
    exact_mod_cast le_roundNearestEven hx
  rw [← e]
  exact mul_le_mul_of_nonneg_right hr (le_of_lt hu)

/-- Rounding to `double` is monotone. -/
theorem toDouble_mono {q1 q2 : ℚ} (h0 : 0 < q1) (h : q1 ≤ q2) : toDouble q1 ≤ toDouble q2 := by
  have hb := binadeOf_mono h0 h
  rcases lt_or_eq_of_le hb with hlt | heq
  · have h2 : 0 < q2 := lt_of_lt_of_le h0 h
    have hn : -1022 ≤ Int.log 2 q2 := by
      have h1 : -1022 ≤ binadeOf q1 := le_max_right _ _
      have : binadeOf q2 = Int.log 2 q2 := by
        unfold binadeOf at hlt h1 ⊢
        rcases max_cases (Int.log 2 q2) (-1022) with ⟨e1, _⟩ | ⟨e1, _⟩
        · exact e1
        · rw [e1] at hlt
          omega
      rw [← this]
      omega
    calc toDouble q1 ≤ 2 ^ (binadeOf q1 + 1) := toDouble_le_top
      _ ≤ 2 ^ (binadeOf q2) := zpow_le_zpow_right₀ (by norm_num) (by omega)
      _ ≤ toDouble q2 := le_toDouble_bot h2 hn
  · unfold toDouble
    rw [heq]
    have hu := two_zpow_pos (binadeOf q2 - 52)
    apply mul_le_mul_of_nonneg_right _ (le_of_lt hu)
    have : q1 / 2 ^ (binadeOf q2 - 52) ≤ q2 / 2 ^ (binadeOf q2 - 52) :=
      div_le_div_of_nonneg_right h (le_of_lt hu)
    exact_mod_cast roundNearestEven_mono this

/-- A value whose quotient by the unit of its binade is an integer is a `double`. -/
theorem toDouble_of_scaled {q : ℚ} {z : ℤ} (h : q / 2 ^ (binadeOf q - 52) = z) :
    toDouble q = q := by
  unfold toDouble
  rw [h, roundNearestEven_intCast, ← h]
  exact div_mul_cancel₀ q (ne_of_gt (two_zpow_pos _))

/-- The conversion of an integer up to `2 ^ 53` to `double` is exact. -/
theorem toDouble_natCast {n : ℕ} (h : n ≤ 2 ^ 53) : toDouble (n : ℚ) = n := by
  rcases Nat.eq_zero_or_pos n with h0 | hpos
  · subst h0
    apply @toDouble_of_scaled _ 0
    simp
  · have hL1 : 2 ^ Nat.log 2 n ≤ n := Nat.pow_log_le_self 2 (by omega)
    have hL2 : n < 2 ^ (Nat.log 2 n + 1) := Nat.lt_pow_succ_log_self (by norm_num) n
    have hL3 : Nat.log 2 n ≤ 53 := by
      by_contra hgt
      have : 2 ^ 54 ≤ 2 ^ Nat.log 2 n := Nat.pow_le_pow_right (by norm_num) (by omega)
      omega
    have hq : (0 : ℚ) < n := by exact_mod_cast hpos
    have hb : binadeOf (n : ℚ) = (Nat.log 2 n : ℤ) := by
      refine (binadeOf_eq hq (by omega) ?_ ?_).1
      · rw [zpow_natCast]
        exact_mod_cast hL1
      · have : ((Nat.log 2 n : ℤ) + 1) = ((Nat.log 2 n + 1 : ℕ) : ℤ) := by push_cast; rfl
        rw [this, zpow_natCast]
        exact_mod_cast hL2
    rcases Nat.lt_or_ge (Nat.log 2 n) 53 with hlt | hge
    · apply @toDouble_of_scaled _ ((n * 2 ^ (52 - Nat.log 2 n) : ℕ) : ℤ)
      rw [hb, div_eq_iff (ne_of_gt (two_zpow_pos _))]
      push_cast
      have := two_zpow_split 0 (52 - Nat.log 2 n) (-((Nat.log 2 n : ℤ) - 52)) (by omega)
      rw [neg_neg, zpow_zero] at this
      rw [mul_assoc, this, mul_one]
    · have hn : n = 2 ^ 53 := by
        have : Nat.log 2 n = 53 := by omega
        rw [this] at hL1
        omega
      apply @toDouble_of_scaled _ ((2 ^ 52 : ℕ) : ℤ)
      rw [hb, div_eq_iff (ne_of_gt (two_zpow_pos _))]
      have : Nat.log 2 n = 53 := by omega
      rw [this, hn]
      norm_num

theorem roundNearestEven_of_near {x : ℚ} {k : ℤ} (h1 : (k : ℚ) - 1 / 2 < x)
    (h2 : x < k + 1 / 2) : roundNearestEven x = k := by
  rcases le_or_lt (k : ℚ) x with hge | hlt
  · have hf : ⌊x⌋ = k := by
      rw [Int.floor_eq_iff]
      constructor
      · exact hge
      · linarith
    unfold roundNearestEven
    rw [hf, if_pos (by linarith)]
  · have hf : ⌊x⌋ = k - 1 := by
      rw [Int.floor_eq_iff]
      constructor
      · push_cast; linarith
      · push_cast; linarith
    unfold roundNearestEven
    rw [hf, if_neg (by push_cast; linarith), if_pos (by push_cast; linarith)]
    omega

theorem roundNearestEven_tie {x : ℚ} {k : ℤ} (h1 : x = k + 1 / 2) (h2 : k % 2 = 0) :
    roundNearestEven x = k := by
  have hf : ⌊x⌋ = k := by
    rw [Int.floor_eq_iff]
    constructor <;> linarith
  unfold roundNearestEven
  rw [hf, if_neg (by linarith), if_neg (by linarith), if_pos h2]

theorem toDouble_eval {q : ℚ} {e k : ℤ} (h0 : 0 < q) (he : -1022 ≤ e) (h1 : 2 ^ e ≤ q)
    (h2 : q < 2 ^ (e + 1)) (hk : roundNearestEven (q / 2 ^ (e - 52)) = k) :
    toDouble q = k * 2 ^ (e - 52) := by
  unfold toDouble
  rw [(binadeOf_eq h0 he h1 h2).1, hk]

/-- The relative error of rounding a value of the normal range to `double`. -/
theorem toDouble_error {q : ℚ} (h0 : 0 < q) (hn : -1022 ≤ Int.log 2 q) :
    |toDouble q - q| ≤ q * 2 ^ (-53 : ℤ) := by
  have hu := two_zpow_pos (binadeOf q - 52)
  have hr := roundNearestEven_error (q / 2 ^ (binadeOf q - 52))
  have e1 : toDouble q - q
      = ((roundNearestEven (q / 2 ^ (binadeOf q - 52)) : ℚ) - q / 2 ^ (binadeOf q - 52))
        * 2 ^ (binadeOf q - 52) := by
    unfold toDouble
    rw [sub_mul, div_mul_cancel₀ q (ne_of_gt hu)]
  rw [e1, abs_mul, abs_of_pos hu]
  have e2 : (1 / 2 : ℚ) * 2 ^ (binadeOf q - 52) = 2 ^ (binadeOf q) * 2 ^ (-53 : ℤ) := by
    rw [← zpow_add₀ (by norm_num : (2 : ℚ) ≠ 0)]
    have : binadeOf q + -53 = (binadeOf q - 52) + (-1) := by omega
    rw [this, zpow_add₀ (by norm_num : (2 : ℚ) ≠ 0)]
    norm_num
    ring
  calc |(roundNearestEven (q / 2 ^ (binadeOf q - 52)) : ℚ) - q / 2 ^ (binadeOf q - 52)|
        * 2 ^ (binadeOf q - 52)
      ≤ 1 / 2 * 2 ^ (binadeOf q - 52) := mul_le_mul_of_nonneg_right hr (le_of_lt hu)
    _ = 2 ^ (binadeOf q) * 2 ^ (-53 : ℤ) := e2
    _ ≤ q * 2 ^ (-53 : ℤ) :=
      mul_le_mul_of_nonneg_right (binadeOf_le h0 hn) (le_of_lt (two_zpow_pos _))

theorem filter_test_iff (t : ℚ) (oldValue newValue : ℕ) :
    (UpdateFilter.ofThreshold t).test oldValue newValue = true ↔
      newValue ≠ 0 ∧ oldValue ≠ 0 ∧
      toDouble (1 / t) ≤ toDouble (toDouble newValue / toDouble oldValue) ∧
      toDouble (toDouble newValue / toDouble oldValue) ≤ t := by
  simp [UpdateFilter.test, UpdateFilter.ofThreshold]

theorem toDouble_one : toDouble 1 = 1 := by
  have := @toDouble_natCast 1 (by norm_num)
  simpa using this

theorem toDouble_third : toDouble (1 / 3) = 6004799503160661 * 2 ^ (-54 : ℤ) := by
  have := @toDouble_eval (1 / 3) (-2) 6004799503160661 (by norm_num) (by norm_num)
    (by norm_num) (by norm_num)
    (roundNearestEven_of_near (by norm_num) (by norm_num))
  simpa using this

/-- C24, counterexample. With the threshold `t = 1` the weights `old = 2 ^ 53` and
`new = 2 ^ 53 + 1` are accepted: the conversion of `new` to `double` gives `2 ^ 53`, so
`ratio` is 1, while the exact ratio is above 1. With `t = 3` the weights
`old = 8106479329266892` and `new = 2702159776422297`, both converted exactly, are
accepted: the `double` quotient equals `down_threshold`, the `double` nearest to `1/3`,
while the exact ratio is below `1/3`. -/
theorem C24_counterexample :
    toDouble 1 = 1 ∧ (UpdateFilter.ofThreshold 1).test (2 ^ 53) (2 ^ 53 + 1) = true ∧
    ¬ (((2 ^ 53 + 1 : ℕ) : ℚ) / ((2 ^ 53 : ℕ) : ℚ) ≤ 1) ∧
    toDouble 3 = 3 ∧
    (UpdateFilter.ofThreshold 3).test 8106479329266892 2702159776422297 = true ∧
    ((2702159776422297 : ℕ) : ℚ) / ((8106479329266892 : ℕ) : ℚ) < 1 / 3 := by
  have h3 : toDouble 3 = 3 := by
    have := @toDouble_natCast 3 (by norm_num)
    simpa using this
  refine ⟨toDouble_one, ?_, by norm_num, h3, ?_, by norm_num⟩
  · rw [filter_test_iff]
    have e1 : toDouble (((2 ^ 53 + 1 : ℕ) : ℚ)) = ((2 ^ 53 : ℕ) : ℚ) := by
      have := @toDouble_eval (((2 ^ 53 + 1 : ℕ) : ℚ)) 53 (2 ^ 52) (by norm_num) (by norm_num)
        (by norm_num) (by norm_num)
        (roundNearestEven_tie (by norm_num) (by norm_num))
      rw [this]
      norm_num
    have e2 : toDouble (((2 ^ 53 : ℕ) : ℚ)) = ((2 ^ 53 : ℕ) : ℚ) :=
      toDouble_natCast (le_refl _)
    have e3 : ((2 ^ 53 : ℕ) : ℚ) / ((2 ^ 53 : ℕ) : ℚ) = 1 := by norm_num
    rw [e1, e2, e3, div_one, toDouble_one]
    exact ⟨by norm_num, by norm_num, le_refl _, le_refl _⟩
  · rw [filter_test_iff]
    have e1 : toDouble ((2702159776422297 : ℕ) : ℚ) = ((2702159776422297 : ℕ) : ℚ) :=
      toDouble_natCast (by norm_num)
    have e2 : toDouble ((8106479329266892 : ℕ) : ℚ) = ((8106479329266892 : ℕ) : ℚ) :=
      toDouble_natCast (by norm_num)
    have e3 : toDouble (((2702159776422297 : ℕ) : ℚ) / ((8106479329266892 : ℕ) : ℚ))
        = 6004799503160661 * 2 ^ (-54 : ℤ) := by
      have := @toDouble_eval (((2702159776422297 : ℕ) : ℚ) / ((8106479329266892 : ℕ) : ℚ))
        (-2) 6004799503160661 (by norm_num) (by norm_num) (by norm_num) (by norm_num)
        (roundNearestEven_of_near (by norm_num) (by norm_num))
      simpa using this
    rw [e1, e2, e3, toDouble_third]
    exact ⟨by norm_num, by norm_num, le_refl _, by norm_num⟩

/-- For weights that convert to `double` exactly, every exact ratio in `[1/t, t]` is
accepted. -/
theorem filter_accepts (t : ℚ) (oldValue newValue : ℕ) (ht : 1 ≤ t) (hd : toDouble t = t)
    (ho : oldValue ≤ 2 ^ 53) (hn : newValue ≤ 2 ^ 53) (ho0 : oldValue ≠ 0)
    (hn0 : newValue ≠ 0) (h1 : 1 / t ≤ (newValue : ℚ) / oldValue)
    (h2 : (newValue : ℚ) / oldValue ≤ t) :
    (UpdateFilter.ofThreshold t).test oldValue newValue = true := by
  have ht0 : (0 : ℚ) < t := lt_of_lt_of_le (by norm_num) ht
  have e1 : toDouble (newValue : ℚ) = newValue := toDouble_natCast hn
  have e2 : toDouble (oldValue : ℚ) = oldValue := toDouble_natCast ho
  have hop : (0 : ℚ) < oldValue := by exact_mod_cast Nat.pos_of_ne_zero ho0
  have hnp : (0 : ℚ) < newValue := by exact_mod_cast Nat.pos_of_ne_zero hn0
  have hr : (0 : ℚ) < (newValue : ℚ) / oldValue := div_pos hnp hop
  rw [filter_test_iff, e1, e2]
  refine ⟨hn0, ho0, toDouble_mono (by positivity) h1, ?_⟩
  have := toDouble_mono hr h2
  rwa [hd] at this

/-- For weights that convert to `double` exactly, an accepted ratio lies within the
rounding distance of `[1/t, t]`. -/
theorem filter_tolerance (t : ℚ) (oldValue newValue : ℕ) (ht : 1 ≤ t)
    (ho : oldValue ≤ 2 ^ 53) (hn : newValue ≤ 2 ^ 53)
    (h : (UpdateFilter.ofThreshold t).test oldValue newValue = true) :
    (1 - 2 ^ (-52 : ℤ)) / t ≤ (newValue : ℚ) / oldValue ∧
    (newValue : ℚ) / oldValue ≤ (1 + 2 ^ (-52 : ℤ)) * t := by
  have ht0 : (0 : ℚ) < t := lt_of_lt_of_le (by norm_num) ht
  have hnz := (filter_test_iff t oldValue newValue).1 h
  have ho0 : oldValue ≠ 0 := hnz.2.1
  have hn0 : newValue ≠ 0 := hnz.1
  have e1 : toDouble (newValue : ℚ) = newValue := toDouble_natCast hn
  have e2 : toDouble (oldValue : ℚ) = oldValue := toDouble_natCast ho
  have hop : (0 : ℚ) < oldValue := by exact_mod_cast Nat.pos_of_ne_zero ho0
  have hnp : (0 : ℚ) < newValue := by exact_mod_cast Nat.pos_of_ne_zero hn0
  have hr : (0 : ℚ) < (newValue : ℚ) / oldValue := div_pos hnp hop
  rw [filter_test_iff, e1, e2] at h
  obtain ⟨_, _, hlow, hup⟩ := h
  have hrlow : (2 : ℚ) ^ (-53 : ℤ) ≤ (newValue : ℚ) / oldValue := by
    rw [le_div_iff₀ hop]
    have h1 : (oldValue : ℚ) ≤ 2 ^ 53 := by exact_mod_cast ho
    have h2 : (1 : ℚ) ≤ newValue := by exact_mod_cast Nat.pos_of_ne_zero hn0
    have h3 : (2 : ℚ) ^ (-53 : ℤ) * 2 ^ 53 = 1 := by norm_num
    calc (2 : ℚ) ^ (-53 : ℤ) * oldValue ≤ 2 ^ (-53 : ℤ) * 2 ^ 53 :=
          mul_le_mul_of_nonneg_left h1 (le_of_lt (two_zpow_pos _))
      _ = 1 := h3
      _ ≤ newValue := h2
  have hrn : -1022 ≤ Int.log 2 ((newValue : ℚ) / oldValue) := by
    have : (-53 : ℤ) ≤ Int.log 2 ((newValue : ℚ) / oldValue) := by
      apply (Int.zpow_le_iff_le_log (by norm_num : 1 < 2) hr).1
      exact_mod_cast hrlow
    omega
  have herr := abs_le.1 (toDouble_error hr hrn)
  have hc : (2 : ℚ) ^ (-53 : ℤ) = 1 / 9007199254740992 := by norm_num
  have hc2 : (2 : ℚ) ^ (-52 : ℤ) = 1 / 4503599627370496 := by norm_num
  rw [hc] at herr hrlow
  rw [hc2]
  constructor
  · have hs : (0 : ℚ) < 1 / t := by positivity
    rw [show (1 - 1 / 4503599627370496) / t = (1 - 1 / 4503599627370496) * (1 / t) by
      ring]
    by_cases hnorm : -1022 ≤ Int.log 2 (1 / t)
    · have herr2 := abs_le.1 (toDouble_error hs hnorm)
      rw [hc] at herr2
      linarith [herr.2, herr2.1]
    · have hlt : 1 / t < 2 ^ (-1022 : ℤ) := by
        have := (Int.lt_zpow_iff_log_lt (by norm_num : 1 < 2) hs).2
          (show Int.log 2 (1 / t) < -1022 by omega)
        exact_mod_cast this
      have hsmall : (2 : ℚ) ^ (-1022 : ℤ) ≤ 1 / 9007199254740992 := by
        rw [← hc]
        exact zpow_le_zpow_right₀ (by norm_num) (by norm_num)
      linarith
  · linarith [herr.1]

/-- C24, amended: the update filter with a finite `double` threshold `t ≥ 1`. The call
`test(old, new)` is true only if `old ≠ 0` and `new ≠ 0`, so insertions and deletions are
never accepted. For weights up to `2 ^ 53`, which convert to `double` exactly, it is true
whenever the exact ratio `new/old` lies in `[1/t, t]`, and whenever it is true the exact
ratio lies in `[(1 - 2 ^ (-52)) / t, (1 + 2 ^ (-52)) * t]`: the comparisons are made on the
rounded quotients. -/
theorem C24_update_filter (t : ℚ) (oldValue newValue : ℕ) (ht : 1 ≤ t)
    (hd : toDouble t = t) :
    ((UpdateFilter.ofThreshold t).test oldValue newValue = true →
      oldValue ≠ 0 ∧ newValue ≠ 0) ∧
    (UpdateFilter.ofThreshold t).test 0 newValue = false ∧
    (UpdateFilter.ofThreshold t).test oldValue 0 = false ∧
    (oldValue ≤ 2 ^ 53 → newValue ≤ 2 ^ 53 → oldValue ≠ 0 → newValue ≠ 0 →
      (1 / t ≤ (newValue : ℚ) / oldValue → (newValue : ℚ) / oldValue ≤ t →
        (UpdateFilter.ofThreshold t).test oldValue newValue = true) ∧
      ((UpdateFilter.ofThreshold t).test oldValue newValue = true →
        (1 - 2 ^ (-52 : ℤ)) / t ≤ (newValue : ℚ) / oldValue ∧
        (newValue : ℚ) / oldValue ≤ (1 + 2 ^ (-52 : ℤ)) * t)) := by
  refine ⟨?_, ?_, ?_, ?_⟩
  · intro h
    have := (filter_test_iff t oldValue newValue).1 h
    exact ⟨this.2.1, this.1⟩
  · simp [UpdateFilter.test]
  · simp [UpdateFilter.test]
  · intro ho hn ho0 hn0
    exact ⟨filter_accepts t oldValue newValue ht hd ho hn ho0 hn0,
      filter_tolerance t oldValue newValue ht ho hn⟩

theorem C24_update_filter_witness :
    (UpdateFilter.ofThreshold 2).test 4 5 = true ∧
    (1 - 2 ^ (-52 : ℤ)) / 2 ≤ ((5 : ℕ) : ℚ) / (4 : ℕ) ∧
    ((5 : ℕ) : ℚ) / (4 : ℕ) ≤ (1 + 2 ^ (-52 : ℤ)) * 2 :=
  ⟨((C24_update_filter 2 4 5 (by norm_num)
      (by simpa using @toDouble_natCast 2 (by norm_num))).2.2.2
      (by norm_num) (by norm_num) (by norm_num) (by norm_num)).1 (by norm_num) (by norm_num),
    ((C24_update_filter 2 4 5 (by norm_num)
      (by simpa using @toDouble_natCast 2 (by norm_num))).2.2.2
      (by norm_num) (by norm_num) (by norm_num) (by norm_num)).2
      (((C24_update_filter 2 4 5 (by norm_num)
        (by simpa using @toDouble_natCast 2 (by norm_num))).2.2.2
        (by norm_num) (by norm_num) (by norm_num) (by norm_num)).1 (by norm_num)
        (by norm_num))⟩

/-! ## Dynamic greedy -/

theorem dynamic_register_coloring (st : DynamicGreedy) (G : DiGraph) (arc : Arc) :
    (st.register_neighbors_for_post_processing G arc).coloring = st.coloring := by
  unfold DynamicGreedy.register_neighbors_for_post_processing
  split <;> rfl

theorem dynamic_filtered_coloring (st : DynamicGreedy) (G : DiGraph) (arc : Arc)
    (oldValue newValue : Nat) : (st.filtered G arc oldValue newValue).coloring = st.coloring := by
  unfold DynamicGreedy.filtered
  split
  · split
    · exact dynamic_register_coloring st G arc
    · split <;> rfl
  · rfl

theorem edge_filtered_coloring (st : KEdgeColoring_2) (G : DiGraph) (arc : Arc)
    (oldValue newValue : Nat) : (st.filtered G arc oldValue newValue).coloring = st.coloring := by
  unfold KEdgeColoring_2.filtered
  split
  · split
    · exact register_neighbors_coloring st G arc
    · split <;> rfl
  · rfl

/-- A weight change of a coloured arc that leaves the colours alone moves the total weight
by the difference of the weights and keeps the invariant. -/
theorem CInv.weight_change {G : DiGraph} {b : Nat} {wOld : Arc → Nat} {s : Coloring}
    (h : CInv G b wOld s) {arc : Arc} (ha : arc ∈ G.arcs) (newValue : Nat)
    (hcd : s.base.is_colored arc = true) (h1 : (G.arcs.map wOld).sum < 2 ^ 64)
    (h2 : (G.arcs.map (Function.update wOld arc newValue)).sum < 2 ^ 64) :
    CInv G b (Function.update wOld arc newValue)
      { s with base := s.base.onEdgeWeightChange arc (wOld arc) newValue } ∧
    (s.base.onEdgeWeightChange arc (wOld arc) newValue).getTotalWeight + wOld arc
      = s.base.getTotalWeight + newValue := by
  have hsame : coloredWeight G (Function.update wOld arc newValue)
      (s.base.onEdgeWeightChange arc (wOld arc) newValue)
      = coloredWeight G (Function.update wOld arc newValue) s.base :=
    coloredWeight_congr G _ (fun e => is_colored_onEdgeWeightChange s.base arc _ _ e)
  have hcw := coloredWeight_weight G s.base h.nodup wOld ha newValue
  rw [if_pos hcd, if_pos hcd, hsame] at hcw
  have hle1 := coloredWeight_le_sum G wOld s.base
  have hle2 := coloredWeight_le_sum G (Function.update wOld arc newValue) s.base
  have hge := le_coloredWeight_of_colored G wOld s.base ha hcd
  have hwt := h.wt
  rw [Nat.mod_eq_of_lt (by omega)] at hwt
  have htot : (s.base.onEdgeWeightChange arc (wOld arc) newValue).total_weight
      = coloredWeight G (Function.update wOld arc newValue) s.base := by
    unfold KColoring.onEdgeWeightChange
    rw [if_pos hcd]
    show add64 (sub64 s.base.total_weight (wOld arc)) newValue = _
    rw [hwt]
    generalize coloredWeight G (Function.update wOld arc newValue) s.base = X at hcw hle2 ⊢
    generalize coloredWeight G wOld s.base = Y at hcw hle1 hge ⊢
    generalize (G.arcs.map wOld).sum = S1 at h1 hle1
    generalize (G.arcs.map (Function.update wOld arc newValue)).sum = S2 at h2 hle2
    unfold add64 sub64
    omega
  have harc : (s.base.onEdgeWeightChange arc (wOld arc) newValue).arc_colors
      = s.base.arc_colors := by
    unfold KColoring.onEdgeWeightChange
    split <;> rfl
  have hmates : (s.base.onEdgeWeightChange arc (wOld arc) newValue).mates_by_color
      = s.base.mates_by_color := by
    unfold KColoring.onEdgeWeightChange
    split <;> rfl
  refine ⟨⟨h.width, h.nodup, ?_, ?_, ?_, ?_, ?_⟩, ?_⟩
  · exact Consistent.onEdgeWeightChange h.base arc (wOld arc) newValue
  · refine ⟨h.am.len, ?_, ?_⟩
    · intro a ha1 hlt
      show s.am.getArcToMate
          ((s.base.onEdgeWeightChange arc (wOld arc) newValue).arc_colors a) a.tail = some a ∧
        s.am.getArcToMate
          ((s.base.onEdgeWeightChange arc (wOld arc) newValue).arc_colors a) a.head = some a
      change (s.base.onEdgeWeightChange arc (wOld arc) newValue).arc_colors a < b at hlt
      rw [harc] at hlt ⊢
      exact h.am.entry_of_arc a ha1 hlt
    · intro c v a hc hm
      show a ∈ G.arcs ∧ a.incident v ∧
        (s.base.onEdgeWeightChange arc (wOld arc) newValue).arc_colors a = c
      rw [harc]
      exact h.am.arc_of_entry c v a hc hm
  · refine ⟨h.fc.bound, ?_, h.fc.size⟩
    intro v c hc
    show (s.fc.free_colors v).bits.testBit c
      = (s.base.onEdgeWeightChange arc (wOld arc) newValue).is_color_free v c
    have : (s.base.onEdgeWeightChange arc (wOld arc) newValue).is_color_free v c
        = s.base.is_color_free v c := by
      unfold KColoring.is_color_free
      rw [hmates]
    rw [this]
    exact h.fc.bit v c hc
  · show (s.base.onEdgeWeightChange arc (wOld arc) newValue).total_weight
      = coloredWeight G _ (s.base.onEdgeWeightChange arc (wOld arc) newValue) % 2 ^ 64
    rw [hsame, htot, Nat.mod_eq_of_lt (by omega)]
  · intro a ha1 hc1
    change (s.base.onEdgeWeightChange arc (wOld arc) newValue).is_colored a = true at hc1
    rw [is_colored_onEdgeWeightChange] at hc1
    exact h.edges a ha1 hc1
  · show (s.base.onEdgeWeightChange arc (wOld arc) newValue).total_weight + wOld arc
      = s.base.total_weight + newValue
    rw [htot, hwt]
    exact hcw

theorem dynamic_increase_colored (st : DynamicGreedy) (G : DiGraph) (w : Arc → Nat)
    (arc : Arc) {oldValue newValue : Nat} (hlt : oldValue < newValue)
    (hcd : st.coloring.base.is_colored arc = true) :
    ∃ st1, st.onPropertyChange G w arc oldValue newValue = Except.ok st1 ∧
      st1.coloring = st.coloring := by
  unfold DynamicGreedy.onPropertyChange
  by_cases ht : st.update_filter.test oldValue newValue = true
  · rw [if_pos ht]
    exact ⟨_, rfl, dynamic_filtered_coloring st G arc oldValue newValue⟩
  · rw [if_neg ht, if_pos hlt, if_neg (by rw [hcd]; exact Bool.noConfusion)]
    exact ⟨st, rfl, rfl⟩

/-- C25: filtered events leave the colouring untouched. Whenever
`update_filter.test(old, new)` is true, `onPropertyChange` of `DynamicGreedy` and of
`KEdgeColoring_2` (in every mode) returns with the colouring as it was. In `DynamicGreedy`
a weight increase of a coloured arc, filtered or not, returns with the colouring as it
was; with the call of `KColoring::onEdgeWeightChange` for the same change, before or after
the handler, no arc changes its colour and `deliver()` grows by `new - old`, for a
consistent colouring and weights whose sum stays below `2 ^ 64`. -/
theorem C25_filtered_events_keep_coloring (G : DiGraph) (w : Arc → Nat) (arc : Arc)
    (oldValue newValue : Nat) :
    (∀ st : DynamicGreedy, st.update_filter.test oldValue newValue = true →
      ∃ st1, st.onPropertyChange G w arc oldValue newValue = Except.ok st1 ∧
        st1.coloring = st.coloring) ∧
    (∀ (fuel : Nat) (st : KEdgeColoring_2), st.update_filter.test oldValue newValue = true →
      ∃ st1, st.onPropertyChange fuel G w arc oldValue newValue = Except.ok st1 ∧
        st1.coloring = st.coloring) ∧
    (∀ st : DynamicGreedy, oldValue < newValue → st.coloring.base.is_colored arc = true →
      ∃ st1, st.onPropertyChange G w arc oldValue newValue = Except.ok st1 ∧
        st1.coloring = st.coloring) ∧
    (∀ (st : DynamicGreedy) (b : Nat) (wOld : Arc → Nat) (handlerFirst : Bool),
      CInv G b wOld st.coloring → arc ∈ G.arcs → wOld arc = oldValue →
      w = Function.update wOld arc newValue → (G.arcs.map wOld).sum < 2 ^ 64 →
      (G.arcs.map w).sum < 2 ^ 64 → oldValue < newValue →
      st.coloring.base.is_colored arc = true →
      ∃ st1, st.weightChange handlerFirst G w arc oldValue newValue = Except.ok st1 ∧
        (∀ a, st1.coloring.base.get_color a = st.coloring.base.get_color a) ∧
        st1.deliver + oldValue = st.deliver + newValue ∧ CInv G b w st1.coloring) := by
  refine ⟨?_, ?_, ?_, ?_⟩
  · intro st ht
    unfold DynamicGreedy.onPropertyChange
    rw [if_pos ht]
    exact ⟨_, rfl, dynamic_filtered_coloring st G arc oldValue newValue⟩
  · intro fuel st ht
    unfold KEdgeColoring_2.onPropertyChange
    by_cases hs : st.algo_type = k_edge_coloring_algo_type.STATIC
    · rw [if_pos hs]
      exact ⟨st, rfl, rfl⟩
    · rw [if_neg hs, if_pos ht]
      exact ⟨_, rfl, edge_filtered_coloring st G arc oldValue newValue⟩
  · intro st hlt hcd
    exact dynamic_increase_colored st G w arc hlt hcd
  · intro st b wOld handlerFirst hinv ha hold hw h1 h2 hlt hcd
    subst hold
    subst hw
    obtain ⟨g1, g2⟩ := hinv.weight_change ha newValue hcd h1 h2
    unfold DynamicGreedy.weightChange
    by_cases hf : handlerFirst = true
    · rw [if_pos hf]
      obtain ⟨st1, e1, e2⟩ := dynamic_increase_colored st G
        (Function.update wOld arc newValue) arc hlt hcd
      rw [e1]
      refine ⟨_, rfl, ?_, ?_, ?_⟩
      · intro a
        show (st1.coloring.base.onEdgeWeightChange arc (wOld arc) newValue).get_color a = _
        rw [e2]
        unfold KColoring.onEdgeWeightChange
        split <;> rfl
      · show (st1.coloring.base.onEdgeWeightChange arc (wOld arc) newValue).getTotalWeight
          + wOld arc = _
        rw [e2]
        exact g2
      · show CInv G b _ { st1.coloring with
          base := st1.coloring.base.onEdgeWeightChange arc (wOld arc) newValue }
        rw [e2]
        exact g1
    · rw [if_neg hf]
      have hcd2 : (st.coloring.base.onEdgeWeightChange arc (wOld arc) newValue).is_colored arc
          = true := by
        rw [is_colored_onEdgeWeightChange]
        exact hcd
      obtain ⟨st1, e1, e2⟩ := dynamic_increase_colored
        { st with
          coloring := { st.coloring with
            base := st.coloring.base.onEdgeWeightChange arc (wOld arc) newValue } }
        G (Function.update wOld arc newValue) arc hlt hcd2
      refine ⟨st1, e1, ?_, ?_, ?_⟩
      · intro a
        rw [e2]
        show (st.coloring.base.onEdgeWeightChange arc (wOld arc) newValue).get_color a = _
        unfold KColoring.onEdgeWeightChange
        split <;> rfl
      · show st1.coloring.base.getTotalWeight + wOld arc = _
        rw [e2]
        exact g2
      · rw [e2]
        exact g1

theorem middleColoring_inv : CInv pathGraph 1 lightEnds middleColoring :=
  thenColor_inv _ _ (freshColoring_inv pathGraph (by decide) lightEnds (by decide))
    (by decide)

theorem filter_two_accepts : (UpdateFilter.ofThreshold 2).test 5 6 = true :=
  filter_accepts 2 5 6 (by norm_num) (by simpa using @toDouble_natCast 2 (by norm_num))
    (by norm_num) (by norm_num) (by norm_num) (by norm_num) (by norm_num) (by norm_num)

theorem C25_filtered_events_keep_coloring_witness :
    (∃ st1, (dynamicGreedyOn middleColoring).onPropertyChange pathGraph raisedMiddle
        ⟨1, 1, 2⟩ 5 6 = Except.ok st1 ∧ st1.coloring = middleColoring) ∧
    (∃ st1, filteredEdgeColoring.onPropertyChange 3 pathGraph raisedMiddle ⟨1, 1, 2⟩ 5 6
        = Except.ok st1 ∧ st1.coloring = middleColoring) ∧
    (∃ st1, (dynamicGreedyOn middleColoring).onPropertyChange pathGraph raisedMiddle
        ⟨1, 1, 2⟩ 5 6 = Except.ok st1 ∧ st1.coloring = middleColoring) ∧
    (∃ st1, (dynamicGreedyOn middleColoring).weightChange true pathGraph raisedMiddle
        ⟨1, 1, 2⟩ 5 6 = Except.ok st1 ∧
      (∀ a, st1.coloring.base.get_color a = middleColoring.base.get_color a) ∧
      st1.deliver + 5 = (dynamicGreedyOn middleColoring).deliver + 6 ∧
      CInv pathGraph 1 raisedMiddle st1.coloring) :=
  ⟨(C25_filtered_events_keep_coloring pathGraph raisedMiddle ⟨1, 1, 2⟩ 5 6).1
      (dynamicGreedyOn middleColoring) filter_two_accepts,
    (C25_filtered_events_keep_coloring pathGraph raisedMiddle ⟨1, 1, 2⟩ 5 6).2.1 3
      filteredEdgeColoring filter_two_accepts,
    (C25_filtered_events_keep_coloring pathGraph raisedMiddle ⟨1, 1, 2⟩ 5 6).2.2.1
      (dynamicGreedyOn middleColoring) (by decide) (by decide),
    (C25_filtered_events_keep_coloring pathGraph raisedMiddle ⟨1, 1, 2⟩ 5 6).2.2.2
      (dynamicGreedyOn middleColoring) 1 lightEnds true middleColoring_inv (by decide)
      (by decide) rfl (by decide) (by decide) (by decide) (by decide)⟩

/-- The arc `(1,2)` of the path `0 - 1 - 2 - 3` is coloured 0 and its weight has fallen
from 5 to 1; the threshold 2 does not filter this change. -/
theorem filter_two_rejects : (UpdateFilter.ofThreshold 2).test 5 1 = false := by
  cases h : (UpdateFilter.ofThreshold 2).test 5 1
  · rfl
  · have := (filter_tolerance 2 5 1 (by norm_num) (by norm_num) (by norm_num) h).1
    norm_num at this

/-- C26, evaluation of the code. `find_heavy_candidates` returns the null pair on every
input: the loops that collect and sort the candidates work on copies of the vectors
`candidates_tail` and `candidates_head`, which stay empty. On the path `0 - 1 - 2 - 3`
with one colour, `(1,2)` coloured 0, the weights 3, 5, 3 and the weight of `(1,2)` lowered
to 1, the copies hold the candidates `(0,1)` and `(2,3)`, whose far ends 0 and 3 differ and
whose weights sum to 6; the rest of the function would return this pair for them. The
handler colours neither: `(1,2)` is uncoloured and coloured 0 again. -/
theorem C26_decrease_never_replaces :
    (∀ (s : Coloring) (G : DiGraph) (w : Arc → Nat) (arc : Arc) (arc_color weight_to_beat : Nat),
      ∃ pair, find_heavy_candidates s G w arc arc_color weight_to_beat = Except.ok pair ∧
        pair.tail_arc = Option.none ∧ pair.head_arc = Option.none ∧ pair.weight = 0) ∧
    CInv pathGraph 1 lightEnds middleColoring ∧
    fillCandidates middleColoring pathGraph ⟨1, 1, 2⟩ 0 1 [] = [⟨0, 0, 1⟩] ∧
    fillCandidates middleColoring pathGraph ⟨1, 1, 2⟩ 0 2 [] = [⟨2, 2, 3⟩] ∧
    (⟨0, 0, 1⟩ : Arc).getOther 1 ≠ (⟨2, 2, 3⟩ : Arc).getOther 2 ∧
    loweredMiddle ⟨1, 1, 2⟩ = 1 ∧
    loweredMiddle ⟨0, 0, 1⟩ + loweredMiddle ⟨2, 2, 3⟩ = 6 ∧
    (∃ pair, heavyPair loweredMiddle ⟨1, 1, 2⟩ 1 [⟨0, 0, 1⟩] [⟨2, 2, 3⟩] = Except.ok pair ∧
      pair.tail_arc = some ⟨0, 0, 1⟩ ∧ pair.head_arc = some ⟨2, 2, 3⟩ ∧ pair.weight = 6) ∧
    (UpdateFilter.ofThreshold 2).test 5 1 = false ∧
    ∃ st1, (dynamicGreedyOn middleColoring).onPropertyChange pathGraph loweredMiddle
        ⟨1, 1, 2⟩ 5 1 = Except.ok st1 ∧
      st1.coloring.base.get_color <$> pathGraph.arcs = [UNCOLORED, 0, UNCOLORED] := by
  have e : (dynamicGreedyOn middleColoring).onPropertyChange pathGraph loweredMiddle
      ⟨1, 1, 2⟩ 5 1
      = (dynamicGreedyOn middleColoring).decreaseWeight pathGraph loweredMiddle ⟨1, 1, 2⟩ := by
    unfold DynamicGreedy.onPropertyChange
    have ht : (dynamicGreedyOn middleColoring).update_filter.test 5 1 = false :=
      filter_two_rejects
    rw [ht]
    rfl
  refine ⟨fun s G w arc arc_color weight_to_beat => ⟨_, rfl, rfl, rfl, rfl⟩,
    middleColoring_inv, by decide, by decide, by decide, by decide, by decide,
    ⟨_, rfl, rfl, rfl, rfl⟩, filter_two_rejects,
    okOrDynamic ((dynamicGreedyOn middleColoring).decreaseWeight pathGraph loweredMiddle
      ⟨1, 1, 2⟩) (dynamicGreedyOn middleColoring), e.trans rfl, by decide⟩

theorem pairWeightAt_zero (w : Arc → Nat) (arc : Arc) (m : Nat → Option Arc)
    (t : List (Nat → Option Arc)) :
    pairWeightAt w arc (m :: t) 0
      = add64 (add64 0 (mateWeight w (m arc.tail))) (mateWeight w (m arc.head)) := rfl

theorem pairWeightAt_succ (w : Arc → Nat) (arc : Arc) (m : Nat → Option Arc)
    (t : List (Nat → Option Arc)) (i : Nat) :
    pairWeightAt w arc (m :: t) (i + 1) = pairWeightAt w arc t i := rfl

theorem lightestLoop_spec (w : Arc → Nat) (arc : Arc) :
    ∀ (t : List (Nat → Option Arc)) (col0 : Nat) (st : AdjacentArcWeightPair × Nat),
      (lightestLoop w arc t col0 st = st ∧
        ∀ i, i < t.length → st.1.weight ≤ pairWeightAt w arc t i) ∨
      (∃ i, i < t.length ∧
        lightestLoop w arc t col0 st
          = (⟨tableGet t i arc.tail, tableGet t i arc.head, pairWeightAt w arc t i⟩,
              col0 + i) ∧
        pairWeightAt w arc t i < st.1.weight ∧
        (∀ j, j < i → pairWeightAt w arc t i < pairWeightAt w arc t j) ∧
        ∀ j, j < t.length → pairWeightAt w arc t i ≤ pairWeightAt w arc t j) := by
  intro t
  induction t with
  | nil =>
    intro col0 st
    exact Or.inl ⟨rfl, fun i hi => absurd hi (Nat.not_lt_zero i)⟩
  | cons m rest ih =>
    intro col0 st
    have hunf : lightestLoop w arc (m :: rest) col0 st
        = lightestLoop w arc rest (col0 + 1)
          (if pairWeightAt w arc (m :: rest) 0 < st.1.weight then
            (⟨m arc.tail, m arc.head, pairWeightAt w arc (m :: rest) 0⟩, col0)
          else st) := rfl
    rw [hunf]
    by_cases hlt : pairWeightAt w arc (m :: rest) 0 < st.1.weight
    · rw [if_pos hlt]
      rcases ih (col0 + 1) (⟨m arc.tail, m arc.head, pairWeightAt w arc (m :: rest) 0⟩, col0)
        with ⟨e, hall⟩ | ⟨i, hi, e, h1, h2, h3⟩
      · right
        refine ⟨0, Nat.succ_pos _, ?_, hlt, fun j hj => absurd hj (Nat.not_lt_zero j), ?_⟩
        · rw [e]
          rfl
        · intro j hj
          cases j with
          | zero => exact le_refl _
          | succ j1 =>
            rw [pairWeightAt_succ]
            exact hall j1 (Nat.lt_of_succ_lt_succ hj)
      · right
        refine ⟨i + 1, Nat.succ_lt_succ hi, ?_, ?_, ?_, ?_⟩
        · rw [e, tableGet_succ, tableGet_succ, pairWeightAt_succ]
          have : col0 + 1 + i = col0 + (i + 1) := by omega
          rw [this]
        · rw [pairWeightAt_succ]
          exact lt_trans h1 hlt
        · intro j hj
          rw [pairWeightAt_succ]
          cases j with
          | zero => exact h1
          | succ j1 =>
            rw [pairWeightAt_succ]
            exact h2 j1 (Nat.lt_of_succ_lt_succ hj)
        · intro j hj
          rw [pairWeightAt_succ]
          cases j with
          | zero => exact le_of_lt h1
          | succ j1 =>
            rw [pairWeightAt_succ]
            exact h3 j1 (Nat.lt_of_succ_lt_succ hj)
    · rw [if_neg hlt]
      rcases ih (col0 + 1) st with ⟨e, hall⟩ | ⟨i, hi, e, h1, h2, h3⟩
      · left
        refine ⟨e, ?_⟩
        intro j hj
        cases j with
        | zero => exact Nat.le_of_not_lt hlt
        | succ j1 =>
          rw [pairWeightAt_succ]
          exact hall j1 (Nat.lt_of_succ_lt_succ hj)
      · right
        refine ⟨i + 1, Nat.succ_lt_succ hi, ?_, ?_, ?_, ?_⟩
        · rw [e, tableGet_succ, tableGet_succ, pairWeightAt_succ]
          have : col0 + 1 + i = col0 + (i + 1) := by omega
          rw [this]
        · rw [pairWeightAt_succ]
          exact h1
        · intro j hj
          rw [pairWeightAt_succ]
          cases j with
          | zero => exact lt_of_lt_of_le h1 (Nat.le_of_not_lt hlt)
          | succ j1 =>
            rw [pairWeightAt_succ]
            exact h2 j1 (Nat.lt_of_succ_lt_succ hj)
        · intro j hj
          rw [pairWeightAt_succ]
          cases j with
          | zero => exact le_of_lt (lt_of_lt_of_le h1 (Nat.le_of_not_lt hlt))
          | succ j1 =>
            rw [pairWeightAt_succ]
            exact h3 j1 (Nat.lt_of_succ_lt_succ hj)

/-- The weight of the arc to a mate of a consistent colouring is the weight of an arc of
the graph. -/
theorem mateWeight_lt {G : DiGraph} {b : Nat} {w : Arc → Nat} {s : Coloring}
    (h : CInv G b w s) {B : Nat} (hw : ∀ x ∈ G.arcs, w x < B) (hB : 0 < B) {c v : Nat}
    (hc : c < b) : mateWeight w (s.am.getArcToMate c v) < B := by
  cases hm : s.am.getArcToMate c v with
  | none => exact hB
  | some x => exact hw x (h.am.arc_of_entry c v x hc hm).1

theorem pairWeight_eq {G : DiGraph} {b : Nat} {w : Arc → Nat} {s : Coloring}
    (h : CInv G b w s) (hw : ∀ x ∈ G.arcs, w x < 2 ^ 63) (arc : Arc) {c : Nat} (hc : c < b) :
    s.am.pairWeight w arc c
      = mateWeight w (s.am.getArcToMate c arc.tail)
        + mateWeight w (s.am.getArcToMate c arc.head) ∧
    s.am.pairWeight w arc c < 2 ^ 64 - 1 := by
  have h1 := mateWeight_lt h hw (by norm_num) (v := arc.tail) hc
  have h2 := mateWeight_lt h hw (by norm_num) (v := arc.head) hc
  have e : s.am.pairWeight w arc c
      = add64 (add64 0 (mateWeight w (s.am.getArcToMate c arc.tail)))
          (mateWeight w (s.am.getArcToMate c arc.head)) := rfl
  rw [e]
  unfold add64
  constructor <;> omega

/-- The result of `lightest_adjacent_colored_arcs` on a consistent colouring with at least
one colour and weights below `2 ^ 63`. -/
theorem lightest_spec {G : DiGraph} {b : Nat} {w : Arc → Nat} {s : Coloring}
    (h : CInv G b w s) (hb : 1 ≤ b) (hw : ∀ x ∈ G.arcs, w x < 2 ^ 63) (arc : Arc) :
    ∃ c, c < b ∧
      s.am.lightest_adjacent_colored_arcs arc w
        = (⟨s.am.getArcToMate c arc.tail, s.am.getArcToMate c arc.head,
            s.am.pairWeight w arc c⟩, c) ∧
      (∀ c1, c1 < c → s.am.pairWeight w arc c < s.am.pairWeight w arc c1) ∧
      ∀ c1, c1 < b → s.am.pairWeight w arc c ≤ s.am.pairWeight w arc c1 := by
  have hlen := h.am.len
  rcases lightestLoop_spec w arc s.am.arcs_to_mates_by_color 0
    (⟨Option.none, Option.none, 2 ^ 64 - 1⟩, UNCOLORED) with ⟨_, hall⟩ | ⟨i, hi, e, _, h2, h3⟩
  · exfalso
    have h0 : 0 < s.am.arcs_to_mates_by_color.length := by omega
    have := hall 0 h0
    have hp := (pairWeight_eq h hw arc (show 0 < b by omega)).2
    change 2 ^ 64 - 1 ≤ s.am.pairWeight w arc 0 at this
    omega
  · rw [hlen] at hi h3
    refine ⟨i, hi, ?_, h2, h3⟩
    unfold ArcMateExtension.lightest_adjacent_colored_arcs
    rw [e, Nat.zero_add]
    rfl

theorem uncolorIf_ok {G : DiGraph} {b : Nat} {w : Arc → Nat} {s : Coloring}
    (h : CInv G b w s) {a : Option Arc}
    (ha : ∀ x, a = some x → x ∈ G.arcs ∧ s.base.is_colored x = true) :
    ∃ s1, uncolorIf s w a = Except.ok s1 ∧ CInv G b w s1 ∧
      (∀ y, s1.base.arc_colors y = if a = some y then UNCOLORED else s.base.arc_colors y) ∧
      (∀ v c1, c1 < b → s.base.is_color_free v c1 = true →
        s1.base.is_color_free v c1 = true) ∧
      (∀ x, a = some x → s.base.arc_colors x < b → ∀ v, x.incident v →
        s1.base.is_color_free v (s.base.arc_colors x) = true) := by
  cases a with
  | none =>
    refine ⟨s, rfl, h, ?_, fun _ _ _ hf => hf, fun x hx => Option.noConfusion hx⟩
    intro y
    simp
  | some x =>
    obtain ⟨hx1, hx2⟩ := ha x rfl
    obtain ⟨s1, e1, hinv, hbase, _⟩ := Coloring.uncolor_ok h hx1 hx2
    refine ⟨s1, e1, hinv, ?_, ?_, ?_⟩
    · intro y
      rw [hbase, arc_colors_uncolor]
      by_cases hy : y = x
      · subst hy
        simp
      · have : ¬ (some x = some y) := fun e => hy (Option.some.inj e).symm
        rw [if_neg hy, if_neg this]
    · intro v c1 hc1 hf
      rw [hbase, is_color_free_uncolor h.base h.bU w x hx2 v hc1]
      split
      · rfl
      · exact hf
    · intro x1 hx hlt v hv
      have ex : x = x1 := Option.some.inj hx
      subst ex
      rw [hbase, is_color_free_uncolor h.base h.bU w x hx2 v hlt]
      have : v = x.tail ∨ v = x.head := by
        rcases hv with hv | hv
        · exact Or.inl hv.symm
        · exact Or.inr hv.symm
      rw [if_pos ⟨rfl, this⟩]

theorem am_free_of_none {G : DiGraph} {b : Nat} {w : Arc → Nat} {s : Coloring}
    (h : CInv G b w s) {v c : Nat} (hc : c < b) (hm : s.am.getArcToMate c v = Option.none) :
    s.base.is_color_free v c = true := by
  cases hf : s.base.is_color_free v c
  · obtain ⟨a, ha, _⟩ := h.am_some_of_not_free hc hf
    rw [hm] at ha
    exact Option.noConfusion ha
  · rfl

theorem replacePair_ok {G : DiGraph} {b : Nat} {w : Arc → Nat} {s : Coloring}
    (h : CInv G b w s) (hs : G.simple) {arc : Arc} (ha : arc ∈ G.arcs)
    (hun : s.base.is_colored arc = false) {c : Nat} (hc : c < b) (P : Nat) :
    ∃ s3, replacePair s w arc
        ⟨s.am.getArcToMate c arc.tail, s.am.getArcToMate c arc.head, P⟩ c = Except.ok s3 ∧
      CInv G b w s3 ∧
      ∀ y, s3.base.arc_colors y =
        if y = arc then c
        else if s.am.getArcToMate c arc.tail = some y ∨ s.am.getArcToMate c arc.head = some y
          then UNCOLORED
        else s.base.arc_colors y := by
  have hmt : ∀ x, s.am.getArcToMate c arc.tail = some x →
      x ∈ G.arcs ∧ x.incident arc.tail ∧ s.base.arc_colors x = c :=
    fun x hx => h.am.arc_of_entry c arc.tail x hc hx
  have hmh : ∀ x, s.am.getArcToMate c arc.head = some x →
      x ∈ G.arcs ∧ x.incident arc.head ∧ s.base.arc_colors x = c :=
    fun x hx => h.am.arc_of_entry c arc.head x hc hx
  have hcol : ∀ x, s.base.arc_colors x = c → x ≠ arc := by
    intro x hx e
    subst e
    have := is_colored_of_lt h.base (show s.base.arc_colors x < b by rw [hx]; exact hc)
    rw [hun] at this
    exact Bool.noConfusion this
  have hdiff : ∀ x, s.am.getArcToMate c arc.tail = some x →
      s.am.getArcToMate c arc.head = some x → False := by
    intro x h1 h2
    obtain ⟨g1, g2, g3⟩ := hmt x h1
    obtain ⟨_, g4, _⟩ := hmh x h2
    exact hcol x g3 (hs.2 x g1 arc ha g2 g4)
  generalize hgt : s.am.getArcToMate c arc.tail = mt at hmt hdiff
  generalize hgh : s.am.getArcToMate c arc.head = mh at hmh hdiff
  obtain ⟨s1, e1, inv1, col1, mono1, new1⟩ := uncolorIf_ok h (a := mt)
    (fun x hx => ⟨(hmt x hx).1, is_colored_of_lt h.base (by rw [(hmt x hx).2.2]; exact hc)⟩)
  have hc1 : ∀ x, mh = some x → s1.base.arc_colors x = c := by
    intro x hx
    rw [col1, if_neg (fun e => hdiff x e hx)]
    exact (hmh x hx).2.2
  obtain ⟨s2, e2, inv2, col2, mono2, new2⟩ := uncolorIf_ok inv1 (a := mh)
    (fun x hx => ⟨(hmh x hx).1, is_colored_of_lt inv1.base (by rw [hc1 x hx]; exact hc)⟩)
  have ht1 : s1.base.is_color_free arc.tail c = true := by
    cases hm : mt with
    | none => exact mono1 _ _ hc (am_free_of_none h hc (hgt.trans hm))
    | some t =>
      have := new1 t hm (by rw [(hmt t hm).2.2]; exact hc) arc.tail (hmt t hm).2.1
      rwa [(hmt t hm).2.2] at this
  have ht2 : s2.base.is_color_free arc.tail c = true := mono2 _ _ hc ht1
  have hh2 : s2.base.is_color_free arc.head c = true := by
    cases hm : mh with
    | none => exact mono2 _ _ hc (mono1 _ _ hc (am_free_of_none h hc (hgh.trans hm)))
    | some x =>
      have := new2 x hm (by rw [hc1 x hm]; exact hc) arc.head (hmh x hm).2.1
      rwa [hc1 x hm] at this
  have hun2 : s2.base.is_colored arc = false := by
    unfold KColoring.is_colored
    rw [col2, col1, inv2.base.nc]
    have hU : ¬ UNCOLORED < b := Nat.not_lt.2 h.bU
    have hs0 : ¬ s.base.arc_colors arc < b := by
      intro hlt
      have := is_colored_of_lt h.base hlt
      rw [hun] at this
      exact Bool.noConfusion this
    split
    · exact decide_eq_false hU
    · split
      · exact decide_eq_false hU
      · exact decide_eq_false hs0
  obtain ⟨s3, e3, inv3, base3, _⟩ := Coloring.color_ok inv2 ha hun2 hc ht2 hh2 (hs.1 arc ha)
  refine ⟨s3, ?_, inv3, ?_⟩
  · unfold replacePair
    simp only [e1, e2, bind, Except.bind, check, KColoring.can_color, ht2, hh2, Bool.and_self,
      if_true, e3]
  · intro y
    rw [base3, arc_colors_color, col2, col1]
    by_cases hy : y = arc
    · rw [if_pos hy, if_pos hy]
    · rw [if_neg hy, if_neg hy]
      by_cases h1 : mh = some y
      · rw [if_pos h1, if_pos (Or.inr h1)]
      · rw [if_neg h1]
        by_cases h2 : mt = some y
        · rw [if_pos h2, if_pos (Or.inl h2)]
        · rw [if_neg h2, if_neg (fun e => e.elim h2 h1)]

theorem increaseStep_blocked {G : DiGraph} {b : Nat} {w : Arc → Nat} {st : DynamicGreedy}
    (h : CInv G b w st.coloring) {arc : Arc}
    (hun : st.coloring.base.is_colored arc = false)
    (hnc : ∀ c1, c1 < b → ¬ (st.coloring.base.is_color_free arc.tail c1 = true ∧
      st.coloring.base.is_color_free arc.head c1 = true)) :
    st.increaseWeight 0 w arc
      = (st.replaceOrRegister w arc).map Prod.fst := by
  obtain ⟨col, hcol, hcase⟩ := common_free_color_spec h.fc h.width arc.tail arc.head
  have hnpos : col = npos := by
    rcases hcase with ⟨e, _⟩ | ⟨_, hlt, h1, h2⟩
    · exact e
    · exact absurd ⟨h1, h2⟩ (hnc col hlt)
  subst hnpos
  unfold DynamicGreedy.increaseWeight DynamicGreedy.increaseStep attemptMatch
  simp only [hun, hcol, check, defined, bind, Except.bind, pure, Except.pure, Bool.not_false,
    if_true, ne_eq, not_true_eq_false, if_false, Bool.false_eq_true]
  cases st.replaceOrRegister w arc <;> rfl

/-- The lightest pair and the weight increase without recursion, away from the inputs on
which `increaseWeight` fails. On a consistent colouring of a simple graph with `b ≥ 1`
colours and weights below `2 ^ 63`, `lightest_adjacent_colored_arcs(a)` returns a colour `c < b` with
the arcs coloured `c` at the tail and at the head of `a` (null when there is none) and
the sum of their weights, and this sum is the least over the colours below `b`, for the
least such colour. The call `increaseWeight(a, 0)` of the deterministic variant for an
uncoloured arc `a` of the graph without a common free colour returns; if the sum is below
`w(a)`, the arc `a` has the colour `c` afterwards, the arcs of the pair are uncoloured and
no other arc has changed; if not, the colouring is as it was. -/
theorem lightest_pair_and_increase (G : DiGraph) (b : Nat) (w : Arc → Nat)
    (st : DynamicGreedy) (arc : Arc) (h : CInv G b w st.coloring) (hs : G.simple)
    (ha : arc ∈ G.arcs) (hb : 1 ≤ b) (hw : ∀ x ∈ G.arcs, w x < 2 ^ 63) :
    ((pick_pair_to_replace st.coloring w arc).2 < b ∧
      (pick_pair_to_replace st.coloring w arc).1.tail_arc
        = st.coloring.am.getArcToMate (pick_pair_to_replace st.coloring w arc).2 arc.tail ∧
      (pick_pair_to_replace st.coloring w arc).1.head_arc
        = st.coloring.am.getArcToMate (pick_pair_to_replace st.coloring w arc).2 arc.head ∧
      (pick_pair_to_replace st.coloring w arc).1.weight
        = mateWeight w (pick_pair_to_replace st.coloring w arc).1.tail_arc
          + mateWeight w (pick_pair_to_replace st.coloring w arc).1.head_arc ∧
      (∀ c1 v x, c1 < b → (st.coloring.am.getArcToMate c1 v = some x ↔
        x ∈ G.arcs ∧ x.incident v ∧ st.coloring.base.get_color x = c1)) ∧
      (∀ c1, c1 < b → (pick_pair_to_replace st.coloring w arc).1.weight
        ≤ mateWeight w (st.coloring.am.getArcToMate c1 arc.tail)
          + mateWeight w (st.coloring.am.getArcToMate c1 arc.head)) ∧
      (∀ c1, c1 < (pick_pair_to_replace st.coloring w arc).2 →
        (pick_pair_to_replace st.coloring w arc).1.weight
          < mateWeight w (st.coloring.am.getArcToMate c1 arc.tail)
            + mateWeight w (st.coloring.am.getArcToMate c1 arc.head))) ∧
    (st.coloring.base.is_colored arc = false →
      (∀ c1, c1 < b → ¬ (st.coloring.base.is_color_free arc.tail c1 = true ∧
        st.coloring.base.is_color_free arc.head c1 = true)) →
      (pick_pair_to_replace st.coloring w arc).1.weight < w arc →
      ∃ st1, st.increaseWeight 0 w arc = Except.ok st1 ∧ CInv G b w st1.coloring ∧
        st1.coloring.base.get_color arc = (pick_pair_to_replace st.coloring w arc).2 ∧
        (∀ x, ((pick_pair_to_replace st.coloring w arc).1.tail_arc = some x ∨
            (pick_pair_to_replace st.coloring w arc).1.head_arc = some x) →
          st1.coloring.base.is_colored x = false) ∧
        ∀ x, x ≠ arc → ¬ ((pick_pair_to_replace st.coloring w arc).1.tail_arc = some x ∨
            (pick_pair_to_replace st.coloring w arc).1.head_arc = some x) →
          st1.coloring.base.get_color x = st.coloring.base.get_color x) ∧
    (st.coloring.base.is_colored arc = false →
      (∀ c1, c1 < b → ¬ (st.coloring.base.is_color_free arc.tail c1 = true ∧
        st.coloring.base.is_color_free arc.head c1 = true)) →
      ¬ (pick_pair_to_replace st.coloring w arc).1.weight < w arc →
      ∃ st1, st.increaseWeight 0 w arc = Except.ok st1 ∧ st1.coloring = st.coloring) := by
  obtain ⟨c, hc, hpick, hfirst, hmin⟩ := lightest_spec h hb hw arc
  have hp : pick_pair_to_replace st.coloring w arc
      = (⟨st.coloring.am.getArcToMate c arc.tail, st.coloring.am.getArcToMate c arc.head,
          st.coloring.am.pairWeight w arc c⟩, c) := hpick
  rw [hp]
  refine ⟨⟨hc, rfl, rfl, (pairWeight_eq h hw arc hc).1, ?_, ?_, ?_⟩, ?_, ?_⟩
  · intro c1 v x hc1
    constructor
    · exact fun hm => h.am.arc_of_entry c1 v x hc1 hm
    · rintro ⟨hx, hv, hcx⟩
      have hcx2 : st.coloring.base.arc_colors x = c1 := hcx
      obtain ⟨g1, g2⟩ := h.am.entry_of_arc x hx (by rw [hcx2]; exact hc1)
      rw [hcx2] at g1 g2
      rcases hv with hv | hv
      · rw [← hv]; exact g1
      · rw [← hv]; exact g2
  · intro c1 hc1
    rw [← (pairWeight_eq h hw arc hc1).1]
    exact hmin c1 hc1
  · intro c1 hc1
    rw [← (pairWeight_eq h hw arc (lt_trans hc1 hc)).1]
    exact hfirst c1 hc1
  · intro hun hnc hlt
    obtain ⟨s3, e3, inv3, col3⟩ := replacePair_ok h hs ha hun hc
      (st.coloring.am.pairWeight w arc c)
    have hro : st.replaceOrRegister w arc
        = Except.ok ({ st with coloring := s3 },
            displacedArcs ⟨st.coloring.am.getArcToMate c arc.tail,
              st.coloring.am.getArcToMate c arc.head, st.coloring.am.pairWeight w arc c⟩) := by
      unfold DynamicGreedy.replaceOrRegister
      rw [hp, if_pos hlt]
      simp only [e3, bind, Except.bind, pure, Except.pure]
    refine ⟨{ st with coloring := s3 }, ?_, inv3, ?_, ?_, ?_⟩
    · rw [increaseStep_blocked h hun hnc, hro]
      rfl
    · show s3.base.arc_colors arc = c
      rw [col3, if_pos rfl]
    · intro x hx
      have hxa : x ≠ arc := by
        intro e
        subst e
        have hcx : st.coloring.base.arc_colors x = c := by
          rcases hx with hx | hx
          · exact (h.am.arc_of_entry c _ x hc hx).2.2
          · exact (h.am.arc_of_entry c _ x hc hx).2.2
        have := is_colored_of_lt h.base (show st.coloring.base.arc_colors x < b by
          rw [hcx]; exact hc)
        rw [hun] at this
        exact Bool.noConfusion this
      show decide (s3.base.arc_colors x < s3.base.num_colors) = false
      rw [col3, if_neg hxa, if_pos hx, inv3.base.nc]
      exact decide_eq_false (Nat.not_lt.2 h.bU)
    · intro x hxa hx
      show s3.base.arc_colors x = st.coloring.base.arc_colors x
      rw [col3, if_neg hxa, if_neg hx]
  · intro hun hnc hlt
    rw [increaseStep_blocked h hun hnc]
    unfold DynamicGreedy.replaceOrRegister
    rw [hp, if_neg hlt]
    by_cases hpp : st.use_pp_ds = true
    · rw [if_pos hpp]
      exact ⟨_, rfl, rfl⟩
    · rw [if_neg hpp]
      exact ⟨_, rfl, rfl⟩

theorem blockedMiddle_inv : CInv pathGraph 2 stepWeights blockedMiddle :=
  thenColor_inv _ _ (freshColoring_inv pathGraph (by decide) stepWeights (by decide))
    (by decide)

theorem blockedLight_inv : CInv pathGraph 2 lightMiddle blockedLight :=
  thenColor_inv _ _ (freshColoring_inv pathGraph (by decide) lightMiddle (by decide))
    (by decide)

/-- The weight increase with one level of recursion: the path `0 - 1 - 2 - 3` with two
colours, `(0,1)` of weight 3
coloured 0, `(2,3)` of weight 4 coloured 1, and the middle arc `(1,2)` inserted with weight
5 into a `DynamicGreedy` with the default `recursion_depth = 1`. The middle arc has no
common free colour, the lightest pair is `(0,1)` alone with the colour 0 and the sum 3 < 5,
so `(0,1)` is uncoloured and `(1,2)` gets the colour 0; then the recursive call
`increaseWeight((0,1), 0)` gives `(0,1)` the colour 1: the arc of the pair is coloured when
the handler returns. -/
theorem increaseWeight_recursion_one :
    CInv pathGraph 2 stepWeights blockedMiddle ∧
    blockedMiddle.base.is_colored ⟨1, 1, 2⟩ = false ∧
    blockedMiddle.fc.common_free_color 1 2 = Except.ok npos ∧
    pick_pair_to_replace blockedMiddle stepWeights ⟨1, 1, 2⟩
      = (⟨some ⟨0, 0, 1⟩, Option.none, 3⟩, 0) ∧
    stepWeights ⟨1, 1, 2⟩ = 5 ∧
    (∃ st1, (dynamicGreedyOn blockedMiddle).onPropertyChange pathGraph stepWeights
        ⟨1, 1, 2⟩ 0 5 = Except.ok st1 ∧
      st1.coloring.base.get_color <$> pathGraph.arcs = [1, 0, 1] ∧
      st1.coloring.base.is_colored ⟨0, 0, 1⟩ = true) ∧
    ∃ st1, (dynamicGreedyOn blockedMiddle).increaseWeight 1 stepWeights ⟨1, 1, 2⟩
        = Except.ok st1 ∧
      st1.coloring.base.get_color <$> pathGraph.arcs = [1, 0, 1] :=
  ⟨blockedMiddle_inv, by decide, rfl, by decide, by decide,
    ⟨okOrDynamic ((dynamicGreedyOn blockedMiddle).onPropertyChange pathGraph stepWeights
      ⟨1, 1, 2⟩ 0 5) (dynamicGreedyOn blockedMiddle), rfl, by decide, by decide⟩,
    ⟨okOrDynamic ((dynamicGreedyOn blockedMiddle).increaseWeight 1 stepWeights ⟨1, 1, 2⟩)
      (dynamicGreedyOn blockedMiddle), rfl, by decide⟩⟩

theorem lightest_pair_and_increase_path :
    (∃ st1, (dynamicGreedyOn blockedMiddle).increaseWeight 0 stepWeights ⟨1, 1, 2⟩
        = Except.ok st1 ∧ CInv pathGraph 2 stepWeights st1.coloring ∧
      st1.coloring.base.get_color ⟨1, 1, 2⟩
        = (pick_pair_to_replace (dynamicGreedyOn blockedMiddle).coloring stepWeights
            ⟨1, 1, 2⟩).2 ∧
      (∀ x, ((pick_pair_to_replace (dynamicGreedyOn blockedMiddle).coloring stepWeights
            ⟨1, 1, 2⟩).1.tail_arc = some x ∨
          (pick_pair_to_replace (dynamicGreedyOn blockedMiddle).coloring stepWeights
            ⟨1, 1, 2⟩).1.head_arc = some x) →
        st1.coloring.base.is_colored x = false) ∧
      ∀ x, x ≠ ⟨1, 1, 2⟩ →
        ¬ ((pick_pair_to_replace (dynamicGreedyOn blockedMiddle).coloring stepWeights
            ⟨1, 1, 2⟩).1.tail_arc = some x ∨
          (pick_pair_to_replace (dynamicGreedyOn blockedMiddle).coloring stepWeights
            ⟨1, 1, 2⟩).1.head_arc = some x) →
        st1.coloring.base.get_color x
          = (dynamicGreedyOn blockedMiddle).coloring.base.get_color x) ∧
    ∃ st1, (dynamicGreedyOn blockedLight).increaseWeight 0 lightMiddle ⟨1, 1, 2⟩
        = Except.ok st1 ∧ st1.coloring = (dynamicGreedyOn blockedLight).coloring :=
  ⟨(lightest_pair_and_increase pathGraph 2 stepWeights (dynamicGreedyOn blockedMiddle)
      ⟨1, 1, 2⟩ blockedMiddle_inv ⟨by decide, by decide⟩ (by decide) (by decide)
      (by decide)).2.1 (by decide) (by decide) (by decide),
    (lightest_pair_and_increase pathGraph 2 lightMiddle (dynamicGreedyOn blockedLight)
      ⟨1, 1, 2⟩ blockedLight_inv ⟨by decide, by decide⟩ (by decide) (by decide)
      (by decide)).2.2 (by decide) (by decide) (by decide)⟩

/-- The two calls of the witness evaluated: with the weight 5 the middle arc takes the
colour 0 from `(0,1)`, which stays uncoloured without recursion; with the weight 2 nothing
changes. -/
theorem increaseWeight_blocked :
    (okOrDynamic ((dynamicGreedyOn blockedMiddle).increaseWeight 0 stepWeights ⟨1, 1, 2⟩)
      (dynamicGreedyOn blockedMiddle)).coloring.base.get_color <$> pathGraph.arcs
      = [UNCOLORED, 0, 1] ∧
    (okOrDynamic ((dynamicGreedyOn blockedLight).increaseWeight 0 lightMiddle ⟨1, 1, 2⟩)
      (dynamicGreedyOn blockedLight)).coloring.base.get_color <$> pathGraph.arcs
      = [0, UNCOLORED, 1] := by
  refine ⟨by decide, by decide⟩

/-! ## Scenario S2 -/

theorem scenarioOne_inv : CInv triangle 2 triangleWeights scenarioOne.coloring :=
  thenColor_inv _ _ (freshColoring_inv triangle (by decide) triangleWeights (by decide))
    (by decide)

/-- C31: scenario S2 on the triangle with two colours, from the state with `a = (u,v)` of
weight 5 coloured 0, `b = (v,w)` of weight 3 coloured 1 and `c = (u,w)` of weight 4
uncoloured (total 8). When the weight of `a` is set to 0, the colouring's observer and then
the handler of invariant greedy run: `a` is uncoloured, `c` is the one registered candidate
and the total is 3. The following `run()` gives `c` the colour 0; the colours are then
uncoloured, 1, 0, the total is `4 + 3 = 7` and the colouring is consistent. -/
theorem C31_scenario_deletion :
    scenarioOne.coloring.base.get_color <$> triangle.arcs = [0, 1, UNCOLORED] ∧
    scenarioOne.coloring.base.getTotalWeight = 8 ∧
    (∃ st1, scenarioOne.weightChange triangle deletionWeights ⟨0, 0, 1⟩ 5 0 = Except.ok st1 ∧
      st1.coloring.base.get_color <$> triangle.arcs = [UNCOLORED, 1, UNCOLORED] ∧
      st1.arcs_to_update.vector = [⟨2, 0, 2⟩] ∧
      st1.coloring.base.getTotalWeight = 3 ∧
      CInv triangle 2 deletionWeights st1.coloring ∧
      ∀ fuel, ∃ st2, st1.run (fuel + 2) deletionWeights = Except.ok st2 ∧
        st2.coloring.base.get_color <$> triangle.arcs = [UNCOLORED, 1, 0] ∧
        st2.coloring.base.getTotalWeight = 7 ∧
        st2.arcs_to_update.vector = [] ∧
        CInv triangle 2 deletionWeights st2.coloring) := by
  have h1 : CInv triangle 2 deletionWeights
      { scenarioOne.coloring with
        base := scenarioOne.coloring.base.onEdgeWeightChange ⟨0, 0, 1⟩
          (triangleWeights ⟨0, 0, 1⟩) 0 } :=
    (scenarioOne_inv.weight_change (show (⟨0, 0, 1⟩ : Arc) ∈ triangle.arcs by decide) 0
      (by decide) (by decide) (by decide)).1
  have h2 : CInv triangle 2 deletionWeights
      (okOrGreedy (scenarioOne.weightChange triangle deletionWeights ⟨0, 0, 1⟩ 5 0)
        scenarioOne).coloring :=
    h1.of_uncolor (show (⟨0, 0, 1⟩ : Arc) ∈ triangle.arcs by decide) rfl
  refine ⟨by decide, by decide,
    okOrGreedy (scenarioOne.weightChange triangle deletionWeights ⟨0, 0, 1⟩ 5 0) scenarioOne,
    rfl, by decide, by decide, by decide, h2, ?_⟩
  intro fuel
  refine ⟨okOrGreedy ((okOrGreedy (scenarioOne.weightChange triangle deletionWeights
    ⟨0, 0, 1⟩ 5 0) scenarioOne).run 2 deletionWeights) scenarioOne, rfl, by decide,
    by decide, by decide, ?_⟩
  exact h2.of_color (show (⟨2, 0, 2⟩ : Arc) ∈ triangle.arcs by decide) (by decide)
    (show (okOrGreedy (scenarioOne.weightChange triangle deletionWeights ⟨0, 0, 1⟩ 5 0)
      scenarioOne).coloring.color deletionWeights ⟨2, 0, 2⟩ 0 = Except.ok _ from rfl)

/-! ## The local swap is greedy -/

theorem kiteColoring_reachable : Reachable kiteGraph 1 kiteWeights kiteColoring :=
  Reachable.color _ _ (Reachable.reset kiteWeights (KColoring.initial 1) rfl)
    (by decide) (by decide) (by decide) (by decide) (by decide)

/-- C37: `local_swap` is greedy, not optimal. On the graph with the arcs `a = (0,1)` of
weight 10, `(0,2)` of weight 8, `(0,3)` of weight 6 and `(1,2)` of weight 7, with one colour
and only `a` coloured (a state reached from `reset()` by `color(a, 0)`, so proper and
consistent), the uncoloured arcs `(0,3)` at the tail and `(1,2)` at the head of `a` have
the colour of `a` free at their far ends 3 and 2, which differ, and weigh 13 > 10 together.
Still `local_swap(a)` returns false and changes nothing: the tail scan picks the heaviest
candidate `(0,2)` with far end 2, the head scan leaves out every arc whose far end is 2 and
finds nothing, and 8 is not above 10. -/
theorem C37_local_swap_not_optimal :
    ∃ (G : DiGraph) (w : Arc → Nat) (b : Nat) (k : KColoring) (a t h : Arc),
      Reachable G b w k ∧ Consistent G b k ∧
      a ∈ G.arcs ∧ k.is_colored a = true ∧
      t ∈ G.arcs ∧ t ≠ a ∧ t.incident a.tail ∧ k.is_colored t = false ∧
      h ∈ G.arcs ∧ h ≠ a ∧ h.incident a.head ∧ k.is_colored h = false ∧
      k.is_color_free (t.getOther a.tail) (k.get_color a) = true ∧
      k.is_color_free (h.getOther a.head) (k.get_color a) = true ∧
      t.getOther a.tail ≠ h.getOther a.head ∧
      w a < w t + w h ∧
      (k.swapTail G w a).target = some (h.getOther a.head) ∧
      (k.swapHead G w a).arc = Option.none ∧
      k.local_swap G w a = (false, k) := by
  refine ⟨kiteGraph, kiteWeights, 1, kiteColoring, ⟨0, 0, 1⟩, ⟨2, 0, 3⟩, ⟨3, 1, 2⟩,
    kiteColoring_reachable, kiteColoring_reachable.consistent (by decide), ?_⟩
  repeat' apply And.intro
  all_goals first | decide | rfl

/-! ## The HYBRID mode of the edge colouring -/

theorem sum_range_update (f : Nat → Nat) (k v : Nat) :
    ∀ m, k < m → ((List.range m).map (Function.update f k v)).sum + f k
      = ((List.range m).map f).sum + v := by
  intro m
  induction m with
  | zero => intro h; exact absurd h (Nat.not_lt_zero _)
  | succ m ih =>
    intro h
    rw [List.range_succ, List.map_append, List.map_append, List.sum_append, List.sum_append]
    simp only [List.map_cons, List.map_nil, List.sum_cons, List.sum_nil, Nat.add_zero]
    by_cases hk : k = m
    · subst hk
      have hsame : (List.range k).map (Function.update f k v) = (List.range k).map f := by
        apply List.map_congr_left
        intro i hi
        rw [Function.update_noteq (Nat.ne_of_lt (List.mem_range.1 hi))]
      rw [hsame, Function.update_same]
      omega
    · rw [Function.update_noteq (Ne.symm hk)]
      have := ih (by omega)
      omega

theorem length_le_sum_range (f : Nat → Nat) (m k : Nat) (h : k < m) :
    f k ≤ ((List.range m).map f).sum :=
  List.single_le_sum (fun _ _ => Nat.zero_le _) _
    (List.mem_map.2 ⟨k, List.mem_range.2 h, rfl⟩)

theorem size_update (q : ApproximateBucketQueue) (B : Nat → List Arc) (k : Nat) (l : List Arc)
    (hk : k < 64) (hB : B = Function.update q.buckets k l) :
    ((List.range 64).map fun j => (B j).length).sum + (q.buckets k).length
      = q.size + l.length := by
  have := sum_range_update (fun j => (q.buckets j).length) k l.length 64 hk
  unfold ApproximateBucketQueue.size
  rw [← this, hB]
  congr 2
  apply List.map_congr_left
  intro j _
  by_cases hj : j = k
  · subst hj
    rw [Function.update_same, Function.update_same]
  · rw [Function.update_noteq hj, Function.update_noteq hj]

theorem size_erase {q q1 : ApproximateBucketQueue} {k : Nat} (hk : k < 64)
    (hother : ∀ j, j ≠ k → q1.buckets j = q.buckets j)
    (hlen : (q1.buckets k).length + 1 = (q.buckets k).length) : q1.size + 1 = q.size := by
  have h := size_update q q1.buckets k (q1.buckets k) hk (by
    funext j
    by_cases hj : j = k
    · subst hj; rw [Function.update_same]
    · rw [Function.update_noteq hj, hother j hj])
  have e : ((List.range 64).map fun j => (q1.buckets j).length).sum = q1.size := rfl
  rw [e] at h
  omega

theorem size_push {q q1 : ApproximateBucketQueue} {k : Nat} {id : Arc} (hk : k < 64)
    (hb : q1.buckets = Function.update q.buckets k (q.buckets k ++ [id])) :
    q1.size = q.size + 1 := by
  have h := size_update q q1.buckets k (q.buckets k ++ [id]) hk hb
  have e : ((List.range 64).map fun j => (q1.buckets j).length).sum = q1.size := rfl
  rw [e, List.length_append, List.length_singleton] at h
  omega

theorem QueueReach.inv {q : ApproximateBucketQueue} {prio : Arc → Nat} {n : Nat}
    (h : QueueReach q prio n) : BQInv q prio ∧ q.size = n ∧ n ≤ 2 ^ 32 := by
  induction h with
  | initial => exact ⟨BQInv.of_initial _, by decide, by decide⟩
  | @push q q1 prio n id p _ hn hnew hp0 hp he ih =>
    obtain ⟨hinv, hsize, _⟩ := ih
    obtain ⟨k, hk, hk64, _⟩ := clzl_spec hp0 hp
    have hlen := length_le_sum_range (fun j => (q.buckets j).length) 64 k hk64
    have hlen : (q.buckets k).length ≤ q.size := hlen
    obtain ⟨q2, e2, hinv2, hb⟩ := hinv.of_push (fun j _ => hnew j) hp0 hp hk (by omega)
    rw [he] at e2
    rw [Except.ok.inj e2]
    refine ⟨hinv2, ?_, by omega⟩
    rw [size_push hk64 hb, hsize]
  | @erase q q1 prio n id k _ hid he ih =>
    obtain ⟨hinv, hsize, hn⟩ := ih
    obtain ⟨q2, e2, hinv2, _, hother, hk⟩ := hinv.of_erase hid
    rw [he] at e2
    rw [Except.ok.inj e2]
    have := size_erase (hinv.lt_of_mem hid) hother hk
    exact ⟨hinv2, by omega, by omega⟩
  | @update q q1 prio n id k p _ hid hp0 hp he ih =>
    obtain ⟨hinv, hsize, hn⟩ := ih
    obtain ⟨q2, e2, hinv2, hm, hother, hk⟩ := hinv.of_erase hid
    have hs2 := size_erase (hinv.lt_of_mem hid) hother hk
    obtain ⟨kp, hkp, hkp64, _⟩ := clzl_spec hp0 hp
    have hlen : (q2.buckets kp).length ≤ q2.size :=
      length_le_sum_range (fun j => (q2.buckets j).length) 64 kp hkp64
    obtain ⟨q3, e3, hinv3, hb⟩ := hinv2.of_push
      (fun j _ hj => ((hm j id).1 hj).2 rfl) hp0 hp hkp (by omega)
    have e : q.update id p = Except.ok q3 := by
      unfold ApproximateBucketQueue.update
      simp only [check, hp0, ne_eq, not_false_eq_true, decide_True, if_true, bind, Except.bind,
        e2]
      exact e3
    rw [he] at e
    rw [Except.ok.inj e]
    refine ⟨hinv3, ?_, hn⟩
    rw [size_push hkp64 hb]
    omega
  | @pop_max q q1 prio n top _ hne he ih =>
    obtain ⟨hinv, hsize, hn⟩ := ih
    obtain ⟨top2, q2, g, e2, hmem, e3, _⟩ := hinv.pop hne
    rw [he] at e2
    have e2 := Except.ok.inj e2
    have et : top = top2 := congrArg Prod.fst e2
    have eq : q1 = q2 := congrArg Prod.snd e2
    subst et eq
    obtain ⟨q3, e4, hinv3, _, hother, hk⟩ := hinv.of_erase hmem
    rw [e3] at e4
    rw [Except.ok.inj e4]
    have := size_erase (hinv.lt_of_mem hmem) hother hk
    exact ⟨hinv3, by omega, by omega⟩

theorem lowest_bucket {q : ApproximateBucketQueue} {prio : Arc → Nat} (h : BQInv q prio)
    (hne : q.empty = false) :
    ∃ g, q.greatest_nonempty_bucket = some g ∧ g < 64 ∧ q.buckets g ≠ [] ∧
      ∀ j, j < g → q.buckets j = [] := by
  have hm : q.filled_mask ≠ 0 := by
    intro e
    unfold ApproximateBucketQueue.empty at hne
    rw [e] at hne
    exact Bool.noConfusion hne
  obtain ⟨g, hg1, hg2, hg3, hg4⟩ := lowestBit_spec hm h.mask_lt
  refine ⟨g, (h.top hm).trans hg1, hg2, (h.mask g hg2).1 hg3, ?_⟩
  intro j hj
  by_contra hb
  have := (h.mask j (by omega)).2 hb
  rw [hg4 j hj] at this
  exact Bool.noConfusion this

/-- C40: the representation invariant of the approximate bucket queue. After any sequence
of pushes (ids not in the queue, priorities not 0), erasures and updates of ids in the queue
and calls of `pop_max` on a non-empty queue, starting from the empty queue and never
holding more than `2 ^ 32` ids at a time: every id stored at position `i` of the bucket `k`
has `indices[id] = (k, i)`, the bit `k` of `filled_mask` is set iff the bucket `k` is not
empty, only the 64 buckets of the array are used, and while the queue is not empty
`greatest_nonempty_bucket` is the smallest index of a non-empty bucket. Every such call
returns and leads to a queue of this kind again. -/
theorem C40_queue_invariant (q : ApproximateBucketQueue) (prio : Arc → Nat) (n : Nat)
    (h : QueueReach q prio n) :
    (∀ k i x, (q.buckets k)[i]? = some x → q.indices x = (k, i)) ∧
    (∀ k, k < 64 → (q.filled_mask.testBit k = true ↔ q.buckets k ≠ [])) ∧
    (∀ k, 64 ≤ k → q.buckets k = []) ∧
    (q.empty = false →
      ∃ g, q.greatest_nonempty_bucket = some g ∧ g < 64 ∧ q.buckets g ≠ [] ∧
        ∀ j, j < g → q.buckets j = []) ∧
    (∀ id p, n < 2 ^ 32 → (∀ j, id ∉ q.buckets j) → p ≠ 0 → p < 2 ^ 64 →
      ∃ q1, q.push id p = Except.ok q1 ∧ QueueReach q1 (Function.update prio id p) (n + 1)) ∧
    (∀ id k, id ∈ q.buckets k →
      ∃ q1, q.erase id = Except.ok q1 ∧ QueueReach q1 prio (n - 1)) ∧
    (∀ id k p, id ∈ q.buckets k → p ≠ 0 → p < 2 ^ 64 →
      ∃ q1, q.update id p = Except.ok q1 ∧ QueueReach q1 (Function.update prio id p) n) ∧
    (q.empty = false →
      ∃ top q1, q.pop_max = Except.ok (top, q1) ∧ QueueReach q1 prio (n - 1)) := by
  obtain ⟨hinv, hsize, hn⟩ := h.inv
  refine ⟨hinv.idx, hinv.mask, hinv.range, lowest_bucket hinv, ?_, ?_, ?_, ?_⟩
  · intro id p hlt hnew hp0 hp
    obtain ⟨k, hk, hk64, _⟩ := clzl_spec hp0 hp
    have hlen : (q.buckets k).length ≤ q.size :=
      length_le_sum_range (fun j => (q.buckets j).length) 64 k hk64
    obtain ⟨q1, e1, _, _⟩ := hinv.of_push (fun j _ => hnew j) hp0 hp hk (by omega)
    exact ⟨q1, e1, QueueReach.push id p h hlt hnew hp0 hp e1⟩
  · intro id k hid
    obtain ⟨q1, e1, _⟩ := hinv.of_erase hid
    exact ⟨q1, e1, QueueReach.erase id k h hid e1⟩
  · intro id k p hid hp0 hp
    obtain ⟨q2, e2, hinv2, hm, hother, hk⟩ := hinv.of_erase hid
    have hs2 := size_erase (hinv.lt_of_mem hid) hother hk
    obtain ⟨kp, hkp, hkp64, _⟩ := clzl_spec hp0 hp
    have hlen : (q2.buckets kp).length ≤ q2.size :=
      length_le_sum_range (fun j => (q2.buckets j).length) 64 kp hkp64
    obtain ⟨q3, e3, _, _⟩ := hinv2.of_push
      (fun j _ hj => ((hm j id).1 hj).2 rfl) hp0 hp hkp (by omega)
    have e : q.update id p = Except.ok q3 := by
      unfold ApproximateBucketQueue.update
      simp only [check, hp0, ne_eq, not_false_eq_true, decide_True, if_true, bind, Except.bind,
        e2]
      exact e3
    exact ⟨q3, e, QueueReach.update id k p h hid hp0 hp e⟩
  · intro hne
    obtain ⟨top, q1, g, e1, _, _, _⟩ := hinv.pop hne
    exact ⟨top, q1, e1, QueueReach.pop_max top h hne e1⟩

theorem threeQueue_reach : QueueReach threeQueue threePrio 3 :=
  QueueReach.push ⟨2, 0, 2⟩ 9
    (QueueReach.push ⟨1, 1, 2⟩ 8
      (QueueReach.push ⟨0, 0, 1⟩ 17 QueueReach.initial (by decide)
        (fun j hj => absurd hj (List.not_mem_nil _)) (by decide) (by decide)
        (show ApproximateBucketQueue.initial.push ⟨0, 0, 1⟩ 17 = Except.ok
          (okOrQueue (ApproximateBucketQueue.initial.push ⟨0, 0, 1⟩ 17)
            ApproximateBucketQueue.initial) from rfl))
      (by decide)
      (fun j hj => (by decide : ∀ j, j < 64 → (⟨1, 1, 2⟩ : Arc) ∉
          (okOrQueue (ApproximateBucketQueue.initial.push ⟨0, 0, 1⟩ 17)
            ApproximateBucketQueue.initial).buckets j) j
        (((BQInv.of_initial fun _ => 0).push_okOr (by decide) (by decide) (by decide)
          (show clzl 17 = some 59 by decide) (by decide) _).lt_of_mem hj) hj)
      (by decide) (by decide)
      (show (okOrQueue (ApproximateBucketQueue.initial.push ⟨0, 0, 1⟩ 17)
          ApproximateBucketQueue.initial).push ⟨1, 1, 2⟩ 8 = Except.ok
        (okOrQueue ((okOrQueue (ApproximateBucketQueue.initial.push ⟨0, 0, 1⟩ 17)
          ApproximateBucketQueue.initial).push ⟨1, 1, 2⟩ 8)
          ApproximateBucketQueue.initial) from rfl))
    (by decide)
    (fun j hj => (by decide : ∀ j, j < 64 → (⟨2, 0, 2⟩ : Arc) ∉
        (okOrQueue ((okOrQueue (ApproximateBucketQueue.initial.push ⟨0, 0, 1⟩ 17)
          ApproximateBucketQueue.initial).push ⟨1, 1, 2⟩ 8)
          ApproximateBucketQueue.initial).buckets j) j
      ((((BQInv.of_initial fun _ => 0).push_okOr (by decide) (by decide) (by decide)
        (show clzl 17 = some 59 by decide) (by decide) _).push_okOr (by decide) (by decide)
        (by decide) (show clzl 8 = some 60 by decide) (by decide) _).lt_of_mem hj) hj)
    (by decide) (by decide) rfl

/-- C40 on the queue after `push(A, 17)`, `push(B, 8)`, `push(C, 9)`: the index of `A`, the
mask bit and the bucket 60, the bucket 64, the greatest bucket, and a further call of each
kind. -/
theorem C40_queue_invariant_witness :
    threeQueue.indices ⟨0, 0, 1⟩ = (59, 0) ∧
    (threeQueue.filled_mask.testBit 60 = true ↔ threeQueue.buckets 60 ≠ []) ∧
    threeQueue.buckets 64 = [] ∧
    (∃ g, threeQueue.greatest_nonempty_bucket = some g ∧ g < 64 ∧
      threeQueue.buckets g ≠ [] ∧ ∀ j, j < g → threeQueue.buckets j = []) ∧
    (∃ q1, threeQueue.push ⟨3, 3, 4⟩ 5 = Except.ok q1 ∧
      QueueReach q1 (Function.update threePrio ⟨3, 3, 4⟩ 5) (3 + 1)) ∧
    (∃ q1, threeQueue.erase ⟨1, 1, 2⟩ = Except.ok q1 ∧ QueueReach q1 threePrio (3 - 1)) ∧
    (∃ q1, threeQueue.update ⟨1, 1, 2⟩ 40 = Except.ok q1 ∧
      QueueReach q1 (Function.update threePrio ⟨1, 1, 2⟩ 40) 3) ∧
    (∃ top q1, threeQueue.pop_max = Except.ok (top, q1) ∧ QueueReach q1 threePrio (3 - 1)) :=
  ⟨(C40_queue_invariant threeQueue threePrio 3 threeQueue_reach).1 59 0
      ⟨0, 0, 1⟩ (by decide),
    (C40_queue_invariant threeQueue threePrio 3 threeQueue_reach).2.1 60
      (by decide),
    (C40_queue_invariant threeQueue threePrio 3 threeQueue_reach).2.2.1 64
      (by decide),
    (C40_queue_invariant threeQueue threePrio 3 threeQueue_reach).2.2.2.1
      (by decide),
    (C40_queue_invariant threeQueue threePrio 3 threeQueue_reach).2.2.2.2.1
      ⟨3, 3, 4⟩ 5 (by decide)
      (fun j hj => (by decide : ∀ j, j < 64 → (⟨3, 3, 4⟩ : Arc) ∉ threeQueue.buckets j) j
        (threeQueue_inv.lt_of_mem hj) hj) (by decide) (by decide),
    (C40_queue_invariant threeQueue threePrio 3 threeQueue_reach).2.2.2.2.2.1
      ⟨1, 1, 2⟩ 60 (by decide),
    (C40_queue_invariant threeQueue threePrio 3 threeQueue_reach).2.2.2.2.2.2.1
      ⟨1, 1, 2⟩ 60 40 (by decide) (by decide) (by decide),
    (C40_queue_invariant threeQueue threePrio 3 threeQueue_reach).2.2.2.2.2.2.2
      (by decide)⟩

/-- The queue of the witness evaluated: `A` alone in the bucket 59, `B` and `C` in the
bucket 60, the mask with the bits 59 and 60, and 59 as the greatest non-empty bucket. -/
theorem threeQueue_layout :
    threeQueue.buckets 59 = [⟨0, 0, 1⟩] ∧ threeQueue.buckets 60 = [⟨1, 1, 2⟩, ⟨2, 0, 2⟩] ∧
    threeQueue.filled_mask = 2 ^ 59 + 2 ^ 60 ∧ threeQueue.greatest_nonempty_bucket = some 59 ∧
    threeQueue.indices ⟨2, 0, 2⟩ = (60, 1) := by
  decide

/-! ## Iterative greedy -/

theorem not_free_arc {G : DiGraph} {b : Nat} {k : KColoring} (hk : Consistent G b k)
    (hb : b ≤ UNCOLORED) {v c : Nat} (hc : c < b) (h : k.is_color_free v c = false) :
    ∃ y ∈ G.arcs, y.incident v ∧ k.get_color y = c := by
  by_contra hno
  have : k.is_color_free v c = true := by
    rw [hk.free_iff_no_arc hb v hc]
    intro e he hi hcol
    exact hno ⟨e, he, hi, hcol⟩
  rw [h] at this
  exact Bool.noConfusion this

/-- The basic facts of the inner loop of `run()`: the colouring stays a reachable one, a
coloured arc keeps its colour, a newly coloured arc is one of the list and has the colour
of the round, and `remaining_arcs` gets the arcs of the list that end uncoloured. -/
theorem greedyPass_basic (G : DiGraph) (b : Nat) (w : Arc → Nat) (c : Nat)
    (hb : b ≤ UNCOLORED) (hc : c < b) :
    ∀ (todo : List Arc) (st : GreedyPass), Reachable G b w st.coloring →
      (∀ a ∈ todo, a ∈ G.arcs) →
      Reachable G b w (todo.foldl (greedyStep w c) st).coloring ∧
      (∀ e, st.coloring.is_colored e = true →
        (todo.foldl (greedyStep w c) st).coloring.arc_colors e = st.coloring.arc_colors e) ∧
      (∀ e, (todo.foldl (greedyStep w c) st).coloring.is_colored e = true →
        st.coloring.is_colored e = true ∨
        (e ∈ todo ∧ (todo.foldl (greedyStep w c) st).coloring.arc_colors e = c)) ∧
      (∃ l, l.Sublist todo ∧
        (todo.foldl (greedyStep w c) st).remaining_arcs = st.remaining_arcs ++ l) ∧
      (∀ x ∈ todo, (todo.foldl (greedyStep w c) st).coloring.is_colored x = false →
        x ∈ (todo.foldl (greedyStep w c) st).remaining_arcs) ∧
      (∀ x ∈ (todo.foldl (greedyStep w c) st).recently_matched,
        x ∈ st.recently_matched ∨
        (x ∈ todo ∧ (todo.foldl (greedyStep w c) st).coloring.is_colored x = true)) := by
  intro todo
  induction todo with
  | nil =>
    intro st hr _
    exact ⟨hr, fun _ _ => rfl, fun e he => Or.inl he, ⟨[], List.Sublist.refl _, by simp⟩,
      fun x hx => absurd hx (List.not_mem_nil _), fun x hx => Or.inl hx⟩
  | cons arc rest ih =>
    intro st hr hmem
    have harc := hmem arc (List.mem_cons_self _ _)
    have hrest : ∀ a ∈ rest, a ∈ G.arcs := fun a ha => hmem a (List.mem_cons_of_mem _ ha)
    have hk := hr.consistent hb
    rw [List.foldl_cons]
    by_cases h1 : st.coloring.is_colored arc = true
    · have e1 : greedyStep w c st arc = st := by
        unfold greedyStep; rw [if_pos h1]
      rw [e1]
      obtain ⟨g1, g2, g3, ⟨l, g4, g5⟩, g6, g7⟩ := ih st hr hrest
      refine ⟨g1, g2, ?_, ⟨l, List.Sublist.cons _ g4, g5⟩, ?_, ?_⟩
      · intro e he
        rcases g3 e he with q | ⟨q1, q2⟩
        · exact Or.inl q
        · exact Or.inr ⟨List.mem_cons_of_mem _ q1, q2⟩
      · intro x hx hun
        rcases List.mem_cons.1 hx with q | q
        · subst q
          have := g2 x h1
          have hcol : (rest.foldl (greedyStep w c) st).coloring.is_colored x = true := by
            apply is_colored_of_lt (g1.consistent hb)
            rw [this]
            exact hk.colored_lt h1
          rw [hun] at hcol
          exact Bool.noConfusion hcol
        · exact g6 x q hun
      · intro x hx
        rcases g7 x hx with q | ⟨q1, q2⟩
        · exact Or.inl q
        · exact Or.inr ⟨List.mem_cons_of_mem _ q1, q2⟩
    · have h1 : st.coloring.is_colored arc = false := by simpa using h1
      by_cases h2 : st.coloring.can_color arc c = true
      · have e1 : greedyStep w c st arc
            = ⟨st.coloring.color w arc c, st.remaining_arcs, st.recently_matched ++ [arc]⟩ := by
          unfold greedyStep
          rw [if_neg (by rw [h1]; exact Bool.false_ne_true), if_pos h2]
        rw [e1]
        unfold KColoring.can_color at h2
        rw [Bool.and_eq_true] at h2
        have hr1 : Reachable G b w (st.coloring.color w arc c) :=
          Reachable.color arc c hr harc h1 hc h2.1 h2.2
        obtain ⟨g1, g2, g3, ⟨l, g4, g5⟩, g6, g7⟩ := ih
          ⟨st.coloring.color w arc c, st.remaining_arcs, st.recently_matched ++ [arc]⟩ hr1
          hrest
        have hcolarc : (st.coloring.color w arc c).is_colored arc = true := by
          rw [is_colored_color hk w arc hc arc, if_pos rfl]
        have harcc : (rest.foldl (greedyStep w c)
            ⟨st.coloring.color w arc c, st.remaining_arcs,
              st.recently_matched ++ [arc]⟩).coloring.arc_colors arc = c := by
          rw [g2 arc hcolarc]
          show (st.coloring.color w arc c).arc_colors arc = c
          rw [arc_colors_color, if_pos rfl]
        refine ⟨g1, ?_, ?_, ⟨l, List.Sublist.cons _ g4, g5⟩, ?_, ?_⟩
        · intro e he
          have hne : e ≠ arc := by
            intro q; rw [q, h1] at he; exact Bool.noConfusion he
          have : (st.coloring.color w arc c).is_colored e = true := by
            rw [is_colored_color hk w arc hc e, if_neg hne]; exact he
          rw [g2 e this]
          show (st.coloring.color w arc c).arc_colors e = _
          rw [arc_colors_color, if_neg hne]
        · intro e he
          rcases g3 e he with q | ⟨q1, q2⟩
          · rw [is_colored_color hk w arc hc e] at q
            by_cases hea : e = arc
            · subst hea
              exact Or.inr ⟨List.mem_cons_self _ _, harcc⟩
            · rw [if_neg hea] at q
              exact Or.inl q
          · exact Or.inr ⟨List.mem_cons_of_mem _ q1, q2⟩
        · intro x hx hun
          rcases List.mem_cons.1 hx with q | q
          · subst q
            have hcol := is_colored_of_lt (g1.consistent hb) (by rw [harcc]; exact hc)
            rw [hun] at hcol
            exact Bool.noConfusion hcol
          · exact g6 x q hun
        · intro x hx
          rcases g7 x hx with q | ⟨q1, q2⟩
          · rcases List.mem_append.1 q with q | q
            · exact Or.inl q
            · have : x = arc := by simpa using q
              subst this
              exact Or.inr ⟨List.mem_cons_self _ _,
                is_colored_of_lt (g1.consistent hb) (by rw [harcc]; exact hc)⟩
          · exact Or.inr ⟨List.mem_cons_of_mem _ q1, q2⟩
      · have e1 : greedyStep w c st arc
            = ⟨st.coloring, st.remaining_arcs ++ [arc], st.recently_matched⟩ := by
          unfold greedyStep
          rw [if_neg (by rw [h1]; exact Bool.false_ne_true), if_neg h2]
        rw [e1]
        obtain ⟨g1, g2, g3, ⟨l, g4, g5⟩, g6, g7⟩ := ih
          ⟨st.coloring, st.remaining_arcs ++ [arc], st.recently_matched⟩ hr hrest
        refine ⟨g1, g2, ?_, ⟨arc :: l, List.Sublist.cons₂ _ g4, ?_⟩, ?_, ?_⟩
        · intro e he
          rcases g3 e he with q | ⟨q1, q2⟩
          · exact Or.inl q
          · exact Or.inr ⟨List.mem_cons_of_mem _ q1, q2⟩
        · rw [g5]
          simp
        · intro x hx hun
          rcases List.mem_cons.1 hx with q | q
          · subst q
            rw [g5]
            simp
          · exact g6 x q hun
        · intro x hx
          rcases g7 x hx with q | ⟨q1, q2⟩
          · exact Or.inl q
          · exact Or.inr ⟨List.mem_cons_of_mem _ q1, q2⟩

theorem can_color_false_of_neighbour {G : DiGraph} {b : Nat} {k : KColoring}
    (hk : Consistent G b k) {x y : Arc} {c : Nat} (hc : c < b) (hy : y ∈ G.arcs)
    (hyc : k.get_color y = c) (hv : ∃ v, x.incident v ∧ y.incident v) :
    k.can_color x c = false := by
  obtain ⟨v, hxv, hyv⟩ := hv
  have hyc : k.arc_colors y = c := hyc
  have hcol : k.is_colored y = true := is_colored_of_lt hk (by rw [hyc]; exact hc)
  obtain ⟨f1, f2⟩ := hk.not_free_of_colored hy hcol
  rw [hyc] at f1 f2
  have hvf : k.is_color_free v c = false := by
    rcases hyv with e | e
    · rw [← e]; exact f1
    · rw [← e]; exact f2
  unfold KColoring.can_color
  rcases hxv with e | e
  · rw [e, hvf, Bool.false_and]
  · rw [e, hvf, Bool.and_false]

/-- The inner loop of `run()` on a list sorted by falling weight, when every arc that has
the colour of the round already is at least as heavy as the arcs of the list: every arc
left in `remaining_arcs` is uncoloured and shares an end with an arc of that colour that
is at least as heavy. -/
theorem greedyPass_heavy (G : DiGraph) (b : Nat) (w : Arc → Nat) (c : Nat)
    (hb : b ≤ UNCOLORED) (hc : c < b) :
    ∀ (todo : List Arc) (st : GreedyPass), Reachable G b w st.coloring →
      (∀ a ∈ todo, a ∈ G.arcs) → todo.Pairwise (fun a a1 => w a1 ≤ w a) →
      (∀ y ∈ G.arcs, st.coloring.arc_colors y = c → ∀ a ∈ todo, w a ≤ w y) →
      (∀ x ∈ st.remaining_arcs, st.coloring.is_colored x = false ∧
        ∃ y ∈ G.arcs, (∃ v, x.incident v ∧ y.incident v) ∧ st.coloring.get_color y = c ∧
          w x ≤ w y) →
      ∀ x ∈ (todo.foldl (greedyStep w c) st).remaining_arcs,
        (todo.foldl (greedyStep w c) st).coloring.is_colored x = false ∧
        ∃ y ∈ G.arcs, (∃ v, x.incident v ∧ y.incident v) ∧
          (todo.foldl (greedyStep w c) st).coloring.get_color y = c ∧ w x ≤ w y := by
  intro todo
  induction todo with
  | nil =>
    intro st _ _ _ _ h3
    exact h3
  | cons arc rest ih =>
    intro st hr hmem hsort h2 h3
    have harc := hmem arc (List.mem_cons_self _ _)
    have hrest : ∀ a ∈ rest, a ∈ G.arcs := fun a ha => hmem a (List.mem_cons_of_mem _ ha)
    have hk := hr.consistent hb
    rw [List.pairwise_cons] at hsort
    obtain ⟨hfirst, hsort2⟩ := hsort
    have h2r : ∀ y ∈ G.arcs, st.coloring.arc_colors y = c → ∀ a ∈ rest, w a ≤ w y :=
      fun y hy hyc a ha => h2 y hy hyc a (List.mem_cons_of_mem _ ha)
    rw [List.foldl_cons]
    by_cases h1 : st.coloring.is_colored arc = true
    · have e1 : greedyStep w c st arc = st := by
        unfold greedyStep; rw [if_pos h1]
      rw [e1]
      exact ih st hr hrest hsort2 h2r h3
    · have h1 : st.coloring.is_colored arc = false := by simpa using h1
      by_cases hcan : st.coloring.can_color arc c = true
      · have e1 : greedyStep w c st arc
            = ⟨st.coloring.color w arc c, st.remaining_arcs, st.recently_matched ++ [arc]⟩ := by
          unfold greedyStep
          rw [if_neg (by rw [h1]; exact Bool.false_ne_true), if_pos hcan]
        rw [e1]
        have hcan2 := hcan
        unfold KColoring.can_color at hcan2
        rw [Bool.and_eq_true] at hcan2
        have hr1 : Reachable G b w (st.coloring.color w arc c) :=
          Reachable.color arc c hr harc h1 hc hcan2.1 hcan2.2
        apply ih ⟨st.coloring.color w arc c, st.remaining_arcs,
          st.recently_matched ++ [arc]⟩ hr1 hrest hsort2
        · intro y hy hyc a ha
          have hyc : (st.coloring.color w arc c).arc_colors y = c := hyc
          rw [arc_colors_color] at hyc
          by_cases hya : y = arc
          · rw [hya]; exact hfirst a ha
          · rw [if_neg hya] at hyc
            exact h2r y hy hyc a ha
        · intro x hx
          obtain ⟨q1, y, hy, hadj, hyc, hwy⟩ := h3 x hx
          have hxa : x ≠ arc := by
            intro e
            have := can_color_false_of_neighbour hk hc hy hyc (e ▸ hadj)
            rw [this] at hcan
            exact Bool.noConfusion hcan
          have hya : y ≠ arc := by
            intro e
            have hyc : st.coloring.arc_colors y = c := hyc
            have := is_colored_of_lt hk (show st.coloring.arc_colors y < b by rw [hyc]; exact hc)
            rw [e, h1] at this
            exact Bool.noConfusion this
          refine ⟨?_, y, hy, hadj, ?_, hwy⟩
          · show (st.coloring.color w arc c).is_colored x = false
            rw [is_colored_color hk w arc hc x, if_neg hxa]
            exact q1
          · show (st.coloring.color w arc c).arc_colors y = c
            rw [arc_colors_color, if_neg hya]
            exact hyc
      · have e1 : greedyStep w c st arc
            = ⟨st.coloring, st.remaining_arcs ++ [arc], st.recently_matched⟩ := by
          unfold greedyStep
          rw [if_neg (by rw [h1]; exact Bool.false_ne_true), if_neg hcan]
        rw [e1]
        apply ih ⟨st.coloring, st.remaining_arcs ++ [arc], st.recently_matched⟩ hr hrest
          hsort2 h2r
        intro x hx
        rcases List.mem_append.1 hx with q | q
        · exact h3 x q
        · have : x = arc := by simpa using q
          subst this
          refine ⟨h1, ?_⟩
          have hcan : st.coloring.can_color x c = false := by simpa using hcan
          unfold KColoring.can_color at hcan
          rw [Bool.and_eq_false_iff] at hcan
          rcases hcan with hf | hf
          · obtain ⟨y, hy, hyi, hyc⟩ := not_free_arc hk hb hc hf
            exact ⟨y, hy, ⟨x.tail, Or.inl rfl, hyi⟩, hyc,
              h2 y hy hyc x (List.mem_cons_self _ _)⟩
          · obtain ⟨y, hy, hyi, hyc⟩ := not_free_arc hk hb hc hf
            exact ⟨y, hy, ⟨x.head, Or.inr rfl, hyi⟩, hyc,
              h2 y hy hyc x (List.mem_cons_self _ _)⟩

theorem colorRound_greedy (G : DiGraph) (b : Nat) (w : Arc → Nat) (accumulate : Bool)
    (hb : b ≤ UNCOLORED) {c : Nat} (hc : c < b) {k : KColoring} {arcs : List Arc}
    (h : GreedyInv G b w c k arcs) :
    ∃ k1 arcs1, colorRound false accumulate G w (k, arcs) c = Except.ok (k1, arcs1) ∧
      GreedyInv G b w (c + 1) k1 arcs1 := by
  have hk := h.reach.consistent hb
  obtain ⟨g1, g2, g3, ⟨l, g4, g5⟩, g6, _⟩ := greedyPass_basic G b w c hb hc arcs
    ⟨k, [], []⟩ h.reach (fun a ha => (h.mem a ha).1)
  have g7 := greedyPass_heavy G b w c hb hc arcs ⟨k, [], []⟩ h.reach
    (fun a ha => (h.mem a ha).1) h.sorted
    (by
      intro y _ hyc a _
      have hyc : k.arc_colors y = c := hyc
      have := (h.colored y (is_colored_of_lt hk (by rw [hyc]; exact hc))).1
      omega)
    (fun x hx => absurd hx (List.not_mem_nil _))
  simp only [List.nil_append] at g5
  refine ⟨(arcs.foldl (greedyStep w c) ⟨k, [], []⟩).coloring,
    (arcs.foldl (greedyStep w c) ⟨k, [], []⟩).remaining_arcs, rfl, ?_⟩
  have hk1 := g1.consistent hb
  refine ⟨g1, ?_, ?_, ?_, ?_, ?_⟩
  · rw [g5]; exact h.sorted.sublist g4
  · intro a ha
    rw [g5] at ha
    exact h.mem a (g4.subset ha)
  · intro x hx hpos hun
    have hunk : k.is_colored x = false := by
      by_contra hcol
      have hcol : k.is_colored x = true := by simpa using hcol
      have := is_colored_of_lt hk1 (by rw [g2 x hcol]; exact hk.colored_lt hcol)
      rw [hun] at this
      exact Bool.noConfusion this
    exact g6 x (h.all x hx hpos hunk) hun
  · intro x hx
    obtain ⟨q1, q2⟩ := g7 x hx
    refine ⟨q1, ?_⟩
    intro c1 hc1
    rcases Nat.lt_succ_iff_lt_or_eq.1 hc1 with hlt | heq
    · rw [g5] at hx
      obtain ⟨y, hy, hadj, hyc, hwy⟩ := (h.heavy x (g4.subset hx)).2 c1 hlt
      have hyc : k.arc_colors y = c1 := hyc
      refine ⟨y, hy, hadj, ?_, hwy⟩
      show (arcs.foldl (greedyStep w c) ⟨k, [], []⟩).coloring.arc_colors y = c1
      rw [g2 y (is_colored_of_lt hk (by rw [hyc]; omega))]
      exact hyc
    · rw [heq]
      exact q2
  · intro e he
    rcases g3 e he with q | ⟨q1, q2⟩
    · obtain ⟨p1, p2⟩ := h.colored e q
      have : (arcs.foldl (greedyStep w c) ⟨k, [], []⟩).coloring.arc_colors e
          = k.arc_colors e := g2 e q
      exact ⟨by rw [this]; omega, p2⟩
    · exact ⟨by rw [q2]; omega, (h.mem e q1).2⟩

theorem colorRounds_greedy (G : DiGraph) (b : Nat) (w : Arc → Nat) (accumulate : Bool)
    (hb : b ≤ UNCOLORED) :
    ∀ (n c : Nat) (k : KColoring) (arcs : List Arc), GreedyInv G b w c k arcs → c + n ≤ b →
      ∃ k1 arcs1, colorRounds false accumulate G w (List.range' c n) (k, arcs)
          = Except.ok (k1, arcs1) ∧ GreedyInv G b w (c + n) k1 arcs1 := by
  intro n
  induction n with
  | zero =>
    intro c k arcs h _
    exact ⟨k, arcs, rfl, h⟩
  | succ n ih =>
    intro c k arcs h hle
    obtain ⟨k1, arcs1, e1, h1⟩ := colorRound_greedy G b w accumulate hb
      (show c < b by omega) h
    obtain ⟨k2, arcs2, e2, h2⟩ := ih (c + 1) k1 arcs1 h1 (by omega)
    refine ⟨k2, arcs2, ?_, ?_⟩
    · rw [List.range'_succ]
      unfold colorRounds
      simp only [e1, bind, Except.bind]
      exact e2
    · have : c + (n + 1) = c + 1 + n := by omega
      rw [this]
      exact h2

theorem sortByWeight_spec (w : Arc → Nat) (l : List Arc) :
    (sortByWeight w l).Pairwise (fun a a1 => w a1 ≤ w a) ∧ (sortByWeight w l).Perm l := by
  haveI : IsTotal Arc (fun a a1 => w a1 ≤ w a) := ⟨fun a a1 => Nat.le_total _ _⟩
  haveI : IsTrans Arc (fun a a1 => w a1 ≤ w a) := ⟨fun _ _ _ h1 h2 => Nat.le_trans h2 h1⟩
  exact ⟨List.sorted_insertionSort _ l, List.perm_insertionSort _ l⟩

theorem reset_uncolored (k0 : KColoring) (hb : k0.num_colors ≤ UNCOLORED) (e : Arc) :
    k0.reset.is_colored e = false := by
  have : ¬ UNCOLORED < k0.num_colors := Nat.not_lt.2 hb
  simp [KColoring.is_colored, KColoring.reset, this]

/-- `IterativeGreedy<false, ..>::run()` returns, with the invariant of its loop for all
colours. -/
theorem run_greedy (G : DiGraph) (b : Nat) (w : Arc → Nat) (k0 : KColoring)
    (hb : b ≤ UNCOLORED) (hk0 : k0.num_colors = b) :
    ∃ k arcs, IterativeGreedy.run false k0 G w = Except.ok k ∧ GreedyInv G b w b k arcs := by
  obtain ⟨s1, s2⟩ := sortByWeight_spec w (G.arcs.filter fun arc => decide (w arc > 0))
  have hun : ∀ e, k0.reset.is_colored e = false :=
    fun e => reset_uncolored k0 (by rw [hk0]; exact hb) e
  have h0 : GreedyInv G b w 0 k0.reset
      (sortByWeight w (G.arcs.filter fun arc => decide (w arc > 0))) := by
    refine ⟨Reachable.reset w k0 hk0, s1, ?_, ?_, ?_, ?_⟩
    · intro a ha
      have := (s2.mem_iff).1 ha
      rw [List.mem_filter] at this
      exact ⟨this.1, of_decide_eq_true this.2⟩
    · intro x hx hpos _
      apply (s2.mem_iff).2
      rw [List.mem_filter]
      exact ⟨hx, decide_eq_true hpos⟩
    · intro x _
      exact ⟨hun x, fun c1 h => absurd h (Nat.not_lt_zero _)⟩
    · intro e he
      rw [hun e] at he
      exact Bool.noConfusion he
  obtain ⟨k, arcs, e, h⟩ := colorRounds_greedy G b w true hb b 0 k0.reset _ h0 (by omega)
  refine ⟨k, arcs, ?_, by simpa using h⟩
  unfold IterativeGreedy.run
  have hn : k0.reset.num_colors = b := hk0
  rw [hn, List.range_eq_range']
  simp only [e, bind, Except.bind]
  rfl

/-- C36: iterative greedy without local swaps meets the invariant of the
1/2-approximation. For every graph, all weights and every number `b` of colours,
`IterativeGreedy<false, ..>::run()` returns; afterwards the colouring is consistent and
proper, no arc of weight 0 is coloured, and every uncoloured arc `x` of the graph with
`w(x) > 0` has for every colour `c < b` an arc `y` of colour `c` that shares an end with `x`
and has `w(y) ≥ w(x)`. -/
theorem C36_iterative_greedy_invariant (G : DiGraph) (b : Nat) (w : Arc → Nat)
    (k0 : KColoring) (hb : b ≤ UNCOLORED) (hk0 : k0.num_colors = b) :
    ∃ k, IterativeGreedy.run false k0 G w = Except.ok k ∧ Consistent G b k ∧
      (∀ a1 ∈ G.arcs, ∀ a2 ∈ G.arcs, ∀ v, a1.incident v → a2.incident v →
        k.is_colored a1 = true → k.get_color a1 = k.get_color a2 → a1 = a2) ∧
      (∀ a, w a = 0 → k.is_colored a = false) ∧
      (∀ x ∈ G.arcs, 0 < w x → k.is_colored x = false → HeavyNeighbours G b w k x) := by
  obtain ⟨k, arcs, e, h⟩ := run_greedy G b w k0 hb hk0
  have hk := h.reach.consistent hb
  refine ⟨k, e, hk, ?_, ?_, ?_⟩
  · intro a1 h1 a2 h2 v i1 i2 hc heq
    exact hk.proper a1 h1 a2 h2 v i1 i2 (hk.colored_lt hc) heq
  · intro a ha
    by_contra hcol
    have hcol : k.is_colored a = true := by simpa using hcol
    have := (h.colored a hcol).2
    omega
  · intro x hx hpos hun
    exact (h.heavy x (h.all x hx hpos hun)).2

/-- C36 on the triangle with the weights 5, 3, 4 and a pendant arc of weight 0, with one
colour. -/
theorem C36_iterative_greedy_invariant_witness :
    ∃ k, IterativeGreedy.run false (KColoring.initial 1) pendantGraph pendantWeights
        = Except.ok k ∧ Consistent pendantGraph 1 k ∧
      (∀ a1 ∈ pendantGraph.arcs, ∀ a2 ∈ pendantGraph.arcs, ∀ v, a1.incident v →
        a2.incident v → k.is_colored a1 = true → k.get_color a1 = k.get_color a2 → a1 = a2) ∧
      (∀ a, pendantWeights a = 0 → k.is_colored a = false) ∧
      (∀ x ∈ pendantGraph.arcs, 0 < pendantWeights x → k.is_colored x = false →
        HeavyNeighbours pendantGraph 1 pendantWeights k x) :=
  C36_iterative_greedy_invariant pendantGraph 1 pendantWeights (KColoring.initial 1)
    (by decide) rfl

/-- The run of the witness evaluated, and the same run with two colours: with one colour
only `(u,v)` of weight 5 is coloured, with two colours `(u,w)` of weight 4 gets the second
colour and `(v,w)` stays uncoloured. -/
theorem run_pendant :
    (∃ k, IterativeGreedy.run false (KColoring.initial 1) pendantGraph pendantWeights
        = Except.ok k ∧
      k.get_color <$> pendantGraph.arcs = [0, UNCOLORED, UNCOLORED, UNCOLORED]) ∧
    (∃ k, IterativeGreedy.run false (KColoring.initial 2) pendantGraph pendantWeights
        = Except.ok k ∧
      k.get_color <$> pendantGraph.arcs = [0, UNCOLORED, 1, UNCOLORED]) :=
  ⟨⟨_, rfl, by decide⟩, ⟨_, rfl, by decide⟩⟩

/-! ## Batch iterative greedy -/

/-- The run of the witness evaluated, with and without local swaps: the three arcs of the
triangle are the candidates, `(u,v)` of weight 7 gets the one colour and no swap happens. -/
theorem batch_pendant (local_swaps : Bool) :
    ((BatchIterativeGreedy.initial 1).weightChange pendantGraph pendantWeights
      ⟨0, 0, 1⟩ 7).arcs_to_process.vector = [⟨0, 0, 1⟩, ⟨2, 0, 2⟩, ⟨1, 1, 2⟩] ∧
    ∃ st2, ((BatchIterativeGreedy.initial 1).weightChange pendantGraph pendantWeights
        ⟨0, 0, 1⟩ 7).run local_swaps pendantGraph
        (Function.update pendantWeights ⟨0, 0, 1⟩ 7) = Except.ok st2 ∧
      st2.coloring.get_color <$> pendantGraph.arcs = [0, UNCOLORED, UNCOLORED, UNCOLORED] := by
  cases local_swaps
  · exact ⟨by decide, _, rfl, by decide⟩
  · exact ⟨by decide, _, rfl, by decide⟩

/-! ## The Vizing step `color_edge` -/

theorem getLastD_mem_cons {α : Type} : ∀ (l : List α) (a : α), l.getLastD a ∈ a :: l := by
  intro l
  induction l with
  | nil => intro a; exact List.mem_cons_self _ _
  | cons y l ih =>
    intro a
    rw [List.getLastD_cons]
    exact List.mem_cons_of_mem _ (ih y)

/-- Every element of a chain after the first has a neighbour before it, and in a list
without repetition that neighbour is not the last element. -/
theorem chain_pred {α : Type} {R : α → α → Prop} :
    ∀ (l : List α) (a : α), List.Chain R a l → (a :: l).Nodup →
      ∀ y ∈ l, ∃ u, u ∈ a :: l ∧ R u y ∧ u ≠ l.getLastD a := by
  intro l
  induction l with
  | nil => intro a _ _ y hy; exact absurd hy (List.not_mem_nil _)
  | cons y1 l ih =>
    intro a hch hnd y hy
    rw [List.chain_cons] at hch
    rw [List.nodup_cons] at hnd
    rw [List.getLastD_cons]
    rcases List.mem_cons.1 hy with q | q
    · refine ⟨a, List.mem_cons_self _ _, by rw [q]; exact hch.1, ?_⟩
      intro e
      exact hnd.1 (e ▸ getLastD_mem_cons l y1)
    · obtain ⟨u, hu, hr, hne⟩ := ih y1 hch.2 hnd.2 y q
      exact ⟨u, List.mem_cons_of_mem _ hu, hr, hne⟩

/-- An element of a nonempty list is its last one or the first component of a pair of
neighbours. -/
theorem mem_zip_or_last {α : Type} :
    ∀ (l : List α) (a e : α), e ∈ a :: l →
      e = l.getLastD a ∨ ∃ q ∈ (a :: l).zip l, q.1 = e := by
  intro l
  induction l with
  | nil =>
    intro a e he
    left
    simpa using he
  | cons y l ih =>
    intro a e he
    rw [List.getLastD_cons]
    rcases List.mem_cons.1 he with q | q
    · right
      exact ⟨(a, y), by simp, q.symm⟩
    · rcases ih y e q with h | ⟨p, hp, hp1⟩
      · exact Or.inl h
      · right
        exact ⟨p, by rw [List.zip_cons_cons]; exact List.mem_cons_of_mem _ hp, hp1⟩

theorem fanUpTo_spec (p : Arc → Bool) :
    ∀ (fan rot : List Arc), fanUpTo p fan = some rot →
      rot <+: fan ∧ rot.head? = fan.head? ∧ rot ≠ [] ∧ ∀ d, p (rot.getLastD d) = true := by
  intro fan
  induction fan with
  | nil => intro rot h; exact Option.noConfusion h
  | cons a rest ih =>
    intro rot h
    unfold fanUpTo at h
    split at h
    · rename_i hp
      have : rot = [a] := (Option.some.inj h).symm
      subst this
      exact ⟨by simp, rfl, by simp, fun _ => hp⟩
    · cases hr : fanUpTo p rest with
      | none => rw [hr] at h; exact Option.noConfusion h
      | some l =>
        rw [hr] at h
        have : rot = a :: l := (Option.some.inj h).symm
        subst this
        obtain ⟨i1, _, i3, i4⟩ := ih l hr
        refine ⟨?_, rfl, by simp, ?_⟩
        · obtain ⟨t, ht⟩ := i1
          exact ⟨t, by rw [List.cons_append, ht]⟩
        · intro d
          rw [List.getLastD_cons]
          exact i4 a

theorem fanUpTo_some (p : Arc → Bool) :
    ∀ (fan : List Arc), (∃ a ∈ fan, p a = true) → ∃ rot, fanUpTo p fan = some rot := by
  intro fan
  induction fan with
  | nil => rintro ⟨a, ha, _⟩; exact absurd ha (List.not_mem_nil _)
  | cons a rest ih =>
    rintro ⟨y, hy, hp⟩
    unfold fanUpTo
    by_cases hpa : p a = true
    · rw [if_pos hpa]; exact ⟨_, rfl⟩
    · rw [if_neg hpa]
      rcases List.mem_cons.1 hy with q | q
      · rw [q] at hp; exact absurd hp hpa
      · obtain ⟨l, hl⟩ := ih ⟨y, q, hp⟩
        rw [hl]
        exact ⟨_, rfl⟩

/-- The rotated prefix is a chain for a second relation that holds between neighbours whose
first arc fails the test. -/
theorem fanUpTo_chain {R S : Arc → Arc → Prop} (p : Arc → Bool)
    (hRS : ∀ u v, R u v → p u = false → S u v) :
    ∀ (fan rot : List Arc), fanUpTo p fan = some rot → fan.Chain' R → rot.Chain' S := by
  intro fan
  induction fan with
  | nil => intro rot h; exact Option.noConfusion h
  | cons a rest ih =>
    intro rot h hch
    unfold fanUpTo at h
    split at h
    · have : rot = [a] := (Option.some.inj h).symm
      subst this
      exact List.chain'_singleton a
    · rename_i hp
      have hp : p a = false := by simpa using hp
      cases hr : fanUpTo p rest with
      | none => rw [hr] at h; exact Option.noConfusion h
      | some l =>
        rw [hr] at h
        have : rot = a :: l := (Option.some.inj h).symm
        subst this
        rw [List.chain'_cons'] at hch ⊢
        obtain ⟨_, i2, _, _⟩ := fanUpTo_spec p rest l hr
        refine ⟨?_, ih l hr hch.2⟩
        intro y hy
        rw [i2] at hy
        exact hRS a y (hch.1 y hy) hp

/-- On an alternating path only its far end vertex, or its first vertex at the first arc,
has an arc of the path in one of the two colours while the other colour is free. -/
theorem altPath_end {G : DiGraph} {b : Nat} {k : KColoring} (hk : Consistent G b k)
    (hb : b ≤ UNCOLORED) :
    ∀ (P : List Arc) (v col other : Nat), col < b → other < b → AltPath G k v col other P →
      ∃ zE, ∀ e ∈ P, ∀ z, e.incident z →
        ((k.get_color e = col ∧ k.is_color_free z other = true) ∨
          (k.get_color e = other ∧ k.is_color_free z col = true)) →
        z = zE ∨ (z = v ∧ P.head? = some e) := by
  intro P
  induction P with
  | nil =>
    intro v _ _ _ _ _
    exact ⟨v, fun e he => absurd he (List.not_mem_nil _)⟩
  | cons a rest ih =>
    intro v col other hcol hother hp
    obtain ⟨haG, hai, hac, hrest⟩ := hp
    have hai2 : a.incident (a.getOther v) := getOther_incident hai
    have hnf : k.is_color_free (a.getOther v) col = true → False := by
      intro hf
      exact (hk.free_iff_no_arc hb _ hcol).1 hf a haG hai2 hac
    have hz : ∀ z, a.incident z → z = v ∨ z = a.getOther v := by
      intro z hz
      rcases getOther_ends a v hai with ⟨e1, e2⟩ | ⟨e1, e2⟩
      · rcases hz with q | q
        · exact Or.inl (by rw [← q, e1])
        · exact Or.inr (by rw [← q, e2])
      · rcases hz with q | q
        · exact Or.inr (by rw [← q, e2])
        · exact Or.inl (by rw [← q, e1])
    cases rest with
    | nil =>
      refine ⟨a.getOther v, ?_⟩
      intro e he z hez _
      have : e = a := by simpa using he
      subst this
      rcases hz z hez with q | q
      · exact Or.inr ⟨q, rfl⟩
      · exact Or.inl q
    | cons a1 rest1 =>
      obtain ⟨zE, hzE⟩ := ih (a.getOther v) other col hother hcol hrest
      obtain ⟨ha1G, ha1i, ha1c, _⟩ := hrest
      have hnf1 : k.is_color_free (a.getOther v) other = true → False := by
        intro hf
        exact (hk.free_iff_no_arc hb _ hother).1 hf a1 ha1G ha1i ha1c
      refine ⟨zE, ?_⟩
      intro e he z hez hcase
      rcases List.mem_cons.1 he with q | q
      · subst q
        rcases hz z hez with q | q
        · exact Or.inr ⟨q, rfl⟩
        · rw [q] at hcase
          rcases hcase with ⟨_, hf⟩ | ⟨_, hf⟩
          · exact absurd hf hnf1
          · exact absurd hf hnf
      · rcases hzE e q z hez hcase.symm with h1 | ⟨h1, _⟩
        · exact Or.inl h1
        · rw [h1] at hcase
          rcases hcase with ⟨_, hf⟩ | ⟨_, hf⟩
          · exact absurd hf hnf1
          · exact absurd hf hnf

/-- What `invert_cd_path(coloring, x, c, d)` does on a consistent colouring with `c ≠ d`,
`c` free and `d` not free at `x`: it returns, the same arcs are coloured as before, an arc
keeps its colour or has `c` and `d` exchanged, `d` is free at `x`, and at most one vertex
loses `d` as a free colour. -/
theorem invert_cd_path_spec {G : DiGraph} {b : Nat} {w : Arc → Nat} {s : Coloring}
    {x c d fuel : Nat} (h : CInv G b w s) (hcd : c ≠ d) (hc : c < b) (hd : d < b)
    (hfc : s.base.is_color_free x c = true) (hfd : s.base.is_color_free x d = false)
    (hfuel : G.arcs.length ≤ fuel) :
    ∃ s1, invert_cd_path fuel s w x c d = Except.ok s1 ∧ CInv G b w s1 ∧
      (∀ e, s1.base.is_colored e = s.base.is_colored e) ∧
      s1.base.is_color_free x d = true ∧
      (∀ e, s1.base.arc_colors e = s.base.arc_colors e ∨
        (s.base.arc_colors e = c ∧ s1.base.arc_colors e = d) ∨
        (s.base.arc_colors e = d ∧ s1.base.arc_colors e = c)) ∧
      ∃ zE, ∀ v, s.base.is_color_free v d = true → s1.base.is_color_free v d = false →
        v = zE := by
  have hbU := h.bU
  have hdc : d ≠ c := fun e => hcd e.symm
  obtain ⟨a1, ha1, ha1G, ha1i, ha1c⟩ := h.am_some_of_not_free hd hfd
  have ha1cd : s.base.is_colored a1 = true := is_colored_of_lt h.base (by rw [ha1c]; exact hd)
  obtain ⟨s1, e1, h1, b1, _⟩ := Coloring.uncolor_ok h ha1G ha1cd
  have hI : InvertInv G b w s s1 c d x a1 c d [] := by
    refine ⟨h1, Or.inl ⟨rfl, rfl⟩, List.nodup_nil, fun e he => absurd he (List.not_mem_nil _),
      ha1G, List.not_mem_nil _, ha1i, ha1c, ?_, fun e he => absurd he (List.not_mem_nil _), ?_,
      fun e he => absurd he (List.not_mem_nil _), ?_⟩
    · intro e
      rw [b1, arc_colors_uncolor]
      simp
    · rw [b1, is_color_free_uncolor h.base hbU w a1 ha1cd x hc, ha1c,
        if_neg (fun e => hcd e.1)]
      exact hfc
    · intro e3 he3G he3i he3c
      right
      rcases he3c with q | q
      · exact absurd q ((h.base.free_iff_no_arc hbU x hc).1 hfc e3 he3G he3i)
      · exact h.base.proper e3 he3G a1 ha1G x he3i ha1i (by rw [q]; exact hd)
          (by rw [q, ha1c])
  obtain ⟨s2, Q, e2, h2, hp, hcols⟩ := invertLoop_spec G b w s c d h hcd hc hd fuel s1 x a1
    c d [] hI (by simpa using hfuel)
  have hcols2 : ∀ e, s2.base.arc_colors e =
      if e ∈ a1 :: Q then swapcd c d (s.base.arc_colors e) else s.base.arc_colors e := by
    intro e
    rw [hcols]
    simp
  have hPc := altPath_colors G s.base (a1 :: Q) x d c hp
  have hPcols : ∀ e ∈ a1 :: Q, (s.base.arc_colors e = c ∧ s2.base.arc_colors e = d) ∨
      (s.base.arc_colors e = d ∧ s2.base.arc_colors e = c) := by
    intro e he
    have h3 : s2.base.arc_colors e = swapcd c d (s.base.arc_colors e) := by
      rw [hcols2, if_pos he]
    rcases (hPc e he).2 with q | q
    · right
      have q : s.base.arc_colors e = d := q
      refine ⟨q, ?_⟩
      rw [h3, q]
      simp [swapcd, hdc]
    · left
      have q : s.base.arc_colors e = c := q
      refine ⟨q, ?_⟩
      rw [h3, q]
      simp [swapcd]
  have htri : ∀ e, s2.base.arc_colors e = s.base.arc_colors e ∨
      (s.base.arc_colors e = c ∧ s2.base.arc_colors e = d) ∨
      (s.base.arc_colors e = d ∧ s2.base.arc_colors e = c) := by
    intro e
    by_cases he : e ∈ a1 :: Q
    · exact Or.inr (hPcols e he)
    · left
      rw [hcols2, if_neg he]
  have hcolored : ∀ e, s2.base.is_colored e = s.base.is_colored e := by
    intro e
    unfold KColoring.is_colored
    rw [h2.base.nc, h.base.nc]
    rcases htri e with q | ⟨q1, q2⟩ | ⟨q1, q2⟩
    · rw [q]
    · rw [q1, q2]
      simp [hc, hd]
    · rw [q1, q2]
      simp [hc, hd]
  have hxd : s2.base.is_color_free x d = true := by
    rw [h2.base.free_iff_no_arc hbU x hd]
    intro e heG hei hec
    have hec : s2.base.arc_colors e = d := hec
    by_cases he : e ∈ a1 :: Q
    · rcases hPcols e he with ⟨q1, _⟩ | ⟨_, q2⟩
      · exact (h.base.free_iff_no_arc hbU x hc).1 hfc e heG hei q1
      · rw [q2] at hec
        exact hcd hec
    · rw [hcols2, if_neg he] at hec
      apply he
      rw [h.base.proper e heG a1 ha1G x hei ha1i (by rw [hec]; exact hd) (by rw [hec, ha1c])]
      exact List.mem_cons_self _ _
  obtain ⟨zE, hzE⟩ := altPath_end h.base hbU (a1 :: Q) x d c hd hc hp
  refine ⟨s2, ?_, h2, hcolored, hxd, htri, zE, ?_⟩
  · unfold invert_cd_path
    rw [ha1]
    simp only [e1, bind, Except.bind]
    exact e2
  · intro v hv hv1
    obtain ⟨e, heG, hei, hec⟩ := not_free_arc h2.base hbU hd hv1
    have hec : s2.base.arc_colors e = d := hec
    have hnotd : s.base.arc_colors e ≠ d := (h.base.free_iff_no_arc hbU v hd).1 hv e heG hei
    have heP : e ∈ a1 :: Q := by
      by_contra hne
      rw [hcols2, if_neg hne] at hec
      exact hnotd hec
    have hsc : s.base.arc_colors e = c := by
      rcases hPcols e heP with ⟨q1, _⟩ | ⟨q1, _⟩
      · exact q1
      · exact absurd q1 hnotd
    rcases hzE e heP v hei (Or.inr ⟨hsc, hv⟩) with q | ⟨_, q⟩
    · exact q
    · simp only [List.head?_cons, Option.some.injEq] at q
      rw [← q, ha1c] at hsc
      exact absurd hsc hdc

/-- Colours other than `c` and `d` are free at the same vertices after the exchange of `c`
and `d` on some arcs, and a vertex that had `d` free has `d` or `c` free afterwards. -/
theorem free_after_exchange {G : DiGraph} {b : Nat} {k k1 : KColoring} {c d : Nat}
    (hk : Consistent G b k) (hk1 : Consistent G b k1) (hb : b ≤ UNCOLORED) (hcd : c ≠ d)
    (hc : c < b) (hd : d < b)
    (htri : ∀ e, k1.arc_colors e = k.arc_colors e ∨
      (k.arc_colors e = c ∧ k1.arc_colors e = d) ∨
      (k.arc_colors e = d ∧ k1.arc_colors e = c)) :
    (∀ v col, col < b → col ≠ c → col ≠ d → k1.is_color_free v col = k.is_color_free v col) ∧
    (∀ v, k.is_color_free v d = true →
      k1.is_color_free v d = true ∨ k1.is_color_free v c = true) := by
  constructor
  · intro v col hcol hnc hnd
    rw [Bool.eq_iff_iff, hk1.free_iff_no_arc hb v hcol, hk.free_iff_no_arc hb v hcol]
    constructor
    · intro h1 e heG hei hec
      have hec : k.arc_colors e = col := hec
      rcases htri e with q | ⟨q1, _⟩ | ⟨q1, _⟩
      · exact h1 e heG hei (by show k1.arc_colors e = col; rw [q, hec])
      · rw [q1] at hec; exact hnc hec.symm
      · rw [q1] at hec; exact hnd hec.symm
    · intro h1 e heG hei hec
      have hec : k1.arc_colors e = col := hec
      rcases htri e with q | ⟨_, q2⟩ | ⟨_, q2⟩
      · exact h1 e heG hei (by show k.arc_colors e = col; rw [← q, hec])
      · rw [q2] at hec; exact hnd hec.symm
      · rw [q2] at hec; exact hnc hec.symm
  · intro v hv
    by_cases h1 : k1.is_color_free v d = true
    · exact Or.inl h1
    · right
      have h1 : k1.is_color_free v d = false := by simpa using h1
      obtain ⟨e, heG, hei, hec⟩ := not_free_arc hk1 hb hd h1
      have hec : k1.arc_colors e = d := hec
      have hnotd : ∀ y ∈ G.arcs, y.incident v → k.arc_colors y ≠ d :=
        (hk.free_iff_no_arc hb v hd).1 hv
      have hsc : k.arc_colors e = c := by
        rcases htri e with q | ⟨q1, _⟩ | ⟨_, q2⟩
        · rw [q] at hec; exact absurd hec (hnotd e heG hei)
        · exact q1
        · rw [q2] at hec; exact absurd hec hcd
      rw [hk1.free_iff_no_arc hb v hc]
      intro y hyG hyi hyc
      have hyc : k1.arc_colors y = c := hyc
      rcases htri y with q | ⟨_, q2⟩ | ⟨q1, _⟩
      · have hyk : k.arc_colors y = c := by rw [← q]; exact hyc
        have := hk.proper y hyG e heG v hyi hei (by rw [hyk]; exact hc) (by rw [hyk, hsc])
        rw [this, hec] at hyc
        exact hcd hyc.symm
      · rw [q2] at hyc; exact hcd hyc.symm
      · exact hnotd y hyG hyi q1

theorem get_any_free_color_spec {b : Nat} {k : KColoring} {fc : FreeColorsExtension}
    (h : FCConsistent b k fc) (hb : b < 64) (v : Nat) :
    ∃ col, fc.get_any_free_color v = some col ∧
      ((col = npos ∧ ∀ c, c < b → k.is_color_free v c = false) ∨
        (col ≠ npos ∧ col < b ∧ k.is_color_free v col = true)) := by
  have he : fc.common_free_color v v = defined (fc.get_any_free_color v) := by
    rw [common_free_color_of_size rfl]
    unfold FreeColorsExtension.get_any_free_color commonSet color_set.find_first
    simp only [Nat.and_self]
  obtain ⟨col, e1, h1⟩ := common_free_color_spec h hb v v
  refine ⟨col, defined_ok.1 (by rw [← he]; exact e1), ?_⟩
  rcases h1 with ⟨q1, q2⟩ | ⟨q1, q2, q3, _⟩
  · left
    refine ⟨q1, ?_⟩
    intro c hc
    by_contra hf
    have hf : k.is_color_free v c = true := by simpa using hf
    exact q2 c hc ⟨hf, hf⟩
  · exact Or.inr ⟨q1, q2, q3⟩

/-- The fan that `compute_fan(coloring, x, xy)` returns on a consistent colouring with `xy`
uncoloured. -/
theorem compute_fan_spec {G : DiGraph} {b : Nat} {s : Coloring} (x : Nat) {xy : Arc}
    (hk : Consistent G b s.base) (ha : AMConsistent G b s.base s.am)
    (hf : FCConsistent b s.base s.fc) (hxy : s.base.is_colored xy = false) :
    ∃ rest, compute_fan s x xy = Except.ok (xy :: rest) ∧
      List.Chain (FanLink G s.base x) xy rest ∧ (xy :: rest).Nodup ∧
      ∀ e ∈ G.arcs, e.incident x → s.base.is_colored e = true → e ∉ xy :: rest →
        s.base.is_color_free ((rest.getLastD xy).getOther x) (s.base.get_color e) = false := by
  obtain ⟨hmem, hnd⟩ := getColoredArcs_spec hk ha x
  have hex : ∃ r, compute_fan s x xy = Except.ok r ∧ r.head? = some xy ∧
      r.Chain' (FanLink G s.base x) ∧ r.Nodup ∧
      ∀ e ∈ G.arcs, e.incident x → s.base.is_colored e = true → e ∉ r →
        s.base.is_color_free ((r.getLastD xy).getOther x) (s.base.get_color e) = false := by
    unfold compute_fan
    apply fanLoop_spec G s hk hf x xy _ [xy] (s.am.getColoredArcs x) (Nat.lt_succ_self _)
      (by simp) rfl (List.chain'_singleton xy)
    · intro a h
      exact (hmem a).1 h
    · rw [List.singleton_append, List.nodup_cons]
      refine ⟨?_, hnd⟩
      intro h
      rw [((hmem xy).1 h).2.2] at hxy
      exact Bool.noConfusion hxy
    · intro e heG hi hec
      exact Or.inr ((hmem e).2 ⟨heG, hi, hec⟩)
  obtain ⟨r, e1, h1, h2, h3, h4⟩ := hex
  obtain ⟨rest, hr⟩ := compute_fan_head e1
  subst hr
  refine ⟨rest, e1, h2, h3, ?_⟩
  intro e heG hi hec hne
  have := h4 e heG hi hec hne
  rw [List.getLastD_cons] at this
  exact this

/-- The end of `color_edge`: rotating a fan prefix whose last arc has `d` free at its far
end, with `d` free at `x`, and colouring the last arc with `d`. Both calls return, the
colouring is consistent, and the coloured arcs are the old ones and `xy`. -/
theorem rotateAndColor_spec {G : DiGraph} {b : Nat} {w : Arc → Nat} {s1 : Coloring}
    {x d : Nat} {xy : Arc} {rest : List Arc} (h1 : CInv G b w s1) (hxy : xy ∈ G.arcs)
    (hl : xy.tail ≠ xy.head) (hun : s1.base.is_colored xy = false) (hi : xy.incident x)
    (hch : List.Chain (FanLink G s1.base x) xy rest) (hnd : (xy :: rest).Nodup)
    (hd : d < b) (hdx : s1.base.is_color_free x d = true)
    (hdl : s1.base.is_color_free ((rest.getLastD xy).getOther x) d = true) :
    ∃ s2 s3, rotate_fan s1 w (xy :: rest) = Except.ok s2 ∧
      s2.color w (rest.getLastD xy) d = Except.ok s3 ∧ CInv G b w s3 ∧
      ∀ e, s3.base.is_colored e = (s1.base.is_colored e || decide (e = xy)) := by
  have hbU := h1.bU
  obtain ⟨s2, e2, h2, fr, pr, last, _⟩ :=
    rotateLoop_spec G b w x rest s1 xy h1 hxy hun hi hch hnd
  have hmem : ∀ y ∈ rest, y ∈ G.arcs ∧ y.incident x ∧ s1.base.is_colored y = true := by
    intro y hy
    obtain ⟨u, _, ⟨g1, g2, g3, _⟩, _⟩ := chain_pred rest xy hch hnd y hy
    exact ⟨g1, g2, g3⟩
  have hwl := getLastD_mem_cons rest xy
  have hwlf : rest.getLastD xy ∈ G.arcs ∧ (rest.getLastD xy).incident x ∧
      (rest.getLastD xy).tail ≠ (rest.getLastD xy).head := by
    rcases List.mem_cons.1 hwl with q | q
    · rw [q]; exact ⟨hxy, hi, hl⟩
    · obtain ⟨g1, g2, g3⟩ := hmem _ q
      exact ⟨g1, g2, h1.edges _ g1 g3⟩
  obtain ⟨hwlG, hwli, hwll⟩ := hwlf
  have hrot : ∀ e ∈ xy :: rest, e ≠ rest.getLastD xy →
      ∃ y ∈ rest, s2.base.arc_colors e = s1.base.arc_colors y := by
    intro e he hne
    rcases mem_zip_or_last rest xy e he with q | ⟨q, hq, hq1⟩
    · exact absurd q hne
    · refine ⟨q.2, (List.of_mem_zip hq).2, ?_⟩
      rw [← hq1]
      exact pr q hq
  have hs2 : ∀ e, s2.base.arc_colors e = d →
      (e ∉ xy :: rest ∧ s1.base.arc_colors e = d) ∨ ∃ y ∈ rest, s1.base.arc_colors y = d := by
    intro e hed
    by_cases he : e ∈ xy :: rest
    · right
      by_cases hew : e = rest.getLastD xy
      · exfalso
        have := is_colored_of_lt h2.base (show s2.base.arc_colors e < b by rw [hed]; exact hd)
        rw [hew, last] at this
        exact Bool.noConfusion this
      · obtain ⟨y, hy, hyc⟩ := hrot e he hew
        exact ⟨y, hy, by rw [← hyc]; exact hed⟩
    · left
      exact ⟨he, by rw [← fr e he]; exact hed⟩
  have hnox : ∀ y ∈ rest, s1.base.arc_colors y = d → False := by
    intro y hy hyc
    obtain ⟨g1, g2, _⟩ := hmem y hy
    exact (h1.base.free_iff_no_arc hbU x hd).1 hdx y g1 g2 hyc
  have hx2 : s2.base.is_color_free x d = true := by
    rw [h2.base.free_iff_no_arc hbU x hd]
    intro e heG hei hec
    rcases hs2 e hec with ⟨_, q⟩ | ⟨y, hy, hyc⟩
    · exact (h1.base.free_iff_no_arc hbU x hd).1 hdx e heG hei q
    · exact hnox y hy hyc
  have hl2 : s2.base.is_color_free ((rest.getLastD xy).getOther x) d = true := by
    rw [h2.base.free_iff_no_arc hbU _ hd]
    intro e heG hei hec
    rcases hs2 e hec with ⟨_, q⟩ | ⟨y, hy, hyc⟩
    · exact (h1.base.free_iff_no_arc hbU _ hd).1 hdl e heG hei q
    · exact hnox y hy hyc
  obtain ⟨ht, hh⟩ := free_at_ends hwli hx2 hl2
  obtain ⟨s3, e3, h3, b3, _⟩ := Coloring.color_ok h2 hwlG last hd ht hh hwll
  refine ⟨s2, s3, e2, e3, h3, ?_⟩
  intro e
  rw [b3, is_colored_color h2.base w _ hd e]
  by_cases he : e ∈ xy :: rest
  · have hL : (if e = rest.getLastD xy then true else s2.base.is_colored e) = true := by
      by_cases hew : e = rest.getLastD xy
      · rw [if_pos hew]
      · rw [if_neg hew]
        obtain ⟨y, hy, hyc⟩ := hrot e he hew
        apply is_colored_of_lt h2.base
        rw [hyc]
        exact h1.base.colored_lt (hmem y hy).2.2
    rw [hL]
    rcases List.mem_cons.1 he with q | q
    · rw [q]; simp
    · rw [(hmem e q).2.2]; rfl
  · have hew : e ≠ rest.getLastD xy := fun q => he (q ▸ hwl)
    have hexy : e ≠ xy := fun q => he (q ▸ List.mem_cons_self _ _)
    rw [if_neg hew]
    have : s2.base.is_colored e = s1.base.is_colored e := by
      unfold KColoring.is_colored
      rw [fr e he, h2.base.nc, h1.base.nc]
    rw [this]
    simp [hexy]

/-- The end of `color_edge` on a simple graph, once the colours `c` (free at `x`) and `d`
(free at the far end of the last arc of the fan) are known: every call returns, the fan
holds an arc whose far end has `d` free after the inversion, and the coloured arcs
afterwards are the old ones and `xy`. -/
theorem colorEdgeRotate_spec {G : DiGraph} {b : Nat} {w : Arc → Nat} {s : Coloring}
    (rotate_long : Bool) {fuel x c d : Nat} {xy : Arc} {rest : List Arc}
    (h : CInv G b w s) (hs : G.simple) (hxy : xy ∈ G.arcs)
    (hun : s.base.is_colored xy = false) (hi : xy.incident x) (hfuel : G.arcs.length ≤ fuel)
    (hc : c < b) (hfc : s.base.is_color_free x c = true)
    (hch : List.Chain (FanLink G s.base x) xy rest) (hnd : (xy :: rest).Nodup)
    (hmax : ∀ e ∈ G.arcs, e.incident x → s.base.is_colored e = true → e ∉ xy :: rest →
      s.base.is_color_free ((rest.getLastD xy).getOther x) (s.base.get_color e) = false)
    (hd : d < b) (hfd : s.base.is_color_free ((rest.getLastD xy).getOther x) d = true) :
    ∃ s3, colorEdgeRotate rotate_long fuel s w xy x c d (xy :: rest)
        = Except.ok (max c d, s3) ∧ CInv G b w s3 ∧
      ∀ e, s3.base.is_colored e = (s.base.is_colored e || decide (e = xy)) := by
  have hbU := h.bU
  have hl := hs.1 xy hxy
  have hmem : ∀ y ∈ rest, y ∈ G.arcs ∧ y.incident x ∧ s.base.is_colored y = true := by
    intro y hy
    obtain ⟨u, _, ⟨g1, g2, g3, _⟩, _⟩ := chain_pred rest xy hch hnd y hy
    exact ⟨g1, g2, g3⟩
  have hmem2 : ∀ y ∈ xy :: rest, y ∈ G.arcs ∧ y.incident x := by
    intro y hy
    rcases List.mem_cons.1 hy with q | q
    · rw [q]; exact ⟨hxy, hi⟩
    · exact ⟨(hmem y q).1, (hmem y q).2.1⟩
  have key : ∀ (inv : Bool) (s1 : Coloring) (rest1 : List Arc),
      (!s.base.is_color_free x d && decide (c ≠ d)) = inv →
      invertIf inv fuel s w x c d = Except.ok s1 →
      rotatedPart rotate_long inv s1 x d (xy :: rest) = Except.ok (xy :: rest1) →
      CInv G b w s1 → (∀ e, s1.base.is_colored e = s.base.is_colored e) →
      List.Chain (FanLink G s1.base x) xy rest1 → (xy :: rest1).Nodup →
      s1.base.is_color_free x d = true →
      s1.base.is_color_free ((rest1.getLastD xy).getOther x) d = true →
      ∃ s3, colorEdgeRotate rotate_long fuel s w xy x c d (xy :: rest)
          = Except.ok (max c d, s3) ∧ CInv G b w s3 ∧
        ∀ e, s3.base.is_colored e = (s.base.is_colored e || decide (e = xy)) := by
    intro inv s1 rest1 hinv e1 er h1 hcol hch1 hnd1 hdx hdl
    have hun1 : s1.base.is_colored xy = false := by rw [hcol]; exact hun
    obtain ⟨s2, s3, e2, e3, h3, hc3⟩ :=
      rotateAndColor_spec h1 hxy hl hun1 hi hch1 hnd1 hd hdx hdl
    refine ⟨s3, ?_, h3, ?_⟩
    · unfold colorEdgeRotate
      simp only [hinv, e1, er, e2, List.getLastD_cons, e3, bind, Except.bind, pure,
        Except.pure]
    · intro e
      rw [hc3 e, hcol e]
  have plain : s.base.is_color_free x d = true →
      (!s.base.is_color_free x d && decide (c ≠ d)) = false →
      ∃ s3, colorEdgeRotate rotate_long fuel s w xy x c d (xy :: rest)
          = Except.ok (max c d, s3) ∧ CInv G b w s3 ∧
        ∀ e, s3.base.is_colored e = (s.base.is_colored e || decide (e = xy)) := by
    intro hxd hinv
    cases hrl : rotate_long with
    | true =>
      rw [hrl] at key
      exact key false s rest hinv rfl rfl h (fun _ => rfl) hch hnd hxd hfd
    | false =>
      rw [hrl] at key
      have hex : ∃ a ∈ xy :: rest,
          (fun a : Arc => s.base.is_color_free (a.getOther x) d) a = true :=
        ⟨rest.getLastD xy, getLastD_mem_cons rest xy, hfd⟩
      obtain ⟨rot, hrot⟩ := fanUpTo_some _ _ hex
      obtain ⟨rest1, hr1⟩ := fanUpTo_head hrot
      subst hr1
      obtain ⟨i1, _, _, i4⟩ := fanUpTo_spec _ _ _ hrot
      have hch1 : (xy :: rest1).Chain' (FanLink G s.base x) :=
        fanUpTo_chain _ (fun u v huv _ => huv) _ _ hrot hch
      have hlast := i4 xy
      rw [List.getLastD_cons] at hlast
      refine key false s rest1 hinv rfl ?_ h (fun _ => rfl) hch1 (hnd.sublist i1.sublist)
        hxd hlast
      simp only [rotatedPart, hrot, Bool.not_false, Bool.or_false, if_true]
      rfl
  by_cases hxd : s.base.is_color_free x d = true
  · exact plain hxd (by rw [hxd]; rfl)
  · by_cases hcd : c = d
    · exact plain (by rw [← hcd]; exact hfc) (by simp [hcd])
    · have hxd : s.base.is_color_free x d = false := by simpa using hxd
      have hinv : (!s.base.is_color_free x d && decide (c ≠ d)) = true := by
        simp [hxd, hcd]
      obtain ⟨s1, e1, h1, hcol, hdx, htri, zE, hzE⟩ :=
        invert_cd_path_spec h hcd hc hd hfc hxd hfuel
      obtain ⟨hB, hC⟩ := free_after_exchange h.base h1.base hbU hcd hc hd htri
      -- the arc of colour `d` at `x` is in the fan and has a neighbour before it
      obtain ⟨A, hAG, hAi, hAc⟩ := not_free_arc h.base hbU hd hxd
      have hAc2 : s.base.arc_colors A = d := hAc
      have hAcol : s.base.is_colored A = true :=
        is_colored_of_lt h.base (by rw [hAc2]; exact hd)
      have hAfan : A ∈ xy :: rest := by
        by_contra hne
        have := hmax A hAG hAi hAcol hne
        rw [hAc, hfd] at this
        exact Bool.noConfusion this
      have hArest : A ∈ rest := by
        rcases List.mem_cons.1 hAfan with q | q
        · rw [q, hun] at hAcol; exact Bool.noConfusion hAcol
        · exact q
      obtain ⟨u, hu, ⟨_, _, _, hufree⟩, hune⟩ := chain_pred rest xy hch hnd A hArest
      rw [hAc] at hufree
      have hex : ∃ a ∈ xy :: rest,
          (fun a : Arc => s1.base.is_color_free (a.getOther x) d) a = true := by
        by_cases hu1 : s1.base.is_color_free (u.getOther x) d = true
        · exact ⟨u, hu, hu1⟩
        · have hu1 : s1.base.is_color_free (u.getOther x) d = false := by simpa using hu1
          refine ⟨rest.getLastD xy, getLastD_mem_cons rest xy, ?_⟩
          by_contra hl1
          have hl1 : s1.base.is_color_free ((rest.getLastD xy).getOther x) d = false := by
            simpa using hl1
          have hfar : u.getOther x = (rest.getLastD xy).getOther x := by
            rw [hzE _ hufree hu1, hzE _ hfd hl1]
          obtain ⟨huG, hui⟩ := hmem2 u hu
          obtain ⟨hlG, hli⟩ := hmem2 _ (getLastD_mem_cons rest xy)
          have hui2 : u.incident ((rest.getLastD xy).getOther x) := by
            rw [← hfar]; exact getOther_incident hui
          apply hune
          apply hs.2 u huG _ hlG
          · rcases getOther_ends (rest.getLastD xy) x hli with ⟨q1, _⟩ | ⟨_, q2⟩
            · rw [q1]; exact hui
            · rw [q2]; exact hui2
          · rcases getOther_ends (rest.getLastD xy) x hli with ⟨_, q2⟩ | ⟨q1, _⟩
            · rw [q2]; exact hui2
            · rw [q1]; exact hui
      obtain ⟨rot, hrot⟩ := fanUpTo_some _ _ hex
      obtain ⟨rest1, hr1⟩ := fanUpTo_head hrot
      subst hr1
      obtain ⟨i1, _, _, i4⟩ := fanUpTo_spec _ _ _ hrot
      have hch1 : (xy :: rest1).Chain' (FanLink G s1.base x) := by
        refine fanUpTo_chain _ ?_ _ _ hrot hch
        intro u1 v ⟨g1, g2, g3, g4⟩ hp
        have hp : s1.base.is_color_free (u1.getOther x) d = false := hp
        have hvc : s.base.arc_colors v ≠ c :=
          (h.base.free_iff_no_arc hbU x hc).1 hfc v g1 g2
        have hv1d : s1.base.arc_colors v ≠ d :=
          (h1.base.free_iff_no_arc hbU x hd).1 hdx v g1 g2
        refine ⟨g1, g2, by rw [hcol]; exact g3, ?_⟩
        show s1.base.is_color_free (u1.getOther x) (s1.base.arc_colors v) = true
        have g4 : s.base.is_color_free (u1.getOther x) (s.base.arc_colors v) = true := g4
        by_cases hvd : s.base.arc_colors v = d
        · have hv1c : s1.base.arc_colors v = c := by
            rcases htri v with q | ⟨q1, _⟩ | ⟨_, q2⟩
            · rw [hvd] at q; exact absurd q hv1d
            · exact absurd q1 hvc
            · exact q2
          rw [hv1c]
          rw [hvd] at g4
          rcases hC _ g4 with q | q
          · rw [hp] at q; exact Bool.noConfusion q
          · exact q
        · have hv1 : s1.base.arc_colors v = s.base.arc_colors v := by
            rcases htri v with q | ⟨q1, _⟩ | ⟨q1, _⟩
            · exact q
            · exact absurd q1 hvc
            · exact absurd q1 hvd
          rw [hv1, hB _ _ (h.base.colored_lt g3) hvc hvd]
          exact g4
      have hlast := i4 xy
      rw [List.getLastD_cons] at hlast
      refine key true s1 rest1 hinv ?_ ?_ h1 hcol hch1 (hnd.sublist i1.sublist) hdx hlast
      · simp only [invertIf, if_true]
        exact e1
      · simp only [rotatedPart, hrot, Bool.or_true, if_true]
        rfl

theorem colorEdgeFan_spec {G : DiGraph} {b : Nat} {w : Arc → Nat} {s : Coloring}
    (rotate_long : Bool) {fuel x : Nat} {xy : Arc} (h : CInv G b w s) (hs : G.simple)
    (hxy : xy ∈ G.arcs) (hun : s.base.is_colored xy = false) (hi : xy.incident x)
    (hfuel : G.arcs.length ≤ fuel) :
    ∃ r, colorEdgeFan rotate_long fuel s w xy x = Except.ok r ∧
      ((r.1 < b ∧ CInv G b w r.2 ∧
          ∀ e, r.2.base.is_colored e = (s.base.is_colored e || decide (e = xy))) ∨
        ((r.1 = UNCOLORED ∨ r.1 = UNCOLORED - 1) ∧ r.2 = s ∧
          ∃ z, ∀ c, c < b → s.base.is_color_free z c = false)) := by
  obtain ⟨c, ec, hcase⟩ := get_any_free_color_spec h.fc h.width x
  unfold colorEdgeFan
  simp only [ec, defined, bind, Except.bind]
  rcases hcase with ⟨hc, hno⟩ | ⟨hcn, hc, hfc⟩
  · rw [if_pos hc]
    exact ⟨_, rfl, Or.inr ⟨Or.inl rfl, rfl, x, hno⟩⟩
  · rw [if_neg hcn]
    obtain ⟨rest, ef, hch, hnd, hmax⟩ := compute_fan_spec x h.base h.am h.fc hun
    obtain ⟨d, ed, hcase2⟩ :=
      get_any_free_color_spec h.fc h.width ((rest.getLastD xy).getOther x)
    simp only [ef, check, List.isEmpty_cons, Bool.not_false, if_true, List.getLastD_cons, ed]
    rcases hcase2 with ⟨hd, hno⟩ | ⟨hdn, hd, hfd⟩
    · rw [if_pos hd]
      exact ⟨_, rfl, Or.inr ⟨Or.inr rfl, rfl, _, hno⟩⟩
    · rw [if_neg hdn]
      obtain ⟨s3, e3, h3, hc3⟩ := colorEdgeRotate_spec rotate_long h hs hxy hun hi hfuel hc hfc
        hch hnd hmax hd hfd
      exact ⟨_, e3, Or.inl ⟨max_lt hc hd, h3, hc3⟩⟩

/-- What `color_edge(xy, x)` does on a simple graph with a consistent colouring, `xy` an
uncoloured arc of the graph at `x`: it returns; with a colour below `b` the colouring is
consistent and the coloured arcs are the old ones and `xy`; with `UNCOLORED` or
`UNCOLORED - 1` the colouring is the old one and some vertex has no free colour. -/
theorem color_edge_spec {G : DiGraph} {b : Nat} {w : Arc → Nat} {s : Coloring}
    (common_color rotate_long : Bool) {fuel x : Nat} {xy : Arc} (h : CInv G b w s)
    (hs : G.simple) (hxy : xy ∈ G.arcs) (hun : s.base.is_colored xy = false)
    (hi : xy.incident x) (hfuel : G.arcs.length ≤ fuel) :
    ∃ r, color_edge common_color rotate_long fuel s w xy x = Except.ok r ∧
      ((r.1 < b ∧ CInv G b w r.2 ∧
          ∀ e, r.2.base.is_colored e = (s.base.is_colored e || decide (e = xy))) ∨
        ((r.1 = UNCOLORED ∨ r.1 = UNCOLORED - 1) ∧ r.2 = s ∧
          ∃ z, ∀ c, c < b → s.base.is_color_free z c = false)) := by
  unfold color_edge
  cases common_color with
  | false =>
    simp only [Bool.false_eq_true, if_false]
    exact colorEdgeFan_spec rotate_long h hs hxy hun hi hfuel
  | true =>
    simp only [if_true]
    obtain ⟨col, ec, hcase⟩ := common_free_color_spec h.fc h.width xy.tail xy.head
    simp only [ec, defined, bind, Except.bind]
    rcases hcase with ⟨hn, _⟩ | ⟨hn, hc, ht, hh⟩
    · rw [if_neg (by simpa using hn)]
      exact colorEdgeFan_spec rotate_long h hs hxy hun hi hfuel
    · rw [if_pos hn]
      obtain ⟨s1, e1, h1, b1, _⟩ := Coloring.color_ok h hxy hun hc ht hh (hs.1 xy hxy)
      refine ⟨(col, s1), by rw [e1]; rfl, Or.inl ⟨hc, h1, ?_⟩⟩
      intro e
      show s1.base.is_colored e = _
      rw [b1, is_colored_color h.base w xy hc e]
      by_cases he : e = xy
      · simp [he]
      · simp [he]

/-- The accumulator after an operation that leaves a consistent colouring whose coloured
arcs are the old ones and the uncoloured arc `xy`. -/
theorem total_weight_add {G : DiGraph} {b : Nat} {w : Arc → Nat} {s s1 : Coloring}
    {xy : Arc} (h : CInv G b w s) (h1 : CInv G b w s1) (hb : 0 < b) (hxy : xy ∈ G.arcs)
    (hun : s.base.is_colored xy = false)
    (hcol : ∀ e, s1.base.is_colored e = (s.base.is_colored e || decide (e = xy))) :
    coloredWeight G w s1.base = coloredWeight G w s.base + w xy ∧
    s1.base.getTotalWeight = add64 s.base.getTotalWeight (w xy) := by
  have hcw : coloredWeight G w s1.base = coloredWeight G w s.base + w xy := by
    rw [← coloredWeight_color_any h.base h.nodup w w hxy hun hb]
    apply coloredWeight_congr
    intro e
    rw [hcol e, is_colored_color h.base w xy hb e]
    by_cases he : e = xy
    · simp [he]
    · simp [he]
  refine ⟨hcw, ?_⟩
  show s1.base.total_weight = add64 s.base.total_weight (w xy)
  rw [h1.wt, h.wt, hcw]
  unfold add64
  omega

theorem antiparallelColoring_inv : CInv antiparallelGraph 3 (fun _ => 1) antiparallelColoring :=
  thenColor_inv _ _ (freshColoring_inv antiparallelGraph (by decide) _ (by decide))
    (by decide)

theorem vizingColoring_inv : CInv vizingGraph 3 vizingWeights vizingColoring :=
  thenColor_inv _ _ (freshColoring_inv vizingGraph (by decide) _ (by decide)) (by decide)

/-- The Vizing step on a simple graph (no self-loop, no two arcs between the same two
vertices) with a consistent colouring with at most 63 colours, `color_edge(xy, x)` for an
uncoloured arc `xy` of the graph at `x` returns, so no assertion of `color` or `uncolor`
fails and the fan holds an arc whose far end has `d` free. With a returned colour below `b`,
`xy` is coloured, every arc coloured before is still coloured, every other arc is still
uncoloured, the colouring is consistent and proper, and `total_weight` has grown by `w(xy)`
in 64-bit arithmetic; with `UNCOLORED` or `UNCOLORED - 1` the colouring is the old one. -/
theorem color_edge_on_simple (common_color rotate_long : Bool) (G : DiGraph) (b : Nat)
    (w : Arc → Nat) (s : Coloring) (xy : Arc) (x fuel : Nat) (h : CInv G b w s)
    (hs : G.simple) (hxy : xy ∈ G.arcs) (hun : s.base.is_colored xy = false)
    (hi : xy.incident x) (hfuel : G.arcs.length ≤ fuel) :
    ∃ r, color_edge common_color rotate_long fuel s w xy x = Except.ok r ∧
      ((r.1 < b ∧ r.2.base.is_colored xy = true ∧
          (∀ e, s.base.is_colored e = true → r.2.base.is_colored e = true) ∧
          (∀ e, e ≠ xy → s.base.is_colored e = false → r.2.base.is_colored e = false) ∧
          CInv G b w r.2 ∧
          (∀ a1 ∈ G.arcs, ∀ a2 ∈ G.arcs, ∀ v, a1.incident v → a2.incident v →
            r.2.base.is_colored a1 = true → r.2.base.get_color a1 = r.2.base.get_color a2 →
            a1 = a2) ∧
          r.2.base.getTotalWeight = add64 s.base.getTotalWeight (w xy)) ∨
        ((r.1 = UNCOLORED ∨ r.1 = UNCOLORED - 1) ∧ r.2 = s)) := by
  obtain ⟨r, er, hr⟩ := color_edge_spec common_color rotate_long h hs hxy hun hi hfuel
  refine ⟨r, er, ?_⟩
  rcases hr with ⟨h1, h2, h3⟩ | ⟨h1, h2, _⟩
  · left
    refine ⟨h1, ?_, ?_, ?_, h2, ?_, ?_⟩
    · rw [h3]; simp
    · intro e he
      rw [h3, he]; rfl
    · intro e hne he
      rw [h3, he]; simp [hne]
    · intro a1 g1 a2 g2 v i1 i2 hc heq
      exact h2.base.proper a1 g1 a2 g2 v i1 i2 (h2.base.colored_lt hc) heq
    · exact (total_weight_add h h2 (Nat.lt_of_le_of_lt (Nat.zero_le _) h1) hxy hun h3).2
  · exact Or.inr ⟨h1, h2⟩

/-- The Vizing step on `vizingGraph` with three colours for the arc `(x,y)`, with
`common_color` and without `rotate_long`. -/
theorem color_edge_on_simple_vizing :
    ∃ r, color_edge true false 7 vizingColoring vizingWeights ⟨0, 0, 1⟩ 0 = Except.ok r ∧
      ((r.1 < 3 ∧ r.2.base.is_colored ⟨0, 0, 1⟩ = true ∧
          (∀ e, vizingColoring.base.is_colored e = true → r.2.base.is_colored e = true) ∧
          (∀ e, e ≠ ⟨0, 0, 1⟩ → vizingColoring.base.is_colored e = false →
            r.2.base.is_colored e = false) ∧
          CInv vizingGraph 3 vizingWeights r.2 ∧
          (∀ a1 ∈ vizingGraph.arcs, ∀ a2 ∈ vizingGraph.arcs, ∀ v, a1.incident v →
            a2.incident v → r.2.base.is_colored a1 = true →
            r.2.base.get_color a1 = r.2.base.get_color a2 → a1 = a2) ∧
          r.2.base.getTotalWeight
            = add64 vizingColoring.base.getTotalWeight (vizingWeights ⟨0, 0, 1⟩)) ∨
        ((r.1 = UNCOLORED ∨ r.1 = UNCOLORED - 1) ∧ r.2 = vizingColoring)) :=
  color_edge_on_simple true false vizingGraph 3 vizingWeights vizingColoring ⟨0, 0, 1⟩ 0 7
    vizingColoring_inv ⟨by decide, by decide⟩ (by decide) (by decide) (by decide) (by decide)

/-- The call of the witness evaluated: the fan is `(x,y), (x,z), (x,u)`, `c = 0`, `d = 1`,
the path `(x,z), (z,6)` is inverted, and `(x,y)` gets the colour 1; the returned colour is
`max(c, d) = 1` and the weight of the coloured arcs grows from 27 to 28. -/
theorem color_edge_vizing (common_color rotate_long : Bool) :
    compute_fan vizingColoring 0 ⟨0, 0, 1⟩ = Except.ok [⟨0, 0, 1⟩, ⟨1, 0, 2⟩, ⟨2, 0, 3⟩] ∧
    vizingColoring.base.get_color <$> vizingGraph.arcs = [UNCOLORED, 1, 2, 0, 2, 0, 0] ∧
    vizingColoring.base.getTotalWeight = 27 ∧
    (okOrStep (color_edge common_color rotate_long 7 vizingColoring vizingWeights
      ⟨0, 0, 1⟩ 0) (0, vizingColoring)).1 = 1 ∧
    (okOrStep (color_edge common_color rotate_long 7 vizingColoring vizingWeights
      ⟨0, 0, 1⟩ 0) (0, vizingColoring)).2.base.get_color <$> vizingGraph.arcs
      = [1, 0, 2, 0, 2, 1, 0] ∧
    (okOrStep (color_edge common_color rotate_long 7 vizingColoring vizingWeights
      ⟨0, 0, 1⟩ 0) (0, vizingColoring)).2.base.getTotalWeight = 28 := by
  cases common_color <;> cases rotate_long <;>
    exact ⟨rfl, by decide, by decide, by decide, by decide, by decide⟩

/-! ## `attempt_match` -/

theorem lightest_fold_mem (w : Arc → Nat) (v : Nat) :
    ∀ (t : List (Nat → Option Arc)) (st : Option Arc × Nat) (a : Arc),
      (t.foldl (lightestStep w v) st).1 = some a →
      st.1 = some a ∨ ∃ m ∈ t, m v = some a := by
  intro t
  induction t with
  | nil => intro st a h; exact Or.inl h
  | cons m t ih =>
    intro st a h
    rw [List.foldl_cons] at h
    rcases ih _ a h with q | ⟨m1, hm1, q⟩
    · unfold lightestStep at q
      cases hm : m v with
      | none =>
        rw [hm] at q
        exact Or.inl q
      | some x =>
        rw [hm] at q
        dsimp only at q
        split at q
        · right
          exact ⟨m, List.mem_cons_self _ _, by rw [hm]; exact q⟩
        · exact Or.inl q
    · exact Or.inr ⟨m1, List.mem_cons_of_mem _ hm1, q⟩

theorem lightest_fold_some (w : Arc → Nat) (v : Nat) :
    ∀ (t : List (Nat → Option Arc)) (st : Option Arc × Nat),
      (st.1.isSome = true ∨ ∃ m ∈ t, ∃ a, m v = some a ∧ w a < st.2) →
      (t.foldl (lightestStep w v) st).1.isSome = true := by
  intro t
  induction t with
  | nil =>
    intro st h
    rcases h with h | ⟨m, hm, _⟩
    · exact h
    · exact absurd hm (List.not_mem_nil _)
  | cons m t ih =>
    intro st h
    rw [List.foldl_cons]
    apply ih
    unfold lightestStep
    cases hm : m v with
    | none =>
      dsimp only
      rcases h with h | ⟨m1, hm1, a, q1, q2⟩
      · exact Or.inl h
      · rcases List.mem_cons.1 hm1 with e | e
        · rw [e, hm] at q1; exact Option.noConfusion q1
        · exact Or.inr ⟨m1, e, a, q1, q2⟩
    | some x =>
      dsimp only
      by_cases hx : w x < st.2
      · rw [if_pos hx]; exact Or.inl rfl
      · rw [if_neg hx]
        rcases h with h | ⟨m1, hm1, a, q1, q2⟩
        · exact Or.inl h
        · rcases List.mem_cons.1 hm1 with e | e
          · rw [e, hm] at q1
            rw [Option.some.inj q1] at hx
            exact absurd q2 hx
          · exact Or.inr ⟨m1, e, a, q1, q2⟩

/-- The arc that `attempt_match` reads at an end `v` of its arc: a coloured arc of the graph
at `v`, or null when a colour is free at `v`. -/
theorem lightestAt_mem {G : DiGraph} {b : Nat} {w : Arc → Nat} {s : Coloring}
    (h : CInv G b w s) {v : Nat} {o : Option Arc} (he : lightestAt s w v = Except.ok o) :
    ∀ x, o = some x → x ∈ G.arcs ∧ x.incident v ∧ s.base.is_colored x = true := by
  intro x hx
  subst hx
  unfold lightestAt at he
  split at he
  · cases hl : s.am.getLightestColoredEdge v w with
    | none => rw [hl] at he; exact Except.noConfusion he
    | some a =>
      rw [hl] at he
      have hax : a = x := Option.some.inj (Except.ok.inj he)
      subst hax
      unfold ArcMateExtension.getLightestColoredEdge at hl
      rcases lightest_fold_mem w v _ _ a hl with q | ⟨m, hm, q⟩
      · exact Option.noConfusion q
      · have : a ∈ s.am.getColoredArcs v := by
          unfold ArcMateExtension.getColoredArcs
          exact List.mem_filterMap.2 ⟨m, hm, q⟩
        exact ((getColoredArcs_spec h.base h.am v).1 a).1 this
  · exact Option.noConfusion (Except.ok.inj he)

/-- With at least one colour and weights below the largest `EdgeWeight`,
`getLightestColoredEdge` is not null where no colour is free, so the block of
`attempt_match` for an end returns. -/
theorem lightestAt_ok {G : DiGraph} {b : Nat} {w : Arc → Nat} {s : Coloring}
    (h : CInv G b w s) (hb : 1 ≤ b) (hw : ∀ a ∈ G.arcs, w a < 2 ^ 64 - 1) (v : Nat) :
    ∃ o, lightestAt s w v = Except.ok o := by
  unfold lightestAt
  split
  · rename_i hno
    have hnf := (no_color_free_iff h.fc v).1 hno 0 (by omega)
    obtain ⟨a, ha, haG, _, _⟩ := h.am_some_of_not_free (show 0 < b by omega) hnf
    have hmem : a ∈ s.am.arcs_to_mates_by_color.filterMap (fun m => m v) :=
      (mem_filterMap_table _ v a).2 ⟨0, by rw [h.am.len]; omega, ha⟩
    obtain ⟨m, hm, q⟩ := List.mem_filterMap.1 hmem
    have := lightest_fold_some w v s.am.arcs_to_mates_by_color (Option.none, 2 ^ 64 - 1)
      (Or.inr ⟨m, hm, a, q, hw a haG⟩)
    unfold ArcMateExtension.getLightestColoredEdge
    cases hl : (s.am.arcs_to_mates_by_color.foldl (lightestStep w v)
        (Option.none, 2 ^ 64 - 1)).1 with
    | none => rw [hl] at this; exact Bool.noConfusion this
    | some x => exact ⟨_, rfl⟩
  · exact ⟨_, rfl⟩

theorem uncolorIf_weight {G : DiGraph} {b : Nat} {w : Arc → Nat} {s s1 : Coloring}
    (h : CInv G b w s) {a : Option Arc}
    (ha : ∀ x, a = some x → x ∈ G.arcs ∧ s.base.is_colored x = true)
    (he : uncolorIf s w a = Except.ok s1) :
    coloredWeight G w s1.base + mateWeight w a = coloredWeight G w s.base := by
  cases a with
  | none =>
    simp only [uncolorIf, pure, Except.pure, Except.ok.injEq] at he
    rw [← he]
    rfl
  | some x =>
    obtain ⟨hx1, hx2⟩ := ha x rfl
    obtain ⟨_, hbase, _⟩ := Coloring.uncolor_inv (show s.uncolor w x = Except.ok s1 from he)
    rw [hbase]
    exact coloredWeight_uncolor h.base h.bU h.nodup w hx1 hx2

theorem is_colored_congr {G : DiGraph} {b : Nat} {k k1 : KColoring} (hk : Consistent G b k)
    (hk1 : Consistent G b k1) {a : Arc} (h : k1.arc_colors a = k.arc_colors a) :
    k1.is_colored a = k.is_colored a := by
  unfold KColoring.is_colored
  rw [h, hk.nc, hk1.nc]

/-- The loop body at the end of a successful `attempt_match`: it returns, keeps the
invariant and every coloured arc, and changes no arc but `a`. -/
theorem colorCommon_spec {G : DiGraph} {b : Nat} {w : Arc → Nat} {s : Coloring}
    (h : CInv G b w s) {a : Option Arc}
    (ha : ∀ x, a = some x → x ∈ G.arcs ∧ x.tail ≠ x.head ∧ s.base.is_colored x = false) :
    ∃ s1, colorCommon s w a = Except.ok s1 ∧ CInv G b w s1 ∧
      (∀ e, s.base.is_colored e = true → s1.base.is_colored e = true) ∧
      (∀ e, a ≠ some e → s1.base.is_colored e = s.base.is_colored e) ∧
      coloredWeight G w s.base ≤ coloredWeight G w s1.base := by
  cases a with
  | none => exact ⟨s, rfl, h, fun _ he => he, fun _ _ => rfl, le_refl _⟩
  | some x =>
    obtain ⟨hxG, hxl, hxu⟩ := ha x rfl
    obtain ⟨col, ec, hcase⟩ := common_free_color_spec h.fc h.width x.tail x.head
    unfold colorCommon
    simp only [ec, defined, bind, Except.bind]
    rcases hcase with ⟨hn, _⟩ | ⟨hn, hc, ht, hh⟩
    · rw [if_neg (by simpa using hn)]
      exact ⟨s, rfl, h, fun _ he => he, fun _ _ => rfl, le_refl _⟩
    · rw [if_pos hn]
      obtain ⟨s1, e1, h1, b1, _⟩ := Coloring.color_ok h hxG hxu hc ht hh hxl
      refine ⟨s1, e1, h1, ?_, ?_, ?_⟩
      · intro e he
        rw [b1, is_colored_color h.base w x hc e]
        split
        · rfl
        · exact he
      · intro e hne
        have : e ≠ x := fun q => hne (by rw [q])
        rw [b1, is_colored_color h.base w x hc e, if_neg this]
      · rw [b1, coloredWeight_color h.base h.nodup w hxG hxu hc]
        omega

/-- The statement that gives a displaced arc its colour back: it returns when the arc is an
uncoloured arc of the graph and the colour is free at its ends. -/
theorem colorIf_spec {G : DiGraph} {b : Nat} {w : Arc → Nat} {s : Coloring}
    (h : CInv G b w s) {a : Option Arc} {c : Nat}
    (ha : ∀ x, a = some x → x ∈ G.arcs ∧ x.tail ≠ x.head ∧ s.base.is_colored x = false ∧
      c < b ∧ s.base.is_color_free x.tail c = true ∧ s.base.is_color_free x.head c = true) :
    ∃ s1, colorIf s w a c = Except.ok s1 ∧ CInv G b w s1 ∧
      (∀ e, s1.base.arc_colors e = if a = some e then c else s.base.arc_colors e) ∧
      (∀ v c1, c1 < b → s1.base.is_color_free v c1 =
        if (∃ x, a = some x ∧ c1 = c ∧ (v = x.tail ∨ v = x.head)) then false
        else s.base.is_color_free v c1) := by
  cases a with
  | none =>
    refine ⟨s, rfl, h, fun e => by simp, ?_⟩
    intro v c1 _
    simp
  | some x =>
    obtain ⟨hxG, hxl, hxu, hc, ht, hh⟩ := ha x rfl
    obtain ⟨s1, e1, h1, b1, _⟩ := Coloring.color_ok h hxG hxu hc ht hh hxl
    refine ⟨s1, e1, h1, ?_, ?_⟩
    · intro e
      rw [b1, arc_colors_color]
      by_cases he : e = x
      · simp [he]
      · have : ¬ (some x = some e) := fun q => he (Option.some.inj q).symm
        rw [if_neg he, if_neg this]
    · intro v c1 hc1
      rw [b1, is_color_free_color h.base h.bU w x hc v hc1]
      by_cases hq : c1 = c ∧ (v = x.tail ∨ v = x.head)
      · rw [if_pos hq, if_pos ⟨x, rfl, hq.1, hq.2⟩]
      · rw [if_neg hq, if_neg]
        rintro ⟨y, hy, q1, q2⟩
        rw [← Option.some.inj hy] at q2
        exact hq ⟨q1, q2⟩

/-- The branch of `attempt_match` that displaces the lightest arcs `lt` (at the tail) and
`lh` (at the head): it returns; with `false` every arc has its old colour, with `true` the
arc is coloured and the coloured weight has lost at most the weights of `lt` and `lh` and
won the weight of the arc. -/
theorem replaceAndMatch_spec {G : DiGraph} {b : Nat} {w : Arc → Nat} {s : Coloring}
    (cc rl : Bool) {fuel : Nat} {arc : Arc} {lt lh : Option Arc} (h : CInv G b w s)
    (hs : G.simple) (ha : arc ∈ G.arcs) (hun : s.base.is_colored arc = false)
    (hfuel : G.arcs.length ≤ fuel)
    (hlt : ∀ x, lt = some x → x ∈ G.arcs ∧ x.incident arc.tail ∧ s.base.is_colored x = true)
    (hlh : ∀ x, lh = some x → x ∈ G.arcs ∧ x.incident arc.head ∧ s.base.is_colored x = true) :
    ∃ r s1, replaceAndMatch cc rl fuel s w arc lt lh = Except.ok (r, s1) ∧ CInv G b w s1 ∧
      (r = false → ∀ e, s1.base.arc_colors e = s.base.arc_colors e) ∧
      (r = true → s1.base.is_colored arc = true ∧
        coloredWeight G w s.base + w arc
          ≤ coloredWeight G w s1.base + mateWeight w lt + mateWeight w lh) ∧
      mateWeight w lt + mateWeight w lh ≤ coloredWeight G w s.base := by
  have hbU := h.bU
  have hne : ∀ x y, lt = some x → lh = some y → x ≠ y := by
    intro x y hx hy e
    subst e
    obtain ⟨g1, g2, g3⟩ := hlt x hx
    obtain ⟨_, g5, _⟩ := hlh x hy
    have := hs.2 x g1 arc ha g2 g5
    rw [this, hun] at g3
    exact Bool.noConfusion g3
  obtain ⟨sa, ea, inva, cola, _, freeda⟩ :=
    uncolorIf_ok h (fun x hx => ⟨(hlt x hx).1, (hlt x hx).2.2⟩)
  have wa := uncolorIf_weight h (fun x hx => ⟨(hlt x hx).1, (hlt x hx).2.2⟩) ea
  have hsay : ∀ y, lh = some y → sa.base.arc_colors y = s.base.arc_colors y := by
    intro y hy
    rw [cola y, if_neg]
    intro q
    exact hne y y q hy rfl
  have hlh_a : ∀ y, lh = some y → y ∈ G.arcs ∧ sa.base.is_colored y = true := by
    intro y hy
    obtain ⟨g1, _, g3⟩ := hlh y hy
    refine ⟨g1, ?_⟩
    rw [is_colored_congr h.base inva.base (hsay y hy)]
    exact g3
  obtain ⟨sb, eb, invb, colb, freeb, freedb⟩ := uncolorIf_ok inva hlh_a
  have wb := uncolorIf_weight inva hlh_a eb
  have hcolsb : ∀ e, sb.base.arc_colors e = if lh = some e then UNCOLORED
      else if lt = some e then UNCOLORED else s.base.arc_colors e := by
    intro e
    rw [colb e, cola e]
  have hunb : sb.base.is_colored arc = false := by
    apply invb.base.not_colored_of_eq hbU
    rw [hcolsb]
    split
    · rfl
    · split
      · rfl
      · exact h.base.uncolored_eq hun
  have hltb : ∀ x, lt = some x → sb.base.is_colored x = false := by
    intro x hx
    apply invb.base.not_colored_of_eq hbU
    rw [hcolsb, if_pos hx, ite_self]
  have hlhb : ∀ y, lh = some y → sb.base.is_colored y = false := by
    intro y hy
    apply invb.base.not_colored_of_eq hbU
    rw [hcolsb, if_pos hy]
  have hwsum : mateWeight w lt + mateWeight w lh ≤ coloredWeight G w s.base := by omega
  obtain ⟨r3, e3, hr3⟩ := color_edge_spec cc rl invb hs ha hunb (Or.inl rfl) hfuel
  have h4 : ∃ s4, retryAtHead cc rl fuel r3.2 w arc = Except.ok s4 ∧
      ((0 < b ∧ CInv G b w s4 ∧
          ∀ e, s4.base.is_colored e = (sb.base.is_colored e || decide (e = arc))) ∨
        s4 = sb) := by
    rcases hr3 with ⟨g1, g2, g3⟩ | ⟨_, g2, _⟩
    · refine ⟨r3.2, ?_, Or.inl ⟨by omega, g2, g3⟩⟩
      unfold retryAtHead
      have : r3.2.base.is_colored arc = true := by rw [g3]; simp
      rw [if_neg (by rw [this]; exact fun q => Bool.noConfusion q)]
      rfl
    · rw [g2]
      obtain ⟨r4, e4, hr4⟩ := color_edge_spec cc rl invb hs ha hunb (Or.inr rfl) hfuel
      refine ⟨r4.2, ?_, ?_⟩
      · unfold retryAtHead
        rw [if_pos hunb]
        simp only [e4, bind, Except.bind]
        rfl
      · rcases hr4 with ⟨k1, k2, k3⟩ | ⟨_, k2, _⟩
        · exact Or.inl ⟨by omega, k2, k3⟩
        · exact Or.inr k2
  obtain ⟨s4, e4, hs4⟩ := h4
  rcases hs4 with ⟨hb0, inv4, col4⟩ | hs4
  · have harc4 : s4.base.is_colored arc = true := by rw [col4]; simp
    have hnarc : ∀ x, s.base.is_colored x = true → x ≠ arc := by
      intro x hx q
      rw [q, hun] at hx
      exact Bool.noConfusion hx
    have hlt4 : ∀ x, lt = some x →
        x ∈ G.arcs ∧ x.tail ≠ x.head ∧ s4.base.is_colored x = false := by
      intro x hx
      obtain ⟨g1, _, g3⟩ := hlt x hx
      refine ⟨g1, h.edges x g1 g3, ?_⟩
      rw [col4, hltb x hx]
      simp [hnarc x g3]
    obtain ⟨s5, e5, inv5, mono5, same5, w5⟩ := colorCommon_spec inv4 hlt4
    have hlh5 : ∀ y, lh = some y →
        y ∈ G.arcs ∧ y.tail ≠ y.head ∧ s5.base.is_colored y = false := by
      intro y hy
      obtain ⟨g1, _, g3⟩ := hlh y hy
      refine ⟨g1, h.edges y g1 g3, ?_⟩
      rw [same5 y (fun q => hne y y q hy rfl), col4, hlhb y hy]
      simp [hnarc y g3]
    obtain ⟨s6, e6, inv6, mono6, _, w6⟩ := colorCommon_spec inv5 hlh5
    have hw4 := (total_weight_add invb inv4 hb0 ha hunb col4).1
    refine ⟨true, s6, ?_, inv6, fun q => Bool.noConfusion q, ?_, hwsum⟩
    · unfold replaceAndMatch
      simp only [ea, eb, e3, e4, bind, Except.bind]
      unfold finishMatch
      rw [if_neg (by rw [harc4]; exact fun q => Bool.noConfusion q)]
      simp only [e5, e6, bind, Except.bind]
      rfl
    · intro _
      refine ⟨mono6 _ (mono5 _ harc4), ?_⟩
      omega
  · subst hs4
    have hlt4 : ∀ x, lt = some x → x ∈ G.arcs ∧ x.tail ≠ x.head ∧
        s4.base.is_colored x = false ∧ colorOf s lt < b ∧
        s4.base.is_color_free x.tail (colorOf s lt) = true ∧
        s4.base.is_color_free x.head (colorOf s lt) = true := by
      intro x hx
      obtain ⟨g1, _, g3⟩ := hlt x hx
      have hcx : colorOf s lt = s.base.arc_colors x := by rw [hx]; rfl
      have hlt := h.base.colored_lt g3
      rw [hcx]
      exact ⟨g1, h.edges x g1 g3, hltb x hx, hlt,
        freeb _ _ hlt (freeda x hx hlt _ (Or.inl rfl)),
        freeb _ _ hlt (freeda x hx hlt _ (Or.inr rfl))⟩
    obtain ⟨s5, e5, inv5, col5, free5⟩ := colorIf_spec invb hlt4
    have hlh5 : ∀ y, lh = some y → y ∈ G.arcs ∧ y.tail ≠ y.head ∧
        s5.base.is_colored y = false ∧ colorOf s lh < b ∧
        s5.base.is_color_free y.tail (colorOf s lh) = true ∧
        s5.base.is_color_free y.head (colorOf s lh) = true := by
      intro y hy
      obtain ⟨g1, _, g3⟩ := hlh y hy
      have hcy : colorOf s lh = s.base.arc_colors y := by rw [hy]; rfl
      have hlty := h.base.colored_lt g3
      have hlta : sa.base.arc_colors y < b := by rw [hsay y hy]; exact hlty
      have hfree : ∀ v, y.incident v →
          s5.base.is_color_free v (s.base.arc_colors y) = true := by
        intro v hv
        rw [free5 v _ hlty, if_neg]
        · have := freedb y hy hlta v hv
          rw [hsay y hy] at this
          exact this
        · rintro ⟨x, hx, q1, q2⟩
          obtain ⟨k1, _, k3⟩ := hlt x hx
          have hcx : colorOf s lt = s.base.arc_colors x := by rw [hx]; rfl
          rw [hcx] at q1
          have hxv : x.incident v := by
            rcases q2 with q | q
            · exact Or.inl q.symm
            · exact Or.inr q.symm
          exact hne x y hx hy
            (h.base.proper x k1 y g1 v hxv hv (h.base.colored_lt k3) q1.symm)
      rw [hcy]
      refine ⟨g1, h.edges y g1 g3, ?_, hlty, hfree _ (Or.inl rfl), hfree _ (Or.inr rfl)⟩
      apply inv5.base.not_colored_of_eq hbU
      rw [col5 y, if_neg (fun q => hne y y q hy rfl), hcolsb, if_pos hy]
    obtain ⟨s6, e6, inv6, col6, _⟩ := colorIf_spec inv5 hlh5
    refine ⟨false, s6, ?_, inv6, ?_, fun q => Bool.noConfusion q, hwsum⟩
    · unfold replaceAndMatch
      simp only [ea, eb, e3, e4, bind, Except.bind]
      unfold finishMatch
      rw [if_pos hunb]
      simp only [e5, e6, bind, Except.bind]
      rfl
    · intro _ e
      rw [col6 e, col5 e, hcolsb e]
      by_cases q1 : lh = some e
      · rw [if_pos q1, q1]
        rfl
      · rw [if_neg q1, if_neg q1]
        by_cases q2 : lt = some e
        · rw [if_pos q2, q2]
          rfl
        · rw [if_neg q2, if_neg q2]

/-- What `attempt_match(arc)` does on a simple graph once the two blocks for the ends of the
arc have returned: it returns; with `false` every arc has its old colour, with `true` the
arc is coloured and, when the weights of the graph add up to less than `2^64`, the coloured
weight is larger than before. -/
theorem attempt_match_spec {G : DiGraph} {b : Nat} {w : Arc → Nat} {s : Coloring}
    (cc rl : Bool) {fuel : Nat} {arc : Arc} {lt lh : Option Arc} (h : CInv G b w s)
    (hs : G.simple) (ha : arc ∈ G.arcs) (hun : s.base.is_colored arc = false)
    (hfuel : G.arcs.length ≤ fuel) (elt : lightestAt s w arc.tail = Except.ok lt)
    (elh : lightestAt s w arc.head = Except.ok lh) :
    ∃ r s1, attempt_match cc rl fuel s w arc = Except.ok (r, s1) ∧ CInv G b w s1 ∧
      (r = false → ∀ e, s1.base.arc_colors e = s.base.arc_colors e) ∧
      (r = true → s1.base.is_colored arc = true ∧
        ((G.arcs.map w).sum < 2 ^ 64 →
          coloredWeight G w s.base < coloredWeight G w s1.base)) := by
  unfold attempt_match
  simp only [elt, elh, bind, Except.bind]
  by_cases hw : w arc > add64 (add64 0 (mateWeight w lt)) (mateWeight w lh)
  · rw [if_pos hw]
    obtain ⟨r, s1, e1, inv1, hF, hT, hsum⟩ := replaceAndMatch_spec cc rl h hs ha hun hfuel
      (lightestAt_mem h elt) (lightestAt_mem h elh)
    refine ⟨r, s1, e1, inv1, hF, ?_⟩
    intro hr
    obtain ⟨g1, g2⟩ := hT hr
    refine ⟨g1, ?_⟩
    intro hlt
    have := coloredWeight_le_sum G w s.base
    unfold add64 at hw
    omega
  · rw [if_neg hw]
    exact ⟨false, s, rfl, h, fun _ _ => rfl, fun q => Bool.noConfusion q⟩

theorem pathMiddle_inv : CInv pathGraph 1 pathWeights pathMiddle :=
  thenColor_inv _ _ (freshColoring_inv pathGraph (by decide) _ (by decide)) (by decide)

/-- The call of the witness evaluated, and a call that fails: `attempt_match((0,1))` with the
weights 4, 1, 5 uncolours `(1,2)` of weight 1, colours `(0,1)` and returns `true`, the
weight grows from 1 to 4; with the weights 3, 5, 3 the arc `(1,2)` of weight 5 stays and the
call returns `false`. -/
theorem attempt_match_path :
    (okOrMatch (attempt_match true false 3 pathMiddle pathWeights ⟨0, 0, 1⟩)
      (false, pathMiddle)).1 = true ∧
    (okOrMatch (attempt_match true false 3 pathMiddle pathWeights ⟨0, 0, 1⟩)
      (false, pathMiddle)).2.base.get_color <$> pathGraph.arcs = [0, UNCOLORED, UNCOLORED] ∧
    pathMiddle.base.getTotalWeight = 1 ∧
    (okOrMatch (attempt_match true false 3 pathMiddle pathWeights ⟨0, 0, 1⟩)
      (false, pathMiddle)).2.base.getTotalWeight = 4 ∧
    attempt_match true false 3 middleColoring lightEnds ⟨0, 0, 1⟩
      = Except.ok (false, middleColoring) := by
  refine ⟨by decide, by decide, by decide, by decide, rfl⟩

/-! ## The weight decrease of a coloured arc in `KEdgeColoring_2` -/

theorem heaviest_fold_spec (s : Coloring) (w : Arc → Nat) :
    ∀ (l : List Arc) (st : Option Arc × Nat), (∀ a, st.1 = some a → w a = st.2) →
      (∀ a, (l.foldl (heaviestStep s w) st).1 = some a →
        (st.1 = some a ∨ (a ∈ l ∧ s.base.is_colored a = false)) ∧
        w a = (l.foldl (heaviestStep s w) st).2) ∧
      st.2 ≤ (l.foldl (heaviestStep s w) st).2 ∧
      ∀ y ∈ l, s.base.is_colored y = false → w y ≤ (l.foldl (heaviestStep s w) st).2 := by
  intro l
  induction l with
  | nil =>
    intro st h
    exact ⟨fun a ha => ⟨Or.inl ha, h a ha⟩, le_refl _,
      fun y hy => absurd hy (List.not_mem_nil _)⟩
  | cons x rest ih =>
    intro st h
    rw [List.foldl_cons]
    by_cases hc : s.base.is_colored x = false ∧ w x > st.2
    · have e1 : heaviestStep s w st x = (some x, w x) := by
        unfold heaviestStep; rw [if_pos hc]
      rw [e1]
      obtain ⟨g1, g2, g3⟩ := ih (some x, w x) (fun a ha => by rw [← Option.some.inj ha])
      refine ⟨?_, ?_, ?_⟩
      · intro a ha
        obtain ⟨q1, q2⟩ := g1 a ha
        refine ⟨?_, q2⟩
        rcases q1 with q | ⟨q, q3⟩
        · right
          rw [← Option.some.inj q]
          exact ⟨List.mem_cons_self _ _, hc.1⟩
        · exact Or.inr ⟨List.mem_cons_of_mem _ q, q3⟩
      · have : st.2 ≤ w x := Nat.le_of_lt hc.2
        exact le_trans this g2
      · intro y hy hyu
        rcases List.mem_cons.1 hy with q | q
        · rw [q]; exact g2
        · exact g3 y q hyu
    · have e1 : heaviestStep s w st x = st := by
        unfold heaviestStep; rw [if_neg hc]
      rw [e1]
      obtain ⟨g1, g2, g3⟩ := ih st h
      refine ⟨?_, g2, ?_⟩
      · intro a ha
        obtain ⟨q1, q2⟩ := g1 a ha
        refine ⟨?_, q2⟩
        rcases q1 with q | ⟨q, q3⟩
        · exact Or.inl q
        · exact Or.inr ⟨List.mem_cons_of_mem _ q, q3⟩
      · intro y hy hyu
        rcases List.mem_cons.1 hy with q | q
        · rw [q]
          by_contra hgt
          apply hc
          rw [q] at hyu
          exact ⟨hyu, by omega⟩
        · exact g3 y q hyu

/-- What `find_heaviest_incident_uncolored_arc` returns: an uncoloured arc of the graph at
the vertex, of positive weight, and no uncoloured arc at the vertex is heavier. -/
theorem find_heaviest_spec {s : Coloring} {G : DiGraph} {w : Arc → Nat} {v : Nat} {x : Arc}
    (h : find_heaviest_incident_uncolored_arc s G w v = some x) :
    x ∈ G.arcs ∧ x.incident v ∧ s.base.is_colored x = false ∧ 0 < w x ∧
      ∀ y ∈ G.arcs, y.incident v → s.base.is_colored y = false → w y ≤ w x := by
  obtain ⟨g1, _, g3⟩ := heaviest_fold_spec s w (G.mapIncidentArcs v) (Option.none, 0)
    (fun a ha => Option.noConfusion ha)
  obtain ⟨q1, q2⟩ := g1 x h
  rcases q1 with q | ⟨q, q3⟩
  · exact Option.noConfusion q
  · obtain ⟨k1, k2⟩ := mem_mapIncidentArcs.1 q
    refine ⟨k1, k2, q3, find_heaviest_pos h, ?_⟩
    intro y hy hyi hyu
    rw [q2]
    exact g3 y (mem_mapIncidentArcs.2 ⟨hy, hyi⟩) hyu

/-- The statement `if (a != nullptr) attempt_match(a)` returns on a simple graph for an
uncoloured arc of the graph and keeps the invariant. -/
theorem attemptIf_spec {G : DiGraph} {b : Nat} {w : Arc → Nat} {s : Coloring} (cc rl : Bool)
    {fuel : Nat} {a : Option Arc} (h : CInv G b w s) (hs : G.simple) (hb : 1 ≤ b)
    (hw : ∀ a ∈ G.arcs, w a < 2 ^ 64 - 1) (hfuel : G.arcs.length ≤ fuel)
    (ha : ∀ x, a = some x → x ∈ G.arcs ∧ s.base.is_colored x = false) :
    ∃ s1, attemptIf cc rl fuel s w a = Except.ok s1 ∧ CInv G b w s1 := by
  cases a with
  | none => exact ⟨s, rfl, h⟩
  | some x =>
    obtain ⟨hx1, hx2⟩ := ha x rfl
    obtain ⟨lt, elt⟩ := lightestAt_ok h hb hw x.tail
    obtain ⟨lh, elh⟩ := lightestAt_ok h hb hw x.head
    obtain ⟨r, s1, e1, inv1, _⟩ := attempt_match_spec cc rl h hs hx1 hx2 hfuel elt elh
    refine ⟨s1, ?_, inv1⟩
    unfold attemptIf
    simp only [e1, bind, Except.bind]
    rfl

theorem heavyMiddleColoring_inv : CInv pathGraph 1 heavyMiddleLowered
    { heavyMiddleColoring with
      base := heavyMiddleColoring.base.onEdgeWeightChange ⟨1, 1, 2⟩ 5 2 } := by
  have h0 : CInv pathGraph 1 heavyMiddle heavyMiddleColoring :=
    thenColor_inv _ _ (freshColoring_inv pathGraph (by decide) _ (by decide)) (by decide)
  exact (h0.weight_change (show (⟨1, 1, 2⟩ : Arc) ∈ pathGraph.arcs by decide) 2
    (by decide) (by decide) (by decide)).1

/-- C34 as stated fails for a positive new weight. On the path with the weights 1, 5, 1 and
one colour, `(1,2)` coloured, in DYNAMIC mode with a filter that lets the update through:
after the weight of `(1,2)` fell from 5 to 2 the handler does not uncolour the arc
(`if (newValue == 0)`), both attempts for the outer arcs of weight 1 fail, and when the
handler returns `(1,2)` still has its colour. -/
theorem C34_counterexample :
    decreaseInstance.algo_type = k_edge_coloring_algo_type.DYNAMIC ∧
    decreaseInstance.update_filter.test 5 2 = false ∧
    heavyMiddle ⟨1, 1, 2⟩ = 5 ∧ heavyMiddleLowered ⟨1, 1, 2⟩ = 2 ∧
    decreaseInstance.coloring.base.is_colored ⟨1, 1, 2⟩ = true ∧
    uncolorIfZero decreaseInstance.coloring heavyMiddleLowered ⟨1, 1, 2⟩ 2
      = Except.ok decreaseInstance.coloring ∧
    ∃ st1, decreaseInstance.weightChange 3 pathGraph heavyMiddleLowered ⟨1, 1, 2⟩ 5 2
        = Except.ok st1 ∧
      st1.coloring.base.is_colored ⟨1, 1, 2⟩ = true ∧
      st1.coloring.base.get_color <$> pathGraph.arcs = [UNCOLORED, 0, UNCOLORED] :=
  ⟨rfl, by decide, by decide, by decide, by decide, rfl, _, rfl, by decide, by decide⟩

/-- C34, amended. The heaviest uncoloured arc that the handler reads at a vertex is an
uncoloured arc of the graph of positive weight at that vertex, and no uncoloured arc there is
heavier. In DYNAMIC mode, for an update that the filter lets through and that lowers the
weight of a coloured arc `arc` of a simple graph (consistent colouring, at least one colour,
`w` the weights after the update): the handler uncolours `arc` only if the new weight is 0,
and then `arc` is uncoloured before the re-matching and when the handler returns; for a
positive new weight the colouring is untouched before the re-matching. Then the heaviest
uncoloured arc at the tail and the one at the head are read, `attempt_match` is called for
the first and then for the second, where they exist, and the handler returns with a
consistent colouring. -/
theorem C34_decrease_frees_zero_only (fuel : Nat) (st : KEdgeColoring_2) (G : DiGraph)
    (b : Nat) (w : Arc → Nat) (arc : Arc) (oldValue newValue : Nat)
    (hm : st.algo_type = k_edge_coloring_algo_type.DYNAMIC) (h : CInv G b w st.coloring)
    (hs : G.simple) (ha : arc ∈ G.arcs) (hb : 1 ≤ b) (hw : ∀ a ∈ G.arcs, w a < 2 ^ 64 - 1)
    (hfuel : G.arcs.length ≤ fuel) (hf : st.update_filter.test oldValue newValue = false)
    (hlt : newValue < oldValue) (hc : st.coloring.base.is_colored arc = true)
    (hwa : w arc = newValue) :
    (∀ (s : Coloring) v x, find_heaviest_incident_uncolored_arc s G w v = some x →
      x ∈ G.arcs ∧ x.incident v ∧ s.base.is_colored x = false ∧ 0 < w x ∧
      ∀ y ∈ G.arcs, y.incident v → s.base.is_colored y = false → w y ≤ w x) ∧
    ∃ s1 s2 st1,
      uncolorIfZero st.coloring w arc newValue = Except.ok s1 ∧
      ((newValue = 0 ∧ s1.base.is_colored arc = false ∧
          st1.coloring.base.is_colored arc = false) ∨
        (newValue ≠ 0 ∧ s1 = st.coloring)) ∧
      attemptIf st.common_color st.rotate_long fuel s1 w
        (find_heaviest_incident_uncolored_arc s1 G w arc.tail) = Except.ok s2 ∧
      attemptIf st.common_color st.rotate_long fuel s2 w
        (find_heaviest_incident_uncolored_arc s1 G w arc.head) = Except.ok st1.coloring ∧
      st.onPropertyChange fuel G w arc oldValue newValue = Except.ok st1 ∧
      CInv G b w st1.coloring := by
  refine ⟨fun s v x hx => find_heaviest_spec hx, ?_⟩
  have hbU := h.bU
  -- the state after `if (newValue == 0) coloring.uncolor(arc)`
  have h1 : ∃ s1, uncolorIfZero st.coloring w arc newValue = Except.ok s1 ∧ CInv G b w s1 ∧
      (newValue = 0 → s1.base.is_colored arc = false) ∧
      (newValue ≠ 0 → s1 = st.coloring) := by
    unfold uncolorIfZero
    by_cases hz : newValue = 0
    · rw [if_pos hz]
      obtain ⟨s1, e1, inv1, b1, _⟩ := Coloring.uncolor_ok h ha hc
      refine ⟨s1, e1, inv1, ?_, fun q => absurd hz q⟩
      intro _
      rw [b1, is_colored_uncolor h.base hbU w arc arc, if_pos rfl]
    · rw [if_neg hz]
      exact ⟨_, rfl, h, fun q => absurd q hz, fun _ => rfl⟩
  obtain ⟨s1, e1, inv1, hz1, hnz1⟩ := h1
  have hne : ∀ v x, find_heaviest_incident_uncolored_arc s1 G w v = some x → x ≠ arc := by
    intro v x hx q
    obtain ⟨_, _, g3, g4, _⟩ := find_heaviest_spec hx
    by_cases hz : newValue = 0
    · rw [q, hwa, hz] at g4
      exact Nat.lt_irrefl 0 g4
    · rw [hnz1 hz, q, hc] at g3
      exact Bool.noConfusion g3
  obtain ⟨s2, e2, inv2⟩ := attemptIf_spec st.common_color st.rotate_long inv1 hs hb hw hfuel
    (fun x hx => ⟨(find_heaviest_spec hx).1, (find_heaviest_spec hx).2.2.1⟩)
  have hhead : ∀ y, find_heaviest_incident_uncolored_arc s1 G w arc.head = some y →
      y ∈ G.arcs ∧ s2.base.is_colored y = false := by
    intro y hy
    obtain ⟨g1, g2, g3, _⟩ := find_heaviest_spec hy
    refine ⟨g1, attemptIf_keeps e2 ?_ g3⟩
    intro x hx q
    obtain ⟨k1, k2, _⟩ := find_heaviest_spec hx
    rw [q] at k2
    exact hne _ y hy (hs.2 y g1 arc ha k2 g2)
  obtain ⟨s3, e3, inv3⟩ := attemptIf_spec st.common_color st.rotate_long inv2 hs hb hw hfuel
    hhead
  have hcu : st.countUpdate = st := by
    unfold KEdgeColoring_2.countUpdate
    rw [if_neg (by rw [hm]; exact fun q => k_edge_coloring_algo_type.noConfusion q)]
  refine ⟨s1, s2, ({ st with coloring := s3 }).register_neighbors_for_post_processing G arc,
    e1, ?_, e2, ?_, ?_, ?_⟩
  · by_cases hz : newValue = 0
    · left
      refine ⟨hz, hz1 hz, ?_⟩
      rw [register_neighbors_coloring]
      exact attemptIf_keeps e3 (hne arc.head) (attemptIf_keeps e2 (hne arc.tail) (hz1 hz))
    · exact Or.inr ⟨hz, hnz1 hz⟩
  · rw [register_neighbors_coloring]
    exact e3
  · unfold KEdgeColoring_2.onPropertyChange
    rw [if_neg (by rw [hm]; exact fun q => k_edge_coloring_algo_type.noConfusion q),
      if_neg (by rw [hf]; exact fun q => Bool.noConfusion q), hcu,
      if_neg (by rw [hm]; exact fun q => k_edge_coloring_algo_type.noConfusion q.1),
      if_neg (fun q => absurd q.1 (by omega)), if_pos ⟨hlt, hc⟩]
    unfold KEdgeColoring_2.onDecrease
    simp only [e1, e2, e3, bind, Except.bind]
    rfl
  · rw [register_neighbors_coloring]
    exact inv3

/-- C34, amended, on the path with the weights 1, 2, 1 after the weight of the coloured arc
`(1,2)` fell from 5 to 2; the heaviest uncoloured arc at the vertex 1 is `(0,1)`. -/
theorem C34_decrease_frees_zero_only_witness :
    ((⟨0, 0, 1⟩ : Arc) ∈ pathGraph.arcs ∧ (⟨0, 0, 1⟩ : Arc).incident 1 ∧
      decreaseObserved.coloring.base.is_colored ⟨0, 0, 1⟩ = false ∧
      0 < heavyMiddleLowered ⟨0, 0, 1⟩ ∧
      ∀ y ∈ pathGraph.arcs, y.incident 1 →
        decreaseObserved.coloring.base.is_colored y = false →
        heavyMiddleLowered y ≤ heavyMiddleLowered ⟨0, 0, 1⟩) ∧
    ∃ s1 s2 st1,
      uncolorIfZero (decreaseObserved.coloring) heavyMiddleLowered ⟨1, 1, 2⟩ 2
        = Except.ok s1 ∧
      (((2 : Nat) = 0 ∧ s1.base.is_colored ⟨1, 1, 2⟩ = false ∧
          st1.coloring.base.is_colored ⟨1, 1, 2⟩ = false) ∨
        ((2 : Nat) ≠ 0 ∧ s1 = decreaseObserved.coloring)) ∧
      attemptIf decreaseObserved.common_color decreaseObserved.rotate_long 3 s1
        heavyMiddleLowered
        (find_heaviest_incident_uncolored_arc s1 pathGraph heavyMiddleLowered
          (⟨1, 1, 2⟩ : Arc).tail) = Except.ok s2 ∧
      attemptIf decreaseObserved.common_color decreaseObserved.rotate_long 3 s2
        heavyMiddleLowered
        (find_heaviest_incident_uncolored_arc s1 pathGraph heavyMiddleLowered
          (⟨1, 1, 2⟩ : Arc).head) = Except.ok st1.coloring ∧
      decreaseObserved.onPropertyChange 3 pathGraph heavyMiddleLowered ⟨1, 1, 2⟩ 5 2
        = Except.ok st1 ∧
      CInv pathGraph 1 heavyMiddleLowered st1.coloring := by
  have T := C34_decrease_frees_zero_only 3 decreaseObserved pathGraph 1 heavyMiddleLowered
    ⟨1, 1, 2⟩ 5 2 rfl heavyMiddleColoring_inv ⟨by decide, by decide⟩ (by decide) (by decide)
    (by decide) (by decide) (by decide) (by decide) (by decide) (by decide)
  exact ⟨T.1 decreaseObserved.coloring 1 ⟨0, 0, 1⟩ rfl, T.2⟩

/-- The same instance when the weight of `(1,2)` falls to 0: the arc is uncoloured and both
outer arcs of weight 1 get the colour. -/
theorem decrease_to_zero :
    ∃ st1, decreaseInstance.weightChange 3 pathGraph
        (Function.update heavyMiddle ⟨1, 1, 2⟩ 0) ⟨1, 1, 2⟩ 5 0 = Except.ok st1 ∧
      st1.coloring.base.get_color <$> pathGraph.arcs = [0, UNCOLORED, 0] ∧
      st1.coloring.base.getTotalWeight = 2 :=
  ⟨_, rfl, by decide, by decide⟩

/-! ## Static edge colouring with more colours than the largest degree -/

theorem sum_map_eq_iff {α : Type} (f g : α → Nat) (hfg : ∀ a, f a ≤ g a) :
    ∀ l : List α, (l.map f).sum ≤ (l.map g).sum ∧
      ((l.map f).sum = (l.map g).sum ↔ ∀ a ∈ l, f a = g a) := by
  intro l
  induction l with
  | nil => simp
  | cons x rest ih =>
    obtain ⟨i1, i2⟩ := ih
    have hx := hfg x
    simp only [List.map_cons, List.sum_cons, List.mem_cons, forall_eq_or_imp]
    refine ⟨by omega, ?_⟩
    constructor
    · intro h
      have h1 : f x = g x := by omega
      exact ⟨h1, i2.1 (by omega)⟩
    · rintro ⟨h1, h2⟩
      rw [h1, i2.2 h2]

/-- The coloured weight is the sum of all weights iff every arc of positive weight is
coloured. -/
theorem coloredWeight_eq_sum_iff (G : DiGraph) (w : Arc → Nat) (k : KColoring) :
    coloredWeight G w k = (G.arcs.map w).sum ↔
      ∀ a ∈ G.arcs, 0 < w a → k.is_colored a = true := by
  unfold coloredWeight
  rw [(sum_map_eq_iff (fun a => if k.is_colored a = true then w a else 0) w (by
    intro a
    dsimp only
    split
    · exact le_refl _
    · exact Nat.zero_le _) G.arcs).2]
  constructor
  · intro h a ha hpos
    have := h a ha
    by_contra hc
    rw [if_neg hc] at this
    omega
  · intro h a ha
    by_cases hpos : 0 < w a
    · rw [if_pos (h a ha hpos)]
    · split
      · rfl
      · omega

/-- Method `reset` of the composite colouring keeps the invariant when the default value of
the free-colour map is the full set of `b` colours, the value that `setNumColors(b)`
installs. -/
theorem CInv.reset_default {G : DiGraph} {b : Nat} {w : Arc → Nat} {s : Coloring}
    (h : CInv G b w s) (hdef : s.fc.defaultValue.bits = 2 ^ b - 1) :
    CInv G b w s.reset ∧ (∀ a, s.reset.base.is_colored a = false) ∧
      s.reset.fc.defaultValue = s.fc.defaultValue := by
  have hbU := h.bU
  have hun : ∀ a, s.base.reset.is_colored a = false := by
    intro a
    have := h.base.nc
    simp [KColoring.is_colored, KColoring.reset, this, hbU]
  refine ⟨⟨h.width, h.nodup, Consistent.of_reset G hbU _ h.base.nc, ⟨?_, ?_, ?_⟩,
    ⟨?_, ?_, fun _ _ => rfl⟩, ?_, ?_⟩, hun, rfl⟩
  · simp [Coloring.reset, ArcMateExtension.reset_impl, h.am.len]
  · intro a _ hlt
    exact absurd (lt_of_lt_of_le hlt hbU) (lt_irrefl _)
  · intro c v a _ hget
    simp only [Coloring.reset, ArcMateExtension.getArcToMate,
      ArcMateExtension.reset_impl] at hget
    rw [tableGet_map_none] at hget
    exact absurd hget (by simp)
  · intro v
    show s.fc.defaultValue.bits < 2 ^ b
    rw [hdef]
    have : 0 < 2 ^ b := Nat.pow_pos (by decide)
    omega
  · intro v c hc
    show s.fc.defaultValue.bits.testBit c = s.base.reset.is_color_free v c
    rw [is_color_free_reset _ _ (lt_ne_UNCOLORED hbU hc), hdef]
    simp [hc]
  · show 0 = coloredWeight G w s.base.reset % 2 ^ 64
    have : coloredWeight G w s.base.reset = 0 := by
      unfold coloredWeight
      simp [hun]
    rw [this]
    rfl
  · intro a _ hcd
    change s.base.reset.is_colored a = true at hcd
    rw [hun a] at hcd
    exact Bool.noConfusion hcd

/-- With more colours than coloured arcs at a vertex, a colour is free there. -/
theorem exists_free_color {G : DiGraph} {b D : Nat} {w : Arc → Nat} {k : KColoring}
    (hk : Consistent G b k) (hbU : b ≤ UNCOLORED)
    (hpos : ∀ e ∈ G.arcs, k.is_colored e = true → 0 < w e)
    (hD : ∀ v, (G.arcs.filter fun a => decide (a.incident v) && decide (0 < w a)).length ≤ D)
    (hb : D + 1 ≤ b) (z : Nat) : ∃ c, c < b ∧ k.is_color_free z c = true := by
  by_contra hno
  have hall : ∀ c, c < b → k.is_color_free z c = false := by
    intro c hc
    by_contra hf
    exact hno ⟨c, hc, by simpa using hf⟩
  have hsub : Finset.range b ⊆
      ((G.arcs.filter fun a => decide (a.incident z) && decide (0 < w a)).toFinset).image
        k.arc_colors := by
    intro c hc
    obtain ⟨y, hyG, hyi, hyc⟩ := not_free_arc hk hbU (Finset.mem_range.1 hc)
      (hall c (Finset.mem_range.1 hc))
    have hyc2 : k.arc_colors y = c := hyc
    have hycol : k.is_colored y = true :=
      is_colored_of_lt hk (by rw [hyc2]; exact Finset.mem_range.1 hc)
    rw [Finset.mem_image]
    refine ⟨y, ?_, hyc2⟩
    rw [List.mem_toFinset, List.mem_filter]
    exact ⟨hyG, by simp [hyi, hpos y hyG hycol]⟩
  have h1 := Finset.card_le_card hsub
  have h2 := @Finset.card_image_le _ _
    ((G.arcs.filter fun a => decide (a.incident z) && decide (0 < w a)).toFinset)
    k.arc_colors _
  have h3 := List.toFinset_card_le
    (G.arcs.filter fun a => decide (a.incident z) && decide (0 < w a))
  have h4 := hD z
  rw [Finset.card_range] at h1
  omega

theorem any_color_free_of_free {b : Nat} {k : KColoring} {fc : FreeColorsExtension}
    (h : FCConsistent b k fc) {v c : Nat} (hc : c < b) (hf : k.is_color_free v c = true) :
    fc.any_color_free v = true := by
  unfold FreeColorsExtension.any_color_free color_set.any
  have : fc.no_color_free v = false := by
    by_contra hn
    have hn : fc.no_color_free v = true := by simpa using hn
    have := (no_color_free_iff h v).1 hn c hc
    rw [hf] at this
    exact Bool.noConfusion this
  unfold FreeColorsExtension.no_color_free at this
  rw [this]
  rfl

/-- The body of the loop of `compute_edge_coloring` when every vertex has a free colour: the
first call of `color_edge` colours the arc. -/
theorem colorStep_full {G : DiGraph} {b D : Nat} {w : Arc → Nat} {s : Coloring}
    (cc rl : Bool) {fuel : Nat} {arc : Arc} (h : CInv G b w s) (hs : G.simple)
    (ha : arc ∈ G.arcs) (hun : s.base.is_colored arc = false) (hfuel : G.arcs.length ≤ fuel)
    (hpos : ∀ e ∈ G.arcs, s.base.is_colored e = true → 0 < w e)
    (hD : ∀ v, (G.arcs.filter fun a => decide (a.incident v) && decide (0 < w a)).length ≤ D)
    (hb : D + 1 ≤ b) :
    ∃ s1, colorStep cc rl fuel w s arc = Except.ok s1 ∧ CInv G b w s1 ∧
      ∀ e, s1.base.is_colored e = (s.base.is_colored e || decide (e = arc)) := by
  have hbU := h.bU
  have hfree := exists_free_color h.base hbU hpos hD hb
  obtain ⟨c1, hc1, hf1⟩ := hfree arc.tail
  obtain ⟨c2, hc2, hf2⟩ := hfree arc.head
  have a1 := any_color_free_of_free h.fc hc1 hf1
  have a2 := any_color_free_of_free h.fc hc2 hf2
  obtain ⟨r, er, hr⟩ := color_edge_spec cc rl h hs ha hun (Or.inl rfl) hfuel
  rcases hr with ⟨g1, g2, g3⟩ | ⟨_, _, z, hz⟩
  · refine ⟨r.2, ?_, g2, g3⟩
    unfold colorStep
    rw [a1, a2]
    simp only [Bool.and_self, if_true, er, bind, Except.bind]
    have hw := h.width
    rw [if_neg (by unfold UNCOLORED; omega)]
    rfl
  · exfalso
    obtain ⟨c, hc, hf⟩ := hfree z
    rw [hz c hc] at hf
    exact Bool.noConfusion hf

theorem colorEach_full {G : DiGraph} {b D : Nat} {w : Arc → Nat} (cc rl : Bool) {fuel : Nat}
    (hs : G.simple) (hfuel : G.arcs.length ≤ fuel)
    (hD : ∀ v, (G.arcs.filter fun a => decide (a.incident v) && decide (0 < w a)).length ≤ D)
    (hb : D + 1 ≤ b) :
    ∀ (l : List Arc) (s : Coloring), CInv G b w s → l.Nodup →
      (∀ a ∈ l, a ∈ G.arcs ∧ 0 < w a ∧ s.base.is_colored a = false) →
      (∀ e ∈ G.arcs, s.base.is_colored e = true → 0 < w e) →
      ∃ s1, colorEach cc rl fuel w l s = Except.ok s1 ∧ CInv G b w s1 ∧
        ∀ e, s1.base.is_colored e = (s.base.is_colored e || decide (e ∈ l)) := by
  intro l
  induction l with
  | nil =>
    intro s h _ _ _
    exact ⟨s, rfl, h, fun e => by simp⟩
  | cons arc rest ih =>
    intro s h hnd hl hpos
    obtain ⟨haG, hap, hau⟩ := hl arc (List.mem_cons_self _ _)
    rw [List.nodup_cons] at hnd
    obtain ⟨s1, e1, inv1, col1⟩ := colorStep_full cc rl h hs haG hau hfuel hpos hD hb
    obtain ⟨s2, e2, inv2, col2⟩ := ih s1 inv1 hnd.2 (by
      intro a ha
      obtain ⟨g1, g2, g3⟩ := hl a (List.mem_cons_of_mem _ ha)
      refine ⟨g1, g2, ?_⟩
      rw [col1, g3]
      have : a ≠ arc := fun q => hnd.1 (q ▸ ha)
      simp [this]) (by
      intro e he hce
      rw [col1] at hce
      by_cases q : e = arc
      · rw [q]; exact hap
      · simp only [q, decide_False, Bool.or_false] at hce
        exact hpos e he hce)
    refine ⟨s2, ?_, inv2, ?_⟩
    · unfold colorEach
      simp only [e1, bind, Except.bind]
      exact e2
    · intro e
      rw [col2, col1]
      by_cases q : e = arc
      · simp [q]
      · simp [q]

/-- What `compute_edge_coloring` does from a colouring without coloured arcs when there are
more colours than the largest number of arcs of positive weight at a vertex: it returns and
exactly the arcs of positive weight are coloured. -/
theorem compute_edge_coloring_full {G : DiGraph} {b D : Nat} {w : Arc → Nat} {s : Coloring}
    (cc rl : Bool) {fuel : Nat} (h : CInv G b w s) (hs : G.simple)
    (hun : ∀ a, s.base.is_colored a = false) (hfuel : G.arcs.length ≤ fuel)
    (hD : ∀ v, (G.arcs.filter fun a => decide (a.incident v) && decide (0 < w a)).length ≤ D)
    (hb : D + 1 ≤ b) :
    ∃ s1, compute_edge_coloring cc rl fuel s G w = Except.ok s1 ∧ CInv G b w s1 ∧
      ∀ e, s1.base.is_colored e = true ↔ (e ∈ G.arcs ∧ 0 < w e) := by
  obtain ⟨_, hperm⟩ := sortByWeight_spec w (G.arcs.filter fun arc => decide (w arc > 0))
  have hmem : ∀ a, a ∈ sortByWeight w (G.arcs.filter fun arc => decide (w arc > 0)) ↔
      (a ∈ G.arcs ∧ 0 < w a) := by
    intro a
    rw [hperm.mem_iff, List.mem_filter]
    simp
  obtain ⟨s1, e1, inv1, col1⟩ := colorEach_full cc rl hs hfuel hD hb
    (sortByWeight w (G.arcs.filter fun arc => decide (w arc > 0))) s h
    (hperm.nodup_iff.2 (h.nodup.filter _))
    (fun a ha => ⟨((hmem a).1 ha).1, ((hmem a).1 ha).2, hun a⟩)
    (fun e _ hce => by rw [hun e] at hce; exact Bool.noConfusion hce)
  refine ⟨s1, e1, inv1, ?_⟩
  intro e
  rw [col1, hun e, Bool.false_or, decide_eq_true_iff]
  exact hmem e

/-- The post-processing `make_coloring_maximal_pq` on a colouring in which every arc of
positive weight is coloured: only arcs of weight 0 are queued, none of them displaces an
arc, and every arc of positive weight is still coloured afterwards. -/
theorem make_maximal_full {G : DiGraph} {b : Nat} {w : Arc → Nat} {s : Coloring} {fuel : Nat}
    (h : CInv G b w s) (hs : G.simple) (hsum : (G.arcs.map w).sum < 2 ^ 64)
    (hall : coloredWeight G w s.base = (G.arcs.map w).sum) (hfuel : G.arcs.length < fuel) :
    ∃ s1, make_coloring_maximal_pq fuel s G w = Except.ok s1 ∧ CInv G b w s1 ∧
      coloredWeight G w s1.base = (G.arcs.map w).sum := by
  have hq0 : QInv G w s
      ((G.arcs.filter fun arc => !s.base.is_colored arc).map fun arc => (arc, w arc)) := by
    refine ⟨?_, ?_, ?_⟩
    · intro e he
      obtain ⟨a, ha, rfl⟩ := List.mem_map.1 he
      exact ⟨(List.mem_filter.1 ha).1, rfl⟩
    · intro e he
      obtain ⟨a, ha, rfl⟩ := List.mem_map.1 he
      simpa using (List.mem_filter.1 ha).2
    · rw [List.map_map]
      have : (Prod.fst ∘ fun arc : Arc => (arc, w arc)) = id := rfl
      rw [this, List.map_id]
      exact h.nodup.filter _
  obtain ⟨s1, e1, ⟨g1, _, g3⟩⟩ := process_rule w
    (fun s q => CInv G b w s ∧ QInv G w s q ∧
      coloredWeight G w s.base = (G.arcs.map w).sum)
    (fun _ q => q.length)
    (by
      intro s q ⟨hI, hq, hc⟩
      obtain ⟨r, hr, hnext⟩ := pqStep_ok hI hs hq
      refine ⟨r, hr, ?_⟩
      intro s1 q1 e
      subst e
      obtain ⟨k1, k2⟩ := hnext s1 q1 rfl
      obtain ⟨top, _, _, _, _, _, g5, g6⟩ := pqStep_facts hI.toBInv hq.key hsum hr
      have := coloredWeight_le_sum G w s1.base
      refine ⟨⟨k1, k2, by omega⟩, ?_⟩
      show q1.length < q.length
      rcases g6 with g6 | ⟨g6, _⟩ <;> omega)
    fuel s _ ⟨h, hq0, hall⟩ (by
      show ((G.arcs.filter fun arc => !s.base.is_colored arc).map
        fun arc => (arc, w arc)).length < fuel
      rw [List.length_map]
      exact lt_of_le_of_lt (List.length_filter_le _ _) hfuel)
  exact ⟨s1, e1, g1, g3⟩

/-- The static colouring below the word width. For a simple graph whose weights add up to
less than `2^64`, with at most
`D` arcs of positive weight at every vertex, and `D + 1 ≤ b ≤ 63` colours (the colouring
consistent, the free-colour map configured for `b` colours): `run()` of `KEdgeColoring_2` in
STATIC mode returns, the colouring is consistent, every arc of positive weight is coloured,
and `deliver()` is the sum of all weights. -/
theorem static_colours_all (fuel : Nat) (st : KEdgeColoring_2) (G : DiGraph)
    (b D : Nat) (w : Arc → Nat) (hm : st.algo_type = k_edge_coloring_algo_type.STATIC)
    (h : CInv G b w st.coloring) (hdef : st.coloring.fc.defaultValue.bits = 2 ^ b - 1)
    (hs : G.simple)
    (hD : ∀ v, (G.arcs.filter fun a => decide (a.incident v) && decide (0 < w a)).length ≤ D)
    (hb : D + 1 ≤ b) (hsum : (G.arcs.map w).sum < 2 ^ 64) (hfuel : G.arcs.length < fuel) :
    ∃ st1, st.run fuel G w = Except.ok st1 ∧ CInv G b w st1.coloring ∧
      (∀ a ∈ G.arcs, 0 < w a → st1.coloring.base.is_colored a = true) ∧
      st1.deliver = (G.arcs.map w).sum := by
  obtain ⟨hr, hun, _⟩ := h.reset_default hdef
  obtain ⟨s1, e1, inv1, col1⟩ := compute_edge_coloring_full st.common_color st.rotate_long hr
    hs hun (Nat.le_of_lt hfuel) hD hb
  have hall1 : coloredWeight G w s1.base = (G.arcs.map w).sum :=
    (coloredWeight_eq_sum_iff G w s1.base).2 (fun a ha hp => (col1 a).2 ⟨ha, hp⟩)
  have hprep : st.prepare = (st.reset, true) := by
    unfold KEdgeColoring_2.prepare
    rw [hm]
  have hfin : ∀ s2, CInv G b w s2 → coloredWeight G w s2.base = (G.arcs.map w).sum →
      (∀ a ∈ G.arcs, 0 < w a → s2.base.is_colored a = true) ∧
      s2.base.getTotalWeight = (G.arcs.map w).sum := by
    intro s2 inv2 hc2
    refine ⟨(coloredWeight_eq_sum_iff G w s2.base).1 hc2, ?_⟩
    show s2.base.total_weight = _
    rw [inv2.wt, hc2]
    exact Nat.mod_eq_of_lt hsum
  unfold KEdgeColoring_2.run
  rw [hprep]
  simp only [if_true]
  have e1b : compute_edge_coloring st.common_color st.rotate_long fuel st.reset.coloring G w
      = Except.ok s1 := e1
  simp only [e1b, bind, Except.bind]
  unfold KEdgeColoring_2.postProcess
  by_cases hpp : st.post_process = true
  · have hpp2 : ({ st.reset with coloring := s1 } : KEdgeColoring_2).post_process = true := hpp
    rw [if_pos hpp2, if_neg (fun q => Bool.noConfusion q.1)]
    obtain ⟨s2, e2, inv2, hc2⟩ := make_maximal_full inv1 hs hsum hall1 hfuel
    have e2b : make_coloring_maximal_pq fuel
        ({ st.reset with coloring := s1 } : KEdgeColoring_2).coloring G w = Except.ok s2 := e2
    simp only [e2b, bind, Except.bind]
    exact ⟨_, rfl, inv2, (hfin s2 inv2 hc2).1, (hfin s2 inv2 hc2).2⟩
  · have hpp2 : ¬ ({ st.reset with coloring := s1 } : KEdgeColoring_2).post_process = true :=
      hpp
    rw [if_neg hpp2]
    exact ⟨_, rfl, inv1, (hfin s1 inv1 hall1).1, (hfin s1 inv1 hall1).2⟩

theorem pendant_degree (v : Nat) :
    (pendantGraph.arcs.filter fun a =>
      decide (a.incident v) && decide (0 < pendantWeights a)).length ≤ 2 := by
  by_cases h0 : v = 0
  · subst h0; decide
  · by_cases h1 : v = 1
    · subst h1; decide
    · by_cases h2 : v = 2
      · subst h2; decide
      · by_cases h3 : v = 3
        · subst h3; decide
        · have : (pendantGraph.arcs.filter fun a =>
              decide (a.incident v) && decide (0 < pendantWeights a)) = [] := by
            simp [pendantGraph, Arc.incident, List.filter_cons, h0, h1, h2, h3, Ne.symm h0,
              Ne.symm h1, Ne.symm h2, Ne.symm h3]
          rw [this]
          exact Nat.zero_le _

/-- The static colouring on the triangle with the weights 5, 3, 4 and a pendant arc of
weight 0:
at most two arcs of positive weight at a vertex, three colours. -/
theorem static_colours_all_pendant :
    ∃ st1, staticInstance.run 5 pendantGraph pendantWeights = Except.ok st1 ∧
      CInv pendantGraph 3 pendantWeights st1.coloring ∧
      (∀ a ∈ pendantGraph.arcs, 0 < pendantWeights a →
        st1.coloring.base.is_colored a = true) ∧
      st1.deliver = (pendantGraph.arcs.map pendantWeights).sum :=
  static_colours_all 5 staticInstance pendantGraph 3 2 pendantWeights rfl
    (freshColoring_inv pendantGraph (by decide) pendantWeights (by decide)) (by decide)
    ⟨by decide, by decide⟩ pendant_degree (by decide) (by decide) (by decide)

/-- The run of the witness evaluated: the arcs of the triangle get three different colours
by falling weight, the post-processing gives the pendant arc of weight 0 a colour as well,
and `deliver()` is 12. -/
theorem run_static_pendant :
    (okOrEdge (staticInstance.run 5 pendantGraph pendantWeights)
      staticInstance).coloring.base.get_color <$> pendantGraph.arcs = [0, 2, 1, 0] ∧
    (okOrEdge (staticInstance.run 5 pendantGraph pendantWeights) staticInstance).deliver
      = 12 := by
  constructor <;> decide

/-- C4, evaluation of the code on a self-loop. On the graph with the single arc `(0,0)` and
one colour, after `setNumColors(1)`, `reset()` and the valid call `color((0,0), 0)`, the
hook `color_impl` has called `setOff(0)` on `free_colors[0]` twice, for the tail and for
the head, and `setOff` toggles the bit: bit 0 is set again, `get_any_free_color(0)` and
`common_free_color(0, 0)` return colour 0, although `is_color_free(0, 0)` is false. For
`b = 64`, the capacity of the colour set, `setNumColors_impl(64)` has no defined result. -/
theorem C4_free_colors_on_self_loop :
    ReachableFC loopGraph 1 (fun _ => 1) loopColoring loopFree ∧
    oneColorFree.reset_impl.color_impl ⟨0, 0, 0⟩ 0 = some loopFree ∧
    (loopFree.free_colors 0).test 0 = some true ∧
    loopColoring.is_color_free 0 0 = false ∧
    loopFree.get_any_free_color 0 = some 0 ∧
    loopFree.common_free_color 0 0 = Except.ok 0 ∧
    ∀ fc : FreeColorsExtension, fc.setNumColors_impl 64 = Option.none :=
  ⟨loopFree_reachable, rfl, by decide, by decide, by decide, rfl, fun _ => rfl⟩

/-- C6, evaluation of the code at `b = 64`, the capacity of the colour set: for every prior
state `set_num_matchings(64)` has no defined result, because the hook of the free-colours
extension builds `color_set{64}` by the shift `one << 64` of a 64-bit word; no state with
the colours `0..63` free at every vertex is produced. The class without extensions is set
up as claimed: no arc is coloured, every mate entry is null and `total_weight` is 0. -/
theorem C6_set_num_matchings_at_word_width :
    (∀ s : Coloring, set_num_matchings s 64 = Option.none) ∧
    (∀ s : Coloring, s.setNumColors 64 = Option.none) ∧
    (∀ fc : FreeColorsExtension, fc.setNumColors_impl 64 = Option.none) ∧
    ∀ k : KColoring,
      (∀ a, ((k.setNumColors 64).reset).is_colored a = false) ∧
      (∀ c v, tableGet ((k.setNumColors 64).reset).mates_by_color c v = Option.none) ∧
      ((k.setNumColors 64).reset).getTotalWeight = 0 :=
  ⟨fun _ => rfl, fun _ => rfl, fun _ => rfl,
    fun k => (set_num_matchings_below_width Coloring.initial 2 (by decide)).2 k 64
      (by decide)⟩

/-- C27, evaluation of the code on two arcs between the same vertices: `(1,0)` of weight 3
has colour 0, the only colour, and the weight of the uncoloured `(0,1)` rises to 10. There
is no common free colour, `lightest_adjacent_colored_arcs` returns the colour 0 with
`(1,0)` as both `tail_arc` and `head_arc` and the sum 6, which is below 10, so the loop
over `{tail_arc, head_arc}` of `increaseWeight` calls `uncolor((1,0))` twice and the second
call fails `assert(is_colored(arc))`: the arc `(0,1)` is not coloured. The same holds for
every recursion depth and for the handler `onPropertyChange((0,1), 0, 10)`. -/
theorem C27_increase_uncolors_one_arc_twice :
    CInv twoCycle 1 twoCycleWeights twoCycleColoring ∧
    twoCycleColoring.base.is_colored ⟨0, 0, 1⟩ = false ∧
    twoCycleColoring.fc.common_free_color 0 1 = Except.ok npos ∧
    pick_pair_to_replace twoCycleColoring twoCycleWeights ⟨0, 0, 1⟩
      = (⟨some ⟨1, 1, 0⟩, some ⟨1, 1, 0⟩, 6⟩, 0) ∧
    twoCycleWeights ⟨0, 0, 1⟩ = 10 ∧
    (∀ recurse, faultOf ((dynamicGreedyOn twoCycleColoring).increaseWeight recurse
      twoCycleWeights ⟨0, 0, 1⟩) = some Fault.assertion) ∧
    faultOf ((dynamicGreedyOn twoCycleColoring).onPropertyChange twoCycle twoCycleWeights
      ⟨0, 0, 1⟩ 0 10) = some Fault.assertion := by
  refine ⟨twoCycleColoring_inv, by decide, rfl, by decide, by decide, ?_, by decide⟩
  intro recurse
  cases recurse <;> rfl

/-- C32, evaluation of the code on a graph with the two arcs `(x,y)` and `(y,x)`: the
colouring is consistent and proper, `(x,y)` is uncoloured, and `color_edge((x,y), x)` inverts
the path of the colours 0 and 1 from `x`, after which no arc of the fan
`(x,y), (x,v), (y,x)` has colour 1 free at its far end: `std::find_if` returns `fan.end()`
and `*fan_end` reads past the end of the fan, for both values of `common_color` and of
`rotate_long`. -/
theorem C32_color_edge_past_fan_end :
    CInv antiparallelGraph 3 (fun _ => 1) antiparallelColoring ∧
    (⟨0, 0, 2⟩ : Arc) ∈ antiparallelGraph.arcs ∧
    antiparallelColoring.base.is_colored ⟨0, 0, 2⟩ = false ∧
    (⟨0, 0, 2⟩ : Arc).incident 0 ∧
    compute_fan antiparallelColoring 0 ⟨0, 0, 2⟩
      = Except.ok [⟨0, 0, 2⟩, ⟨2, 0, 1⟩, ⟨1, 2, 0⟩] ∧
    ∀ common_color rotate_long : Bool,
      faultOf (color_edge common_color rotate_long 4 antiparallelColoring (fun _ => 1)
        ⟨0, 0, 2⟩ 0) = some Fault.deref := by
  refine ⟨antiparallelColoring_inv, by decide, by decide, by decide, rfl, ?_⟩
  intro cc rl
  cases cc <;> cases rl <;> rfl

theorem triangle_degree (v : Nat) :
    (triangle.arcs.filter fun a =>
      decide (a.incident v) && decide (0 < triangleWeights a)).length ≤ 2 := by
  by_cases h0 : v = 0
  · subst h0; decide
  · by_cases h1 : v = 1
    · subst h1; decide
    · by_cases h2 : v = 2
      · subst h2; decide
      · have : (triangle.arcs.filter fun a =>
            decide (a.incident v) && decide (0 < triangleWeights a)) = [] := by
          simp [triangle, Arc.incident, List.filter_cons, h0, h1, h2, Ne.symm h0, Ne.symm h1,
            Ne.symm h2]
        rw [this]
        exact Nat.zero_le _

/-- C38, evaluation of the code at `b = 64`, the capacity of the colour set, on the triangle
with the weights 5, 3, 4 (no vertex has more than two arcs, and `2 + 1 ≤ 64`). For every
prior state `set_num_matchings(64)` has no defined result, since `color_set{64}` is built
by the shift `one << 64`. Where that shift yields `one`, every free-colour set is empty:
`compute_edge_coloring` finds no free colour and colours no arc; without post-processing
`run()` returns with all three arcs uncoloured and `deliver()` is 0, not 12, and with
post-processing the first call of `color` fails its assertion on the free-colour bit. -/
theorem C38_static_at_word_width :
    (∀ v, (triangle.arcs.filter fun a =>
      decide (a.incident v) && decide (0 < triangleWeights a)).length ≤ 2) ∧
    triangle.simple ∧
    (triangle.arcs.map triangleWeights).sum = 12 ∧
    (∀ s0 : Coloring, set_num_matchings s0 64 = Option.none) ∧
    (okOr (compute_edge_coloring true false 5 emptyWordColoring triangle triangleWeights)
      Coloring.initial).base.get_color <$> triangle.arcs
      = [UNCOLORED, UNCOLORED, UNCOLORED] ∧
    (∃ st1, (wordWidthStatic false).run 5 triangle triangleWeights = Except.ok st1 ∧
      st1.coloring.base.get_color <$> triangle.arcs = [UNCOLORED, UNCOLORED, UNCOLORED] ∧
      st1.deliver = 0) ∧
    faultOf ((wordWidthStatic true).run 5 triangle triangleWeights)
      = some Fault.assertion := by
  refine ⟨triangle_degree, ⟨by decide, by decide⟩, by decide, fun _ => rfl, by decide,
    ⟨okOrEdge ((wordWidthStatic false).run 5 triangle triangleWeights)
      (wordWidthStatic false), rfl, by decide, by decide⟩, by decide⟩

theorem wrapColoring_inv : CInv pathGraph 1 wrapWeights wrapColoring :=
  thenColor_inv _ _ (freshColoring_inv pathGraph (by decide) _ (by decide)) (by decide)

/-- C39, counterexample: `total_weight` is a 64-bit accumulator. On the path
`0 - 1 - 2 - 3` with one colour, `(2,3)` of weight `2 ^ 64 - 2` coloured and the uncoloured
arc `(0,1)` of weight 5, the graph is simple and the colouring consistent, and
`attempt_match((0,1))` returns `true` with `(0,1)` coloured; `total_weight` was
`2 ^ 64 - 2` before the call and is 3 after it. -/
theorem C39_counterexample :
    CInv pathGraph 1 wrapWeights wrapColoring ∧
    pathGraph.simple ∧
    wrapColoring.base.is_colored ⟨0, 0, 1⟩ = false ∧
    (okOrMatch (attempt_match true false 3 wrapColoring wrapWeights ⟨0, 0, 1⟩)
      (false, wrapColoring)).1 = true ∧
    (∃ r, attempt_match true false 3 wrapColoring wrapWeights ⟨0, 0, 1⟩ = Except.ok r) ∧
    (okOrMatch (attempt_match true false 3 wrapColoring wrapWeights ⟨0, 0, 1⟩)
      (false, wrapColoring)).2.base.get_color <$> pathGraph.arcs = [0, UNCOLORED, 0] ∧
    wrapColoring.base.getTotalWeight = 2 ^ 64 - 2 ∧
    (okOrMatch (attempt_match true false 3 wrapColoring wrapWeights ⟨0, 0, 1⟩)
      (false, wrapColoring)).2.base.getTotalWeight = 3 := by
  refine ⟨wrapColoring_inv, ⟨by decide, by decide⟩, by decide, by decide, ⟨_, rfl⟩,
    by decide, by decide, by decide⟩

/-- C39, amended: `attempt_match(arc)` is atomic on failure and, without overflow,
profitable on success. On a simple graph with a consistent colouring and `arc` an
uncoloured arc of the graph: whenever the call returns `false`, every arc has the colour it
had before and `total_weight` is the same; whenever it returns `true`, `arc` is coloured,
the colouring is consistent and proper, `total_weight` is the weight of the coloured arcs
modulo `2 ^ 64`, and if the weights of the graph add up to less than `2 ^ 64` then
`total_weight` is larger than before. With at least one colour and every weight below the
largest `EdgeWeight` the call returns. -/
theorem C39_attempt_match_atomic (common_color rotate_long : Bool) (G : DiGraph) (b : Nat)
    (w : Arc → Nat) (s : Coloring) (arc : Arc) (fuel : Nat) (h : CInv G b w s)
    (hs : G.simple) (ha : arc ∈ G.arcs) (hun : s.base.is_colored arc = false)
    (hfuel : G.arcs.length ≤ fuel) :
    (∀ r s1, attempt_match common_color rotate_long fuel s w arc = Except.ok (r, s1) →
      (r = false → (∀ e, s1.base.get_color e = s.base.get_color e) ∧
        s1.base.getTotalWeight = s.base.getTotalWeight) ∧
      (r = true → s1.base.is_colored arc = true ∧ CInv G b w s1 ∧
        (∀ a1 ∈ G.arcs, ∀ a2 ∈ G.arcs, ∀ v, a1.incident v → a2.incident v →
          s1.base.is_colored a1 = true → s1.base.get_color a1 = s1.base.get_color a2 →
          a1 = a2) ∧
        s1.base.getTotalWeight = coloredWeight G w s1.base % 2 ^ 64 ∧
        ((G.arcs.map w).sum < 2 ^ 64 →
          s.base.getTotalWeight < s1.base.getTotalWeight))) ∧
    (1 ≤ b → (∀ a ∈ G.arcs, w a < 2 ^ 64 - 1) →
      ∃ r, attempt_match common_color rotate_long fuel s w arc = Except.ok r) := by
  constructor
  · intro r s1 he
    have he0 := he
    unfold attempt_match at he0
    obtain ⟨lt, elt, he0⟩ := bind_ok.mp he0
    obtain ⟨lh, elh, _⟩ := bind_ok.mp he0
    obtain ⟨r1, s2, e2, inv2, hF, hT⟩ :=
      attempt_match_spec common_color rotate_long h hs ha hun hfuel elt elh
    rw [he] at e2
    have hpair := Except.ok.inj e2
    have hr : r = r1 := congrArg Prod.fst hpair
    have hs2 : s1 = s2 := congrArg Prod.snd hpair
    subst hr hs2
    constructor
    · intro hr
      have hcols := hF hr
      refine ⟨hcols, ?_⟩
      show s1.base.total_weight = s.base.total_weight
      rw [inv2.wt, h.wt, coloredWeight_congr G w
        (fun e => is_colored_congr h.base inv2.base (hcols e))]
    · intro hr
      obtain ⟨g1, g2⟩ := hT hr
      refine ⟨g1, inv2, ?_, inv2.wt, ?_⟩
      · intro a1 k1 a2 k2 v i1 i2 hc heq
        exact inv2.base.proper a1 k1 a2 k2 v i1 i2 (inv2.base.colored_lt hc) heq
      · intro hsum
        show s.base.total_weight < s1.base.total_weight
        have := g2 hsum
        have l1 := coloredWeight_le_sum G w s.base
        have l2 := coloredWeight_le_sum G w s1.base
        rw [inv2.wt, h.wt]
        omega
  · intro hb hw
    obtain ⟨lt, elt⟩ := lightestAt_ok h hb hw arc.tail
    obtain ⟨lh, elh⟩ := lightestAt_ok h hb hw arc.head
    obtain ⟨r1, s2, e2, _⟩ :=
      attempt_match_spec common_color rotate_long h hs ha hun hfuel elt elh
    exact ⟨_, e2⟩

/-- C39 as amended on the path `0 - 1 - 2 - 3` with the weights 4, 1, 5 and one colour,
`(1,2)` coloured, for the arc `(0,1)`: the call returns `true`, and what it returns has the
properties of a successful call; the weights add up to 10. -/
theorem C39_attempt_match_atomic_witness :
    ((okOrMatch (attempt_match true false 3 pathMiddle pathWeights ⟨0, 0, 1⟩)
        (false, pathMiddle)).2.base.is_colored ⟨0, 0, 1⟩ = true ∧
      CInv pathGraph 1 pathWeights
        (okOrMatch (attempt_match true false 3 pathMiddle pathWeights ⟨0, 0, 1⟩)
          (false, pathMiddle)).2 ∧
      (∀ a1 ∈ pathGraph.arcs, ∀ a2 ∈ pathGraph.arcs, ∀ v, a1.incident v → a2.incident v →
        (okOrMatch (attempt_match true false 3 pathMiddle pathWeights ⟨0, 0, 1⟩)
          (false, pathMiddle)).2.base.is_colored a1 = true →
        (okOrMatch (attempt_match true false 3 pathMiddle pathWeights ⟨0, 0, 1⟩)
          (false, pathMiddle)).2.base.get_color a1
          = (okOrMatch (attempt_match true false 3 pathMiddle pathWeights ⟨0, 0, 1⟩)
            (false, pathMiddle)).2.base.get_color a2 → a1 = a2) ∧
      (okOrMatch (attempt_match true false 3 pathMiddle pathWeights ⟨0, 0, 1⟩)
          (false, pathMiddle)).2.base.getTotalWeight
        = coloredWeight pathGraph pathWeights
            (okOrMatch (attempt_match true false 3 pathMiddle pathWeights ⟨0, 0, 1⟩)
              (false, pathMiddle)).2.base % 2 ^ 64 ∧
      pathMiddle.base.getTotalWeight
        < (okOrMatch (attempt_match true false 3 pathMiddle pathWeights ⟨0, 0, 1⟩)
          (false, pathMiddle)).2.base.getTotalWeight) ∧
    ∃ r, attempt_match true false 3 pathMiddle pathWeights ⟨0, 0, 1⟩ = Except.ok r := by
  have T := C39_attempt_match_atomic true false pathGraph 1 pathWeights pathMiddle
    ⟨0, 0, 1⟩ 3 pathMiddle_inv ⟨by decide, by decide⟩ (by decide) (by decide) (by decide)
  have R := (T.1 true _ rfl).2 rfl
  exact ⟨⟨R.1, R.2.1, R.2.2.1, R.2.2.2.1, R.2.2.2.2 (by decide)⟩,
    T.2 (by decide) (by decide)⟩

end DyDJ
